import Mathlib

/-!
# ANFIS engine of fuzzylitex: a shallow embedding

Embedded sources:
* `src/my/anfis/engine.cpp`: the antecedent flattener, the node kinds and
  `Engine::check`, `Engine::build`, `Engine::connect`, `Engine::eval`,
  `Engine::clear` and the operations on the variables and rule blocks;
* `src/fl/detail/terms.cpp`: `GetTermParameters`,
  `EvalBellTermDerivativeWrtParams` and `EvalTermDerivativeWrtParams`;
* `src/include/fl/detail/traits.h`: the tolerant comparisons of `FloatTraits`.

Conventions.
* A C++ pointer is an address (`Ptr`, a natural number); `0` is the null
  pointer.  The fuzzylite objects the engine borrows (variables, terms, rule
  blocks, rules, norms) live in an environment `Env` indexed by address.
* `fl::scalar` is an arbitrary type `α` carrying the operations the code uses
  (`Scalar α`); no law of arithmetic is assumed, so every statement holds for
  IEEE doubles as for any other interpretation.  The statements about
  derivatives read `fl::scalar` as the real numbers, `std::pow` as the real
  power and `std::log` as the natural logarithm; where a `double` leaves the
  reals behind (an overflowing power), a worked example evaluates the code on
  `Flt ℚ`, the finite values with the infinities and NaN.
* A C++ function that can throw while it mutates the engine returns an
  `Outcome`: the exception (if any) together with the state it leaves behind.
-/

set_option autoImplicit false

namespace Anfis

/-! ## Basic types -/

/-- An address; `0` is the null pointer. -/
abbrev Ptr := Nat

/-- The exceptions thrown by the embedded code, one constructor per throw site family. -/
inductive Error where
  /-- The `std::runtime_error` of `flattenRuleAntecedentRec` (mixed AND/OR operators). -/
  | mixedConnectives
  /-- The `std::logic_error` of `Engine::check` (not exactly one output variable). -/
  | structural
  /-- The `std::out_of_range` thrown by `std::map::at`. -/
  | outOfRange
  /-- The `std::logic_error` of a node whose number of inputs is wrong. -/
  | arity
  /-- The `std::invalid_argument` of the engine accessors. -/
  | invalidArgument
  /-- The `fl::Exception` of a lookup by name that misses. -/
  | notFound
  /-- The `std::runtime_error` of `EvalTermDerivativeWrtParams`. -/
  | notImplemented
  deriving DecidableEq, Repr

/-- The result of a call that mutates a state `σ` and may throw: the state is
kept as the call left it when the exception started to propagate. -/
structure Outcome (σ : Type) where
  /-- The exception that escaped the call, if any. -/
  thrown : Option Error
  /-- The state after the call. -/
  state : σ
  deriving DecidableEq, Repr

namespace Outcome

/-- Sequencing: the continuation runs only when nothing was thrown. -/
def andThen {σ : Type} (o : Outcome σ) (f : σ → Outcome σ) : Outcome σ :=
  match o.thrown with
  | some _ => o
  | none => f o.state

end Outcome

/-- The operations on `fl::scalar` used by the engine. -/
class Scalar (α : Type) extends Zero α, One α, Add α, Div α where
  /-- The value `fl::nan`. -/
  nan : α

/-! ## Rule language (fuzzylite objects consumed by the flattener) -/

/-- Modelled from the spec: the keyword returned by `fl::Rule::andKeyword()`,
which lives outside `src/`. -/
def andKeyword : String := "and"

/-- Modelled from the spec: the keyword returned by `fl::Rule::orKeyword()`,
which lives outside `src/`. -/
def orKeyword : String := "or"

/-- Modelled from the spec: the canonical name `fl::Not().name()` of the
complement hedge, which lives outside `src/`. -/
def notKeyword : String := "not"

/-- A `fl::Hedge` as the flattener sees it: only `name()` is read. -/
structure Hedge where
  name : String
  deriving DecidableEq, Repr

/-- A `fl::Expression*`.  `flattenRuleAntecedentRec` tells the cases apart by
`dynamic_cast`; `null` stands for a pointer for which both casts fail (a null
pointer, as `Antecedent::getExpression()` returns before the antecedent is
loaded). -/
inductive Expression where
  | proposition (var : Ptr) (hedges : List Hedge) (term : Ptr)
  | operator (name : String) (left right : Expression)
  | null
  deriving DecidableEq, Repr

/-- The four output parameters of the flattener. -/
structure Flat where
  vars : List Ptr
  terms : List Ptr
  nots : List Bool
  opKeyword : String
  deriving DecidableEq, Repr

/-- The output parameters as `Engine::build` passes them: empty. -/
def Flat.empty : Flat := ⟨[], [], [], ""⟩

/-- The loop `for (h = 0; h < nh && !foundNot; ++h)` of `flattenRuleAntecedentRec`. -/
def foundNotLoop : List Hedge → Bool → Bool
  | [], foundNot => foundNot
  | h :: hs, foundNot =>
    if foundNot then foundNot
    else foundNotLoop hs (if h.name = notKeyword then true else foundNot)

/-- Embedding of `flattenRuleAntecedentRec`.  The output parameters are
threaded through; when the function throws they are lost with the frame of
`Engine::build` that owns them. -/
def flattenRuleAntecedentRec : Expression → Flat → Except Error Flat
  | .proposition var hedges term, f =>
    .ok { f with
      nots := f.nots ++ [foundNotLoop hedges false]
      terms := f.terms ++ [term]
      vars := f.vars ++ [var] }
  | .operator name left right, f =>
    if f.opKeyword = "" then
      match flattenRuleAntecedentRec left { f with opKeyword := name } with
      | .error err => .error err
      | .ok g => flattenRuleAntecedentRec right g
    else if f.opKeyword ≠ name then
      .error .mixedConnectives
    else
      match flattenRuleAntecedentRec left f with
      | .error err => .error err
      | .ok g => flattenRuleAntecedentRec right g
  | .null, f => .ok f

/-- Embedding of `flattenRuleAntecedent`. -/
def flattenRuleAntecedent (expr : Expression) (f : Flat) : Except Error Flat :=
  match flattenRuleAntecedentRec expr f with
  | .error err => .error err
  | .ok g =>
    if !g.terms.isEmpty && g.opKeyword = "" then
      .ok { g with opKeyword := andKeyword }
    else
      .ok g

/-! ### Specification vocabulary for expression trees -/

/-- The proposition leaves of a tree, left subtree before right subtree. -/
def Expression.leaves : Expression → List (Ptr × List Hedge × Ptr)
  | .proposition v hs t => [(v, hs, t)]
  | .operator _ l r => l.leaves ++ r.leaves
  | .null => []

/-- The names of the operator nodes of a tree, in pre-order. -/
def Expression.operatorNames : Expression → List String
  | .proposition _ _ _ => []
  | .operator name l r => name :: (l.operatorNames ++ r.operatorNames)
  | .null => []

/-- A proposition is negated when one of its hedges has the canonical Not name. -/
def negated (hs : List Hedge) : Bool := hs.any (fun h => h.name = notKeyword)

/-! ## Borrowed fuzzylite objects -/

/-- A `fl::InputVariable` as the engine sees it. -/
structure InputVariable (α : Type) where
  /-- The result of `getName()`. -/
  name : String
  /-- The result of `getInputValue()`. -/
  inputValue : α
  /-- The terms `getTerm(0)`, ..., `getTerm(numberOfTerms()-1)`. -/
  terms : List Ptr

/-- A `fl::OutputVariable` as the engine sees it. -/
structure OutputVariable (α : Type) where
  /-- The result of `getName()`. -/
  name : String
  /-- The result of `getOutputValue()`. -/
  outputValue : α

/-- A `fl::Rule` as `Engine::build` sees it. -/
structure Rule where
  /-- The tree `getAntecedent()->getExpression()`. -/
  antecedent : Expression
  /-- The term `getConsequent()->conclusions().front()->term`; `build` asserts
  that there is exactly one conclusion. -/
  consequentTerm : Ptr
  deriving DecidableEq, Repr

/-- A `fl::RuleBlock` as `Engine::build` sees it. -/
structure RuleBlock where
  /-- The result of `getName()`. -/
  name : String
  /-- The result of `isEnabled()`. -/
  enabled : Bool
  /-- The rules `getRule(0)`, ..., `getRule(numberOfRules()-1)`. -/
  rules : List Ptr
  /-- The norm `getConjunction()`. -/
  conjunction : Ptr
  /-- The norm `getDisjunction()`. -/
  disjunction : Ptr
  /-- The norm `getActivation()`. -/
  activation : Ptr
  deriving DecidableEq, Repr

/-- The objects behind the pointers the engine borrows. -/
structure Env (α : Type) where
  inputVariable : Ptr → InputVariable α
  outputVariable : Ptr → OutputVariable α
  ruleBlock : Ptr → RuleBlock
  rule : Ptr → Rule
  /-- The call `p_term->membership(x)`. -/
  membership : Ptr → α → α
  /-- The call `p_norm->compute(a, b)`. -/
  compute : Ptr → α → α → α
  /-- The call `p_hedge->hedge(x)` on the hedge object the hedge factory
  constructs for a name. -/
  hedge : String → α → α

/-! ## Maps -/

/-- A local `std::map<const T*, Node*>` of `Engine::build`: the bindings, most
recent first. -/
abbrev PtrMap := List (Ptr × Ptr)

/-- The assignment `m[key] = value`. -/
def PtrMap.set (m : PtrMap) (key value : Ptr) : PtrMap := (key, value) :: m

/-- The call `m.at(key)`; `none` when it throws `std::out_of_range`. -/
def PtrMap.atKey (m : PtrMap) (key : Ptr) : Option Ptr := List.lookup key m

/-- A `std::map<const Node*, std::vector<Node*>>` such as `inConns_`, kept as
the sequence of the calls `m[key].push_back(value)` made on it since it was
last cleared. -/
abbrev ConnMap := List (Ptr × Ptr)

/-- The call `m[key].push_back(value)`. -/
def ConnMap.pushBack (m : ConnMap) (key value : Ptr) : ConnMap := m ++ [(key, value)]

/-- The vector stored under `key` (empty when the map has no such key). -/
def ConnMap.find (m : ConnMap) (key : Ptr) : List Ptr :=
  (m.filter (fun kv => kv.1 = key)).map Prod.snd

/-- The call `m.at(key)`: throws `std::out_of_range` when the map has no such key. -/
def ConnMap.atKey (m : ConnMap) (key : Ptr) : Except Error (List Ptr) :=
  if m.any (fun kv => kv.1 = key) then .ok (m.find key) else .error .outOfRange

/-! ## Nodes and engine -/

/-- An `InputNode` object at address `addr`. -/
structure InputNode where
  addr : Ptr
  p_var_ : Ptr
  deriving DecidableEq, Repr

/-- A `TermNode` object at address `addr`. -/
structure TermNode where
  addr : Ptr
  p_term_ : Ptr
  deriving DecidableEq, Repr

/-- A `HedgeNode` object at address `addr`; `p_hedge_` is the hedge object the
factory constructed for the recorded name. -/
structure HedgeNode where
  addr : Ptr
  p_hedge_ : String
  deriving DecidableEq, Repr

/-- A `RuleFiringStrengthNode` object at address `addr`. -/
structure RuleFiringStrengthNode where
  addr : Ptr
  p_norm_ : Ptr
  deriving DecidableEq, Repr

/-- A `RuleImplicationNode` object at address `addr`. -/
structure RuleImplicationNode where
  addr : Ptr
  p_term_ : Ptr
  p_tnorm_ : Ptr
  deriving DecidableEq, Repr

/-- A `SumNode` object at address `addr`. -/
structure SumNode where
  addr : Ptr
  deriving DecidableEq, Repr

/-- A `NormalizationNode` object at address `addr`. -/
structure NormalizationNode where
  addr : Ptr
  deriving DecidableEq, Repr

/-- The data members of `fl::anfis::Engine`, together with `heapNext`, the
address the next `new` returns (nodes are only ever allocated by `build`). -/
structure Engine where
  name_ : String
  inputs_ : List Ptr
  outputs_ : List Ptr
  ruleBlocks_ : List Ptr
  inputNodes_ : List InputNode
  inputTermNodes_ : List TermNode
  inputHedgeNodes_ : List HedgeNode
  antecedentNodes_ : List RuleFiringStrengthNode
  consequentNodes_ : List RuleImplicationNode
  sumNodes_ : List SumNode
  inferenceNodes_ : List NormalizationNode
  inConns_ : ConnMap
  outConns_ : ConnMap
  heapNext : Ptr
  deriving DecidableEq, Repr

namespace Engine

/-- The constructor `Engine::Engine(name)`, in a heap whose next free address is `heapNext`. -/
def create (name : String) (heapNext : Ptr) : Engine :=
  { name_ := name, inputs_ := [], outputs_ := [], ruleBlocks_ := [],
    inputNodes_ := [], inputTermNodes_ := [], inputHedgeNodes_ := [],
    antecedentNodes_ := [], consequentNodes_ := [], sumNodes_ := [],
    inferenceNodes_ := [], inConns_ := [], outConns_ := [], heapNext := heapNext }

/-- Embedding of `Engine::clear`. -/
def clear (e : Engine) : Engine :=
  { e with
    inConns_ := [], outConns_ := [],
    inputNodes_ := [], inputTermNodes_ := [], inputHedgeNodes_ := [],
    antecedentNodes_ := [], consequentNodes_ := [], sumNodes_ := [],
    inferenceNodes_ := [] }

/-- Embedding of `Engine::inputConnections`. -/
def inputConnections (e : Engine) (p_node : Ptr) : Except Error (List Ptr) :=
  e.inConns_.atKey p_node

/-- Embedding of `Engine::outputConnections`. -/
def outputConnections (e : Engine) (p_node : Ptr) : Except Error (List Ptr) :=
  e.outConns_.atKey p_node

/-- Embedding of `Engine::check`; `none` when it returns normally. -/
def check (e : Engine) : Option Error :=
  if e.outputs_.length ≠ 1 then some .structural else none

/-- Embedding of `Engine::connect`. -/
def connect (e : Engine) (p_from p_to : Ptr) : Engine :=
  { e with
    inConns_ := e.inConns_.pushBack p_to p_from
    outConns_ := e.outConns_.pushBack p_from p_to }

end Engine

/-! ## Variables and rule blocks of the engine -/

/-- The conversion of an `int` to `std::size_t` (64 bits), which the comparison
`idx >= v.size()` and the subscript `v[idx]` apply to their `int` operand. -/
def sizeT (idx : Int) : Nat := (idx % 2 ^ 64).toNat

namespace Engine

/-- Embedding of `Engine::setInputVariable`: the returned pointer (or the
exception) and the engine afterwards. -/
def setInputVariable (e : Engine) (p_var : Ptr) (idx : Int) : Except Error Ptr × Engine :=
  if sizeT idx ≥ e.inputs_.length then (.error .invalidArgument, e)
  else
    let p_oldVar := e.inputs_.getD (sizeT idx) 0
    (.ok p_oldVar, { e with inputs_ := e.inputs_.set (sizeT idx) p_var })

/-- Embedding of `Engine::setOutputVariable`. -/
def setOutputVariable (e : Engine) (p_var : Ptr) (idx : Int) : Except Error Ptr × Engine :=
  if sizeT idx ≥ e.outputs_.length then (.error .invalidArgument, e)
  else
    let p_oldVar := e.outputs_.getD (sizeT idx) 0
    (.ok p_oldVar, { e with outputs_ := e.outputs_.set (sizeT idx) p_var })

/-- Embedding of `Engine::setRuleBlock`: the element at `begin() + idx` is
erased and `p_block` is not stored. -/
def setRuleBlock (e : Engine) (_p_block : Ptr) (idx : Int) : Except Error Ptr × Engine :=
  if sizeT idx ≥ e.ruleBlocks_.length then (.error .invalidArgument, e)
  else
    let p_oldBlock := e.ruleBlocks_.getD (sizeT idx) 0
    (.ok p_oldBlock, { e with ruleBlocks_ := e.ruleBlocks_.eraseIdx idx.toNat })

/-- Embedding of `Engine::getInputVariable(int)`. -/
def getInputVariable (e : Engine) (idx : Int) : Except Error Ptr :=
  if sizeT idx ≥ e.inputs_.length then .error .invalidArgument
  else .ok (e.inputs_.getD (sizeT idx) 0)

/-- Embedding of `Engine::getOutputVariable(int)`. -/
def getOutputVariable (e : Engine) (idx : Int) : Except Error Ptr :=
  if sizeT idx ≥ e.outputs_.length then .error .invalidArgument
  else .ok (e.outputs_.getD (sizeT idx) 0)

/-- Embedding of `Engine::getRuleBlock(int)`. -/
def getRuleBlock (e : Engine) (idx : Int) : Except Error Ptr :=
  if sizeT idx ≥ e.ruleBlocks_.length then .error .invalidArgument
  else .ok (e.ruleBlocks_.getD (sizeT idx) 0)

/-- Embedding of `Engine::numberOfRuleBlocks`. -/
def numberOfRuleBlocks (e : Engine) : Nat := e.ruleBlocks_.length

/-- Embedding of `Engine::getOutputVariable(const std::string&)`: the first
output variable with the given name. -/
def getOutputVariableByName {α : Type} (env : Env α) (e : Engine) (name : String) :
    Except Error Ptr :=
  match e.outputs_.find? (fun p_output => (env.outputVariable p_output).name = name) with
  | some p_output => .ok p_output
  | none => .error .notFound

/-- Embedding of `Engine::getOutputValue`. -/
def getOutputValue {α : Type} (env : Env α) (e : Engine) (name : String) : Except Error α :=
  match e.getOutputVariableByName env name with
  | .error err => .error err
  | .ok p_ov => .ok (env.outputVariable p_ov).outputValue

/-- Embedding of `Engine::setName`. -/
def setName (e : Engine) (name : String) : Engine := { e with name_ := name }

/-- Embedding of `Engine::getName`. -/
def getName (e : Engine) : String := e.name_

/-- Embedding of `Engine::addInputVariable`. -/
def addInputVariable (e : Engine) (p_var : Ptr) : Outcome Engine :=
  if p_var = 0 then ⟨some .invalidArgument, e⟩
  else ⟨none, { e with inputs_ := e.inputs_ ++ [p_var] }⟩

/-- Embedding of `Engine::addOutputVariable`. -/
def addOutputVariable (e : Engine) (p_var : Ptr) : Outcome Engine :=
  if p_var = 0 then ⟨some .invalidArgument, e⟩
  else ⟨none, { e with outputs_ := e.outputs_ ++ [p_var] }⟩

/-- Embedding of `Engine::addRuleBlock`. -/
def addRuleBlock (e : Engine) (p_block : Ptr) : Outcome Engine :=
  if p_block = 0 then ⟨some .invalidArgument, e⟩
  else ⟨none, { e with ruleBlocks_ := e.ruleBlocks_ ++ [p_block] }⟩

/-- Embedding of `Engine::insertInputVariable`.  The source does not check
`idx`: `v.insert(v.begin() + idx, p)` is undefined outside `0 ≤ idx ≤ v.size()`,
where the value given here carries no meaning. -/
def insertInputVariable (e : Engine) (p_var : Ptr) (idx : Int) : Outcome Engine :=
  if p_var = 0 then ⟨some .invalidArgument, e⟩
  else ⟨none, { e with
    inputs_ := e.inputs_.take idx.toNat ++ p_var :: e.inputs_.drop idx.toNat }⟩

/-- Embedding of `Engine::insertOutputVariable` (see `insertInputVariable`). -/
def insertOutputVariable (e : Engine) (p_var : Ptr) (idx : Int) : Outcome Engine :=
  if p_var = 0 then ⟨some .invalidArgument, e⟩
  else ⟨none, { e with
    outputs_ := e.outputs_.take idx.toNat ++ p_var :: e.outputs_.drop idx.toNat }⟩

/-- Embedding of `Engine::insertRuleBlock` (see `insertInputVariable`). -/
def insertRuleBlock (e : Engine) (p_block : Ptr) (idx : Int) : Outcome Engine :=
  if p_block = 0 then ⟨some .invalidArgument, e⟩
  else ⟨none, { e with
    ruleBlocks_ := e.ruleBlocks_.take idx.toNat ++ p_block :: e.ruleBlocks_.drop idx.toNat }⟩

/-- Embedding of `Engine::removeInputVariable(int)`. -/
def removeInputVariable (e : Engine) (idx : Int) : Except Error Ptr × Engine :=
  if sizeT idx ≥ e.inputs_.length then (.error .invalidArgument, e)
  else
    let p_var := e.inputs_.getD (sizeT idx) 0
    (.ok p_var, { e with inputs_ := e.inputs_.eraseIdx idx.toNat })

/-- Embedding of `Engine::removeOutputVariable(int)`. -/
def removeOutputVariable (e : Engine) (idx : Int) : Except Error Ptr × Engine :=
  if sizeT idx ≥ e.outputs_.length then (.error .invalidArgument, e)
  else
    let p_var := e.outputs_.getD (sizeT idx) 0
    (.ok p_var, { e with outputs_ := e.outputs_.eraseIdx idx.toNat })

/-- Embedding of `Engine::removeRuleBlock(int)`. -/
def removeRuleBlock (e : Engine) (idx : Int) : Except Error Ptr × Engine :=
  if sizeT idx ≥ e.ruleBlocks_.length then (.error .invalidArgument, e)
  else
    let p_block := e.ruleBlocks_.getD (sizeT idx) 0
    (.ok p_block, { e with ruleBlocks_ := e.ruleBlocks_.eraseIdx idx.toNat })

/-- Embedding of `Engine::getInputVariable(const std::string&)`: the first
input variable with the given name. -/
def getInputVariableByName {α : Type} (env : Env α) (e : Engine) (name : String) :
    Except Error Ptr :=
  match e.inputs_.find? (fun p_input => (env.inputVariable p_input).name = name) with
  | some p_input => .ok p_input
  | none => .error .notFound

/-- Embedding of `Engine::getRuleBlock(const std::string&)`: the first rule
block with the given name. -/
def getRuleBlockByName {α : Type} (env : Env α) (e : Engine) (name : String) :
    Except Error Ptr :=
  match e.ruleBlocks_.find? (fun p_block => (env.ruleBlock p_block).name = name) with
  | some p_block => .ok p_block
  | none => .error .notFound

/-- Embedding of `Engine::hasInputVariable`. -/
def hasInputVariable {α : Type} (env : Env α) (e : Engine) (name : String) : Bool :=
  e.inputs_.any (fun p_var => (env.inputVariable p_var).name = name)

/-- Embedding of `Engine::hasOutputVariable`. -/
def hasOutputVariable {α : Type} (env : Env α) (e : Engine) (name : String) : Bool :=
  e.outputs_.any (fun p_var => (env.outputVariable p_var).name = name)

/-- Embedding of `Engine::hasRuleBlock`. -/
def hasRuleBlock {α : Type} (env : Env α) (e : Engine) (name : String) : Bool :=
  e.ruleBlocks_.any (fun p_block => (env.ruleBlock p_block).name = name)

/-- Embedding of `Engine::removeInputVariable(const std::string&)`: the first
input variable with the given name is erased and returned. -/
def removeInputVariableByName {α : Type} (env : Env α) (e : Engine) (name : String) :
    Except Error Ptr × Engine :=
  match e.inputs_.find? (fun p_var => (env.inputVariable p_var).name = name) with
  | some p_var =>
    (.ok p_var, { e with
      inputs_ := e.inputs_.eraseP (fun p_var => (env.inputVariable p_var).name = name) })
  | none => (.error .notFound, e)

/-- Embedding of `Engine::removeOutputVariable(const std::string&)`. -/
def removeOutputVariableByName {α : Type} (env : Env α) (e : Engine) (name : String) :
    Except Error Ptr × Engine :=
  match e.outputs_.find? (fun p_var => (env.outputVariable p_var).name = name) with
  | some p_var =>
    (.ok p_var, { e with
      outputs_ := e.outputs_.eraseP (fun p_var => (env.outputVariable p_var).name = name) })
  | none => (.error .notFound, e)

/-- Embedding of `Engine::removeRuleBlock(const std::string&)`. -/
def removeRuleBlockByName {α : Type} (env : Env α) (e : Engine) (name : String) :
    Except Error Ptr × Engine :=
  match e.ruleBlocks_.find? (fun p_block => (env.ruleBlock p_block).name = name) with
  | some p_block =>
    (.ok p_block, { e with
      ruleBlocks_ := e.ruleBlocks_.eraseP (fun p_block => (env.ruleBlock p_block).name = name) })
  | none => (.error .notFound, e)

/-- Embedding of `Engine::setInputValue`: the exception, if any, and the
environment afterwards, in which the input variable found by name holds the
new input value. -/
def setInputValue {α : Type} (env : Env α) (e : Engine) (name : String) (value : α) :
    Outcome (Env α) :=
  match e.getInputVariableByName env name with
  | .error err => ⟨some err, env⟩
  | .ok p_iv =>
    ⟨none, { env with
      inputVariable := Function.update env.inputVariable p_iv
        { env.inputVariable p_iv with inputValue := value } }⟩

end Engine

/-! ## `Engine::build` -/

/-- The engine together with the four local maps of `Engine::build`. -/
structure BuildState where
  engine : Engine
  varNodeMap : PtrMap
  termNodeMap : PtrMap
  notTermNodeMap : PtrMap
  ruleAntecedentNodeMap : PtrMap
  deriving DecidableEq, Repr

/-- Layer 0 of `Engine::build`: the loop over `inputs_`. -/
def buildLayer0 : List Ptr → BuildState → BuildState
  | [], s => s
  | p_input :: rest, s =>
    let p_node := s.engine.heapNext
    buildLayer0 rest { s with
      engine := { s.engine with
        heapNext := p_node + 1
        inputNodes_ := s.engine.inputNodes_ ++ [⟨p_node, p_input⟩] }
      varNodeMap := s.varNodeMap.set p_input p_node }

/-- Layer 1 of `Engine::build`: the inner loop over the terms of `p_input`. -/
def buildLayer1Terms (p_input : Ptr) : List Ptr → BuildState → Outcome BuildState
  | [], s => ⟨none, s⟩
  | p_term :: rest, s =>
    let p_node := s.engine.heapNext
    let s1 : BuildState := { s with
      engine := { s.engine with
        heapNext := p_node + 1
        inputTermNodes_ := s.engine.inputTermNodes_ ++ [⟨p_node, p_term⟩] }
      termNodeMap := s.termNodeMap.set p_term p_node }
    match s1.varNodeMap.atKey p_input with
    | none => ⟨some .outOfRange, s1⟩
    | some p_from =>
      buildLayer1Terms p_input rest { s1 with engine := s1.engine.connect p_from p_node }

/-- Layer 1 of `Engine::build`: the outer loop over `inputs_`. -/
def buildLayer1 {α : Type} (env : Env α) : List Ptr → BuildState → Outcome BuildState
  | [], s => ⟨none, s⟩
  | p_input :: rest, s =>
    (buildLayer1Terms p_input (env.inputVariable p_input).terms s).andThen
      (fun s1 => buildLayer1 env rest s1)

/-- Layer 2 of `Engine::build`: the inner loop over the terms of an input variable. -/
def buildLayer2Terms : List Ptr → BuildState → Outcome BuildState
  | [], s => ⟨none, s⟩
  | p_term :: rest, s =>
    let p_node := s.engine.heapNext
    let s1 : BuildState := { s with
      engine := { s.engine with
        heapNext := p_node + 1
        inputHedgeNodes_ := s.engine.inputHedgeNodes_ ++ [⟨p_node, notKeyword⟩] }
      notTermNodeMap := s.notTermNodeMap.set p_term p_node }
    match s1.termNodeMap.atKey p_term with
    | none => ⟨some .outOfRange, s1⟩
    | some p_from =>
      buildLayer2Terms rest { s1 with engine := s1.engine.connect p_from p_node }

/-- Layer 2 of `Engine::build`: the outer loop over `inputs_`. -/
def buildLayer2 {α : Type} (env : Env α) : List Ptr → BuildState → Outcome BuildState
  | [], s => ⟨none, s⟩
  | p_input :: rest, s =>
    (buildLayer2Terms (env.inputVariable p_input).terms s).andThen
      (fun s1 => buildLayer2 env rest s1)

/-- Layer 3 of `Engine::build`: the loop over `ruleTerms` that connects the
term node, or the complement node when `ruleNots[t]` holds, to the firing
strength node `p_node`. -/
def connectAntecedent (p_node : Ptr) : List (Ptr × Bool) → BuildState → Outcome BuildState
  | [], s => ⟨none, s⟩
  | (p_term, isNot) :: rest, s =>
    match (if isNot then s.notTermNodeMap else s.termNodeMap).atKey p_term with
    | none => ⟨some .outOfRange, s⟩
    | some p_from =>
      connectAntecedent p_node rest { s with engine := s.engine.connect p_from p_node }

/-- Layer 3 of `Engine::build`: the body of the loop over the rules of an enabled block. -/
def buildLayer3Rule {α : Type} (env : Env α) (block : RuleBlock) (p_rule : Ptr)
    (s : BuildState) : Outcome BuildState :=
  match flattenRuleAntecedent (env.rule p_rule).antecedent Flat.empty with
  | .error err => ⟨some err, s⟩
  | .ok flat =>
    let p_node := s.engine.heapNext
    let p_norm := if flat.opKeyword = andKeyword then block.conjunction else block.disjunction
    let s1 : BuildState := { s with
      engine := { s.engine with
        heapNext := p_node + 1
        antecedentNodes_ := s.engine.antecedentNodes_ ++ [⟨p_node, p_norm⟩] }
      ruleAntecedentNodeMap := s.ruleAntecedentNodeMap.set p_rule p_node }
    connectAntecedent p_node (flat.terms.zip flat.nots) s1

/-- Layer 3 of `Engine::build`: the loop over the rules of an enabled block. -/
def buildLayer3Rules {α : Type} (env : Env α) (block : RuleBlock) :
    List Ptr → BuildState → Outcome BuildState
  | [], s => ⟨none, s⟩
  | p_rule :: rest, s =>
    (buildLayer3Rule env block p_rule s).andThen (fun s1 => buildLayer3Rules env block rest s1)

/-- Layer 3 of `Engine::build`: the loop over `ruleBlocks_`. -/
def buildLayer3 {α : Type} (env : Env α) : List Ptr → BuildState → Outcome BuildState
  | [], s => ⟨none, s⟩
  | p_ruleBlock :: rest, s =>
    if !(env.ruleBlock p_ruleBlock).enabled then
      buildLayer3 env rest s
    else
      (buildLayer3Rules env (env.ruleBlock p_ruleBlock) (env.ruleBlock p_ruleBlock).rules s).andThen
        (fun s1 => buildLayer3 env rest s1)

/-- Layer 4 of `Engine::build`: the loop over the rules of an enabled block. -/
def buildLayer4Rules {α : Type} (env : Env α) (block : RuleBlock) :
    List Ptr → BuildState → Outcome BuildState
  | [], s => ⟨none, s⟩
  | p_rule :: rest, s =>
    let p_node := s.engine.heapNext
    let s1 : BuildState := { s with
      engine := { s.engine with
        heapNext := p_node + 1
        consequentNodes_ := s.engine.consequentNodes_ ++
          [⟨p_node, (env.rule p_rule).consequentTerm, block.activation⟩] } }
    match s1.ruleAntecedentNodeMap.atKey p_rule with
    | none => ⟨some .outOfRange, s1⟩
    | some p_from =>
      buildLayer4Rules env block rest { s1 with engine := s1.engine.connect p_from p_node }

/-- Layer 4 of `Engine::build`: the loop over `ruleBlocks_`. -/
def buildLayer4 {α : Type} (env : Env α) : List Ptr → BuildState → Outcome BuildState
  | [], s => ⟨none, s⟩
  | p_ruleBlock :: rest, s =>
    if !(env.ruleBlock p_ruleBlock).enabled then
      buildLayer4 env rest s
    else
      (buildLayer4Rules env (env.ruleBlock p_ruleBlock) (env.ruleBlock p_ruleBlock).rules s).andThen
        (fun s1 => buildLayer4 env rest s1)

/-- The loops of layers 5 and 6 that connect every node of a bucket to `p_to`. -/
def connectAll (p_to : Ptr) : List Ptr → Engine → Engine
  | [], e => e
  | p_from :: rest, e => connectAll p_to rest (e.connect p_from p_to)

/-- Layer 5 of `Engine::build`: the two summation nodes. -/
def buildLayer5 (e : Engine) : Engine :=
  let p_node := e.heapNext
  let e1 : Engine := { e with heapNext := p_node + 1, sumNodes_ := e.sumNodes_ ++ [⟨p_node⟩] }
  let e2 := connectAll p_node (e1.consequentNodes_.map (fun n => n.addr)) e1
  let p_node2 := e2.heapNext
  let e3 : Engine := { e2 with heapNext := p_node2 + 1, sumNodes_ := e2.sumNodes_ ++ [⟨p_node2⟩] }
  connectAll p_node2 (e3.antecedentNodes_.map (fun n => n.addr)) e3

/-- Layer 6 of `Engine::build`: the normalization node. -/
def buildLayer6 (e : Engine) : Engine :=
  let p_node := e.heapNext
  let e1 : Engine := { e with
    heapNext := p_node + 1, inferenceNodes_ := e.inferenceNodes_ ++ [⟨p_node⟩] }
  connectAll p_node (e1.sumNodes_.map (fun n => n.addr)) e1

/-- The body of `Engine::build` after `check()`. -/
def buildLayers {α : Type} (env : Env α) (e : Engine) : Outcome BuildState :=
  ((((buildLayer1 env e.inputs_ (buildLayer0 e.inputs_ ⟨e, [], [], [], []⟩)).andThen
    (buildLayer2 env e.inputs_)).andThen
    (buildLayer3 env e.ruleBlocks_)).andThen
    (buildLayer4 env e.ruleBlocks_)).andThen
    (fun s => ⟨none, { s with engine := buildLayer6 (buildLayer5 s.engine) }⟩)

/-- Embedding of `Engine::build`.  The function has no handler: when a layer
throws, the engine keeps the nodes and connections made so far. -/
def Engine.build {α : Type} (env : Env α) (e : Engine) : Outcome Engine :=
  match e.check with
  | some err => ⟨some err, e⟩
  | none => ⟨(buildLayers env e).thrown, (buildLayers env e).state.engine⟩

/-! ## Evaluation -/

/-- The result of an evaluation: the returned vector (or the exception) and
the values `val_` cached in the node objects, by address. -/
structure EvalOutcome (α : Type) where
  result : Except Error (List α)
  val_ : Ptr → α

/-- Sequencing of two layer evaluations, the vector of the first being discarded. -/
def EvalOutcome.andThen {α : Type} (o : EvalOutcome α) (f : (Ptr → α) → EvalOutcome α) :
    EvalOutcome α :=
  match o.result with
  | .error err => ⟨.error err, o.val_⟩
  | .ok _ => f o.val_

/-- Embedding of `Node::inputs`: the values cached in the predecessors of `this`. -/
def Node.inputs {α : Type} (e : Engine) (val_ : Ptr → α) (this : Ptr) : Except Error (List α) :=
  match e.inputConnections this with
  | .error err => .error err
  | .ok inConns => .ok (inConns.map val_)

/-- Embedding of `InputNode::doEval`. -/
def InputNode.doEval {α : Type} (env : Env α) (n : InputNode) : Except Error α :=
  .ok (env.inputVariable n.p_var_).inputValue

/-- Embedding of `TermNode::doEval`. -/
def TermNode.doEval {α : Type} (env : Env α) (e : Engine) (val_ : Ptr → α) (n : TermNode) :
    Except Error α :=
  match Node.inputs e val_ n.addr with
  | .error err => .error err
  | .ok [x] => .ok (env.membership n.p_term_ x)
  | .ok _ => .error .arity

/-- Embedding of `HedgeNode::doEval`. -/
def HedgeNode.doEval {α : Type} (env : Env α) (e : Engine) (val_ : Ptr → α) (n : HedgeNode) :
    Except Error α :=
  match Node.inputs e val_ n.addr with
  | .error err => .error err
  | .ok [x] => .ok (env.hedge n.p_hedge_ x)
  | .ok _ => .error .arity

/-- Embedding of `RuleFiringStrengthNode::doEval`. -/
def RuleFiringStrengthNode.doEval {α : Type} [Scalar α] (env : Env α) (e : Engine)
    (val_ : Ptr → α) (n : RuleFiringStrengthNode) : Except Error α :=
  match Node.inputs e val_ n.addr with
  | .error err => .error err
  | .ok [] => .ok Scalar.nan
  | .ok (x :: rest) => .ok (rest.foldl (env.compute n.p_norm_) x)

/-- Embedding of `RuleImplicationNode::doEval`. -/
def RuleImplicationNode.doEval {α : Type} [Scalar α] (env : Env α) (e : Engine)
    (val_ : Ptr → α) (n : RuleImplicationNode) : Except Error α :=
  match Node.inputs e val_ n.addr with
  | .error err => .error err
  | .ok [x] => .ok (env.compute n.p_tnorm_ x (env.membership n.p_term_ 1))
  | .ok _ => .error .arity

/-- Embedding of `SumNode::doEval`. -/
def SumNode.doEval {α : Type} [Scalar α] (e : Engine) (val_ : Ptr → α) (n : SumNode) :
    Except Error α :=
  match Node.inputs e val_ n.addr with
  | .error err => .error err
  | .ok inputs => .ok (inputs.foldl (fun sum x => sum + x) 0)

/-- Embedding of `NormalizationNode::doEval`. -/
def NormalizationNode.doEval {α : Type} [Scalar α] (e : Engine) (val_ : Ptr → α)
    (n : NormalizationNode) : Except Error α :=
  match Node.inputs e val_ n.addr with
  | .error err => .error err
  | .ok [num, den] => .ok (num / den)
  | .ok _ => .error .arity

/-- Embedding of `Node::eval` on the node at address `this`, whose `doEval` is
given: the value is stored in `val_` and returned. -/
def Node.eval {α : Type} (doEval : (Ptr → α) → Except Error α) (val_ : Ptr → α) (this : Ptr) :
    Except Error α × (Ptr → α) :=
  match doEval val_ with
  | .error err => (.error err, val_)
  | .ok v => (.ok v, Function.update val_ this v)

/-- Embedding of `Node::getValue`. -/
def Node.getValue {α : Type} (val_ : Ptr → α) (this : Ptr) : α := val_ this

/-- Modelled from the spec: `Engine::evalLayer(first, last)`, a template of the
header `fl/anfis/engine.h` outside `src/`.  It evaluates every node of the
bucket in insertion order (`Node::eval` stores the result of `doEval` in
`val_`) and returns the vector of the values. -/
def evalLayer {α ν : Type} (addr : ν → Ptr) (doEval : (Ptr → α) → ν → Except Error α) :
    List ν → (Ptr → α) → List α → EvalOutcome α
  | [], val_, vals => ⟨.ok vals, val_⟩
  | n :: rest, val_, vals =>
    match doEval val_ n with
    | .error err => ⟨.error err, val_⟩
    | .ok v => evalLayer addr doEval rest (Function.update val_ (addr n) v) (vals ++ [v])

namespace Engine

variable {α : Type} [Scalar α]

/-- Embedding of `Engine::evalInputLayer`. -/
def evalInputLayer (env : Env α) (e : Engine) (val_ : Ptr → α) : EvalOutcome α :=
  evalLayer InputNode.addr (fun _ n => InputNode.doEval env n) e.inputNodes_ val_ []

/-- Embedding of `Engine::evalFuzzificationLayer`. -/
def evalFuzzificationLayer (env : Env α) (e : Engine) (val_ : Ptr → α) : EvalOutcome α :=
  evalLayer TermNode.addr (TermNode.doEval env e) e.inputTermNodes_ val_ []

/-- Embedding of `Engine::evalHedgeLayer`. -/
def evalHedgeLayer (env : Env α) (e : Engine) (val_ : Ptr → α) : EvalOutcome α :=
  evalLayer HedgeNode.addr (HedgeNode.doEval env e) e.inputHedgeNodes_ val_ []

/-- Embedding of `Engine::evalAntecedentLayer`. -/
def evalAntecedentLayer (env : Env α) (e : Engine) (val_ : Ptr → α) : EvalOutcome α :=
  evalLayer RuleFiringStrengthNode.addr (RuleFiringStrengthNode.doEval env e)
    e.antecedentNodes_ val_ []

/-- Embedding of `Engine::evalConsequentLayer`. -/
def evalConsequentLayer (env : Env α) (e : Engine) (val_ : Ptr → α) : EvalOutcome α :=
  evalLayer RuleImplicationNode.addr (RuleImplicationNode.doEval env e)
    e.consequentNodes_ val_ []

/-- Embedding of `Engine::evalAccumulationLayer`. -/
def evalAccumulationLayer (e : Engine) (val_ : Ptr → α) : EvalOutcome α :=
  evalLayer SumNode.addr (SumNode.doEval e) e.sumNodes_ val_ []

/-- Embedding of `Engine::evalNormalizationLayer`. -/
def evalNormalizationLayer (e : Engine) (val_ : Ptr → α) : EvalOutcome α :=
  evalLayer NormalizationNode.addr (NormalizationNode.doEval e) e.inferenceNodes_ val_ []

/-- Embedding of `Engine::eval`. -/
def eval (env : Env α) (e : Engine) (val_ : Ptr → α) : EvalOutcome α :=
  (((((e.evalInputLayer env val_).andThen
    (e.evalFuzzificationLayer env)).andThen
    (e.evalHedgeLayer env)).andThen
    (e.evalAntecedentLayer env)).andThen
    (e.evalConsequentLayer env)).andThen
    (fun v => (e.evalAccumulationLayer v).andThen e.evalNormalizationLayer)

end Engine

/-! ## Term parameters (`src/fl/detail/terms.cpp`) -/

/-- A `fl::Term`, by dynamic type, with the values its accessors return.
`other` stands for every class that none of the casts of `GetTermParameters`
accepts. -/
inductive Term (α : Type) where
  | bell (center width slope : α)
  | concave (inflection end_ : α)
  | constant (value : α)
  | cosine (center width : α)
  | discrete (xy : List (α × α))
  | linear (coefficients : List α)
  | ramp (start end_ : α)
  | sigmoid (inflection slope : α)
  | sshape (start end_ : α)
  | triangle (vertexA vertexB vertexC : α)
  | zshape (start end_ : α)
  | other (className : String)
  deriving DecidableEq, Repr

/-- The loop over the pairs of a `Discrete` term in `GetTermParameters`. -/
def pushPairs {α : Type} : List (α × α) → List α → List α
  | [], params => params
  | pair :: rest, params => pushPairs rest (params ++ [pair.1] ++ [pair.2])

/-- Embedding of `GetTermParameters`: the chain `if Bell ... else if Linear`,
then the separate `if Ramp`, then the chain `if Sigmoid ... else if ZShape`. -/
def GetTermParameters {α : Type} (p_term : Term α) : List α :=
  let params : List α := []
  let params : List α :=
    match p_term with
    | .bell center width slope => params ++ [center] ++ [width] ++ [slope]
    | .concave inflection end_ => params ++ [inflection] ++ [end_]
    | .constant value => params ++ [value]
    | .cosine center width => params ++ [center] ++ [width]
    | .discrete xy => pushPairs xy params
    | .linear coefficients => coefficients
    | _ => params
  let params : List α :=
    match p_term with
    | .ramp start end_ => params ++ [start] ++ [end_]
    | _ => params
  let params : List α :=
    match p_term with
    | .sigmoid inflection slope => params ++ [inflection] ++ [slope]
    | .sshape start end_ => params ++ [start] ++ [end_]
    | .triangle vertexA vertexB vertexC => params ++ [vertexA] ++ [vertexB] ++ [vertexC]
    | .zshape start end_ => params ++ [start] ++ [end_]
    | _ => params
  params

/-- The branches of `GetTermParameters` that are entered for `p_term`, by the
class named in their condition, in the order of the source: at most one of the
chain `if Bell ... else if Linear`, the separate `if Ramp`, and at most one of
the chain `if Sigmoid ... else if ZShape`. -/
def branchesTaken {α : Type} (p_term : Term α) : List String :=
  let taken : List String := []
  let taken : List String :=
    match p_term with
    | .bell _ _ _ => taken ++ ["Bell"]
    | .concave _ _ => taken ++ ["Concave"]
    | .constant _ => taken ++ ["Constant"]
    | .cosine _ _ => taken ++ ["Cosine"]
    | .discrete _ => taken ++ ["Discrete"]
    | .linear _ => taken ++ ["Linear"]
    | _ => taken
  let taken : List String :=
    match p_term with
    | .ramp _ _ => taken ++ ["Ramp"]
    | _ => taken
  let taken : List String :=
    match p_term with
    | .sigmoid _ _ => taken ++ ["Sigmoid"]
    | .sshape _ _ => taken ++ ["SShape"]
    | .triangle _ _ _ => taken ++ ["Triangle"]
    | .zshape _ _ => taken ++ ["ZShape"]
    | _ => taken
  taken

/-! ## Derivatives of terms (`src/fl/detail/terms.cpp`) -/

/-- Modelled from the spec: `detail::Sqr` of the header `fl/detail/math.h`,
outside `src/`: the square of its argument. -/
def Sqr {α : Type} [Mul α] (x : α) : α := x * x

/-- Embedding of `EvalBellTermDerivativeWrtParams` on a Bell term with the
given center, width and slope; `pow` and `log` stand for `std::pow` and
`std::log`. -/
def EvalBellTermDerivativeWrtParams {α : Type} [Zero α] [One α] [NatCast α] [Add α] [Sub α]
    [Mul α] [Div α] [Neg α] [DecidableEq α] (pow : α → α → α) (log : α → α)
    (center width slope x : α) : List α :=
  let c := center
  let w := width
  let s := slope
  let xn := (x - c) / w
  let xnp := if xn ≠ 0 then pow (Sqr xn) s else 0
  let den := Sqr (1 + xnp)
  [ if x ≠ c then 2 * s * xnp / ((x - c) * den) else 0,
    2 * s * xnp / (w * den),
    if x ≠ c ∧ x ≠ c + w then -log (Sqr xn) * xnp / den else 0 ]

/-- The closed forms that the comment above `EvalBellTermDerivativeWrtParams`
gives for the derivatives of the Bell membership with respect to the center,
the width and the slope, in this order; `u` is `|(x - c) / w|`. -/
def documentedBellDerivative {α : Type} [One α] [NatCast α] [Add α] [Sub α] [Mul α] [Div α]
    [Neg α] (pow : α → α → α) (log : α → α) (abs : α → α) (center width slope x : α) : List α :=
  let c := center
  let w := width
  let s := slope
  let u := abs ((x - c) / w)
  [ 2 * s * pow u (2 * s - 1) / (w * Sqr (pow u (2 * s) + 1)),
    2 * s * (x - c) * pow u (2 * s - 1) / (Sqr w * Sqr (pow u (2 * s) + 1)),
    -(2 * pow u (2 * s) * log u / Sqr (pow u (2 * s) + 1)) ]

/-- Embedding of `EvalTermDerivativeWrtParams`. -/
def EvalTermDerivativeWrtParams {α : Type} [Zero α] [One α] [NatCast α] [Add α] [Sub α]
    [Mul α] [Div α] [Neg α] [DecidableEq α] (pow : α → α → α) (log : α → α)
    (p_term : Term α) (x : α) : Except Error (List α) :=
  match p_term with
  | .bell center width slope =>
    .ok (EvalBellTermDerivativeWrtParams pow log center width slope x)
  | _ => .error .notImplemented

/-- Modelled from the spec: the membership function of a Bell term,
`1 / (1 + |(x - c) / w| ^ (2 s))`, which fuzzylite computes outside `src/`. -/
def bellMembership {α : Type} [One α] [NatCast α] [Add α] [Sub α] [Mul α] [Div α]
    (pow : α → α → α) (abs : α → α) (center width slope x : α) : α :=
  1 / (1 + pow (abs ((x - center) / width)) (2 * slope))

/-- A floating-point type `T` as `FloatTraits<T>` sees it: finite values, taken
from an ordered field `K` and computed with exactly, the two infinities and a
NaN.  Rounding, overflow and the sign of zero are left out. -/
inductive Flt (K : Type) where
  | nan
  | fin (x : K)
  | inf (negative : Bool)
  deriving DecidableEq, Repr

namespace Flt

variable {K : Type} [LinearOrderedField K]

/-- The test `std::isnan(x)`. -/
def isnan : Flt K → Bool
  | .nan => true
  | _ => false

/-- IEEE subtraction: the difference of two equal infinities is NaN. -/
def sub : Flt K → Flt K → Flt K
  | .fin a, .fin b => .fin (a - b)
  | .inf s, .fin _ => .inf s
  | .fin _, .inf s => .inf (!s)
  | .inf s, .inf t => if s = t then .nan else .inf s
  | _, _ => .nan

/-- IEEE multiplication: zero times an infinity is NaN. -/
def mul : Flt K → Flt K → Flt K
  | .fin a, .fin b => .fin (a * b)
  | .inf s, .fin b => if b = 0 then .nan else .inf (xor s (decide (b < 0)))
  | .fin a, .inf s => if a = 0 then .nan else .inf (xor (decide (a < 0)) s)
  | .inf s, .inf t => .inf (xor s t)
  | _, _ => .nan

/-- The function `std::abs`. -/
def abs : Flt K → Flt K
  | .fin a => .fin |a|
  | .inf _ => .inf false
  | .nan => .nan

/-- The comparison `x < y`, false when an operand is NaN. -/
def lt : Flt K → Flt K → Bool
  | .fin a, .fin b => decide (a < b)
  | .inf true, .fin _ => true
  | .fin _, .inf false => true
  | .inf true, .inf false => true
  | _, _ => false

/-- The comparison `x <= y`, false when an operand is NaN. -/
def le : Flt K → Flt K → Bool
  | .fin a, .fin b => decide (a ≤ b)
  | .inf true, .fin _ => true
  | .fin _, .inf false => true
  | .inf s, .inf t => s || !t
  | _, _ => false

/-- The comparison `x > y`. -/
def gt (x y : Flt K) : Bool := lt y x

/-- The function `std::max(a, b)`, which is `(a < b) ? b : a`. -/
def max (a b : Flt K) : Flt K := if lt a b then b else a

/-- The function `std::min(a, b)`, which is `(b < a) ? b : a`. -/
def min (a b : Flt K) : Flt K := if lt b a then b else a

end Flt

namespace FloatTraits

variable {K : Type} [LinearOrderedField K]

/-- Embedding of `FloatTraits::ApproximatelyEqual`. -/
def ApproximatelyEqual (x y tol : Flt K) : Bool :=
  if x.isnan || y.isnan then false
  else Flt.le (Flt.abs (Flt.sub x y)) (Flt.mul (Flt.max (Flt.abs x) (Flt.abs y)) tol)

/-- Embedding of `FloatTraits::EssentiallyEqual`. -/
def EssentiallyEqual (x y tol : Flt K) : Bool :=
  if x.isnan || y.isnan then false
  else Flt.le (Flt.abs (Flt.sub x y)) (Flt.mul (Flt.min (Flt.abs x) (Flt.abs y)) tol)

/-- Embedding of `FloatTraits::DefinitelyLess`. -/
def DefinitelyLess (x y tol : Flt K) : Bool :=
  Flt.gt (Flt.sub y x) (Flt.mul (Flt.max (Flt.abs x) (Flt.abs y)) tol)

/-- Embedding of `FloatTraits::DefinitelyGreater`. -/
def DefinitelyGreater (x y tol : Flt K) : Bool :=
  Flt.gt (Flt.sub x y) (Flt.mul (Flt.max (Flt.abs x) (Flt.abs y)) tol)

/-- Embedding of `FloatTraits::ApproximatelyLessEqual`. -/
def ApproximatelyLessEqual (x y tol : Flt K) : Bool :=
  DefinitelyLess x y tol || ApproximatelyEqual x y tol

/-- Embedding of `FloatTraits::EssentiallyLessEqual`. -/
def EssentiallyLessEqual (x y tol : Flt K) : Bool :=
  DefinitelyLess x y tol || EssentiallyEqual x y tol

/-- Embedding of `FloatTraits::ApproximatelyGreaterEqual`. -/
def ApproximatelyGreaterEqual (x y tol : Flt K) : Bool :=
  DefinitelyGreater x y tol || ApproximatelyEqual x y tol

/-- Embedding of `FloatTraits::EssentiallyGreaterEqual`. -/
def EssentiallyGreaterEqual (x y tol : Flt K) : Bool :=
  DefinitelyGreater x y tol || EssentiallyEqual x y tol

/-- Embedding of `FloatTraits::ApproximatelyZero`. -/
def ApproximatelyZero (x tol : Flt K) : Bool := ApproximatelyEqual x (.fin 0) tol

/-- Embedding of `FloatTraits::EssentiallyZero`. -/
def EssentiallyZero (x tol : Flt K) : Bool := EssentiallyEqual x (.fin 0) tol

/-- Embedding of `FloatTraits::DefinitelyMin`. -/
def DefinitelyMin (x y tol : Flt K) : Flt K := if DefinitelyLess x y tol then x else y

/-- Embedding of `FloatTraits::Min`. -/
def Min (x y : Flt K) : Flt K := Flt.min x y

/-- Embedding of `FloatTraits::DefinitelyMax`. -/
def DefinitelyMax (x y tol : Flt K) : Flt K := if DefinitelyGreater x y tol then x else y

/-- Embedding of `FloatTraits::Max`. -/
def Max (x y : Flt K) : Flt K := Flt.max x y

/-- Embedding of `FloatTraits::DefinitelyClamp`.  The calls of `DefinitelyMin`
and `DefinitelyMax` in its body leave the tolerance to the default argument,
the static member `tolerance`, given here as the first argument; the parameter
`tol` is not used. -/
def DefinitelyClamp (tolerance : Flt K) (x l h _tol : Flt K) : Flt K :=
  DefinitelyMin h (DefinitelyMax l x tolerance) tolerance

/-- Embedding of `FloatTraits::Clamp`. -/
def Clamp (x l h : Flt K) : Flt K := Min h (Max l x)

end FloatTraits

/-! ## Arithmetic of the floating-point values, for the worked examples on doubles -/

namespace Flt

variable {K : Type} [LinearOrderedField K]

/-- IEEE negation. -/
def neg : Flt K → Flt K
  | .fin a => .fin (-a)
  | .inf s => .inf (!s)
  | .nan => .nan

/-- IEEE addition: the sum of the two different infinities is NaN. -/
def add : Flt K → Flt K → Flt K
  | .fin a, .fin b => .fin (a + b)
  | .inf s, .fin _ => .inf s
  | .fin _, .inf s => .inf s
  | .inf s, .inf t => if s = t then .inf s else .nan
  | _, _ => .nan

/-- IEEE division: a finite non-zero value over zero is an infinity; zero over
zero and an infinity over an infinity are NaN. -/
def div : Flt K → Flt K → Flt K
  | .fin a, .fin b =>
    if b = 0 then (if a = 0 then .nan else .inf (decide (a < 0))) else .fin (a / b)
  | .fin _, .inf _ => .fin 0
  | .inf s, .fin b => .inf (xor s (decide (b < 0)))
  | _, _ => .nan

instance : Zero (Flt K) := ⟨.fin 0⟩

instance : One (Flt K) := ⟨.fin 1⟩

instance : NatCast (Flt K) := ⟨fun n => .fin n⟩

instance : Add (Flt K) := ⟨Flt.add⟩

instance : Sub (Flt K) := ⟨Flt.sub⟩

instance : Mul (Flt K) := ⟨Flt.mul⟩

instance : Div (Flt K) := ⟨Flt.div⟩

instance : Neg (Flt K) := ⟨Flt.neg⟩

/-- The value a `double` takes for the exact result `v` as far as the range
goes: the largest finite `double` is below `2 ^ 1024`, and a result of that
magnitude or more overflows to an infinity.  Rounding is left out. -/
def overflow (v : ℚ) : Flt ℚ :=
  if |v| < 2 ^ 1024 then .fin v else .inf (decide (v < 0))

end Flt

/-- A stand-in for `std::pow` in the worked examples: for a finite base and an
exponent that is a natural number, the exact power, overflowing as a `double`
does.  The examples apply it to no other argument (NaN there). -/
def samplePow : Flt ℚ → Flt ℚ → Flt ℚ
  | .fin b, .fin e =>
    if e.den = 1 ∧ 0 ≤ e.num then Flt.overflow (b ^ e.num.toNat) else .nan
  | _, _ => .nan

/-! ## Specification vocabulary for the flattener -/

/-- The connective left in `opKeyword` after the operators named `names` were
met in this order, starting from `kw`; `none` when the flattener throws. -/
def scanOperators : List String → String → Option String
  | [], kw => some kw
  | n :: ns, kw =>
    if kw = "" then scanOperators ns n
    else if kw ≠ n then none
    else scanOperators ns kw

/-! ## Specification vocabulary for the built graph -/

/-- The terms of the input variables, in the order in which layers 1 and 2 of
`Engine::build` visit them. -/
def allTerms {α : Type} (env : Env α) (inputs : List Ptr) : List Ptr :=
  inputs.flatMap (fun p => (env.inputVariable p).terms)

/-- For each entry of `allTerms`, the input variable whose term list is being visited. -/
def allOwners {α : Type} (env : Env α) (inputs : List Ptr) : List Ptr :=
  inputs.flatMap (fun p => (env.inputVariable p).terms.map (fun _ => p))

/-- The rules of the enabled rule blocks, each with its block, in the order in
which layers 3 and 4 of `Engine::build` visit them. -/
def enabledRules {α : Type} (env : Env α) (blocks : List Ptr) : List (RuleBlock × Ptr) :=
  blocks.flatMap (fun b =>
    if (env.ruleBlock b).enabled then (env.ruleBlock b).rules.map (fun r => (env.ruleBlock b, r))
    else [])

/-- The position of the last occurrence of `k` in `ks`. -/
def lastIndexOf : List Ptr → Ptr → Option Nat
  | [], _ => none
  | x :: xs, k =>
    match lastIndexOf xs k with
    | some i => some (i + 1)
    | none => if x = k then some 0 else none

/-- The map obtained from `m` by the assignments `m[ks[i]] = n + i`, in order. -/
def bindAll : List Ptr → Ptr → PtrMap → PtrMap
  | [], _, m => m
  | k :: ks, n, m => bindAll ks (n + 1) (m.set k n)

/-- The connections into consecutive nodes: the node at address `n + i` gets
the predecessors `preds[i]`, in order. -/
def connsInto : Ptr → List (List Ptr) → ConnMap
  | _, [] => []
  | n, ps :: rest => ps.map (fun p => (n, p)) ++ connsInto (n + 1) rest

/-- The entries `connsInto` mirrors in `outConns_`: predecessor first. -/
def connsOutOf : Ptr → List (List Ptr) → ConnMap
  | _, [] => []
  | n, ps :: rest => ps.map (fun p => (p, n)) ++ connsOutOf (n + 1) rest

/-- The node objects created one after the other from address `n` on, one for
each element of the list. -/
def mkNodes {β ν : Type} (mk : Ptr → β → ν) : Ptr → List β → List ν
  | _, [] => []
  | n, x :: xs => mk n x :: mkNodes mk (n + 1) xs

/-- The result of flattening the antecedent of a rule as `Engine::build` does
(empty outputs when the flattener throws). -/
def flatOf {α : Type} (env : Env α) (p_rule : Ptr) : Flat :=
  match flattenRuleAntecedent (env.rule p_rule).antecedent Flat.empty with
  | .ok g => g
  | .error _ => Flat.empty

/-- The flattened antecedent of a rule as pairs (term, negated flag). -/
def flatPairs {α : Type} (env : Env α) (p_rule : Ptr) : List (Ptr × Bool) :=
  (flatOf env p_rule).terms.zip (flatOf env p_rule).nots

/-- Layer 3 goes through for a rule: its antecedent flattens and every term of
the flattened antecedent is a key of the maps of term and complement nodes. -/
def ruleOk {α : Type} (env : Env α) (tm ntm : PtrMap) (p_rule : Ptr) : Bool :=
  (match flattenRuleAntecedent (env.rule p_rule).antecedent Flat.empty with
    | .ok _ => true
    | .error _ => false) &&
  (flatPairs env p_rule).all (fun pr => ((if pr.2 then ntm else tm).atKey pr.1).isSome)

/-- The norm given to the firing strength node of a rule of a block. -/
def firingNorm {α : Type} (env : Env α) (br : RuleBlock × Ptr) : Ptr :=
  if (flatOf env br.2).opKeyword = andKeyword then br.1.conjunction else br.1.disjunction

/-- The nodes layer 3 connects to the firing strength node of a rule, in order. -/
def firingPreds {α : Type} (env : Env α) (tm ntm : PtrMap) (p_rule : Ptr) : List Ptr :=
  (flatPairs env p_rule).map (fun pr => ((if pr.2 then ntm else tm).atKey pr.1).getD 0)

/-- The position in `ks` of the entry a map filled by `bindAll ks` records for `k`
(`0` when `k` does not occur). -/
def slot (ks : List Ptr) (k : Ptr) : Nat := (lastIndexOf ks k).getD 0

/-- The engine a successful `Engine::build` leaves behind, in closed form.
Nodes are created at consecutive addresses from `e.heapNext` on: input nodes,
term nodes, complement nodes, firing strength nodes, implication nodes, the
two sums, the normalization node. -/
def builtEngine {α : Type} (env : Env α) (e : Engine) : Engine :=
  let inputs := e.inputs_
  let terms := allTerms env inputs
  let rules := enabledRules env e.ruleBlocks_
  let n0 := e.heapNext
  let n1 := n0 + inputs.length
  let n2 := n1 + terms.length
  let n3 := n2 + terms.length
  let n4 := n3 + rules.length
  let n5 := n4 + rules.length
  let antecedentNodes : List RuleFiringStrengthNode :=
    e.antecedentNodes_ ++ mkNodes (fun a br => ⟨a, firingNorm env br⟩) n3 rules
  let consequentNodes : List RuleImplicationNode :=
    e.consequentNodes_ ++
      mkNodes (fun a br => ⟨a, (env.rule br.2).consequentTerm, br.1.activation⟩) n4 rules
  let sumNodes : List SumNode := e.sumNodes_ ++ [⟨n5⟩, ⟨n5 + 1⟩]
  let preds1 : List (List Ptr) := (allOwners env inputs).map (fun p => [n0 + slot inputs p])
  let preds2 : List (List Ptr) := terms.map (fun t => [n1 + slot terms t])
  let preds3 : List (List Ptr) := rules.map (fun br =>
    (flatPairs env br.2).map (fun pr => (if pr.2 then n2 else n1) + slot terms pr.1))
  let preds4 : List (List Ptr) :=
    rules.map (fun br => [n3 + slot (rules.map Prod.snd) br.2])
  let preds5 : List (List Ptr) :=
    [consequentNodes.map (fun n => n.addr), antecedentNodes.map (fun n => n.addr)]
  let preds6 : List (List Ptr) := [sumNodes.map (fun n => n.addr)]
  { e with
    heapNext := n5 + 3
    inputNodes_ := e.inputNodes_ ++ mkNodes (fun a p => ⟨a, p⟩) n0 inputs
    inputTermNodes_ := e.inputTermNodes_ ++ mkNodes (fun a t => ⟨a, t⟩) n1 terms
    inputHedgeNodes_ := e.inputHedgeNodes_ ++ mkNodes (fun a _ => ⟨a, notKeyword⟩) n2 terms
    antecedentNodes_ := antecedentNodes
    consequentNodes_ := consequentNodes
    sumNodes_ := sumNodes
    inferenceNodes_ := e.inferenceNodes_ ++ [⟨n5 + 2⟩]
    inConns_ := e.inConns_ ++ (connsInto n1 preds1 ++ (connsInto n2 preds2 ++
      (connsInto n3 preds3 ++ (connsInto n4 preds4 ++ (connsInto n5 preds5 ++
        connsInto (n5 + 2) preds6)))))
    outConns_ := e.outConns_ ++ (connsOutOf n1 preds1 ++ (connsOutOf n2 preds2 ++
      (connsOutOf n3 preds3 ++ (connsOutOf n4 preds4 ++ (connsOutOf n5 preds5 ++
        connsOutOf (n5 + 2) preds6))))) }

/-- Every term of the flattened antecedent of every enabled rule is a term of
some input variable of the engine, and the antecedent flattens. -/
def rulesOk {α : Type} (env : Env α) (e : Engine) : Bool :=
  (enabledRules env e.ruleBlocks_).all (fun br =>
    (match flattenRuleAntecedent (env.rule br.2).antecedent Flat.empty with
      | .ok _ => true
      | .error _ => false) &&
    (flatPairs env br.2).all (fun pr => decide (pr.1 ∈ allTerms env e.inputs_)))

/-- The state of `Engine::build` when layer 3 starts, in closed form. -/
def afterLayer2 {α : Type} (env : Env α) (e : Engine) : BuildState :=
  let inputs := e.inputs_
  let terms := allTerms env inputs
  let n0 := e.heapNext
  let n1 := n0 + inputs.length
  let n2 := n1 + terms.length
  let preds1 : List (List Ptr) := (allOwners env inputs).map (fun p => [n0 + slot inputs p])
  let preds2 : List (List Ptr) := terms.map (fun t => [n1 + slot terms t])
  { engine := { e with
      heapNext := n2 + terms.length
      inputNodes_ := e.inputNodes_ ++ mkNodes (fun a p => ⟨a, p⟩) n0 inputs
      inputTermNodes_ := e.inputTermNodes_ ++ mkNodes (fun a t => ⟨a, t⟩) n1 terms
      inputHedgeNodes_ := e.inputHedgeNodes_ ++ mkNodes (fun a _ => ⟨a, notKeyword⟩) n2 terms
      inConns_ := e.inConns_ ++ (connsInto n1 preds1 ++ connsInto n2 preds2)
      outConns_ := e.outConns_ ++ (connsOutOf n1 preds1 ++ connsOutOf n2 preds2) }
    varNodeMap := bindAll inputs n0 []
    termNodeMap := bindAll terms n1 []
    notTermNodeMap := bindAll terms n2 []
    ruleAntecedentNodeMap := [] }

/-- The predecessor lists of the nodes a successful `Engine::build` creates,
in creation order: the node at address `e.heapNext + i` gets the predecessors
`(builtPreds env e)[i]`. -/
def builtPreds {α : Type} (env : Env α) (e : Engine) : List (List Ptr) :=
  let inputs := e.inputs_
  let terms := allTerms env inputs
  let rules := enabledRules env e.ruleBlocks_
  let n0 := e.heapNext
  let n1 := n0 + inputs.length
  let n2 := n1 + terms.length
  let n3 := n2 + terms.length
  inputs.map (fun _ => []) ++
  ((allOwners env inputs).map (fun p => [n0 + slot inputs p]) ++
  (terms.map (fun t => [n1 + slot terms t]) ++
  (rules.map (fun br =>
    (flatPairs env br.2).map (fun pr => (if pr.2 then n2 else n1) + slot terms pr.1)) ++
  (rules.map (fun br => [n3 + slot (rules.map Prod.snd) br.2]) ++
  ([(builtEngine env e).consequentNodes_.map (fun n => n.addr),
    (builtEngine env e).antecedentNodes_.map (fun n => n.addr)] ++
  [(builtEngine env e).sumNodes_.map (fun n => n.addr)])))))

/-- The seven node buckets are empty, as after the constructor or `clear()`. -/
def Engine.bucketsEmpty (e : Engine) : Bool :=
  e.inputNodes_.isEmpty && e.inputTermNodes_.isEmpty && e.inputHedgeNodes_.isEmpty &&
  e.antecedentNodes_.isEmpty && e.consequentNodes_.isEmpty && e.sumNodes_.isEmpty &&
  e.inferenceNodes_.isEmpty

/-- Every key of `inConns_` is the address of a node that was allocated: no
entry sits at an address `new` has not handed out yet. -/
def Engine.heapSane (e : Engine) : Bool :=
  e.inConns_.all (fun kv => decide (kv.1 < e.heapNext))

/-- The successor mapping and the predecessor mapping agree: `a` occurs among
the predecessors of `b` as often as `b` occurs among the successors of `a`. -/
def Engine.balanced (e : Engine) : Prop :=
  ∀ a b : Ptr, (e.inConns_.find b).count a = (e.outConns_.find a).count b

/-- A sequence of calls `connect(p.1, p.2)`. -/
def connectEach (pairs : List (Ptr × Ptr)) (e : Engine) : Engine :=
  pairs.foldl (fun e1 p => e1.connect p.1 p.2) e

/-- The graph of the engine with every node address taken relative to `base`:
it describes the nodes and the two adjacency mappings up to where the
allocator happened to put the nodes. -/
def Engine.relative (base : Ptr) (e : Engine) : Engine :=
  { e with
    inputNodes_ := e.inputNodes_.map (fun n => { n with addr := n.addr - base })
    inputTermNodes_ := e.inputTermNodes_.map (fun n => { n with addr := n.addr - base })
    inputHedgeNodes_ := e.inputHedgeNodes_.map (fun n => { n with addr := n.addr - base })
    antecedentNodes_ := e.antecedentNodes_.map (fun n => { n with addr := n.addr - base })
    consequentNodes_ := e.consequentNodes_.map (fun n => { n with addr := n.addr - base })
    sumNodes_ := e.sumNodes_.map (fun n => { n with addr := n.addr - base })
    inferenceNodes_ := e.inferenceNodes_.map (fun n => { n with addr := n.addr - base })
    inConns_ := e.inConns_.map (fun kv => (kv.1 - base, kv.2 - base))
    outConns_ := e.outConns_.map (fun kv => (kv.1 - base, kv.2 - base))
    heapNext := e.heapNext - base }

/-- What layer 3 of `Engine::build` can change in the engine, whether it
throws or not: firing strength nodes and connections are appended, nodes are
allocated. -/
def layer3Extends (e1 e2 : Engine) : Prop :=
  e2.name_ = e1.name_ ∧ e2.inputs_ = e1.inputs_ ∧ e2.outputs_ = e1.outputs_ ∧
  e2.ruleBlocks_ = e1.ruleBlocks_ ∧ e2.inputNodes_ = e1.inputNodes_ ∧
  e2.inputTermNodes_ = e1.inputTermNodes_ ∧ e2.inputHedgeNodes_ = e1.inputHedgeNodes_ ∧
  e2.consequentNodes_ = e1.consequentNodes_ ∧ e2.sumNodes_ = e1.sumNodes_ ∧
  e2.inferenceNodes_ = e1.inferenceNodes_ ∧
  e1.antecedentNodes_ <+: e2.antecedentNodes_ ∧
  e1.inConns_ <+: e2.inConns_ ∧ e1.outConns_ <+: e2.outConns_ ∧
  e1.heapNext ≤ e2.heapNext

/-! ## Worked examples -/

/-- A small interpretation of `fl::scalar` on which the definitions can be
run: the integers, the two infinities and a NaN, with the special cases of
IEEE 754 arithmetic.  There is no rounding other than that of a finite quotient
to an integer, and no negative zero. -/
inductive Num where
  | nan
  | int (i : Int)
  | inf (negative : Bool)
  deriving DecidableEq, Repr

/-- An integer operation lifted to `Num`; every other operand gives NaN. -/
def Num.lift2 (f : Int → Int → Int) : Num → Num → Num
  | .int a, .int b => .int (f a b)
  | _, _ => .nan

/-- Addition on `Num`: an infinity absorbs a finite value, and the sum of the
two different infinities is NaN. -/
def Num.add : Num → Num → Num
  | .int a, .int b => .int (a + b)
  | .inf s, .int _ => .inf s
  | .int _, .inf s => .inf s
  | .inf s, .inf t => if s = t then .inf s else .nan
  | _, _ => .nan

/-- Division on `Num`: a non-zero finite value over zero is an infinity, zero
over zero and an infinity over an infinity are NaN. -/
def Num.div : Num → Num → Num
  | .int a, .int b =>
    if b = 0 then (if a = 0 then .nan else .inf (decide (a < 0))) else .int (a / b)
  | .int _, .inf _ => .int 0
  | .inf s, .int b => .inf (xor s (decide (b < 0)))
  | _, _ => .nan

instance : Scalar Num where
  zero := .int 0
  one := .int 1
  add := Num.add
  div := Num.div
  nan := .nan

/-- Sample objects: input variables 10 (terms 20, 21; value 3) and 11 (term 22;
value 5); rule blocks 40 (rules 50, 51), 41 (rule 52, which mixes AND and OR),
42 (rule 53, whose antecedent was never loaded), 43 and 44 (both hold rule 50,
with different conjunction norms) and 45 (disabled).  Norm 70 is the minimum,
71 the maximum, every other norm the product; a term adds its address to its
argument; the complement hedge maps x to 100 - x. -/
def sampleEnv : Env Num where
  inputVariable p :=
    if p = 10 then ⟨"x", .int 3, [20, 21]⟩ else ⟨"y", .int 5, [22]⟩
  outputVariable _ := ⟨"z", .nan⟩
  ruleBlock p :=
    if p = 40 then ⟨"rules", true, [50, 51], 70, 71, 72⟩
    else if p = 41 then ⟨"mixed", true, [52], 70, 71, 72⟩
    else if p = 42 then ⟨"unloaded", true, [53], 70, 71, 72⟩
    else if p = 43 then ⟨"first", true, [50], 70, 71, 72⟩
    else if p = 44 then ⟨"second", true, [50], 72, 71, 72⟩
    else ⟨"disabled", false, [50, 51, 52], 70, 71, 72⟩
  rule p :=
    if p = 50 then
      ⟨.operator "and" (.proposition 10 [] 20) (.proposition 11 [⟨"not"⟩] 22), 60⟩
    else if p = 51 then ⟨.proposition 10 [⟨"very"⟩] 21, 61⟩
    else if p = 52 then
      ⟨.operator "or" (.operator "and" (.proposition 10 [] 20) (.proposition 11 [] 22))
        (.proposition 10 [] 21), 60⟩
    else ⟨.null, 61⟩
  membership t x := Num.lift2 (fun a b => a + b) x (.int t)
  compute n a b :=
    if n = 70 then Num.lift2 (fun x y => min x y) a b
    else if n = 71 then Num.lift2 (fun x y => max x y) a b
    else Num.lift2 (fun x y => x * y) a b
  hedge _ x := Num.lift2 (fun a b => a - b) (.int 100) x

/-- Sample objects in which every firing strength is 0: the input variable 10
(term 20, value 0), the consequent term 60 of constant value -1, and the rule
`10 IS 20` in block 40, whose activation norm is the minimum, and in every
other block, whose activation norm is the product. -/
def zeroFiringEnv : Env Num where
  inputVariable _ := ⟨"x", .int 0, [20]⟩
  outputVariable _ := ⟨"z", .nan⟩
  ruleBlock p :=
    if p = 40 then ⟨"minimum", true, [50], 70, 71, 70⟩
    else ⟨"product", true, [50], 70, 71, 72⟩
  rule _ := ⟨.proposition 10 [] 20, 60⟩
  membership t x := if t = 60 then .int (-1) else x
  compute := sampleEnv.compute
  hedge := sampleEnv.hedge

/-- A fresh engine with the input variable 10, one output variable and the
given rule blocks; the next free address is 1000. -/
def zeroFiringEngine (ruleBlocks : List Ptr) : Engine :=
  { Engine.create "anfis" 1000 with
    inputs_ := [10], outputs_ := [30], ruleBlocks_ := ruleBlocks }

/-- A fresh engine with the two sample input variables, one output variable
and the given rule blocks; the next free address is 1000. -/
def sampleEngine (ruleBlocks : List Ptr) : Engine :=
  { Engine.create "anfis" 1000 with
    inputs_ := [10, 11], outputs_ := [30], ruleBlocks_ := ruleBlocks }

/-! ## Truth degree of an antecedent and re-building (for the flattener round trip) -/

/-- Modelled from the spec: the truth degree of an antecedent expression, which
fuzzylite computes outside `src/`.  A proposition is the membership of the
value of its variable in its term, modified by its hedges (the hedge written
first is applied last); an operator combines its operands with the conjunction
norm when it is named by the AND keyword and with the disjunction norm
otherwise, as layer 3 of `Engine::build` chooses the norm. -/
def Expression.degree {α : Type} [Scalar α] (env : Env α) (conjunction disjunction : Ptr) :
    Expression → α
  | .proposition v hs t =>
    hs.foldr (fun h x => env.hedge h.name x)
      (env.membership t (env.inputVariable v).inputValue)
  | .operator name l r =>
    env.compute (if name = andKeyword then conjunction else disjunction)
      (l.degree env conjunction disjunction) (r.degree env conjunction disjunction)
  | .null => Scalar.nan

/-- The proposition re-built from one flattened triple: it carries the Not
hedge exactly when the triple is negated. -/
def rebuildLeaf (x : Ptr × Ptr × Bool) : Expression :=
  .proposition x.1 (if x.2.2 then [⟨notKeyword⟩] else []) x.2.1

/-- Modelled from the spec: the antecedent re-built from the four outputs of
the flattener, the propositions being chained from left to right with the
connective (the shape in which the firing strength node folds its inputs). -/
def rebuild (f : Flat) : Expression :=
  match f.vars.zip (f.terms.zip f.nots) with
  | [] => .null
  | x :: rest => rest.foldl (fun acc y => .operator f.opKeyword acc (rebuildLeaf y)) (rebuildLeaf x)

/-- The tree has no node that is neither a proposition nor an operator. -/
def Expression.noNull : Expression → Bool
  | .proposition _ _ _ => true
  | .operator _ l r => l.noNull && r.noNull
  | .null => false

/-- The left fold of a norm over a list of truth degrees, as
`RuleFiringStrengthNode::doEval` computes it (NaN for no input at all). -/
def foldNorm {α : Type} [Scalar α] (norm : α → α → α) : List α → α
  | [] => Scalar.nan
  | x :: rest => rest.foldl norm x

/-- The truth degree of a proposition leaf (see `Expression.degree`). -/
def leafDegree {α : Type} (env : Env α) (l : Ptr × List Hedge × Ptr) : α :=
  l.2.1.foldr (fun h x => env.hedge h.name x)
    (env.membership l.2.2 (env.inputVariable l.1).inputValue)

/-! ## Specification vocabulary for the evaluation -/

/-- The cached values after the nodes at the consecutive addresses `n`, `n + 1`,
... were given the values `vs`. -/
def overlay {α : Type} (n : Ptr) (vs : List α) (val_ : Ptr → α) : Ptr → α :=
  fun a => if n ≤ a then (vs[a - n]?).getD (val_ a) else val_ a

/-- The input variable whose input node feeds the term node that `build`
records for the term `t`: the input variable in whose term list `t` occurs, the
last one in the order of the engine should `t` occur more than once. -/
def termOwner {α : Type} (env : Env α) (inputs : List Ptr) (t : Ptr) : Ptr :=
  ((allOwners env inputs)[slot (allTerms env inputs) t]?).getD 0

/-- The value of a term at the current input value of its input variable. -/
def termValue {α : Type} (env : Env α) (inputs : List Ptr) (t : Ptr) : α :=
  env.membership t (env.inputVariable (termOwner env inputs t)).inputValue

/-- The value of one entry of a flattened antecedent: the value of the term,
passed through the Not hedge when the entry is negated. -/
def antecedentValue {α : Type} (env : Env α) (inputs : List Ptr) (pr : Ptr × Bool) : α :=
  if pr.2 then env.hedge notKeyword (termValue env inputs pr.1) else termValue env inputs pr.1

/-- The firing strength of a rule of an enabled block: the left fold of the
norm of the rule over the values of its flattened antecedent. -/
def firingStrength {α : Type} [Scalar α] (env : Env α) (inputs : List Ptr)
    (br : RuleBlock × Ptr) : α :=
  foldNorm (env.compute (firingNorm env br))
    ((flatPairs env br.2).map (antecedentValue env inputs))

/-- The implication of a rule of an enabled block: the activation norm applied
to the firing strength and to the membership of 1 in the consequent term. -/
def implicationValue {α : Type} [Scalar α] (env : Env α) (inputs : List Ptr)
    (br : RuleBlock × Ptr) : α :=
  env.compute br.1.activation (firingStrength env inputs br)
    (env.membership (env.rule br.2).consequentTerm 1)

/-- The sum of a list of values as `SumNode::doEval` accumulates it. -/
def sumOf {α : Type} [Scalar α] (xs : List α) : α :=
  xs.foldl (fun sum x => sum + x) 0

/-! # Theorems -/

/-! ## The antecedent flattener -/

theorem foundNotLoop_true (hs : List Hedge) : foundNotLoop hs true = true := by
  cases hs <;> simp [foundNotLoop]

theorem foundNotLoop_false (hs : List Hedge) : foundNotLoop hs false = negated hs := by
  induction hs with
  | nil => rfl
  | cons h hs ih =>
    by_cases hn : h.name = notKeyword
    · simp [foundNotLoop, negated, hn, foundNotLoop_true]
    · simp only [foundNotLoop, hn, if_false, ih, negated, List.any_cons, decide_False,
        Bool.false_or, Bool.false_eq_true]

theorem scanOperators_append (l r : List String) (kw : String) :
    scanOperators (l ++ r) kw = (scanOperators l kw).bind (scanOperators r) := by
  induction l generalizing kw with
  | nil => rfl
  | cons n ns ih =>
    simp only [List.cons_append, scanOperators]
    split_ifs <;> simp [ih]

/-- The flattener in closed form: the leaves are appended in left-to-right
order and the connective is the one `scanOperators` computes. -/
theorem flattenRuleAntecedentRec_eq (t : Expression) (f : Flat) :
    flattenRuleAntecedentRec t f =
      match scanOperators t.operatorNames f.opKeyword with
      | none => .error .mixedConnectives
      | some kw => .ok
          { vars := f.vars ++ t.leaves.map (fun l => l.1)
            terms := f.terms ++ t.leaves.map (fun l => l.2.2)
            nots := f.nots ++ t.leaves.map (fun l => negated l.2.1)
            opKeyword := kw } := by
  induction t generalizing f with
  | proposition v hs tm =>
    simp [flattenRuleAntecedentRec, Expression.operatorNames, Expression.leaves, scanOperators,
      foundNotLoop_false]
  | null =>
    simp [flattenRuleAntecedentRec, Expression.operatorNames, Expression.leaves, scanOperators]
  | operator name l r ihl ihr =>
    simp only [flattenRuleAntecedentRec, Expression.operatorNames, Expression.leaves,
      scanOperators]
    by_cases h0 : f.opKeyword = ""
    · simp only [h0, if_true, scanOperators_append, ihl]
      cases hl : scanOperators l.operatorNames name with
      | none => simp
      | some k =>
        simp only [Option.some_bind, ihr]
        cases hr : scanOperators r.operatorNames k <;> simp [List.append_assoc]
    · simp only [h0, if_false]
      by_cases h1 : f.opKeyword = name
      · simp only [h1, ne_eq, not_true_eq_false, if_false, scanOperators_append, ihl]
        subst h1
        cases hl : scanOperators l.operatorNames f.opKeyword with
        | none => simp
        | some k =>
          simp only [Option.some_bind, ihr]
          cases hr : scanOperators r.operatorNames k <;> simp [List.append_assoc]
      · simp [h1]

theorem scanOperators_of_ne_empty (ns : List String) (kw : String) (hkw : kw ≠ "") :
    scanOperators ns kw = if ∀ n ∈ ns, n = kw then some kw else none := by
  induction ns with
  | nil => simp [scanOperators]
  | cons n ns ih =>
    simp only [scanOperators, hkw, if_false, List.forall_mem_cons]
    by_cases h : kw = n
    · subst h
      simp only [ne_eq, not_true_eq_false, if_false, ih, true_and]
    · have h2 : ¬ n = kw := fun hc => h hc.symm
      simp [h, h2]

theorem scanOperators_shared (ns : List String) (name : String) (h : ∀ n ∈ ns, n = name) :
    scanOperators ns "" = some (if ns = [] then "" else name) := by
  induction ns with
  | nil => rfl
  | cons n ns ih =>
    have hn : n = name := h n (List.mem_cons_self _ _)
    have hrest : ∀ m ∈ ns, m = name := fun m hm => h m (List.mem_cons_of_mem _ hm)
    subst hn
    simp only [scanOperators, if_true, reduceCtorEq, if_false]
    by_cases h0 : n = ""
    · subst h0
      rw [ih hrest]
      by_cases hns : ns = [] <;> simp [hns]
    · rw [scanOperators_of_ne_empty ns n h0]
      rw [if_pos hrest]

theorem flattenRuleAntecedent_error (t : Expression) (f : Flat) (err : Error)
    (h : flattenRuleAntecedent t f = .error err) :
    err = .mixedConnectives ∧ scanOperators t.operatorNames f.opKeyword = none := by
  unfold flattenRuleAntecedent at h
  rw [flattenRuleAntecedentRec_eq] at h
  cases hs : scanOperators t.operatorNames f.opKeyword with
  | none =>
    rw [hs] at h
    simp only [Except.error.injEq] at h
    exact ⟨h.symm, rfl⟩
  | some kw =>
    rw [hs] at h
    simp only at h
    split_ifs at h

/-- The four outputs of `flattenRuleAntecedent` on empty output parameters. -/
theorem flattenRuleAntecedent_empty_eq (t : Expression) :
    flattenRuleAntecedent t Flat.empty =
      match scanOperators t.operatorNames "" with
      | none => .error .mixedConnectives
      | some kw => .ok
          { vars := t.leaves.map (fun l => l.1)
            terms := t.leaves.map (fun l => l.2.2)
            nots := t.leaves.map (fun l => negated l.2.1)
            opKeyword := if t.leaves ≠ [] ∧ kw = "" then andKeyword else kw } := by
  unfold flattenRuleAntecedent
  rw [flattenRuleAntecedentRec_eq]
  cases hs : scanOperators t.operatorNames Flat.empty.opKeyword with
  | none =>
    have hs2 : scanOperators t.operatorNames "" = none := hs
    simp [hs2]
  | some kw =>
    have hs2 : scanOperators t.operatorNames "" = some kw := hs
    simp only [hs2, Flat.empty, List.nil_append]
    by_cases hl : t.leaves = [] <;> by_cases hk : kw = "" <;> simp [hl, hk]

/-! ## C7 -/

/-- C7: a proposition leaf makes the flattener append exactly one entry to each
of the three sequences, namely the variable and the term of the proposition
and a flag that is true if and only if one of the hedges of the proposition has
the canonical Not name; the connective is left as it was. -/
theorem C7_proposition_contributes_one_triple (var term : Ptr) (hedges : List Hedge)
    (f : Flat) :
    ∃ neg : Bool,
      flattenRuleAntecedentRec (.proposition var hedges term) f =
        .ok { vars := f.vars ++ [var], terms := f.terms ++ [term], nots := f.nots ++ [neg],
              opKeyword := f.opKeyword } ∧
      (neg = true ↔ ∃ h ∈ hedges, h.name = notKeyword) := by
  refine ⟨foundNotLoop hedges false, rfl, ?_⟩
  rw [foundNotLoop_false]
  simp [negated]

/-! ## C8 -/

/-- C8, counterexample: the two operands of an operator whose name is the empty
string are flattened with the AND keyword as connective, not with the shared
operator name. -/
theorem C8_counterexample_empty_operator_name :
    (∀ n ∈ (Expression.operator "" (.proposition 1 [] 2) (.proposition 3 [] 4)).operatorNames,
        n = "") ∧
    flattenRuleAntecedent (.operator "" (.proposition 1 [] 2) (.proposition 3 [] 4)) Flat.empty =
      .ok { vars := [1, 3], terms := [2, 4], nots := [false, false], opKeyword := andKeyword } ∧
    andKeyword ≠ "" := by
  refine ⟨?_, rfl, by decide⟩
  simp [Expression.operatorNames]

/-- C8, amended: for a tree whose operators share one name that is not the
empty string, `flattenRuleAntecedent` on empty output parameters returns three
sequences as long as the tree has proposition leaves, listing the variables,
terms and negation flags of the leaves from left to right; the connective is
the shared name when the tree has an operator and the AND keyword when the
tree is a single proposition. -/
theorem C8_flatten_outputs_amended (t : Expression) (name : String) (hname : name ≠ "")
    (hshare : ∀ n ∈ t.operatorNames, n = name) :
    ∃ g : Flat, flattenRuleAntecedent t Flat.empty = .ok g ∧
      g.vars = t.leaves.map (fun l => l.1) ∧
      g.terms = t.leaves.map (fun l => l.2.2) ∧
      g.nots = t.leaves.map (fun l => negated l.2.1) ∧
      g.vars.length = t.leaves.length ∧ g.terms.length = t.leaves.length ∧
      g.nots.length = t.leaves.length ∧
      (t.operatorNames ≠ [] → g.opKeyword = name) ∧
      (∀ v hs tm, t = .proposition v hs tm → g.opKeyword = andKeyword) := by
  rw [flattenRuleAntecedent_empty_eq, scanOperators_shared _ _ hshare]
  refine ⟨_, rfl, rfl, rfl, rfl, by simp, by simp, by simp, ?_, ?_⟩
  · intro hops
    simp [hops, hname]
  · intro v hs tm ht
    subst ht
    simp [Expression.operatorNames, Expression.leaves]

/-- C8, amended, on the tree `(1 IS 2) or ((3 IS not 4) or (5 IS 6))`. -/
theorem C8_flatten_outputs_amended_witness :
    ∃ g : Flat,
      flattenRuleAntecedent
        (.operator "or" (.proposition 1 [] 2)
          (.operator "or" (.proposition 3 [⟨"not"⟩] 4) (.proposition 5 [] 6))) Flat.empty = .ok g ∧
      g.vars = [1, 3, 5] ∧ g.terms = [2, 4, 6] ∧ g.nots = [false, true, false] ∧
      g.opKeyword = "or" := by
  obtain ⟨g, hg, hv, ht, hn, -, -, -, hop, -⟩ :=
    C8_flatten_outputs_amended
      (.operator "or" (.proposition 1 [] 2)
        (.operator "or" (.proposition 3 [⟨"not"⟩] 4) (.proposition 5 [] 6))) "or"
      (by decide) (by simp [Expression.operatorNames])
  exact ⟨g, hg, hv, ht, hn, hop (by simp [Expression.operatorNames])⟩

/-! ## C10 -/

theorem pushPairs_eq {α : Type} (xy : List (α × α)) (params : List α) :
    pushPairs xy params = params ++ (xy.map (fun p => [p.1, p.2])).flatten := by
  induction xy generalizing params with
  | nil => simp [pushPairs]
  | cons p rest ih => simp [pushPairs, ih, List.append_assoc]

theorem join_pairs_length {α : Type} (xy : List (α × α)) :
    ((xy.map (fun p => [p.1, p.2])).flatten).length = 2 * xy.length := by
  induction xy with
  | nil => rfl
  | cons p rest ih => simp [ih]; omega

theorem join_pairs_getElem {α : Type} (xy : List (α × α)) (i : Nat) (h : i < xy.length) :
    ((xy.map (fun p => [p.1, p.2])).flatten)[2 * i]? = some (xy.get ⟨i, h⟩).1 ∧
    ((xy.map (fun p => [p.1, p.2])).flatten)[2 * i + 1]? = some (xy.get ⟨i, h⟩).2 := by
  induction xy generalizing i with
  | nil => simp at h
  | cons p rest ih =>
    cases i with
    | zero => simp
    | succ j =>
      have hj : j < rest.length := by simpa using h
      have := ih j hj
      have e1 : 2 * (j + 1) = (2 * j) + 1 + 1 := by omega
      have e2 : 2 * (j + 1) + 1 = (2 * j + 1) + 1 + 1 := by omega
      simp only [List.map_cons, List.flatten_cons, List.cons_append, List.nil_append, e1, e2,
        List.getElem?_cons_succ, List.get_eq_getElem, List.getElem_cons_succ]
      simpa using this

/-- C10: for each of the eleven recognised kinds `GetTermParameters` returns
the parameters of the kind, once each, in the canonical order; for a Discrete
term with n pairs the vector has length 2n with x_i at index 2i and y_i at index
2i+1; for a Linear term it is the coefficient vector. -/
theorem C10_GetTermParameters_canonical_order {α : Type} :
    (∀ c w s : α, GetTermParameters (.bell c w s) = [c, w, s]) ∧
    (∀ i e : α, GetTermParameters (.concave i e) = [i, e]) ∧
    (∀ v : α, GetTermParameters (.constant v) = [v]) ∧
    (∀ c w : α, GetTermParameters (.cosine c w) = [c, w]) ∧
    (∀ s e : α, GetTermParameters (.ramp s e) = [s, e]) ∧
    (∀ i s : α, GetTermParameters (.sigmoid i s) = [i, s]) ∧
    (∀ s e : α, GetTermParameters (.sshape s e) = [s, e]) ∧
    (∀ a b c : α, GetTermParameters (.triangle a b c) = [a, b, c]) ∧
    (∀ s e : α, GetTermParameters (.zshape s e) = [s, e]) ∧
    (∀ xy : List (α × α),
      (GetTermParameters (.discrete xy)).length = 2 * xy.length ∧
      ∀ (i : Nat) (h : i < xy.length),
        (GetTermParameters (.discrete xy))[2 * i]? = some (xy.get ⟨i, h⟩).1 ∧
        (GetTermParameters (.discrete xy))[2 * i + 1]? = some (xy.get ⟨i, h⟩).2) ∧
    (∀ cs : List α, GetTermParameters (.linear cs) = cs) := by
  refine ⟨fun _ _ _ => rfl, fun _ _ => rfl, fun _ => rfl, fun _ _ => rfl, fun _ _ => rfl,
    fun _ _ => rfl, fun _ _ => rfl, fun _ _ _ => rfl, fun _ _ => rfl, ?_, fun _ => rfl⟩
  intro xy
  have hp : GetTermParameters (.discrete xy) = (xy.map (fun p => [p.1, p.2])).flatten := by
    simp [GetTermParameters, pushPairs_eq]
  rw [hp]
  exact ⟨join_pairs_length xy, fun i h => join_pairs_getElem xy i h⟩

/-! ## Maps and connection logs -/

theorem add_one_add (n m : Nat) : n + 1 + m = n + (m + 1) := by omega

theorem atKey_bindAll (ks : List Ptr) (n : Ptr) (m : PtrMap) (k : Ptr) :
    (bindAll ks n m).atKey k =
      match lastIndexOf ks k with
      | some i => some (n + i)
      | none => m.atKey k := by
  induction ks generalizing n m with
  | nil => rfl
  | cons x xs ih =>
    simp only [bindAll, ih, lastIndexOf]
    cases h : lastIndexOf xs k with
    | some i => simp [add_one_add, Nat.add_comm]
    | none =>
      by_cases hx : x = k
      · subst hx
        simp [PtrMap.atKey, PtrMap.set, List.lookup]
      · have hk : (k == x) = false := by
          simp only [beq_eq_false_iff_ne, ne_eq]
          exact fun hc => hx hc.symm
        simp [PtrMap.atKey, PtrMap.set, List.lookup, hx, hk]

theorem lastIndexOf_isSome_of_mem (ks : List Ptr) (k : Ptr) (h : k ∈ ks) :
    (lastIndexOf ks k).isSome = true := by
  induction ks with
  | nil => simp at h
  | cons x xs ih =>
    simp only [lastIndexOf]
    cases hl : lastIndexOf xs k with
    | some i => simp
    | none =>
      rcases List.mem_cons.mp h with hx | hx
      · simp [hx]
      · have := ih hx
        simp [hl] at this

theorem lastIndexOf_some (ks : List Ptr) (k : Ptr) (i : Nat) (h : lastIndexOf ks k = some i) :
    ks[i]? = some k := by
  induction ks generalizing i with
  | nil => simp [lastIndexOf] at h
  | cons x xs ih =>
    simp only [lastIndexOf] at h
    cases hl : lastIndexOf xs k with
    | some j =>
      rw [hl] at h
      simp only [Option.some.injEq] at h
      subst h
      simpa using ih j hl
    | none =>
      rw [hl] at h
      by_cases hx : x = k
      · simp only [hx, if_true, Option.some.injEq] at h
        subst h
        simp [hx]
      · simp [hx] at h

theorem lastIndexOf_nodup (ks : List Ptr) (hnd : ks.Nodup) (i : Nat) (k : Ptr)
    (h : ks[i]? = some k) : lastIndexOf ks k = some i := by
  induction ks generalizing i with
  | nil => simp at h
  | cons x xs ih =>
    have hx : x ∉ xs := (List.nodup_cons.mp hnd).1
    have hnd2 : xs.Nodup := (List.nodup_cons.mp hnd).2
    cases i with
    | zero =>
      simp only [List.getElem?_cons_zero, Option.some.injEq] at h
      subst h
      have hnone : lastIndexOf xs x = none := by
        cases hl : lastIndexOf xs x with
        | none => rfl
        | some j =>
          exact absurd (List.getElem?_mem (lastIndexOf_some xs x j hl)) hx
      simp [lastIndexOf, hnone]
    | succ j =>
      simp only [List.getElem?_cons_succ] at h
      simp [lastIndexOf, ih hnd2 j h]

theorem connsInto_append (n : Ptr) (l r : List (List Ptr)) :
    connsInto n (l ++ r) = connsInto n l ++ connsInto (n + l.length) r := by
  induction l generalizing n with
  | nil => simp [connsInto]
  | cons ps rest ih =>
    rw [List.cons_append]
    simp only [connsInto, ih, List.length_cons, List.append_assoc, add_one_add]

theorem connsOutOf_append (n : Ptr) (l r : List (List Ptr)) :
    connsOutOf n (l ++ r) = connsOutOf n l ++ connsOutOf (n + l.length) r := by
  induction l generalizing n with
  | nil => simp [connsOutOf]
  | cons ps rest ih =>
    rw [List.cons_append]
    simp only [connsOutOf, ih, List.length_cons, List.append_assoc, add_one_add]

theorem bindAll_append (xs ys : List Ptr) (n : Ptr) (m : PtrMap) :
    bindAll (xs ++ ys) n m = bindAll ys (n + xs.length) (bindAll xs n m) := by
  induction xs generalizing n m with
  | nil => simp [bindAll]
  | cons x xs ih =>
    rw [List.cons_append]
    simp only [bindAll, ih, List.length_cons, add_one_add]

theorem mkNodes_append {β ν : Type} (mk : Ptr → β → ν) (n : Ptr) (xs ys : List β) :
    mkNodes mk n (xs ++ ys) = mkNodes mk n xs ++ mkNodes mk (n + xs.length) ys := by
  induction xs generalizing n with
  | nil => simp [mkNodes]
  | cons x xs ih =>
    rw [List.cons_append]
    simp only [mkNodes, ih, List.length_cons, add_one_add, List.cons_append]

theorem mkNodes_map {β γ ν : Type} (mk : Ptr → γ → ν) (f : β → γ) (n : Ptr) (xs : List β) :
    mkNodes mk n (xs.map f) = mkNodes (fun a x => mk a (f x)) n xs := by
  induction xs generalizing n with
  | nil => rfl
  | cons x xs ih => simp only [List.map_cons, mkNodes, ih]

theorem mkNodes_length {β ν : Type} (mk : Ptr → β → ν) (n : Ptr) (xs : List β) :
    (mkNodes mk n xs).length = xs.length := by
  induction xs generalizing n with
  | nil => rfl
  | cons x xs ih => simp only [mkNodes, List.length_cons, ih]

theorem mkNodes_getElem? {β ν : Type} (mk : Ptr → β → ν) (n : Ptr) (xs : List β) (i : Nat) :
    (mkNodes mk n xs)[i]? = xs[i]?.map (mk (n + i)) := by
  induction xs generalizing n i with
  | nil => simp [mkNodes]
  | cons x xs ih =>
    cases i with
    | zero => simp [mkNodes]
    | succ j =>
      simp only [mkNodes, List.getElem?_cons_succ, ih]
      rw [show n + 1 + j = n + (j + 1) from add_one_add n j]

theorem andThen_none {σ : Type} (s : σ) (f : σ → Outcome σ) :
    (Outcome.mk none s).andThen f = f s := rfl

theorem andThen_some {σ : Type} (err : Error) (s : σ) (f : σ → Outcome σ) :
    (Outcome.mk (some err) s).andThen f = ⟨some err, s⟩ := rfl

theorem andThen_thrown_none {σ : Type} (o : Outcome σ) (f : σ → Outcome σ)
    (h : (o.andThen f).thrown = none) :
    o.thrown = none ∧ o.andThen f = f o.state := by
  cases ho : o.thrown with
  | none => exact ⟨rfl, by simp [Outcome.andThen, ho]⟩
  | some err => simp [Outcome.andThen, ho] at h

/-! ## The layers of `Engine::build` in closed form -/

theorem buildLayer0_eq (inputs : List Ptr) (s : BuildState) :
    buildLayer0 inputs s =
      { s with
        engine := { s.engine with
          heapNext := s.engine.heapNext + inputs.length
          inputNodes_ := s.engine.inputNodes_ ++
            mkNodes (fun a p => ⟨a, p⟩) s.engine.heapNext inputs }
        varNodeMap := bindAll inputs s.engine.heapNext s.varNodeMap } := by
  induction inputs generalizing s with
  | nil => simp [buildLayer0, bindAll, mkNodes]
  | cons p rest ih =>
    simp only [buildLayer0, ih, bindAll, mkNodes, List.length_cons,
      List.append_assoc, List.singleton_append, add_one_add, PtrMap.set]

theorem buildLayer1Terms_eq (p v : Ptr) (ts : List Ptr) (s : BuildState)
    (hv : s.varNodeMap.atKey p = some v) :
    buildLayer1Terms p ts s =
      ⟨none, { s with
        engine := { s.engine with
          heapNext := s.engine.heapNext + ts.length
          inputTermNodes_ := s.engine.inputTermNodes_ ++
            mkNodes (fun a t => ⟨a, t⟩) s.engine.heapNext ts
          inConns_ := s.engine.inConns_ ++
            connsInto s.engine.heapNext (ts.map (fun _ => [v]))
          outConns_ := s.engine.outConns_ ++
            connsOutOf s.engine.heapNext (ts.map (fun _ => [v])) }
        termNodeMap := bindAll ts s.engine.heapNext s.termNodeMap }⟩ := by
  induction ts generalizing s with
  | nil => simp [buildLayer1Terms, bindAll, connsInto, connsOutOf, mkNodes]
  | cons t rest ih =>
    simp only [buildLayer1Terms, hv]
    rw [ih]
    · simp only [Engine.connect, ConnMap.pushBack, bindAll, PtrMap.set, mkNodes,
        List.map_cons, List.length_cons, List.append_assoc, List.singleton_append, add_one_add,
        connsInto, connsOutOf, List.map_nil, List.nil_append, List.cons_append]
    · exact hv

theorem buildLayer1_eq {α : Type} (env : Env α) (inputs : List Ptr) (s : BuildState)
    (hv : ∀ p ∈ inputs, (s.varNodeMap.atKey p).isSome = true) :
    buildLayer1 env inputs s =
      ⟨none, { s with
        engine := { s.engine with
          heapNext := s.engine.heapNext + (allTerms env inputs).length
          inputTermNodes_ := s.engine.inputTermNodes_ ++
            mkNodes (fun a t => ⟨a, t⟩) s.engine.heapNext (allTerms env inputs)
          inConns_ := s.engine.inConns_ ++
            connsInto s.engine.heapNext
              ((allOwners env inputs).map (fun p => [(s.varNodeMap.atKey p).getD 0]))
          outConns_ := s.engine.outConns_ ++
            connsOutOf s.engine.heapNext
              ((allOwners env inputs).map (fun p => [(s.varNodeMap.atKey p).getD 0])) }
        termNodeMap := bindAll (allTerms env inputs) s.engine.heapNext s.termNodeMap }⟩ := by
  induction inputs generalizing s with
  | nil => simp [buildLayer1, allTerms, allOwners, bindAll, connsInto, connsOutOf, mkNodes]
  | cons p rest ih =>
    obtain ⟨v, hp⟩ := Option.isSome_iff_exists.mp (hv p (List.mem_cons_self _ _))
    have hrest : ∀ q ∈ rest, (s.varNodeMap.atKey q).isSome = true :=
      fun q hq => hv q (List.mem_cons_of_mem _ hq)
    simp only [buildLayer1]
    rw [buildLayer1Terms_eq p v _ s hp, andThen_none, ih]
    swap
    · exact hrest
    simp only [allTerms, allOwners, List.flatMap_cons, mkNodes_append, List.map_append,
      List.length_append, List.append_assoc, connsInto_append, connsOutOf_append,
      bindAll_append, List.map_map, List.length_map, Nat.add_assoc, Function.comp_def, hp,
      Option.getD_some]

theorem buildLayer2Terms_eq (ts : List Ptr) (s : BuildState)
    (hv : ∀ t ∈ ts, (s.termNodeMap.atKey t).isSome = true) :
    buildLayer2Terms ts s =
      ⟨none, { s with
        engine := { s.engine with
          heapNext := s.engine.heapNext + ts.length
          inputHedgeNodes_ := s.engine.inputHedgeNodes_ ++
            mkNodes (fun a _ => ⟨a, notKeyword⟩) s.engine.heapNext ts
          inConns_ := s.engine.inConns_ ++
            connsInto s.engine.heapNext (ts.map (fun t => [(s.termNodeMap.atKey t).getD 0]))
          outConns_ := s.engine.outConns_ ++
            connsOutOf s.engine.heapNext (ts.map (fun t => [(s.termNodeMap.atKey t).getD 0])) }
        notTermNodeMap := bindAll ts s.engine.heapNext s.notTermNodeMap }⟩ := by
  induction ts generalizing s with
  | nil => simp [buildLayer2Terms, bindAll, connsInto, connsOutOf, mkNodes]
  | cons t rest ih =>
    obtain ⟨v, hp⟩ := Option.isSome_iff_exists.mp (hv t (List.mem_cons_self _ _))
    have hrest : ∀ q ∈ rest, (s.termNodeMap.atKey q).isSome = true :=
      fun q hq => hv q (List.mem_cons_of_mem _ hq)
    simp only [buildLayer2Terms, hp]
    rw [ih]
    · simp only [Engine.connect, ConnMap.pushBack, bindAll, PtrMap.set, mkNodes,
        List.map_cons, List.length_cons, List.append_assoc, List.singleton_append, add_one_add,
        connsInto, connsOutOf, List.map_nil, List.nil_append, List.cons_append, hp,
        Option.getD_some]
    · exact hrest

theorem buildLayer2_eq {α : Type} (env : Env α) (inputs : List Ptr) (s : BuildState)
    (hv : ∀ t ∈ allTerms env inputs, (s.termNodeMap.atKey t).isSome = true) :
    buildLayer2 env inputs s =
      ⟨none, { s with
        engine := { s.engine with
          heapNext := s.engine.heapNext + (allTerms env inputs).length
          inputHedgeNodes_ := s.engine.inputHedgeNodes_ ++
            mkNodes (fun a _ => ⟨a, notKeyword⟩) s.engine.heapNext (allTerms env inputs)
          inConns_ := s.engine.inConns_ ++
            connsInto s.engine.heapNext
              ((allTerms env inputs).map (fun t => [(s.termNodeMap.atKey t).getD 0]))
          outConns_ := s.engine.outConns_ ++
            connsOutOf s.engine.heapNext
              ((allTerms env inputs).map (fun t => [(s.termNodeMap.atKey t).getD 0])) }
        notTermNodeMap := bindAll (allTerms env inputs) s.engine.heapNext s.notTermNodeMap }⟩ := by
  induction inputs generalizing s with
  | nil => simp [buildLayer2, allTerms, bindAll, connsInto, connsOutOf, mkNodes]
  | cons p rest ih =>
    have hp : ∀ t ∈ (env.inputVariable p).terms, (s.termNodeMap.atKey t).isSome = true :=
      fun t ht => hv t (by simp [allTerms, ht])
    have hrest : ∀ t ∈ allTerms env rest, (s.termNodeMap.atKey t).isSome = true :=
      fun t ht => hv t (by
        simp only [allTerms, List.flatMap_cons, List.mem_append]
        exact Or.inr ht)
    simp only [buildLayer2]
    rw [buildLayer2Terms_eq _ s hp, andThen_none, ih]
    swap
    · exact hrest
    simp only [allTerms, List.flatMap_cons, mkNodes_append, List.map_append,
      List.length_append, List.append_assoc, connsInto_append, connsOutOf_append,
      bindAll_append, List.length_map, Nat.add_assoc]

theorem connectAntecedent_ok (p_node : Ptr) (pairs : List (Ptr × Bool)) (s : BuildState)
    (h : (connectAntecedent p_node pairs s).thrown = none) :
    (pairs.all (fun pr =>
      ((if pr.2 then s.notTermNodeMap else s.termNodeMap).atKey pr.1).isSome) = true) ∧
    connectAntecedent p_node pairs s =
      ⟨none, { s with
        engine := { s.engine with
          inConns_ := s.engine.inConns_ ++ pairs.map (fun pr =>
            (p_node, ((if pr.2 then s.notTermNodeMap else s.termNodeMap).atKey pr.1).getD 0))
          outConns_ := s.engine.outConns_ ++ pairs.map (fun pr =>
            (((if pr.2 then s.notTermNodeMap else s.termNodeMap).atKey pr.1).getD 0,
              p_node)) } }⟩ := by
  induction pairs generalizing s with
  | nil => simp [connectAntecedent]
  | cons pr rest ih =>
    obtain ⟨t, neg⟩ := pr
    simp only [connectAntecedent] at h ⊢
    cases hl : (if neg = true then s.notTermNodeMap else s.termNodeMap).atKey t with
    | none => simp [hl] at h
    | some v =>
      simp only [hl] at h ⊢
      obtain ⟨hall, heq⟩ := ih _ h
      refine ⟨?_, ?_⟩
      · simp only [List.all_cons, hl, Option.isSome_some, Bool.true_and]
        exact hall
      · rw [heq]
        simp only [Engine.connect, ConnMap.pushBack, List.map_cons, List.append_assoc,
          List.singleton_append, hl, Option.getD_some]

theorem buildLayer3Rule_ok {α : Type} (env : Env α) (block : RuleBlock) (p_rule : Ptr)
    (s : BuildState) (h : (buildLayer3Rule env block p_rule s).thrown = none) :
    ruleOk env s.termNodeMap s.notTermNodeMap p_rule = true ∧
    buildLayer3Rule env block p_rule s =
      ⟨none, { s with
        engine := { s.engine with
          heapNext := s.engine.heapNext + 1
          antecedentNodes_ := s.engine.antecedentNodes_ ++
            [⟨s.engine.heapNext, firingNorm env (block, p_rule)⟩]
          inConns_ := s.engine.inConns_ ++ connsInto s.engine.heapNext
            [firingPreds env s.termNodeMap s.notTermNodeMap p_rule]
          outConns_ := s.engine.outConns_ ++ connsOutOf s.engine.heapNext
            [firingPreds env s.termNodeMap s.notTermNodeMap p_rule] }
        ruleAntecedentNodeMap := s.ruleAntecedentNodeMap.set p_rule s.engine.heapNext }⟩ := by
  unfold buildLayer3Rule at h ⊢
  cases hf : flattenRuleAntecedent (env.rule p_rule).antecedent Flat.empty with
  | error err => simp [hf] at h
  | ok g =>
    simp only [hf] at h ⊢
    obtain ⟨hall, heq⟩ := connectAntecedent_ok _ _ _ h
    have hflat : flatOf env p_rule = g := by simp [flatOf, hf]
    refine ⟨?_, ?_⟩
    · simp only [ruleOk, hf, flatPairs, hflat, Bool.true_and]
      exact hall
    · rw [heq]
      simp only [firingNorm, firingPreds, flatPairs, hflat, connsInto, connsOutOf,
        List.append_nil, List.map_map, Function.comp_def]

theorem buildLayer3Rules_ok {α : Type} (env : Env α) (block : RuleBlock) (rules : List Ptr)
    (s : BuildState) (h : (buildLayer3Rules env block rules s).thrown = none) :
    (∀ r ∈ rules, ruleOk env s.termNodeMap s.notTermNodeMap r = true) ∧
    buildLayer3Rules env block rules s =
      ⟨none, { s with
        engine := { s.engine with
          heapNext := s.engine.heapNext + rules.length
          antecedentNodes_ := s.engine.antecedentNodes_ ++
            mkNodes (fun a br => ⟨a, firingNorm env br⟩) s.engine.heapNext
              (rules.map (fun r => (block, r)))
          inConns_ := s.engine.inConns_ ++ connsInto s.engine.heapNext
            ((rules.map (fun r => (block, r))).map
              (fun br => firingPreds env s.termNodeMap s.notTermNodeMap br.2))
          outConns_ := s.engine.outConns_ ++ connsOutOf s.engine.heapNext
            ((rules.map (fun r => (block, r))).map
              (fun br => firingPreds env s.termNodeMap s.notTermNodeMap br.2)) }
        ruleAntecedentNodeMap :=
          bindAll ((rules.map (fun r => (block, r))).map Prod.snd) s.engine.heapNext
            s.ruleAntecedentNodeMap }⟩ := by
  induction rules generalizing s with
  | nil => simp [buildLayer3Rules, bindAll, connsInto, connsOutOf, mkNodes]
  | cons r rest ih =>
    simp only [buildLayer3Rules] at h ⊢
    obtain ⟨h1, h2⟩ := andThen_thrown_none _ _ h
    obtain ⟨hok, heq⟩ := buildLayer3Rule_ok env block r s h1
    rw [h2] at h ⊢
    rw [heq] at h ⊢
    obtain ⟨hrest, heq2⟩ := ih _ h
    refine ⟨?_, ?_⟩
    · intro q hq
      rcases List.mem_cons.mp hq with hq | hq
      · rw [hq]; exact hok
      · exact hrest q hq
    · rw [heq2]
      simp only [bindAll, PtrMap.set, mkNodes, List.map_cons, List.length_cons,
        List.append_assoc, List.singleton_append, add_one_add, connsInto, connsOutOf,
        List.nil_append, List.cons_append, List.append_nil]

theorem enabledRules_cons {α : Type} (env : Env α) (b : Ptr) (rest : List Ptr) :
    enabledRules env (b :: rest) =
      (if (env.ruleBlock b).enabled then
        (env.ruleBlock b).rules.map (fun r => (env.ruleBlock b, r)) else []) ++
      enabledRules env rest := by
  simp [enabledRules, List.flatMap_cons]

theorem buildLayer3_ok {α : Type} (env : Env α) (blocks : List Ptr)
    (s : BuildState) (h : (buildLayer3 env blocks s).thrown = none) :
    (∀ br ∈ enabledRules env blocks, ruleOk env s.termNodeMap s.notTermNodeMap br.2 = true) ∧
    buildLayer3 env blocks s =
      ⟨none, { s with
        engine := { s.engine with
          heapNext := s.engine.heapNext + (enabledRules env blocks).length
          antecedentNodes_ := s.engine.antecedentNodes_ ++
            mkNodes (fun a br => ⟨a, firingNorm env br⟩) s.engine.heapNext
              (enabledRules env blocks)
          inConns_ := s.engine.inConns_ ++ connsInto s.engine.heapNext
            ((enabledRules env blocks).map
              (fun br => firingPreds env s.termNodeMap s.notTermNodeMap br.2))
          outConns_ := s.engine.outConns_ ++ connsOutOf s.engine.heapNext
            ((enabledRules env blocks).map
              (fun br => firingPreds env s.termNodeMap s.notTermNodeMap br.2)) }
        ruleAntecedentNodeMap :=
          bindAll ((enabledRules env blocks).map Prod.snd) s.engine.heapNext
            s.ruleAntecedentNodeMap }⟩ := by
  induction blocks generalizing s with
  | nil => simp [buildLayer3, enabledRules, bindAll, connsInto, connsOutOf, mkNodes]
  | cons b rest ih =>
    rw [enabledRules_cons]
    simp only [buildLayer3] at h ⊢
    by_cases hen : (env.ruleBlock b).enabled = true
    · simp only [hen, Bool.not_true, Bool.false_eq_true, if_false, if_true] at h ⊢
      obtain ⟨h1, h2⟩ := andThen_thrown_none _ _ h
      obtain ⟨hok, heq⟩ := buildLayer3Rules_ok env _ _ s h1
      rw [h2] at h ⊢
      rw [heq] at h ⊢
      obtain ⟨hrest, heq2⟩ := ih _ h
      refine ⟨?_, ?_⟩
      · intro br hbr
        rcases List.mem_append.mp hbr with hbr | hbr
        · obtain ⟨r, hr, hbr⟩ := List.mem_map.mp hbr
          rw [← hbr]
          exact hok r hr
        · exact hrest br hbr
      · rw [heq2]
        simp only [mkNodes_append, List.map_append, List.length_append, List.append_assoc,
          connsInto_append, connsOutOf_append, bindAll_append, List.length_map,
          Nat.add_assoc]
    · have hen2 : (env.ruleBlock b).enabled = false := by simpa using hen
      simp only [hen2, Bool.not_false, if_true, Bool.false_eq_true, if_false,
        List.nil_append] at h ⊢
      exact ih s h

theorem buildLayer4Rules_eq {α : Type} (env : Env α) (block : RuleBlock) (rules : List Ptr)
    (s : BuildState) (hv : ∀ r ∈ rules, (s.ruleAntecedentNodeMap.atKey r).isSome = true) :
    buildLayer4Rules env block rules s =
      ⟨none, { s with
        engine := { s.engine with
          heapNext := s.engine.heapNext + rules.length
          consequentNodes_ := s.engine.consequentNodes_ ++
            mkNodes (fun a br => ⟨a, (env.rule br.2).consequentTerm, br.1.activation⟩)
              s.engine.heapNext (rules.map (fun r => (block, r)))
          inConns_ := s.engine.inConns_ ++ connsInto s.engine.heapNext
            ((rules.map (fun r => (block, r))).map
              (fun br => [(s.ruleAntecedentNodeMap.atKey br.2).getD 0]))
          outConns_ := s.engine.outConns_ ++ connsOutOf s.engine.heapNext
            ((rules.map (fun r => (block, r))).map
              (fun br => [(s.ruleAntecedentNodeMap.atKey br.2).getD 0])) } }⟩ := by
  induction rules generalizing s with
  | nil => simp [buildLayer4Rules, connsInto, connsOutOf, mkNodes]
  | cons r rest ih =>
    obtain ⟨v, hp⟩ := Option.isSome_iff_exists.mp (hv r (List.mem_cons_self _ _))
    have hrest : ∀ q ∈ rest, (s.ruleAntecedentNodeMap.atKey q).isSome = true :=
      fun q hq => hv q (List.mem_cons_of_mem _ hq)
    simp only [buildLayer4Rules, hp]
    rw [ih]
    · simp only [Engine.connect, ConnMap.pushBack, mkNodes,
        List.map_cons, List.length_cons, List.append_assoc, List.singleton_append, add_one_add,
        connsInto, connsOutOf, List.map_nil, List.nil_append, List.cons_append, hp,
        Option.getD_some]
    · exact hrest

theorem buildLayer4_eq {α : Type} (env : Env α) (blocks : List Ptr) (s : BuildState)
    (hv : ∀ br ∈ enabledRules env blocks,
      (s.ruleAntecedentNodeMap.atKey br.2).isSome = true) :
    buildLayer4 env blocks s =
      ⟨none, { s with
        engine := { s.engine with
          heapNext := s.engine.heapNext + (enabledRules env blocks).length
          consequentNodes_ := s.engine.consequentNodes_ ++
            mkNodes (fun a br => ⟨a, (env.rule br.2).consequentTerm, br.1.activation⟩)
              s.engine.heapNext (enabledRules env blocks)
          inConns_ := s.engine.inConns_ ++ connsInto s.engine.heapNext
            ((enabledRules env blocks).map
              (fun br => [(s.ruleAntecedentNodeMap.atKey br.2).getD 0]))
          outConns_ := s.engine.outConns_ ++ connsOutOf s.engine.heapNext
            ((enabledRules env blocks).map
              (fun br => [(s.ruleAntecedentNodeMap.atKey br.2).getD 0])) } }⟩ := by
  induction blocks generalizing s with
  | nil => simp [buildLayer4, enabledRules, connsInto, connsOutOf, mkNodes]
  | cons b rest ih =>
    rw [enabledRules_cons] at hv ⊢
    simp only [buildLayer4]
    have hrest : ∀ br ∈ enabledRules env rest,
        (s.ruleAntecedentNodeMap.atKey br.2).isSome = true :=
      fun br hbr => hv br (List.mem_append.mpr (Or.inr hbr))
    by_cases hen : (env.ruleBlock b).enabled = true
    · simp only [hen, Bool.not_true, Bool.false_eq_true, if_false, if_true] at hv ⊢
      have hb : ∀ r ∈ (env.ruleBlock b).rules,
          (s.ruleAntecedentNodeMap.atKey r).isSome = true :=
        fun r hr => hv (env.ruleBlock b, r)
          (List.mem_append.mpr (Or.inl (List.mem_map.mpr ⟨r, hr, rfl⟩)))
      rw [buildLayer4Rules_eq env _ _ s hb, andThen_none, ih]
      swap
      · exact hrest
      simp only [mkNodes_append, List.map_append, List.length_append, List.append_assoc,
        connsInto_append, connsOutOf_append, List.length_map, Nat.add_assoc]
    · have hen2 : (env.ruleBlock b).enabled = false := by simpa using hen
      simp only [hen2, Bool.not_false, if_true, Bool.false_eq_true, if_false,
        List.nil_append]
      exact ih s hrest

theorem connectAll_eq (p_to : Ptr) (ps : List Ptr) (e : Engine) :
    connectAll p_to ps e =
      { e with
        inConns_ := e.inConns_ ++ ps.map (fun p => (p_to, p))
        outConns_ := e.outConns_ ++ ps.map (fun p => (p, p_to)) } := by
  induction ps generalizing e with
  | nil => simp [connectAll]
  | cons p rest ih =>
    simp only [connectAll, ih, Engine.connect, ConnMap.pushBack, List.map_cons,
      List.append_assoc, List.singleton_append]

theorem buildLayer5_eq (e : Engine) :
    buildLayer5 e =
      { e with
        heapNext := e.heapNext + 2
        sumNodes_ := e.sumNodes_ ++ [⟨e.heapNext⟩, ⟨e.heapNext + 1⟩]
        inConns_ := e.inConns_ ++ connsInto e.heapNext
          [e.consequentNodes_.map (fun n => n.addr), e.antecedentNodes_.map (fun n => n.addr)]
        outConns_ := e.outConns_ ++ connsOutOf e.heapNext
          [e.consequentNodes_.map (fun n => n.addr),
            e.antecedentNodes_.map (fun n => n.addr)] } := by
  simp only [buildLayer5, connectAll_eq, connsInto, connsOutOf, List.append_assoc,
    List.append_nil, List.singleton_append, List.cons_append, List.nil_append]

theorem buildLayer6_eq (e : Engine) :
    buildLayer6 e =
      { e with
        heapNext := e.heapNext + 1
        inferenceNodes_ := e.inferenceNodes_ ++ [⟨e.heapNext⟩]
        inConns_ := e.inConns_ ++ connsInto e.heapNext [e.sumNodes_.map (fun n => n.addr)]
        outConns_ := e.outConns_ ++
          connsOutOf e.heapNext [e.sumNodes_.map (fun n => n.addr)] } := by
  simp only [buildLayer6, connectAll_eq, connsInto, connsOutOf, List.append_nil]

/-! ## `Engine::build` in closed form -/

theorem lastIndexOf_isSome_iff (ks : List Ptr) (k : Ptr) :
    (lastIndexOf ks k).isSome = true ↔ k ∈ ks := by
  constructor
  · intro h
    obtain ⟨i, hi⟩ := Option.isSome_iff_exists.mp h
    exact List.getElem?_mem (lastIndexOf_some ks k i hi)
  · exact lastIndexOf_isSome_of_mem ks k

theorem atKey_bindAll_nil_isSome (ks : List Ptr) (n k : Ptr) :
    ((bindAll ks n []).atKey k).isSome = true ↔ k ∈ ks := by
  rw [atKey_bindAll, ← lastIndexOf_isSome_iff]
  cases lastIndexOf ks k <;> simp [PtrMap.atKey]

theorem getD_atKey_bindAll (ks : List Ptr) (n k : Ptr) (h : k ∈ ks) :
    ((bindAll ks n []).atKey k).getD 0 = n + slot ks k := by
  rw [atKey_bindAll, slot]
  have := lastIndexOf_isSome_of_mem ks k h
  cases hl : lastIndexOf ks k with
  | none => simp [hl] at this
  | some i => simp

theorem mem_of_mem_allOwners {α : Type} (env : Env α) (inputs : List Ptr) (p : Ptr)
    (h : p ∈ allOwners env inputs) : p ∈ inputs := by
  simp only [allOwners, List.mem_flatMap, List.mem_map] at h
  obtain ⟨q, hq, _, _, rfl⟩ := h
  exact hq

theorem allOwners_length {α : Type} (env : Env α) (inputs : List Ptr) :
    (allOwners env inputs).length = (allTerms env inputs).length := by
  induction inputs with
  | nil => rfl
  | cons p rest ih =>
    simp only [allOwners, allTerms, List.flatMap_cons, List.length_append, List.length_map]
      at ih ⊢
    rw [ih]

theorem finish_thrown_none {σ : Type} (o : Outcome σ) (g : σ → σ)
    (h : (o.andThen (fun s => ⟨none, g s⟩)).thrown = none) : o.thrown = none :=
  (andThen_thrown_none _ _ h).1

theorem ruleOk_bindAll_iff {α : Type} (env : Env α) (ts : List Ptr) (n m r : Ptr) :
    ruleOk env (bindAll ts n []) (bindAll ts m []) r = true ↔
      (∃ g, flattenRuleAntecedent (env.rule r).antecedent Flat.empty = .ok g) ∧
      ∀ pr ∈ flatPairs env r, pr.1 ∈ ts := by
  simp only [ruleOk, Bool.and_eq_true, List.all_eq_true]
  constructor
  · rintro ⟨h1, h2⟩
    refine ⟨?_, fun pr hpr => ?_⟩
    · cases hf : flattenRuleAntecedent (env.rule r).antecedent Flat.empty with
      | ok g => exact ⟨g, rfl⟩
      | error err => simp [hf] at h1
    · have := h2 pr hpr
      by_cases hneg : pr.2 = true
      · simp only [hneg, if_true] at this
        exact (atKey_bindAll_nil_isSome ts m pr.1).mp this
      · simp only [hneg, if_false] at this
        exact (atKey_bindAll_nil_isSome ts n pr.1).mp this
  · rintro ⟨⟨g, hg⟩, h2⟩
    refine ⟨by simp [hg], fun pr hpr => ?_⟩
    by_cases hneg : pr.2 = true
    · simp only [hneg, if_true]
      exact (atKey_bindAll_nil_isSome ts m pr.1).mpr (h2 pr hpr)
    · simp only [hneg, if_false]
      exact (atKey_bindAll_nil_isSome ts n pr.1).mpr (h2 pr hpr)

theorem firingPreds_bindAll {α : Type} (env : Env α) (ts : List Ptr) (n m r : Ptr)
    (h : ∀ pr ∈ flatPairs env r, pr.1 ∈ ts) :
    firingPreds env (bindAll ts n []) (bindAll ts m []) r =
      (flatPairs env r).map (fun pr => (if pr.2 then m else n) + slot ts pr.1) := by
  unfold firingPreds
  apply List.map_congr_left
  intro pr hpr
  by_cases hneg : pr.2 = true
  · simp only [hneg, if_true]
    exact getD_atKey_bindAll ts m pr.1 (h pr hpr)
  · simp only [hneg, if_false]
    exact getD_atKey_bindAll ts n pr.1 (h pr hpr)

/-- Layers 0 to 2 never throw: they leave the state `afterLayer2`. -/
theorem buildLayers_eq_layer3 {α : Type} (env : Env α) (e : Engine) :
    buildLayers env e =
      ((buildLayer3 env e.ruleBlocks_ (afterLayer2 env e)).andThen
        (buildLayer4 env e.ruleBlocks_)).andThen
        (fun s => ⟨none, { s with engine := buildLayer6 (buildLayer5 s.engine) }⟩) := by
  unfold buildLayers
  have h2 : (buildLayer1 env e.inputs_ (buildLayer0 e.inputs_ ⟨e, [], [], [], []⟩)).andThen
      (buildLayer2 env e.inputs_) = ⟨none, afterLayer2 env e⟩ := by
    rw [buildLayer0_eq, buildLayer1_eq, andThen_none, buildLayer2_eq]
    · have hown : (allOwners env e.inputs_).map
          (fun p => [((bindAll e.inputs_ e.heapNext []).atKey p).getD 0]) =
          (allOwners env e.inputs_).map (fun p => [e.heapNext + slot e.inputs_ p]) := by
        apply List.map_congr_left
        intro p hp
        rw [getD_atKey_bindAll _ _ _ (mem_of_mem_allOwners env _ p hp)]
      have hterm : (allTerms env e.inputs_).map
          (fun t => [((bindAll (allTerms env e.inputs_) (e.heapNext + e.inputs_.length)
            []).atKey t).getD 0]) =
          (allTerms env e.inputs_).map
            (fun t => [e.heapNext + e.inputs_.length + slot (allTerms env e.inputs_) t]) := by
        apply List.map_congr_left
        intro t ht
        rw [getD_atKey_bindAll _ _ _ ht]
      simp only [afterLayer2, hown, hterm, List.append_assoc]
    · intro t ht
      exact (atKey_bindAll_nil_isSome _ _ t).mpr ht
    · intro p hp
      exact (atKey_bindAll_nil_isSome _ _ p).mpr hp
  rw [h2, andThen_none]

theorem afterLayer2_termNodeMap {α : Type} (env : Env α) (e : Engine) :
    (afterLayer2 env e).termNodeMap =
      bindAll (allTerms env e.inputs_) (e.heapNext + e.inputs_.length) [] := rfl

theorem afterLayer2_notTermNodeMap {α : Type} (env : Env α) (e : Engine) :
    (afterLayer2 env e).notTermNodeMap =
      bindAll (allTerms env e.inputs_)
        (e.heapNext + e.inputs_.length + (allTerms env e.inputs_).length) [] := rfl

/-- When layer 3 goes through, so does the rest of `Engine::build`, and the
engine it leaves is `builtEngine`. -/
theorem buildLayers_of_layer3 {α : Type} (env : Env α) (e : Engine)
    (h : (buildLayer3 env e.ruleBlocks_ (afterLayer2 env e)).thrown = none) :
    rulesOk env e = true ∧ (buildLayers env e).thrown = none ∧
      (buildLayers env e).state.engine = builtEngine env e := by
  obtain ⟨hok, heq⟩ := buildLayer3_ok env _ _ h
  rw [afterLayer2_termNodeMap, afterLayer2_notTermNodeMap] at hok
  have hok2 : ∀ br ∈ enabledRules env e.ruleBlocks_,
      (∃ g, flattenRuleAntecedent (env.rule br.2).antecedent Flat.empty = .ok g) ∧
      ∀ pr ∈ flatPairs env br.2, pr.1 ∈ allTerms env e.inputs_ :=
    fun br hbr => (ruleOk_bindAll_iff env _ _ _ _).mp (hok br hbr)
  have hrules : rulesOk env e = true := by
    simp only [rulesOk, List.all_eq_true, Bool.and_eq_true, decide_eq_true_eq]
    intro br hbr
    obtain ⟨⟨g, hg⟩, hmem⟩ := hok2 br hbr
    exact ⟨by simp [hg], hmem⟩
  have hpreds : (enabledRules env e.ruleBlocks_).map
      (fun br => firingPreds env (afterLayer2 env e).termNodeMap
        (afterLayer2 env e).notTermNodeMap br.2) =
      (enabledRules env e.ruleBlocks_).map (fun br =>
        (flatPairs env br.2).map (fun pr =>
          (if pr.2 then e.heapNext + e.inputs_.length + (allTerms env e.inputs_).length
            else e.heapNext + e.inputs_.length) + slot (allTerms env e.inputs_) pr.1)) := by
    apply List.map_congr_left
    intro br hbr
    rw [afterLayer2_termNodeMap, afterLayer2_notTermNodeMap]
    exact firingPreds_bindAll env _ _ _ _ (hok2 br hbr).2
  rw [buildLayers_eq_layer3, heq, andThen_none, buildLayer4_eq, andThen_none,
    buildLayer5_eq, buildLayer6_eq]
  · refine ⟨hrules, rfl, ?_⟩
    have hfire : ∀ n : Ptr, (enabledRules env e.ruleBlocks_).map
        (fun br => [((bindAll ((enabledRules env e.ruleBlocks_).map Prod.snd)
          n []).atKey br.2).getD 0]) =
        (enabledRules env e.ruleBlocks_).map (fun br =>
          [n + slot ((enabledRules env e.ruleBlocks_).map Prod.snd) br.2]) := by
      intro n
      apply List.map_congr_left
      intro br hbr
      rw [getD_atKey_bindAll _ _ _ (List.mem_map.mpr ⟨br, hbr, rfl⟩)]
    simp only [hpreds]
    simp only [afterLayer2, builtEngine, List.append_assoc, Nat.add_assoc, hfire,
      Nat.reduceAdd]
  · intro br hbr
    exact (atKey_bindAll_nil_isSome _ _ br.2).mpr (List.mem_map.mpr ⟨br, hbr, rfl⟩)

theorem buildLayers_thrown {α : Type} (env : Env α) (e : Engine) :
    (buildLayers env e).thrown =
      (buildLayer3 env e.ruleBlocks_ (afterLayer2 env e)).thrown := by
  cases h : (buildLayer3 env e.ruleBlocks_ (afterLayer2 env e)).thrown with
  | none => exact (buildLayers_of_layer3 env e h).2.1
  | some err =>
    rw [buildLayers_eq_layer3]
    simp [Outcome.andThen, h]

/-- A successful `Engine::build` in closed form. -/
theorem build_ok {α : Type} (env : Env α) (e : Engine) (h : (e.build env).thrown = none) :
    e.outputs_.length = 1 ∧ rulesOk env e = true ∧ (e.build env).state = builtEngine env e := by
  unfold Engine.build at h ⊢
  cases hc : e.check with
  | some err => simp [hc] at h
  | none =>
    simp only [hc] at h ⊢
    rw [buildLayers_thrown] at h
    obtain ⟨h1, _, h3⟩ := buildLayers_of_layer3 env e h
    refine ⟨?_, h1, h3⟩
    unfold Engine.check at hc
    by_contra hne
    simp [hne] at hc


theorem allTerms_length {α : Type} (env : Env α) (inputs : List Ptr) :
    (allTerms env inputs).length =
      (inputs.map (fun p => (env.inputVariable p).terms.length)).sum := by
  induction inputs with
  | nil => rfl
  | cons p rest ih =>
    simp only [allTerms, List.flatMap_cons, List.length_append, List.map_cons,
      List.sum_cons] at ih ⊢
    rw [ih]

theorem enabledRules_length {α : Type} (env : Env α) (blocks : List Ptr) :
    (enabledRules env blocks).length =
      ((blocks.filter (fun b => (env.ruleBlock b).enabled)).map
        (fun b => (env.ruleBlock b).rules.length)).sum := by
  induction blocks with
  | nil => rfl
  | cons b rest ih =>
    rw [enabledRules_cons, List.length_append, ih]
    by_cases hen : (env.ruleBlock b).enabled = true
    · simp [hen, List.filter_cons]
    · have hen2 : (env.ruleBlock b).enabled = false := by simpa using hen
      simp [hen2, List.filter_cons]

theorem mem_enabledRules {α : Type} (env : Env α) (blocks : List Ptr) (b r : Ptr)
    (hb : b ∈ blocks) (hen : (env.ruleBlock b).enabled = true)
    (hr : r ∈ (env.ruleBlock b).rules) :
    (env.ruleBlock b, r) ∈ enabledRules env blocks := by
  simp only [enabledRules, List.mem_flatMap]
  exact ⟨b, hb, by simp only [hen, if_true, List.mem_map]; exact ⟨r, hr, rfl⟩⟩

theorem bucketsEmpty_iff (e : Engine) :
    e.bucketsEmpty = true ↔
      e.inputNodes_ = [] ∧ e.inputTermNodes_ = [] ∧ e.inputHedgeNodes_ = [] ∧
      e.antecedentNodes_ = [] ∧ e.consequentNodes_ = [] ∧ e.sumNodes_ = [] ∧
      e.inferenceNodes_ = [] := by
  simp only [Engine.bucketsEmpty, Bool.and_eq_true, List.isEmpty_iff]
  tauto

/-! ## C1 -/

/-- C1: when `build()` succeeds on an engine whose node buckets are empty, the
input bucket has one node per input variable, the term and hedge buckets one
node per term of each input variable, the firing strength and implication
buckets one node per rule of each enabled rule block, the sum bucket two nodes
and the normalization bucket one. -/
theorem C1_layer_sizes {α : Type} (env : Env α) (e : Engine)
    (hempty : e.bucketsEmpty = true) (hbuild : (e.build env).thrown = none) :
    (e.build env).state.inputNodes_.length = e.inputs_.length ∧
    (e.build env).state.inputTermNodes_.length =
      (e.inputs_.map (fun p => (env.inputVariable p).terms.length)).sum ∧
    (e.build env).state.inputHedgeNodes_.length =
      (e.inputs_.map (fun p => (env.inputVariable p).terms.length)).sum ∧
    (e.build env).state.antecedentNodes_.length =
      ((e.ruleBlocks_.filter (fun b => (env.ruleBlock b).enabled)).map
        (fun b => (env.ruleBlock b).rules.length)).sum ∧
    (e.build env).state.consequentNodes_.length =
      ((e.ruleBlocks_.filter (fun b => (env.ruleBlock b).enabled)).map
        (fun b => (env.ruleBlock b).rules.length)).sum ∧
    (e.build env).state.sumNodes_.length = 2 ∧
    (e.build env).state.inferenceNodes_.length = 1 := by
  obtain ⟨h1, h2, h3, h4, h5, h6, h7⟩ := (bucketsEmpty_iff e).mp hempty
  rw [(build_ok env e hbuild).2.2]
  simp only [builtEngine, h1, h2, h3, h4, h5, h6, h7, List.nil_append, mkNodes_length,
    allTerms_length, enabledRules_length, List.length_cons, List.length_nil]
  simp

/-- C1 on the sample engine with the enabled block 40 (two rules) and the
disabled block 45 (three rules): 2 input nodes, 3 term nodes, 3 hedge nodes, 2
firing strength nodes, 2 implication nodes. -/
theorem C1_layer_sizes_witness :
    (sampleEngine [40, 45]).bucketsEmpty = true ∧
    ((sampleEngine [40, 45]).build sampleEnv).thrown = none ∧
    ((sampleEngine [40, 45]).build sampleEnv).state.inputNodes_.length = 2 ∧
    ((sampleEngine [40, 45]).build sampleEnv).state.inputTermNodes_.length = 3 ∧
    ((sampleEngine [40, 45]).build sampleEnv).state.inputHedgeNodes_.length = 3 ∧
    ((sampleEngine [40, 45]).build sampleEnv).state.antecedentNodes_.length = 2 ∧
    ((sampleEngine [40, 45]).build sampleEnv).state.consequentNodes_.length = 2 ∧
    ((sampleEngine [40, 45]).build sampleEnv).state.sumNodes_.length = 2 ∧
    ((sampleEngine [40, 45]).build sampleEnv).state.inferenceNodes_.length = 1 := by
  have h := C1_layer_sizes sampleEnv (sampleEngine [40, 45]) (by decide) (by decide)
  refine ⟨by decide, by decide, ?_⟩
  simpa [sampleEngine, sampleEnv, Engine.create] using h

/-! ## What a failing `Engine::build` leaves behind -/

theorem layer3Extends_refl (e : Engine) : layer3Extends e e :=
  ⟨rfl, rfl, rfl, rfl, rfl, rfl, rfl, rfl, rfl, rfl, List.prefix_refl _, List.prefix_refl _,
    List.prefix_refl _, Nat.le_refl _⟩

theorem layer3Extends_trans {e1 e2 e3 : Engine} (h12 : layer3Extends e1 e2)
    (h23 : layer3Extends e2 e3) : layer3Extends e1 e3 := by
  obtain ⟨a1, a2, a3, a4, a5, a6, a7, a8, a9, a10, a11, a12, a13, a14⟩ := h12
  obtain ⟨b1, b2, b3, b4, b5, b6, b7, b8, b9, b10, b11, b12, b13, b14⟩ := h23
  exact ⟨b1.trans a1, b2.trans a2, b3.trans a3, b4.trans a4, b5.trans a5, b6.trans a6,
    b7.trans a7, b8.trans a8, b9.trans a9, b10.trans a10, a11.trans b11, a12.trans b12,
    a13.trans b13, Nat.le_trans a14 b14⟩

theorem connectAntecedent_extends (p_node : Ptr) (pairs : List (Ptr × Bool)) (s : BuildState) :
    layer3Extends s.engine (connectAntecedent p_node pairs s).state.engine := by
  induction pairs generalizing s with
  | nil => exact layer3Extends_refl _
  | cons pr rest ih =>
    obtain ⟨t, neg⟩ := pr
    simp only [connectAntecedent]
    cases hl : (if neg = true then s.notTermNodeMap else s.termNodeMap).atKey t with
    | none => exact layer3Extends_refl _
    | some v =>
      refine layer3Extends_trans ?_ (ih _)
      exact ⟨rfl, rfl, rfl, rfl, rfl, rfl, rfl, rfl, rfl, rfl, List.prefix_refl _,
        List.prefix_append _ _, List.prefix_append _ _, Nat.le_refl _⟩

theorem buildLayer3Rule_extends {α : Type} (env : Env α) (block : RuleBlock) (p_rule : Ptr)
    (s : BuildState) :
    layer3Extends s.engine (buildLayer3Rule env block p_rule s).state.engine := by
  unfold buildLayer3Rule
  cases hf : flattenRuleAntecedent (env.rule p_rule).antecedent Flat.empty with
  | error err => exact layer3Extends_refl _
  | ok g =>
    refine layer3Extends_trans ?_ (connectAntecedent_extends _ _ _)
    exact ⟨rfl, rfl, rfl, rfl, rfl, rfl, rfl, rfl, rfl, rfl, List.prefix_append _ _,
      List.prefix_refl _, List.prefix_refl _, Nat.le_succ _⟩

theorem andThen_extends (o : Outcome BuildState) (f : BuildState → Outcome BuildState)
    (e : Engine) (ho : layer3Extends e o.state.engine)
    (hf : ∀ s, layer3Extends s.engine (f s).state.engine) :
    layer3Extends e (o.andThen f).state.engine := by
  unfold Outcome.andThen
  cases h : o.thrown with
  | some err => exact ho
  | none => exact layer3Extends_trans ho (hf _)

theorem buildLayer3Rules_extends {α : Type} (env : Env α) (block : RuleBlock)
    (rules : List Ptr) (s : BuildState) :
    layer3Extends s.engine (buildLayer3Rules env block rules s).state.engine := by
  induction rules generalizing s with
  | nil => exact layer3Extends_refl _
  | cons r rest ih =>
    simp only [buildLayer3Rules]
    exact andThen_extends _ _ _ (buildLayer3Rule_extends env block r s) ih

theorem buildLayer3_extends {α : Type} (env : Env α) (blocks : List Ptr) (s : BuildState) :
    layer3Extends s.engine (buildLayer3 env blocks s).state.engine := by
  induction blocks generalizing s with
  | nil => exact layer3Extends_refl _
  | cons b rest ih =>
    simp only [buildLayer3]
    split_ifs
    · exact ih s
    · exact andThen_extends _ _ _ (buildLayer3Rules_extends env _ _ s) ih

/-- When `Engine::build` throws after `check()`, the engine is left as layer 3
left it. -/
theorem build_failed_state {α : Type} (env : Env α) (e : Engine)
    (hc : e.outputs_.length = 1) (h : (e.build env).thrown ≠ none) :
    (e.build env).state = (buildLayer3 env e.ruleBlocks_ (afterLayer2 env e)).state.engine := by
  have hcheck : e.check = none := by simp [Engine.check, hc]
  unfold Engine.build at h ⊢
  simp only [hcheck] at h ⊢
  rw [buildLayers_thrown] at h
  rw [buildLayers_eq_layer3]
  cases h3 : (buildLayer3 env e.ruleBlocks_ (afterLayer2 env e)).thrown with
  | none => exact absurd h3 h
  | some err => simp [Outcome.andThen, h3]

theorem build_check_failed {α : Type} (env : Env α) (e : Engine)
    (h : e.outputs_.length ≠ 1) : e.build env = ⟨some .structural, e⟩ := by
  simp [Engine.build, Engine.check, h]

/-! ## C6 -/

/-- C6: `check()` returns normally exactly when the engine has one output
variable; otherwise `build()` throws the structural error of `check()` and
leaves the whole engine, node buckets and adjacency maps included, as it was. -/
theorem C6_check_single_output {α : Type} (env : Env α) (e : Engine) :
    (e.check = none ↔ e.outputs_.length = 1) ∧
    (e.outputs_.length ≠ 1 → e.build env = ⟨some .structural, e⟩) := by
  constructor
  · unfold Engine.check
    by_cases h : e.outputs_.length = 1 <;> simp [h]
  · exact build_check_failed env e

/-- C6 on the sample engine: one output variable passes `check()`; with two
output variables `build()` throws and changes nothing. -/
theorem C6_check_single_output_witness :
    (sampleEngine [40]).check = none ∧
    ({ sampleEngine [40] with outputs_ := [30, 31] } : Engine).build sampleEnv =
      ⟨some .structural, { sampleEngine [40] with outputs_ := [30, 31] }⟩ :=
  ⟨(C6_check_single_output sampleEnv (sampleEngine [40])).1.mpr (by decide),
    (C6_check_single_output sampleEnv { sampleEngine [40] with outputs_ := [30, 31] }).2
      (by decide)⟩

/-! ## C5 -/

/-- C5, counterexample: on the fresh sample engine whose only rule mixes AND
with OR, `build()` throws and leaves two input nodes, three term nodes and
three hedge nodes in the buckets, with their six connections. -/
theorem C5_counterexample_nodes_left_behind :
    (sampleEngine [41]).bucketsEmpty = true ∧ (sampleEngine [41]).inConns_ = [] ∧
    ((sampleEngine [41]).build sampleEnv).thrown = some .mixedConnectives ∧
    ((sampleEngine [41]).build sampleEnv).state.inputNodes_ = [⟨1000, 10⟩, ⟨1001, 11⟩] ∧
    ((sampleEngine [41]).build sampleEnv).state.inputTermNodes_ =
      [⟨1002, 20⟩, ⟨1003, 21⟩, ⟨1004, 22⟩] ∧
    ((sampleEngine [41]).build sampleEnv).state.inputHedgeNodes_ =
      [⟨1005, "not"⟩, ⟨1006, "not"⟩, ⟨1007, "not"⟩] ∧
    ((sampleEngine [41]).build sampleEnv).state.inConns_ =
      [(1002, 1000), (1003, 1000), (1004, 1001), (1005, 1002), (1006, 1003), (1007, 1004)] := by
  decide

/-- C5, amended: a `build()` that fails in `check()` leaves the engine exactly
as it was.  A `build()` that fails later undoes nothing: the variables and rule
blocks are unchanged, the input, term and hedge buckets have gained the nodes
of layers 0 to 2 (one input node per input variable, one term node and one
hedge node per term), the firing strength bucket and both adjacency maps
extend what they were before the call, and the implication, sum and
normalization buckets are as before the call. -/
theorem C5_failed_build_amended {α : Type} (env : Env α) (e : Engine)
    (h : (e.build env).thrown ≠ none) :
    (e.outputs_.length ≠ 1 → (e.build env).state = e) ∧
    (e.outputs_.length = 1 →
      (e.build env).state.name_ = e.name_ ∧
      (e.build env).state.inputs_ = e.inputs_ ∧
      (e.build env).state.outputs_ = e.outputs_ ∧
      (e.build env).state.ruleBlocks_ = e.ruleBlocks_ ∧
      (e.build env).state.inputNodes_ =
        e.inputNodes_ ++ mkNodes (fun a p => ⟨a, p⟩) e.heapNext e.inputs_ ∧
      (e.build env).state.inputTermNodes_ =
        e.inputTermNodes_ ++ mkNodes (fun a t => ⟨a, t⟩) (e.heapNext + e.inputs_.length)
          (allTerms env e.inputs_) ∧
      (e.build env).state.inputHedgeNodes_ =
        e.inputHedgeNodes_ ++ mkNodes (fun a _ => ⟨a, notKeyword⟩)
          (e.heapNext + e.inputs_.length + (allTerms env e.inputs_).length)
          (allTerms env e.inputs_) ∧
      e.antecedentNodes_ <+: (e.build env).state.antecedentNodes_ ∧
      (e.build env).state.consequentNodes_ = e.consequentNodes_ ∧
      (e.build env).state.sumNodes_ = e.sumNodes_ ∧
      (e.build env).state.inferenceNodes_ = e.inferenceNodes_ ∧
      e.inConns_ <+: (e.build env).state.inConns_ ∧
      e.outConns_ <+: (e.build env).state.outConns_) := by
  constructor
  · intro hc
    rw [build_check_failed env e hc]
  · intro hc
    rw [build_failed_state env e hc h]
    obtain ⟨a1, a2, a3, a4, a5, a6, a7, a8, a9, a10, a11, a12, a13, -⟩ :=
      buildLayer3_extends env e.ruleBlocks_ (afterLayer2 env e)
    refine ⟨a1, a2, a3, a4, a5, a6, a7, a11, a8, a9, a10, ?_, ?_⟩
    · exact (List.prefix_append _ _).trans a12
    · exact (List.prefix_append _ _).trans a13

/-- C5, amended, on the sample engine whose only rule mixes AND with OR. -/
theorem C5_failed_build_amended_witness :
    ((sampleEngine [41]).build sampleEnv).thrown ≠ none ∧
    ((sampleEngine [41]).build sampleEnv).state.inputNodes_ =
      (sampleEngine [41]).inputNodes_ ++
        mkNodes (fun a p => ⟨a, p⟩) (sampleEngine [41]).heapNext (sampleEngine [41]).inputs_ ∧
    ((sampleEngine [41]).build sampleEnv).state.sumNodes_ = (sampleEngine [41]).sumNodes_ :=
  ⟨by decide,
    ((C5_failed_build_amended sampleEnv (sampleEngine [41]) (by decide)).2 (by decide)).2.2.2.2.1,
    ((C5_failed_build_amended sampleEnv (sampleEngine [41]) (by decide)).2
      (by decide)).2.2.2.2.2.2.2.2.2.1⟩

/-! ## C4 -/

theorem scanOperators_none_iff (ns : List String) (hne : ∀ n ∈ ns, n ≠ "") :
    scanOperators ns "" = none ↔ ∃ n ∈ ns, ∃ m ∈ ns, n ≠ m := by
  cases ns with
  | nil => simp [scanOperators]
  | cons n rest =>
    have hn : n ≠ "" := hne n (List.mem_cons_self _ _)
    simp only [scanOperators, if_true]
    rw [scanOperators_of_ne_empty rest n hn]
    constructor
    · intro h
      by_cases hall : ∀ m ∈ rest, m = n
      · rw [if_pos hall] at h
        exact absurd h (by simp)
      · push_neg at hall
        obtain ⟨m, hm, hmn⟩ := hall
        exact ⟨m, List.mem_cons_of_mem _ hm, n, List.mem_cons_self _ _, hmn⟩
    · rintro ⟨a, ha, b, hb, hab⟩
      by_cases hall : ∀ m ∈ rest, m = n
      · exfalso
        apply hab
        have ha2 : a = n := by
          rcases List.mem_cons.mp ha with h | h
          · exact h
          · exact hall a h
        have hb2 : b = n := by
          rcases List.mem_cons.mp hb with h | h
          · exact h
          · exact hall b h
        rw [ha2, hb2]
      · simp [hall]

theorem flattenRuleAntecedent_error_iff (t : Expression) :
    flattenRuleAntecedent t Flat.empty = .error .mixedConnectives ↔
      scanOperators t.operatorNames "" = none := by
  rw [flattenRuleAntecedent_empty_eq]
  cases scanOperators t.operatorNames "" <;> simp

/-- C4, counterexample: the tree `((1 IS 2) and (3 IS 4)) "" (5 IS 6)` has the
two operator names "" and "and", yet it is flattened without error: an operator
whose name is the empty string leaves the connective unset. -/
theorem C4_counterexample_empty_operator_name :
    (∃ n ∈ (Expression.operator "" (.operator "and" (.proposition 1 [] 2) (.proposition 3 [] 4))
        (.proposition 5 [] 6)).operatorNames,
      ∃ m ∈ (Expression.operator "" (.operator "and" (.proposition 1 [] 2)
        (.proposition 3 [] 4)) (.proposition 5 [] 6)).operatorNames, n ≠ m) ∧
    flattenRuleAntecedent
      (.operator "" (.operator "and" (.proposition 1 [] 2) (.proposition 3 [] 4))
        (.proposition 5 [] 6)) Flat.empty =
      .ok { vars := [1, 3, 5], terms := [2, 4, 6], nots := [false, false, false],
            opKeyword := "and" } := by
  refine ⟨⟨"", ?_, "and", ?_, by decide⟩, rfl⟩ <;> simp [Expression.operatorNames]

/-- C4, amended: for a tree none of whose operators is named by the empty
string, `flattenRuleAntecedent` (started with an empty connective) throws the
mixed-connectives error if and only if two operator nodes of the tree have
different names; every tree whose operators all share one name is flattened
without error; and `build()` fails on every engine that has, in an enabled rule
block, a rule whose antecedent is `(x IS A) and (y IS B) or (z IS C)`. -/
theorem C4_mixed_connectives_amended :
    (∀ t : Expression, (∀ n ∈ t.operatorNames, n ≠ "") →
      (flattenRuleAntecedent t Flat.empty = .error .mixedConnectives ↔
        ∃ n ∈ t.operatorNames, ∃ m ∈ t.operatorNames, n ≠ m)) ∧
    (∀ (t : Expression) (name : String), (∀ n ∈ t.operatorNames, n = name) →
      ∃ g, flattenRuleAntecedent t Flat.empty = .ok g) ∧
    (∀ (α : Type) (env : Env α) (e : Engine) (p_block p_rule : Ptr) (x y z : Expression),
      p_block ∈ e.ruleBlocks_ → (env.ruleBlock p_block).enabled = true →
      p_rule ∈ (env.ruleBlock p_block).rules →
      (env.rule p_rule).antecedent = .operator orKeyword (.operator andKeyword x y) z →
      (e.build env).thrown ≠ none) := by
  refine ⟨?_, ?_, ?_⟩
  · intro t hne
    rw [flattenRuleAntecedent_error_iff, scanOperators_none_iff _ hne]
  · intro t name hshare
    rw [flattenRuleAntecedent_empty_eq, scanOperators_shared _ _ hshare]
    exact ⟨_, rfl⟩
  · intro α env e p_block p_rule x y z hb hen hr hant hbuild
    obtain ⟨-, hrules, -⟩ := build_ok env e hbuild
    simp only [rulesOk, List.all_eq_true, Bool.and_eq_true] at hrules
    have hflat := (hrules _ (mem_enabledRules env _ _ _ hb hen hr)).1
    have herr : flattenRuleAntecedent (env.rule p_rule).antecedent Flat.empty =
        .error .mixedConnectives := by
      rw [hant]
      simp [flattenRuleAntecedent, flattenRuleAntecedentRec, Flat.empty, orKeyword,
        andKeyword]
    simp [herr] at hflat

/-- C4, amended, on the tree `((1 IS 2) and (3 IS 4)) or (5 IS 6)` and on the
sample engine whose rule 52 has this antecedent. -/
theorem C4_mixed_connectives_amended_witness :
    flattenRuleAntecedent
      (.operator "or" (.operator "and" (.proposition 1 [] 2) (.proposition 3 [] 4))
        (.proposition 5 [] 6)) Flat.empty = .error .mixedConnectives ∧
    ((sampleEngine [41]).build sampleEnv).thrown ≠ none :=
  ⟨(C4_mixed_connectives_amended.1 _ (by simp [Expression.operatorNames])).mpr
      ⟨"or", by simp [Expression.operatorNames], "and", by simp [Expression.operatorNames],
        by decide⟩,
    C4_mixed_connectives_amended.2.2 Num sampleEnv (sampleEngine [41]) 41 52
      (.proposition 10 [] 20) (.proposition 11 [] 22) (.proposition 10 [] 21)
      (by decide) (by decide) (by decide) (by decide)⟩

/-! ## The predecessors of the nodes of a built engine -/

/-- A freshly constructed engine has no stale connection. -/
theorem heapSane_create (name : String) (heapNext : Ptr) :
    (Engine.create name heapNext).heapSane = true := rfl

/-- A cleared engine has no stale connection. -/
theorem heapSane_clear (e : Engine) : e.clear.heapSane = true := rfl

theorem find_append (a b : ConnMap) (k : Ptr) : (a ++ b).find k = a.find k ++ b.find k := by
  simp [ConnMap.find]

theorem find_map_key (n k : Ptr) (ps : List Ptr) :
    ConnMap.find (ps.map (fun p => (n, p))) k = if n = k then ps else [] := by
  unfold ConnMap.find
  by_cases h : n = k
  · subst h
    simp [List.filter_map, Function.comp_def]
  · simp [List.filter_map, Function.comp_def, h]

theorem find_connsInto (n : Ptr) (preds : List (List Ptr)) (k : Ptr) :
    (connsInto n preds).find k = if n ≤ k then (preds[k - n]?).getD [] else [] := by
  induction preds generalizing n with
  | nil => simp [connsInto, ConnMap.find]
  | cons ps rest ih =>
    simp only [connsInto, find_append, find_map_key, ih]
    by_cases h1 : n = k
    · subst h1
      simp
    · unfold Ptr at *
      by_cases h2 : n ≤ k
      · have h3 : n + 1 ≤ k := by omega
        have h4 : k - n = (k - (n + 1)) + 1 := by omega
        simp only [h1, h2, h3, if_true, if_false, List.nil_append]
        rw [h4, List.getElem?_cons_succ]
      · have h3 : ¬ n + 1 ≤ k := by omega
        simp [h1, h2, h3]

theorem connsInto_nils (n : Ptr) {β : Type} (xs : List β) :
    connsInto n (xs.map (fun _ => ([] : List Ptr))) = [] := by
  induction xs generalizing n with
  | nil => rfl
  | cons x rest ih => simp only [List.map_cons, connsInto, ih, List.map_nil, List.nil_append]

theorem find_of_heapSane (e : Engine) (hs : e.heapSane = true) (k : Ptr)
    (hk : e.heapNext ≤ k) : e.inConns_.find k = [] := by
  simp only [Engine.heapSane, List.all_eq_true, decide_eq_true_eq] at hs
  simp only [ConnMap.find, List.map_eq_nil_iff, List.filter_eq_nil_iff, decide_eq_true_eq]
  intro kv hkv hc
  have := hs kv hkv
  unfold Ptr at *
  omega

theorem atKey_eq_find (m : ConnMap) (k : Ptr) :
    m.atKey k = if m.find k = [] then .error .outOfRange else .ok (m.find k) := by
  unfold ConnMap.atKey
  by_cases h : m.find k = []
  · have hany : m.any (fun kv => decide (kv.1 = k)) = false := by
      simp only [ConnMap.find, List.map_eq_nil_iff, List.filter_eq_nil_iff] at h
      simp only [List.any_eq_false]
      exact h
    simp [h, hany]
  · have hany : m.any (fun kv => decide (kv.1 = k)) = true := by
      by_contra hc
      apply h
      simp only [Bool.not_eq_true, List.any_eq_false] at hc
      simp only [ConnMap.find, List.map_eq_nil_iff, List.filter_eq_nil_iff]
      intro a ha
      simpa using hc a ha
    simp [h, hany]

theorem builtEngine_inConns {α : Type} (env : Env α) (e : Engine) :
    (builtEngine env e).inConns_ = e.inConns_ ++ connsInto e.heapNext (builtPreds env e) := by
  simp only [builtPreds, connsInto_append, connsInto_nils, List.nil_append, List.length_map,
    allOwners_length, Nat.add_assoc]
  simp only [builtEngine, Nat.add_assoc, Nat.reduceAdd, List.length_cons, List.length_nil,
    Nat.zero_add]

/-- The vector `inConns_` holds for the node at address `e.heapNext + i` of a built engine. -/
theorem built_find {α : Type} (env : Env α) (e : Engine) (hs : e.heapSane = true) (i : Nat) :
    (builtEngine env e).inConns_.find (e.heapNext + i) = ((builtPreds env e)[i]?).getD [] := by
  rw [builtEngine_inConns, find_append, find_of_heapSane e hs _ (Nat.le_add_right _ _),
    find_connsInto]
  simp

theorem getElem?_skip {β : Type} (A B : List β) (n i : Nat) (h : A.length = n) :
    (A ++ B)[n + i]? = B[i]? := by
  subst h
  rw [List.getElem?_append_right (Nat.le_add_right _ _), Nat.add_sub_cancel_left]

theorem getElem?_keep {β : Type} (A B : List β) (i : Nat) (x : β) (h : A[i]? = some x) :
    (A ++ B)[i]? = some x := by
  obtain ⟨hi, -⟩ := List.getElem?_eq_some.mp h
  rw [List.getElem?_append_left hi, h]

theorem slot_getElem? (ks : List Ptr) (k : Ptr) (h : k ∈ ks) : ks[slot ks k]? = some k := by
  have := lastIndexOf_isSome_of_mem ks k h
  obtain ⟨i, hi⟩ := Option.isSome_iff_exists.mp this
  rw [slot, hi]
  exact lastIndexOf_some ks k i hi

theorem slot_lt (ks : List Ptr) (k : Ptr) (h : k ∈ ks) : slot ks k < ks.length := by
  obtain ⟨hi, -⟩ := List.getElem?_eq_some.mp (slot_getElem? ks k h)
  exact hi

theorem builtPreds_input {α : Type} (env : Env α) (e : Engine) (i : Nat)
    (hi : i < e.inputs_.length) : (builtPreds env e)[i]? = some [] := by
  unfold builtPreds
  apply getElem?_keep
  rw [List.getElem?_map, List.getElem?_eq_getElem hi]
  rfl

theorem builtPreds_term {α : Type} (env : Env α) (e : Engine) (j : Nat) (p : Ptr)
    (hj : (allOwners env e.inputs_)[j]? = some p) :
    (builtPreds env e)[e.inputs_.length + j]? = some [e.heapNext + slot e.inputs_ p] := by
  unfold builtPreds
  rw [getElem?_skip _ _ _ _ (by simp)]
  apply getElem?_keep
  rw [List.getElem?_map, hj]
  rfl

theorem builtPreds_hedge {α : Type} (env : Env α) (e : Engine) (j : Nat) (t : Ptr)
    (hj : (allTerms env e.inputs_)[j]? = some t) :
    (builtPreds env e)[e.inputs_.length + ((allTerms env e.inputs_).length + j)]? =
      some [e.heapNext + e.inputs_.length + slot (allTerms env e.inputs_) t] := by
  unfold builtPreds
  rw [getElem?_skip _ _ _ _ (by simp), getElem?_skip _ _ _ _ (by simp [allOwners_length])]
  apply getElem?_keep
  rw [List.getElem?_map, hj]
  rfl

theorem builtPreds_firing {α : Type} (env : Env α) (e : Engine) (k : Nat) (br : RuleBlock × Ptr)
    (hk : (enabledRules env e.ruleBlocks_)[k]? = some br) :
    (builtPreds env e)[e.inputs_.length + ((allTerms env e.inputs_).length +
        ((allTerms env e.inputs_).length + k))]? =
      some ((flatPairs env br.2).map (fun pr =>
        (if pr.2 then e.heapNext + e.inputs_.length + (allTerms env e.inputs_).length
          else e.heapNext + e.inputs_.length) + slot (allTerms env e.inputs_) pr.1)) := by
  unfold builtPreds
  rw [getElem?_skip _ _ _ _ (by simp), getElem?_skip _ _ _ _ (by simp [allOwners_length]),
    getElem?_skip _ _ _ _ (by simp)]
  apply getElem?_keep
  rw [List.getElem?_map, hk]
  rfl

theorem builtPreds_implication {α : Type} (env : Env α) (e : Engine) (k : Nat)
    (br : RuleBlock × Ptr) (hk : (enabledRules env e.ruleBlocks_)[k]? = some br) :
    (builtPreds env e)[e.inputs_.length + ((allTerms env e.inputs_).length +
        ((allTerms env e.inputs_).length + ((enabledRules env e.ruleBlocks_).length + k)))]? =
      some [e.heapNext + e.inputs_.length + (allTerms env e.inputs_).length +
        (allTerms env e.inputs_).length +
        slot ((enabledRules env e.ruleBlocks_).map Prod.snd) br.2] := by
  unfold builtPreds
  rw [getElem?_skip _ _ _ _ (by simp), getElem?_skip _ _ _ _ (by simp [allOwners_length]),
    getElem?_skip _ _ _ _ (by simp), getElem?_skip _ _ _ _ (by simp)]
  apply getElem?_keep
  rw [List.getElem?_map, hk]
  rfl

theorem builtPreds_tail {α : Type} (env : Env α) (e : Engine) (i : Nat) :
    (builtPreds env e)[e.inputs_.length + ((allTerms env e.inputs_).length +
        ((allTerms env e.inputs_).length + ((enabledRules env e.ruleBlocks_).length +
          ((enabledRules env e.ruleBlocks_).length + i))))]? =
      [(builtEngine env e).consequentNodes_.map (fun n => n.addr),
        (builtEngine env e).antecedentNodes_.map (fun n => n.addr),
        (builtEngine env e).sumNodes_.map (fun n => n.addr)][i]? := by
  unfold builtPreds
  rw [getElem?_skip _ _ _ _ (by simp), getElem?_skip _ _ _ _ (by simp [allOwners_length]),
    getElem?_skip _ _ _ _ (by simp), getElem?_skip _ _ _ _ (by simp),
    getElem?_skip _ _ _ _ (by simp)]
  rfl

theorem built_find_term {α : Type} (env : Env α) (e : Engine) (hs : e.heapSane = true)
    (j : Nat) (p : Ptr) (hj : (allOwners env e.inputs_)[j]? = some p) :
    (builtEngine env e).inConns_.find (e.heapNext + e.inputs_.length + j) =
      [e.heapNext + slot e.inputs_ p] := by
  rw [Nat.add_assoc, built_find env e hs, builtPreds_term env e j p hj]
  rfl

theorem built_find_hedge {α : Type} (env : Env α) (e : Engine) (hs : e.heapSane = true)
    (j : Nat) (t : Ptr) (hj : (allTerms env e.inputs_)[j]? = some t) :
    (builtEngine env e).inConns_.find
        (e.heapNext + e.inputs_.length + (allTerms env e.inputs_).length + j) =
      [e.heapNext + e.inputs_.length + slot (allTerms env e.inputs_) t] := by
  rw [Nat.add_assoc, Nat.add_assoc, built_find env e hs, builtPreds_hedge env e j t hj]
  rfl

theorem built_find_firing {α : Type} (env : Env α) (e : Engine) (hs : e.heapSane = true)
    (k : Nat) (br : RuleBlock × Ptr) (hk : (enabledRules env e.ruleBlocks_)[k]? = some br) :
    (builtEngine env e).inConns_.find
        (e.heapNext + e.inputs_.length + (allTerms env e.inputs_).length +
          (allTerms env e.inputs_).length + k) =
      (flatPairs env br.2).map (fun pr =>
        (if pr.2 then e.heapNext + e.inputs_.length + (allTerms env e.inputs_).length
          else e.heapNext + e.inputs_.length) + slot (allTerms env e.inputs_) pr.1) := by
  rw [Nat.add_assoc, Nat.add_assoc, Nat.add_assoc, built_find env e hs,
    builtPreds_firing env e k br hk]
  rfl

theorem built_find_implication {α : Type} (env : Env α) (e : Engine) (hs : e.heapSane = true)
    (k : Nat) (br : RuleBlock × Ptr) (hk : (enabledRules env e.ruleBlocks_)[k]? = some br) :
    (builtEngine env e).inConns_.find
        (e.heapNext + e.inputs_.length + (allTerms env e.inputs_).length +
          (allTerms env e.inputs_).length + (enabledRules env e.ruleBlocks_).length + k) =
      [e.heapNext + e.inputs_.length + (allTerms env e.inputs_).length +
        (allTerms env e.inputs_).length +
        slot ((enabledRules env e.ruleBlocks_).map Prod.snd) br.2] := by
  rw [Nat.add_assoc, Nat.add_assoc, Nat.add_assoc, Nat.add_assoc, built_find env e hs,
    builtPreds_implication env e k br hk]
  rfl

theorem built_find_tail {α : Type} (env : Env α) (e : Engine) (hs : e.heapSane = true)
    (i : Nat) :
    (builtEngine env e).inConns_.find
        (e.heapNext + e.inputs_.length + (allTerms env e.inputs_).length +
          (allTerms env e.inputs_).length + (enabledRules env e.ruleBlocks_).length +
          (enabledRules env e.ruleBlocks_).length + i) =
      ([(builtEngine env e).consequentNodes_.map (fun n => n.addr),
        (builtEngine env e).antecedentNodes_.map (fun n => n.addr),
        (builtEngine env e).sumNodes_.map (fun n => n.addr)][i]?).getD [] := by
  rw [Nat.add_assoc, Nat.add_assoc, Nat.add_assoc, Nat.add_assoc, Nat.add_assoc,
    built_find env e hs, builtPreds_tail env e i]

theorem flatten_lengths (t : Expression) (g : Flat)
    (h : flattenRuleAntecedent t Flat.empty = .ok g) :
    g.vars.length = g.terms.length ∧ g.nots.length = g.terms.length := by
  rw [flattenRuleAntecedent_empty_eq] at h
  cases hs : scanOperators t.operatorNames "" with
  | none => simp [hs] at h
  | some kw =>
    simp only [hs, Except.ok.injEq] at h
    subst h
    simp

theorem flatOf_of_ok {α : Type} (env : Env α) (r : Ptr) (g : Flat)
    (h : flattenRuleAntecedent (env.rule r).antecedent Flat.empty = .ok g) :
    flatOf env r = g := by
  simp [flatOf, h]

theorem rulesOk_mem {α : Type} (env : Env α) (e : Engine) (h : rulesOk env e = true)
    (br : RuleBlock × Ptr) (hbr : br ∈ enabledRules env e.ruleBlocks_) :
    (∃ g, flattenRuleAntecedent (env.rule br.2).antecedent Flat.empty = .ok g) ∧
    ∀ pr ∈ flatPairs env br.2, pr.1 ∈ allTerms env e.inputs_ := by
  simp only [rulesOk, List.all_eq_true, Bool.and_eq_true, decide_eq_true_eq] at h
  obtain ⟨h1, h2⟩ := h br hbr
  refine ⟨?_, h2⟩
  cases hf : flattenRuleAntecedent (env.rule br.2).antecedent Flat.empty with
  | ok g => exact ⟨g, rfl⟩
  | error err => simp [hf] at h1

/-- The firing strength node of the `k`-th enabled rule in a built engine, its
predecessors, and the term and complement nodes they are. -/
theorem built_firing_node {α : Type} (env : Env α) (e : Engine) (hs : e.heapSane = true)
    (hrules : rulesOk env e = true) (k : Nat) (br : RuleBlock × Ptr)
    (hk : (enabledRules env e.ruleBlocks_)[k]? = some br) :
    ∃ (g : Flat) (node : RuleFiringStrengthNode),
      flattenRuleAntecedent (env.rule br.2).antecedent Flat.empty = .ok g ∧
      (builtEngine env e).antecedentNodes_[e.antecedentNodes_.length + k]? = some node ∧
      node.addr = e.heapNext + e.inputs_.length + (allTerms env e.inputs_).length +
        (allTerms env e.inputs_).length + k ∧
      ((builtEngine env e).inConns_.find node.addr).length = g.terms.length ∧
      (g.terms ≠ [] → (builtEngine env e).inputConnections node.addr =
        .ok ((builtEngine env e).inConns_.find node.addr)) ∧
      ∀ (i : Nat) (t : Ptr) (neg : Bool), g.terms[i]? = some t → g.nots[i]? = some neg →
        ∃ (tn : TermNode) (hn : HedgeNode),
          (builtEngine env e).inputTermNodes_[e.inputTermNodes_.length +
            slot (allTerms env e.inputs_) t]? = some tn ∧
          tn.p_term_ = t ∧
          tn.addr = e.heapNext + e.inputs_.length + slot (allTerms env e.inputs_) t ∧
          (builtEngine env e).inputHedgeNodes_[e.inputHedgeNodes_.length +
            slot (allTerms env e.inputs_) t]? = some hn ∧
          hn.addr = e.heapNext + e.inputs_.length + (allTerms env e.inputs_).length +
            slot (allTerms env e.inputs_) t ∧
          (builtEngine env e).inConns_.find hn.addr = [tn.addr] ∧
          ((builtEngine env e).inConns_.find node.addr)[i]? =
            some (if neg then hn.addr else tn.addr) := by
  obtain ⟨⟨g, hg⟩, hmem⟩ := rulesOk_mem env e hrules br (List.getElem?_mem hk)
  have hflat := flatOf_of_ok env br.2 g hg
  obtain ⟨-, hlen⟩ := flatten_lengths _ g hg
  have hfind := built_find_firing env e hs k br hk
  have hpairs : flatPairs env br.2 = g.terms.zip g.nots := by simp [flatPairs, hflat]
  refine ⟨g, ⟨e.heapNext + e.inputs_.length + (allTerms env e.inputs_).length +
    (allTerms env e.inputs_).length + k, firingNorm env br⟩, hg, ?_, rfl, ?_, ?_, ?_⟩
  · simp only [builtEngine]
    rw [getElem?_skip _ _ _ _ rfl, mkNodes_getElem?, hk]
    rfl
  · simp only [hfind, List.length_map, hpairs, List.length_zip, hlen, Nat.min_self]
  · intro hne
    simp only [Engine.inputConnections, atKey_eq_find]
    rw [if_neg]
    intro hnil
    have hl := congrArg List.length hnil
    simp only [hfind, List.length_map, hpairs, List.length_zip, hlen, Nat.min_self,
      List.length_nil] at hl
    exact hne (List.length_eq_zero.mp hl)
  · intro i t neg hti hni
    have hpi : (flatPairs env br.2)[i]? = some (t, neg) := by
      rw [hpairs, List.getElem?_zip_eq_some]
      exact ⟨hti, hni⟩
    have htm : t ∈ allTerms env e.inputs_ := hmem (t, neg) (List.getElem?_mem hpi)
    have hslot := slot_getElem? _ t htm
    refine ⟨⟨e.heapNext + e.inputs_.length + slot (allTerms env e.inputs_) t, t⟩,
      ⟨e.heapNext + e.inputs_.length + (allTerms env e.inputs_).length +
        slot (allTerms env e.inputs_) t, notKeyword⟩, ?_, rfl, rfl, ?_, rfl, ?_, ?_⟩
    · simp only [builtEngine]
      rw [getElem?_skip _ _ _ _ rfl, mkNodes_getElem?, hslot]
      rfl
    · simp only [builtEngine]
      rw [getElem?_skip _ _ _ _ rfl, mkNodes_getElem?, hslot]
      simp [Nat.add_assoc]
    · rw [built_find_hedge env e hs _ t hslot]
    · rw [hfind, List.getElem?_map, hpi]
      cases neg <;> simp

/-! ## C3 -/

/-- The predecessors of the firing strength nodes of an engine built from
empty buckets, by bucket position. -/
theorem built_firing_pred_address {α : Type} (env : Env α) (e : Engine)
    (hs : e.heapSane = true) (hempty : e.bucketsEmpty = true) (hrules : rulesOk env e = true)
    (k i : Nat) (node : RuleFiringStrengthNode) (p : Ptr)
    (hnode : (builtEngine env e).antecedentNodes_[k]? = some node)
    (hp : ((builtEngine env e).inConns_.find node.addr)[i]? = some p) :
    ∃ (br : RuleBlock × Ptr) (pr : Ptr × Bool),
      (enabledRules env e.ruleBlocks_)[k]? = some br ∧ (flatPairs env br.2)[i]? = some pr ∧
      slot (allTerms env e.inputs_) pr.1 < (allTerms env e.inputs_).length ∧
      p = (if pr.2 then e.heapNext + e.inputs_.length + (allTerms env e.inputs_).length
        else e.heapNext + e.inputs_.length) + slot (allTerms env e.inputs_) pr.1 := by
  obtain ⟨-, -, -, h4, -, -, -⟩ := (bucketsEmpty_iff e).mp hempty
  simp only [builtEngine, h4, List.nil_append, mkNodes_getElem?, Option.map_eq_some'] at hnode
  obtain ⟨br, hbr, hnode⟩ := hnode
  subst hnode
  simp only at hp
  rw [built_find_firing env e hs k br hbr, List.getElem?_map, Option.map_eq_some'] at hp
  obtain ⟨pr, hpr, hp⟩ := hp
  have hmem := (rulesOk_mem env e hrules br (List.getElem?_mem hbr)).2 pr
    (List.getElem?_mem hpr)
  exact ⟨br, pr, hbr, hpr, slot_lt _ _ hmem, hp.symm⟩

theorem built_term_bucket_addr {α : Type} (env : Env α) (e : Engine)
    (hempty : e.bucketsEmpty = true) (j : Nat) (p : Ptr) :
    ((builtEngine env e).inputTermNodes_[j]?).map (fun n => n.addr) = some p ↔
      j < (allTerms env e.inputs_).length ∧ p = e.heapNext + e.inputs_.length + j := by
  obtain ⟨-, h2, -, -, -, -, -⟩ := (bucketsEmpty_iff e).mp hempty
  simp only [builtEngine, h2, List.nil_append, mkNodes_getElem?, Option.map_map,
    Option.map_eq_some', Function.comp_def]
  constructor
  · rintro ⟨t, ht, rfl⟩
    exact ⟨(List.getElem?_eq_some.mp ht).1, rfl⟩
  · rintro ⟨hj, rfl⟩
    exact ⟨_, List.getElem?_eq_getElem hj, rfl⟩

theorem built_hedge_bucket_addr {α : Type} (env : Env α) (e : Engine)
    (hempty : e.bucketsEmpty = true) (j : Nat) (p : Ptr) :
    ((builtEngine env e).inputHedgeNodes_[j]?).map (fun n => n.addr) = some p ↔
      j < (allTerms env e.inputs_).length ∧
      p = e.heapNext + e.inputs_.length + (allTerms env e.inputs_).length + j := by
  obtain ⟨-, -, h3, -, -, -, -⟩ := (bucketsEmpty_iff e).mp hempty
  simp only [builtEngine, h3, List.nil_append, mkNodes_getElem?, Option.map_map,
    Option.map_eq_some', Function.comp_def]
  constructor
  · rintro ⟨t, ht, rfl⟩
    exact ⟨(List.getElem?_eq_some.mp ht).1, rfl⟩
  · rintro ⟨hj, rfl⟩
    exact ⟨_, List.getElem?_eq_getElem hj, rfl⟩

/-- C3: in an engine on which `build()` has succeeded, the firing strength node
created for the `k`-th rule of the enabled blocks has as many predecessors as
the flattened antecedent of the rule has terms (the accessor
`inputConnections` returns them when there is at least one), and its `i`-th
predecessor is the term node created for the `i`-th flattened term when the
`i`-th negated flag is false and the hedge node at the same bucket position,
whose single predecessor is that term node, when the flag is true.  The bucket
position of the term node is a function of the rule base alone; hence two
engines with the same input variables and rule blocks, both built from empty
buckets, have the predecessors of their firing strength nodes at identical
bucket positions. -/
theorem C3_firing_node_predecessors {α : Type} (env : Env α) (e : Engine)
    (hs : e.heapSane = true) (hbuild : (e.build env).thrown = none) :
    (∀ (k : Nat) (br : RuleBlock × Ptr), (enabledRules env e.ruleBlocks_)[k]? = some br →
      ∃ (g : Flat) (node : RuleFiringStrengthNode),
        flattenRuleAntecedent (env.rule br.2).antecedent Flat.empty = .ok g ∧
        (e.build env).state.antecedentNodes_[e.antecedentNodes_.length + k]? = some node ∧
        ((e.build env).state.inConns_.find node.addr).length = g.terms.length ∧
        (g.terms ≠ [] → (e.build env).state.inputConnections node.addr =
          .ok ((e.build env).state.inConns_.find node.addr)) ∧
        ∀ (i : Nat) (t : Ptr) (neg : Bool), g.terms[i]? = some t → g.nots[i]? = some neg →
          ∃ (tn : TermNode) (hn : HedgeNode),
            (e.build env).state.inputTermNodes_[e.inputTermNodes_.length +
              slot (allTerms env e.inputs_) t]? = some tn ∧
            tn.p_term_ = t ∧
            (e.build env).state.inputHedgeNodes_[e.inputHedgeNodes_.length +
              slot (allTerms env e.inputs_) t]? = some hn ∧
            (e.build env).state.inConns_.find hn.addr = [tn.addr] ∧
            ((e.build env).state.inConns_.find node.addr)[i]? =
              some (if neg then hn.addr else tn.addr)) ∧
    (∀ e2 : Engine, e.bucketsEmpty = true → e2.bucketsEmpty = true → e2.heapSane = true →
      (e2.build env).thrown = none → e2.inputs_ = e.inputs_ → e2.ruleBlocks_ = e.ruleBlocks_ →
      ∀ (k i : Nat) (node node2 : RuleFiringStrengthNode) (p p2 : Ptr),
        (e.build env).state.antecedentNodes_[k]? = some node →
        (e2.build env).state.antecedentNodes_[k]? = some node2 →
        ((e.build env).state.inConns_.find node.addr)[i]? = some p →
        ((e2.build env).state.inConns_.find node2.addr)[i]? = some p2 →
        ∀ j : Nat,
          (((e.build env).state.inputTermNodes_[j]?).map (fun n => n.addr) = some p ↔
            ((e2.build env).state.inputTermNodes_[j]?).map (fun n => n.addr) = some p2) ∧
          (((e.build env).state.inputHedgeNodes_[j]?).map (fun n => n.addr) = some p ↔
            ((e2.build env).state.inputHedgeNodes_[j]?).map (fun n => n.addr) = some p2)) := by
  obtain ⟨-, hrules, hstate⟩ := build_ok env e hbuild
  rw [hstate]
  constructor
  · intro k br hk
    obtain ⟨g, node, h1, h2, -, h4, h5, h6⟩ := built_firing_node env e hs hrules k br hk
    refine ⟨g, node, h1, h2, h4, h5, ?_⟩
    intro i t neg hti hni
    obtain ⟨tn, hn, a1, a2, -, a4, -, a6, a7⟩ := h6 i t neg hti hni
    exact ⟨tn, hn, a1, a2, a4, a6, a7⟩
  · intro e2 hempty hempty2 hs2 hbuild2 hin hrb k i node node2 p p2 hn1 hn2 hp1 hp2 j
    obtain ⟨-, hrules2, hstate2⟩ := build_ok env e2 hbuild2
    rw [hstate2] at hn2 hp2 ⊢
    obtain ⟨br, pr, hbr, hpr, hlt, hpe⟩ :=
      built_firing_pred_address env e hs hempty hrules k i node p hn1 hp1
    obtain ⟨br2, pr2, hbr2, hpr2, -, hpe2⟩ :=
      built_firing_pred_address env e2 hs2 hempty2 hrules2 k i node2 p2 hn2 hp2
    rw [hrb, hbr, Option.some.injEq] at hbr2
    subst hbr2
    rw [hpr, Option.some.injEq] at hpr2
    subst hpr2
    rw [hin] at hpe2
    rw [built_term_bucket_addr env e hempty, built_term_bucket_addr env e2 hempty2,
      built_hedge_bucket_addr env e hempty, built_hedge_bucket_addr env e2 hempty2, hin, hpe,
      hpe2]
    unfold Ptr at *
    cases hneg : pr.2 <;> simp only [hneg, if_true, if_false, Bool.false_eq_true] <;>
      constructor <;> constructor <;> rintro ⟨h1, h2⟩ <;> refine ⟨h1, ?_⟩ <;> omega

/-- C3 on the sample engine: the firing strength node of rule 50,
`(10 IS 20) and (11 IS not 22)`, has two predecessors. -/
theorem C3_firing_node_predecessors_witness :
    (sampleEngine [40, 45]).heapSane = true ∧
    ((sampleEngine [40, 45]).build sampleEnv).thrown = none ∧
    ∃ (g : Flat) (node : RuleFiringStrengthNode),
      flattenRuleAntecedent (sampleEnv.rule 50).antecedent Flat.empty = .ok g ∧
      ((sampleEngine [40, 45]).build sampleEnv).state.antecedentNodes_[0]? = some node ∧
      (((sampleEngine [40, 45]).build sampleEnv).state.inConns_.find node.addr).length =
        g.terms.length := by
  refine ⟨by decide, by decide, ?_⟩
  obtain ⟨g, node, h1, h2, h3, -, -⟩ :=
    (C3_firing_node_predecessors sampleEnv (sampleEngine [40, 45]) (by decide) (by decide)).1 0
      (sampleEnv.ruleBlock 40, 50) (by decide)
  exact ⟨g, node, h1, by simpa [sampleEngine, Engine.create] using h2, h3⟩

/-! ## C9 -/

theorem noNull_leaves_length (t : Expression) (h : t.noNull = true) :
    t.leaves.length = t.operatorNames.length + 1 := by
  induction t with
  | proposition v hs tm => rfl
  | null => simp [Expression.noNull] at h
  | operator name l r ihl ihr =>
    simp only [Expression.noNull, Bool.and_eq_true] at h
    simp only [Expression.leaves, Expression.operatorNames, List.length_append,
      List.length_cons, ihl h.1, ihr h.2]
    omega

theorem chain_leaves (op : String) (ys : List (Ptr × Ptr × Bool)) (a : Expression) :
    (ys.foldl (fun acc y => Expression.operator op acc (rebuildLeaf y)) a).leaves =
      a.leaves ++ ys.map (fun y => (y.1, (if y.2.2 then [⟨notKeyword⟩] else []), y.2.1)) := by
  induction ys generalizing a with
  | nil => simp
  | cons y rest ih =>
    rw [List.foldl_cons, ih]
    simp only [Expression.leaves, rebuildLeaf, List.map_cons,
      List.append_assoc, List.singleton_append]

theorem chain_operatorNames (op : String) (ys : List (Ptr × Ptr × Bool)) (a : Expression)
    (ha : a.operatorNames = []) :
    (∀ n ∈ (ys.foldl (fun acc y => Expression.operator op acc (rebuildLeaf y)) a).operatorNames,
      n = op) ∧
    ((ys.foldl (fun acc y => Expression.operator op acc (rebuildLeaf y)) a).operatorNames = [] ↔
      ys = []) := by
  suffices hgen : ∀ (b : Expression), (∀ n ∈ b.operatorNames, n = op) →
      (∀ n ∈ (ys.foldl (fun acc y => Expression.operator op acc (rebuildLeaf y))
        b).operatorNames, n = op) ∧
      ((ys.foldl (fun acc y => Expression.operator op acc (rebuildLeaf y)) b).operatorNames = []
        ↔ ys = [] ∧ b.operatorNames = []) by
    obtain ⟨h1, h2⟩ := hgen a (by simp [ha])
    exact ⟨h1, by simp [h2, ha]⟩
  induction ys with
  | nil => intro b hb; simpa using hb
  | cons y rest ih =>
    intro b hb
    simp only [List.foldl_cons]
    have hb2 : ∀ n ∈ (Expression.operator op b (rebuildLeaf y)).operatorNames, n = op := by
      intro n hn
      simp only [Expression.operatorNames, rebuildLeaf, List.append_nil, List.mem_cons] at hn
      rcases hn with hn | hn
      · exact hn
      · exact hb n hn
    obtain ⟨h1, h2⟩ := ih _ hb2
    refine ⟨h1, ?_⟩
    rw [h2]
    simp [Expression.operatorNames]

theorem negated_rebuilt (b : Bool) :
    negated (if b = true then [⟨notKeyword⟩] else []) = b := by
  cases b <;> simp [negated]

theorem zip_flat_leaves (L : List (Ptr × List Hedge × Ptr)) :
    (L.map (fun l => l.1)).zip ((L.map (fun l => l.2.2)).zip (L.map (fun l => negated l.2.1))) =
      L.map (fun l => (l.1, l.2.2, negated l.2.1)) := by
  induction L with
  | nil => rfl
  | cons l rest ih => simp [ih]

/-- Flattening the re-built antecedent gives back the four outputs. -/
theorem flatten_rebuild (t : Expression) (g : Flat)
    (hflat : flattenRuleAntecedent t Flat.empty = .ok g) (hnull : t.noNull = true) :
    flattenRuleAntecedent (rebuild g) Flat.empty = .ok g := by
  have hlen := noNull_leaves_length t hnull
  rw [flattenRuleAntecedent_empty_eq] at hflat
  cases hs : scanOperators t.operatorNames "" with
  | none => simp [hs] at hflat
  | some kw0 =>
    simp only [hs, Except.ok.injEq] at hflat
    cases hL : t.leaves with
    | nil => simp [hL] at hlen
    | cons l rest =>
      have hop : g.opKeyword ≠ "" := by
        rw [← hflat]
        simp only [hL]
        by_cases hk : kw0 = ""
        · simp [hk, andKeyword]
        · simp [hk]
      have hsingle : rest = [] → g.opKeyword = andKeyword := by
        intro hr
        have hnames : t.operatorNames = [] := by
          rw [hL, hr] at hlen
          simpa using hlen
        rw [hnames] at hs
        simp only [scanOperators, Option.some.injEq] at hs
        rw [← hflat, ← hs]
        simp [hL]
      have hzip : g.vars.zip (g.terms.zip g.nots) =
          (l.1, l.2.2, negated l.2.1) ::
            rest.map (fun l => (l.1, l.2.2, negated l.2.1)) := by
        rw [← hflat]
        simp only [hL]
        rw [zip_flat_leaves]
        rfl
      unfold rebuild
      rw [hzip]
      simp only
      rw [flattenRuleAntecedent_empty_eq]
      obtain ⟨hall, hnil⟩ := chain_operatorNames g.opKeyword
        (rest.map (fun l => (l.1, l.2.2, negated l.2.1)))
        (rebuildLeaf (l.1, l.2.2, negated l.2.1)) rfl
      rw [scanOperators_shared _ _ hall]
      simp only [chain_leaves, hnil]
      simp only [rebuildLeaf, Expression.leaves, List.singleton_append,
        List.map_cons, List.map_map, Function.comp_def, negated_rebuilt, ne_eq,
        reduceCtorEq, not_false_eq_true, true_and, hnil, List.map_eq_nil_iff]
      rw [← hflat] at hsingle hop ⊢
      simp only [hL, List.map_cons, ne_eq, reduceCtorEq, not_false_eq_true, true_and,
        Except.ok.injEq, Flat.mk.injEq, true_and] at hsingle hop ⊢
      by_cases hr : rest = []
      · simp [hr, hsingle hr]
      · simp only [hr, if_false]
        by_cases hk : kw0 = ""
        · simp [hk, andKeyword] at hop ⊢
        · simp [hk] at hop ⊢

theorem foldl_assoc {α : Type} (T : α → α → α)
    (hassoc : ∀ a b c, T (T a b) c = T a (T b c)) (A b : α) (ys : List α) :
    T A (ys.foldl T b) = ys.foldl T (T A b) := by
  induction ys generalizing b with
  | nil => rfl
  | cons y rest ih => simp only [List.foldl_cons, ih, hassoc]

theorem foldNorm_append {α : Type} [Scalar α] (T : α → α → α)
    (hassoc : ∀ a b c, T (T a b) c = T a (T b c)) (xs ys : List α)
    (hx : xs ≠ []) (hy : ys ≠ []) :
    T (foldNorm T xs) (foldNorm T ys) = foldNorm T (xs ++ ys) := by
  cases xs with
  | nil => exact absurd rfl hx
  | cons x xs =>
    cases ys with
    | nil => exact absurd rfl hy
    | cons y ys =>
      simp only [foldNorm, List.cons_append, List.foldl_append, List.foldl_cons]
      exact foldl_assoc T hassoc _ _ _

theorem leaves_ne_nil (t : Expression) (h : t.noNull = true) : t.leaves ≠ [] := by
  intro hc
  have := noNull_leaves_length t h
  simp [hc] at this

/-- The truth degree of a tree whose operators share one name is the fold of
the norm of that name over the truth degrees of the leaves, provided the norm
is associative. -/
theorem degree_eq_foldNorm {α : Type} [Scalar α] (env : Env α) (conj disj : Ptr)
    (op : String)
    (hassoc : ∀ a b c,
      env.compute (if op = andKeyword then conj else disj)
          (env.compute (if op = andKeyword then conj else disj) a b) c =
        env.compute (if op = andKeyword then conj else disj) a
          (env.compute (if op = andKeyword then conj else disj) b c))
    (t : Expression) (hnull : t.noNull = true) (hnames : ∀ n ∈ t.operatorNames, n = op) :
    t.degree env conj disj =
      foldNorm (env.compute (if op = andKeyword then conj else disj))
        (t.leaves.map (leafDegree env)) := by
  induction t with
  | proposition v hs tm => rfl
  | null => simp [Expression.noNull] at hnull
  | operator name l r ihl ihr =>
    simp only [Expression.noNull, Bool.and_eq_true] at hnull
    have hname : name = op := hnames name (by simp [Expression.operatorNames])
    have hl : ∀ n ∈ l.operatorNames, n = op :=
      fun n hn => hnames n (by simp [Expression.operatorNames, hn])
    have hr : ∀ n ∈ r.operatorNames, n = op :=
      fun n hn => hnames n (by simp [Expression.operatorNames, hn])
    simp only [Expression.degree, Expression.leaves, List.map_append, ihl hnull.1 hl,
      ihr hnull.2 hr, hname]
    exact foldNorm_append _ hassoc _ _
      (by simpa using leaves_ne_nil l hnull.1) (by simpa using leaves_ne_nil r hnull.2)

theorem chain_degree {α : Type} [Scalar α] (env : Env α) (conj disj : Ptr) (op : String)
    (ys : List (Ptr × Ptr × Bool)) (a : Expression) :
    (ys.foldl (fun acc y => Expression.operator op acc (rebuildLeaf y)) a).degree env conj disj =
      (ys.map (fun y => (rebuildLeaf y).degree env conj disj)).foldl
        (env.compute (if op = andKeyword then conj else disj)) (a.degree env conj disj) := by
  induction ys generalizing a with
  | nil => rfl
  | cons y rest ih =>
    rw [List.foldl_cons, ih]
    simp only [Expression.degree, List.map_cons, List.foldl_cons]

theorem rebuildLeaf_degree {α : Type} [Scalar α] (env : Env α) (conj disj : Ptr)
    (l : Ptr × List Hedge × Ptr) (h : l.2.1 = [] ∨ l.2.1 = [⟨notKeyword⟩]) :
    (rebuildLeaf (l.1, l.2.2, negated l.2.1)).degree env conj disj = leafDegree env l := by
  rcases h with h | h <;> simp [rebuildLeaf, Expression.degree, leafDegree, h, negated]

theorem scanOperators_names_eq (ns : List String) (hne : ∀ n ∈ ns, n ≠ "") (kw : String)
    (hs : scanOperators ns "" = some kw) : ∀ n ∈ ns, n = kw := by
  cases ns with
  | nil => simp
  | cons n rest =>
    have hn : n ≠ "" := hne n (List.mem_cons_self _ _)
    simp only [scanOperators, if_true] at hs
    rw [scanOperators_of_ne_empty rest n hn] at hs
    by_cases hall : ∀ m ∈ rest, m = n
    · rw [if_pos hall, Option.some.injEq] at hs
      subst hs
      intro m hm
      rcases List.mem_cons.mp hm with h | h
      · exact h
      · exact hall m h
    · rw [if_neg hall] at hs
      exact absurd hs (by simp)

/-- The truth degree of the re-built antecedent, when the propositions of the
original carry at most the Not hedge and the norms are associative. -/
theorem degree_rebuild {α : Type} [Scalar α] (env : Env α) (conj disj : Ptr)
    (t : Expression) (g : Flat)
    (hflat : flattenRuleAntecedent t Flat.empty = .ok g) (hnull : t.noNull = true)
    (hnames : ∀ n ∈ t.operatorNames, n ≠ "")
    (hhedges : ∀ l ∈ t.leaves, l.2.1 = [] ∨ l.2.1 = [⟨notKeyword⟩])
    (hconj : ∀ a b c, env.compute conj (env.compute conj a b) c =
      env.compute conj a (env.compute conj b c))
    (hdisj : ∀ a b c, env.compute disj (env.compute disj a b) c =
      env.compute disj a (env.compute disj b c)) :
    (rebuild g).degree env conj disj = t.degree env conj disj := by
  have hassoc : ∀ a b c,
      env.compute (if g.opKeyword = andKeyword then conj else disj)
          (env.compute (if g.opKeyword = andKeyword then conj else disj) a b) c =
        env.compute (if g.opKeyword = andKeyword then conj else disj) a
          (env.compute (if g.opKeyword = andKeyword then conj else disj) b c) := by
    by_cases h : g.opKeyword = andKeyword
    · simpa [h] using hconj
    · simpa [h] using hdisj
  have hflat2 := hflat
  rw [flattenRuleAntecedent_empty_eq] at hflat2
  cases hs : scanOperators t.operatorNames "" with
  | none => simp [hs] at hflat2
  | some kw0 =>
    simp only [hs, Except.ok.injEq] at hflat2
    have hshare : ∀ n ∈ t.operatorNames, n = g.opKeyword := by
      intro n hn
      have h1 := scanOperators_names_eq _ hnames kw0 hs n hn
      have h2 : kw0 ≠ "" := h1 ▸ hnames n hn
      rw [← hflat2, h1]
      simp [h2]
    rw [degree_eq_foldNorm env conj disj g.opKeyword hassoc t hnull hshare]
    cases hL : t.leaves with
    | nil => exact absurd hL (leaves_ne_nil t hnull)
    | cons l rest =>
      have hzip : g.vars.zip (g.terms.zip g.nots) =
          (l.1, l.2.2, negated l.2.1) ::
            rest.map (fun l => (l.1, l.2.2, negated l.2.1)) := by
        rw [← hflat2]
        simp only [hL]
        rw [zip_flat_leaves]
        rfl
      unfold rebuild
      rw [hzip]
      simp only
      rw [chain_degree]
      have hl : l.2.1 = [] ∨ l.2.1 = [⟨notKeyword⟩] := hhedges l (by simp [hL])
      have hrest : rest.map (fun y =>
          (rebuildLeaf (y.1, y.2.2, negated y.2.1)).degree env conj disj) =
          rest.map (leafDegree env) := by
        apply List.map_congr_left
        intro y hy
        exact rebuildLeaf_degree env conj disj y (hhedges y (by simp [hL, hy]))
      simp only [List.map_map, Function.comp_def, hrest, rebuildLeaf_degree env conj disj l hl,
        List.map_cons, foldNorm]

/-- C9, counterexample: the propositions `10 IS very 21` and `10 IS 21` are
flattened to the same four outputs but have different truth degrees (76 and 24
under the sample interpretation), so no way of re-building an antecedent from
the flattened outputs gives the truth degree of the original for both. -/
theorem C9_counterexample_hedge_lost :
    ¬ ∃ R : Flat → Expression, ∀ (t : Expression) (g : Flat),
      flattenRuleAntecedent t Flat.empty = .ok g →
      (R g).degree sampleEnv 70 71 = t.degree sampleEnv 70 71 := by
  rintro ⟨R, hR⟩
  have h1 := hR (.proposition 10 [⟨"very"⟩] 21) ⟨[10], [21], [false], "and"⟩ rfl
  have h2 := hR (.proposition 10 [] 21) ⟨[10], [21], [false], "and"⟩ rfl
  rw [h1] at h2
  revert h2
  decide

/-- C9, amended: for an antecedent tree made of propositions and operators
only that flattens successfully, flattening the antecedent re-built from the
four outputs returns the same four outputs; and when moreover no operator is
named by the empty string, every proposition carries no hedge or the Not hedge
alone, and the conjunction and disjunction norms are associative, the re-built
antecedent has the same truth degree as the original for every input. -/
theorem C9_flatten_rebuild_amended {α : Type} [Scalar α] (t : Expression) (g : Flat)
    (hflat : flattenRuleAntecedent t Flat.empty = .ok g) (hnull : t.noNull = true) :
    flattenRuleAntecedent (rebuild g) Flat.empty = .ok g ∧
    ∀ (env : Env α) (conj disj : Ptr),
      (∀ n ∈ t.operatorNames, n ≠ "") →
      (∀ l ∈ t.leaves, l.2.1 = [] ∨ l.2.1 = [⟨notKeyword⟩]) →
      (∀ a b c, env.compute conj (env.compute conj a b) c =
        env.compute conj a (env.compute conj b c)) →
      (∀ a b c, env.compute disj (env.compute disj a b) c =
        env.compute disj a (env.compute disj b c)) →
      (rebuild g).degree env conj disj = t.degree env conj disj :=
  ⟨flatten_rebuild t g hflat hnull,
    fun env conj disj hnames hhedges hconj hdisj =>
      degree_rebuild env conj disj t g hflat hnull hnames hhedges hconj hdisj⟩

theorem sample_min_assoc (a b c : Num) :
    sampleEnv.compute 70 (sampleEnv.compute 70 a b) c =
      sampleEnv.compute 70 a (sampleEnv.compute 70 b c) := by
  have h : ∀ x y : Num, sampleEnv.compute 70 x y = Num.lift2 (fun u v => min u v) x y :=
    fun _ _ => rfl
  simp only [h]
  cases a <;> cases b <;> cases c <;> simp [Num.lift2, min_assoc]

theorem sample_max_assoc (a b c : Num) :
    sampleEnv.compute 71 (sampleEnv.compute 71 a b) c =
      sampleEnv.compute 71 a (sampleEnv.compute 71 b c) := by
  have h : ∀ x y : Num, sampleEnv.compute 71 x y = Num.lift2 (fun u v => max u v) x y :=
    fun _ _ => rfl
  simp only [h]
  cases a <;> cases b <;> cases c <;> simp [Num.lift2, max_assoc]

/-- C9, amended, on the antecedent `(10 IS 20) and (11 IS not 22)` of the sample
rule 50, with the minimum and the maximum as norms. -/
theorem C9_flatten_rebuild_amended_witness :
    flattenRuleAntecedent
      (.operator "and" (.proposition 10 [] 20) (.proposition 11 [⟨"not"⟩] 22)) Flat.empty =
      .ok ⟨[10, 11], [20, 22], [false, true], "and"⟩ ∧
    flattenRuleAntecedent (rebuild ⟨[10, 11], [20, 22], [false, true], "and"⟩) Flat.empty =
      .ok ⟨[10, 11], [20, 22], [false, true], "and"⟩ ∧
    (rebuild ⟨[10, 11], [20, 22], [false, true], "and"⟩).degree sampleEnv 70 71 =
      (Expression.operator "and" (.proposition 10 [] 20)
        (.proposition 11 [⟨"not"⟩] 22)).degree sampleEnv 70 71 :=
  ⟨rfl,
    (@C9_flatten_rebuild_amended Num _
      (.operator "and" (.proposition 10 [] 20) (.proposition 11 [⟨"not"⟩] 22))
      ⟨[10, 11], [20, 22], [false, true], "and"⟩ rfl rfl).1,
    (C9_flatten_rebuild_amended
      (.operator "and" (.proposition 10 [] 20) (.proposition 11 [⟨"not"⟩] 22))
      ⟨[10, 11], [20, 22], [false, true], "and"⟩ rfl rfl).2 sampleEnv 70 71
      (by simp [Expression.operatorNames])
      (by simp [Expression.leaves, notKeyword])
      sample_min_assoc sample_max_assoc⟩

/-! ## Evaluation of a built engine -/

theorem overlay_nil {α : Type} (n : Ptr) (val_ : Ptr → α) : overlay n [] val_ = val_ := by
  funext a
  simp [overlay]

theorem overlay_lt {α : Type} (n : Ptr) (vs : List α) (val_ : Ptr → α) (a : Ptr)
    (h : a < n) : overlay n vs val_ a = val_ a := by
  have h2 : ¬ n ≤ a := Nat.not_le.mpr h
  simp [overlay, h2]

theorem overlay_at {α : Type} (n : Ptr) (vs : List α) (val_ : Ptr → α) (i : Nat) (v : α)
    (h : vs[i]? = some v) : overlay n vs val_ (n + i) = v := by
  simp [overlay, h]

theorem overlay_cons {α : Type} (n : Ptr) (v : α) (vs : List α) (val_ : Ptr → α) :
    overlay (n + 1) vs (Function.update val_ n v) = overlay n (v :: vs) val_ := by
  funext a
  unfold overlay
  unfold Ptr at *
  by_cases h1 : a = n
  · subst h1
    simp
  · by_cases h2 : n ≤ a
    · have h3 : n + 1 ≤ a := by omega
      have h4 : a - n = (a - (n + 1)) + 1 := by omega
      rw [if_pos h3, if_pos h2, h4, List.getElem?_cons_succ, Function.update_noteq h1]
    · have h3 : ¬ n + 1 ≤ a := by omega
      rw [if_neg h3, if_neg h2, Function.update_noteq h1]

/-- Evaluating a layer whose nodes sit at consecutive addresses from `n` on and
read only values cached below `n`. -/
theorem evalLayer_mkNodes {α β ν : Type} (addr : ν → Ptr) (mk : Ptr → β → ν)
    (haddr : ∀ a x, addr (mk a x) = a) (doEval : (Ptr → α) → ν → Except Error α)
    (n : Ptr) (xs : List β) (vs : List α) (val0 : Ptr → α) (acc : List α)
    (hlen : vs.length = xs.length)
    (H : ∀ (i : Nat) (x : β) (v : α), xs[i]? = some x → vs[i]? = some v →
      ∀ val : Ptr → α, (∀ a, a < n → val a = val0 a) → doEval val (mk (n + i) x) = .ok v) :
    evalLayer addr doEval (mkNodes mk n xs) val0 acc = ⟨.ok (acc ++ vs), overlay n vs val0⟩ := by
  induction xs generalizing n vs val0 acc with
  | nil =>
    have hvs : vs = [] := List.length_eq_zero.mp hlen
    subst hvs
    simp [mkNodes, evalLayer, overlay_nil]
  | cons x rest ih =>
    cases vs with
    | nil => simp at hlen
    | cons v vs =>
      have h0 : doEval val0 (mk n x) = .ok v := by
        have := H 0 x v (by simp) (by simp) val0 (fun _ _ => rfl)
        simpa using this
      simp only [mkNodes, evalLayer, h0, haddr]
      rw [ih (n + 1) vs (Function.update val0 n v) (acc ++ [v]) (by simpa using hlen)]
      · simp only [overlay_cons, List.append_assoc, List.singleton_append]
      · intro i x' v' hx hv val hval
        have := H (i + 1) x' v' (by simpa using hx) (by simpa using hv) val (by
          intro a ha
          rw [hval a (Nat.lt_succ_of_lt ha)]
          exact Function.update_noteq (Nat.ne_of_lt ha) _ _)
        rw [show n + 1 + i = n + (i + 1) from add_one_add n i]
        exact this

theorem inputs_of_find {α : Type} (E : Engine) (val : Ptr → α) (a : Ptr) (ps : List Ptr)
    (hfind : E.inConns_.find a = ps) (hne : ps ≠ []) :
    Node.inputs E val a = .ok (ps.map val) := by
  simp only [Node.inputs, Engine.inputConnections, atKey_eq_find, hfind, hne, if_false]

theorem evalLayer_nil_acc {α β ν : Type} (addr : ν → Ptr) (mk : Ptr → β → ν)
    (haddr : ∀ a x, addr (mk a x) = a) (doEval : (Ptr → α) → ν → Except Error α)
    (n : Ptr) (xs : List β) (vs : List α) (val0 : Ptr → α)
    (hlen : vs.length = xs.length)
    (H : ∀ (i : Nat) (x : β) (v : α), xs[i]? = some x → vs[i]? = some v →
      ∀ val : Ptr → α, (∀ a, a < n → val a = val0 a) → doEval val (mk (n + i) x) = .ok v) :
    evalLayer addr doEval (mkNodes mk n xs) val0 [] = ⟨.ok vs, overlay n vs val0⟩ := by
  rw [evalLayer_mkNodes addr mk haddr doEval n xs vs val0 [] hlen H]
  simp

theorem termOwner_spec {α : Type} (env : Env α) (inputs : List Ptr) (t : Ptr)
    (ht : t ∈ allTerms env inputs) :
    (allOwners env inputs)[slot (allTerms env inputs) t]? = some (termOwner env inputs t) := by
  have hlt := slot_lt _ t ht
  rw [← allOwners_length] at hlt
  rw [termOwner, List.getElem?_eq_getElem hlt]
  rfl

theorem eval_layer0 {α : Type} [Scalar α] (env : Env α) (e : Engine)
    (hempty : e.bucketsEmpty = true) (val0 : Ptr → α) :
    (builtEngine env e).evalInputLayer env val0 =
      ⟨.ok (e.inputs_.map (fun p => (env.inputVariable p).inputValue)), overlay (e.heapNext)
          (e.inputs_.map (fun p => (env.inputVariable p).inputValue)) val0⟩ := by
  obtain ⟨h1, -, -, -, -, -, -⟩ := (bucketsEmpty_iff e).mp hempty
  simp only [Engine.evalInputLayer, builtEngine, h1, List.nil_append]
  apply evalLayer_nil_acc InputNode.addr _ (fun _ _ => rfl)
  · simp
  · intro i p v hp hv val _
    rw [List.getElem?_map, hp] at hv
    simp only [Option.map_some', Option.some.injEq] at hv
    simp [InputNode.doEval, hv]

theorem eval_layer1 {α : Type} [Scalar α] (env : Env α) (e : Engine)
    (hs : e.heapSane = true) (hempty : e.bucketsEmpty = true) (val1 : Ptr → α)
    (hinv : ∀ (i : Nat) (p : Ptr), e.inputs_[i]? = some p →
      val1 (e.heapNext + i) = (env.inputVariable p).inputValue) :
    (builtEngine env e).evalFuzzificationLayer env val1 =
      ⟨.ok (((allOwners env e.inputs_).zip (allTerms env e.inputs_)).map (fun pt => env.membership
          pt.2 (env.inputVariable pt.1).inputValue)), overlay (e.heapNext + e.inputs_.length)
              (((allOwners env e.inputs_).zip (allTerms env e.inputs_)).map (fun pt =>
                  env.membership pt.2 (env.inputVariable pt.1).inputValue)) val1⟩ := by
  obtain ⟨-, h2, -, -, -, -, -⟩ := (bucketsEmpty_iff e).mp hempty
  have hE : (builtEngine env e).inputTermNodes_ =
      mkNodes (fun a t => ⟨a, t⟩) (e.heapNext + e.inputs_.length) (allTerms env e.inputs_) := by
    simp only [builtEngine, h2, List.nil_append]
  rw [Engine.evalFuzzificationLayer, hE]
  apply evalLayer_nil_acc TermNode.addr _ (fun _ _ => rfl)
  · simp [allOwners_length]
  · intro j t v ht hv val hval
    rw [List.getElem?_map, Option.map_eq_some'] at hv
    obtain ⟨⟨p, t'⟩, hpt, hv⟩ := hv
    obtain ⟨hp, ht'⟩ := List.getElem?_zip_eq_some.mp hpt
    rw [ht, Option.some.injEq] at ht'
    subst ht'
    have hpI : p ∈ e.inputs_ := mem_of_mem_allOwners env _ p (List.getElem?_mem hp)
    have hlt := slot_lt _ p hpI
    have hval2 : val (e.heapNext + slot e.inputs_ p) = (env.inputVariable p).inputValue := by
      rw [hval _ (by unfold Ptr at *; omega)]
      exact hinv _ p (slot_getElem? _ p hpI)
    simp only [TermNode.doEval]
    rw [inputs_of_find _ val _ _ (built_find_term env e hs j p hp) (by simp)]
    simp only [List.map_cons, List.map_nil, hval2]
    rw [← hv]

theorem eval_layer2 {α : Type} [Scalar α] (env : Env α) (e : Engine)
    (hs : e.heapSane = true) (hempty : e.bucketsEmpty = true) (val2 : Ptr → α)
    (hinv : ∀ t ∈ (allTerms env e.inputs_),
      val2 (e.heapNext + e.inputs_.length + slot (allTerms env e.inputs_) t) = termValue env
          e.inputs_ t) :
    (builtEngine env e).evalHedgeLayer env val2 =
      ⟨.ok ((allTerms env e.inputs_).map (fun t => env.hedge notKeyword (termValue env e.inputs_
          t))), overlay (e.heapNext + e.inputs_.length + (allTerms env e.inputs_).length)
              ((allTerms env e.inputs_).map (fun t => env.hedge notKeyword (termValue env e.inputs_
                  t))) val2⟩ := by
  obtain ⟨-, -, h3, -, -, -, -⟩ := (bucketsEmpty_iff e).mp hempty
  have hE : (builtEngine env e).inputHedgeNodes_ =
      mkNodes (fun a _ => ⟨a, notKeyword⟩) (e.heapNext + e.inputs_.length + (allTerms env
          e.inputs_).length) (allTerms env e.inputs_) := by
    simp only [builtEngine, h3, List.nil_append]
  rw [Engine.evalHedgeLayer, hE]
  apply evalLayer_nil_acc HedgeNode.addr _ (fun _ _ => rfl)
  · simp
  · intro j t v ht hv val hval
    rw [List.getElem?_map, ht] at hv
    simp only [Option.map_some', Option.some.injEq] at hv
    have htT : t ∈ (allTerms env e.inputs_) := List.getElem?_mem ht
    have hlt := slot_lt _ t htT
    have hval2 : val (e.heapNext + e.inputs_.length + slot (allTerms env e.inputs_) t) = termValue
        env e.inputs_ t := by
      rw [hval _ (by unfold Ptr at *; omega)]
      exact hinv t htT
    simp only [HedgeNode.doEval]
    rw [inputs_of_find _ val _ _ (built_find_hedge env e hs j t ht) (by simp)]
    simp only [List.map_cons, List.map_nil, hval2]
    rw [← hv]

theorem firing_doEval {α : Type} [Scalar α] (env : Env α) (E : Engine) (val : Ptr → α)
    (n : RuleFiringStrengthNode) (ps : List Ptr) (hfind : E.inConns_.find n.addr = ps)
    (hne : ps ≠ []) :
    RuleFiringStrengthNode.doEval env E val n =
      .ok (foldNorm (env.compute n.p_norm_) (ps.map val)) := by
  simp only [RuleFiringStrengthNode.doEval]
  rw [inputs_of_find E val _ ps hfind hne]
  cases ps.map val <;> rfl

theorem sum_doEval {α : Type} [Scalar α] (E : Engine) (val : Ptr → α)
    (n : SumNode) (ps : List Ptr) (hfind : E.inConns_.find n.addr = ps) (hne : ps ≠ []) :
    SumNode.doEval E val n = .ok (sumOf (ps.map val)) := by
  simp only [SumNode.doEval]
  rw [inputs_of_find E val _ ps hfind hne]
  rfl

theorem map_val_mkNodes {α β ν : Type} (addr : ν → Ptr) (mk : Ptr → β → ν)
    (haddr : ∀ a x, addr (mk a x) = a) (n : Ptr) (xs : List β) (val : Ptr → α) (f : β → α)
    (h : ∀ (k : Nat) (x : β), xs[k]? = some x → val (n + k) = f x) :
    ((mkNodes mk n xs).map addr).map val = xs.map f := by
  apply List.ext_getElem?
  intro k
  simp only [List.getElem?_map, mkNodes_getElem?, Option.map_map]
  cases hx : xs[k]? with
  | none => rfl
  | some x => simp [haddr, h k x hx]

theorem eval_layer3 {α : Type} [Scalar α] (env : Env α) (e : Engine)
    (hs : e.heapSane = true) (hempty : e.bucketsEmpty = true) (hrules : rulesOk env e = true)
    (hterms : ∀ br ∈ (enabledRules env e.ruleBlocks_), flatPairs env br.2 ≠ []) (val3 : Ptr → α)
    (hinv2 : ∀ t ∈ (allTerms env e.inputs_),
      val3 (e.heapNext + e.inputs_.length + slot (allTerms env e.inputs_) t) = termValue env
          e.inputs_ t)
    (hinv3 : ∀ t ∈ (allTerms env e.inputs_),
      val3 (e.heapNext + e.inputs_.length + (allTerms env e.inputs_).length + slot (allTerms env
          e.inputs_) t) =
        env.hedge notKeyword (termValue env e.inputs_ t)) :
    (builtEngine env e).evalAntecedentLayer env val3 =
      ⟨.ok ((enabledRules env e.ruleBlocks_).map (firingStrength env e.inputs_)), overlay
          (e.heapNext + e.inputs_.length + (allTerms env e.inputs_).length + (allTerms env
              e.inputs_).length) ((enabledRules env e.ruleBlocks_).map (firingStrength env
                  e.inputs_)) val3⟩ := by
  obtain ⟨-, -, -, h4, -, -, -⟩ := (bucketsEmpty_iff e).mp hempty
  have hE : (builtEngine env e).antecedentNodes_ =
      mkNodes (fun a br => ⟨a, firingNorm env br⟩) (e.heapNext + e.inputs_.length + (allTerms env
          e.inputs_).length + (allTerms env e.inputs_).length) (enabledRules env e.ruleBlocks_) :=
              by
    simp only [builtEngine, h4, List.nil_append]
  rw [Engine.evalAntecedentLayer, hE]
  apply evalLayer_nil_acc RuleFiringStrengthNode.addr _ (fun _ _ => rfl)
  · simp
  · intro k br v hbr hv val hval
    rw [List.getElem?_map, hbr] at hv
    simp only [Option.map_some', Option.some.injEq] at hv
    have hbrR : br ∈ (enabledRules env e.ruleBlocks_) := List.getElem?_mem hbr
    have hmem := (rulesOk_mem env e hrules br hbrR).2
    rw [firing_doEval env _ val _ _ (built_find_firing env e hs k br hbr)
      (by simpa using hterms br hbrR)]
    rw [← hv, firingStrength]
    congr 2
    rw [List.map_map]
    apply List.map_congr_left
    intro pr hpr
    have htT := hmem pr hpr
    have hlt := slot_lt _ pr.1 htT
    simp only [Function.comp_def, antecedentValue]
    by_cases hneg : pr.2 = true
    · simp only [hneg, if_true]
      rw [hval _ (Nat.add_lt_add_left hlt _)]
      exact hinv3 pr.1 htT
    · simp only [hneg, if_false, Bool.false_eq_true]
      rw [hval _ (Nat.lt_of_lt_of_le (Nat.add_lt_add_left hlt _) (Nat.le_add_right _ _))]
      exact hinv2 pr.1 htT

theorem firingStrength_congr {α : Type} [Scalar α] (env : Env α) (inputs : List Ptr)
    (br br2 : RuleBlock × Ptr) (h2 : br2.2 = br.2)
    (hnorm : firingNorm env br2 = firingNorm env br) :
    firingStrength env inputs br2 = firingStrength env inputs br := by
  simp only [firingStrength, h2, hnorm]

theorem eval_layer4 {α : Type} [Scalar α] (env : Env α) (e : Engine)
    (hs : e.heapSane = true) (hempty : e.bucketsEmpty = true)
    (hshared : ∀ br ∈ (enabledRules env e.ruleBlocks_), ∀ br2 ∈ (enabledRules env e.ruleBlocks_),
        br2.2 = br.2 →
      firingNorm env br2 = firingNorm env br) (val4 : Ptr → α)
    (hinv : ∀ (k : Nat) (br : RuleBlock × Ptr), (enabledRules env e.ruleBlocks_)[k]? = some br →
      val4 (e.heapNext + e.inputs_.length + (allTerms env e.inputs_).length + (allTerms env
          e.inputs_).length + k) = firingStrength env e.inputs_ br) :
    (builtEngine env e).evalConsequentLayer env val4 =
      ⟨.ok ((enabledRules env e.ruleBlocks_).map (implicationValue env e.inputs_)), overlay
          (e.heapNext + e.inputs_.length + (allTerms env e.inputs_).length + (allTerms env
              e.inputs_).length + (enabledRules env e.ruleBlocks_).length) ((enabledRules env
                  e.ruleBlocks_).map (implicationValue env e.inputs_)) val4⟩ := by
  obtain ⟨-, -, -, -, h5, -, -⟩ := (bucketsEmpty_iff e).mp hempty
  have hE : (builtEngine env e).consequentNodes_ =
      mkNodes (fun a br => ⟨a, (env.rule br.2).consequentTerm, br.1.activation⟩)
        (e.heapNext + e.inputs_.length + (allTerms env e.inputs_).length + (allTerms env
            e.inputs_).length + (enabledRules env e.ruleBlocks_).length) (enabledRules env
                e.ruleBlocks_) := by
    simp only [builtEngine, h5, List.nil_append]
  rw [Engine.evalConsequentLayer, hE]
  apply evalLayer_nil_acc RuleImplicationNode.addr _ (fun _ _ => rfl)
  · simp
  · intro k br v hbr hv val hval
    rw [List.getElem?_map, hbr] at hv
    simp only [Option.map_some', Option.some.injEq] at hv
    have hbrR : br ∈ (enabledRules env e.ruleBlocks_) := List.getElem?_mem hbr
    have hmemS : br.2 ∈ (enabledRules env e.ruleBlocks_).map Prod.snd := List.mem_map.mpr ⟨br,
        hbrR, rfl⟩
    have hslot := slot_getElem? _ br.2 hmemS
    have hlt := slot_lt _ br.2 hmemS
    rw [List.length_map] at hlt
    rw [List.getElem?_map, Option.map_eq_some'] at hslot
    obtain ⟨br2, hbr2, h2⟩ := hslot
    have hval2 : val (e.heapNext + e.inputs_.length + (allTerms env e.inputs_).length + (allTerms
        env e.inputs_).length + slot ((enabledRules env e.ruleBlocks_).map Prod.snd) br.2) =
        firingStrength env e.inputs_ br := by
      rw [hval _ (by unfold Ptr at *; omega), hinv _ br2 hbr2]
      exact firingStrength_congr env _ br br2 h2
        (hshared br hbrR br2 (List.getElem?_mem hbr2) h2)
    simp only [RuleImplicationNode.doEval]
    rw [inputs_of_find _ val _ _ (built_find_implication env e hs k br hbr) (by simp)]
    simp only [List.map_cons, List.map_nil, hval2]
    rw [← hv, implicationValue]

theorem eval_layer5 {α : Type} [Scalar α] (env : Env α) (e : Engine)
    (hs : e.heapSane = true) (hempty : e.bucketsEmpty = true)
    (hne : (enabledRules env e.ruleBlocks_) ≠ []) (val5 : Ptr → α)
    (hinv4 : ∀ (k : Nat) (br : RuleBlock × Ptr), (enabledRules env e.ruleBlocks_)[k]? = some br →
      val5 (e.heapNext + e.inputs_.length + (allTerms env e.inputs_).length + (allTerms env
          e.inputs_).length + k) = firingStrength env e.inputs_ br)
    (hinv5 : ∀ (k : Nat) (br : RuleBlock × Ptr), (enabledRules env e.ruleBlocks_)[k]? = some br →
      val5 (e.heapNext + e.inputs_.length + (allTerms env e.inputs_).length + (allTerms env
          e.inputs_).length + (enabledRules env e.ruleBlocks_).length + k) = implicationValue env
              e.inputs_ br) :
    (builtEngine env e).evalAccumulationLayer val5 =
      ⟨.ok [sumOf ((enabledRules env e.ruleBlocks_).map (implicationValue env e.inputs_)), sumOf
          ((enabledRules env e.ruleBlocks_).map (firingStrength env e.inputs_))], overlay
              (e.heapNext + e.inputs_.length + (allTerms env e.inputs_).length + (allTerms env
                  e.inputs_).length + (enabledRules env e.ruleBlocks_).length + (enabledRules env
                      e.ruleBlocks_).length) [sumOf ((enabledRules env e.ruleBlocks_).map
                          (implicationValue env e.inputs_)), sumOf ((enabledRules env
                              e.ruleBlocks_).map (firingStrength env e.inputs_))] val5⟩ := by
  obtain ⟨-, -, -, h4, h5, h6, -⟩ := (bucketsEmpty_iff e).mp hempty
  have hE : (builtEngine env e).sumNodes_ =
      mkNodes (fun a (_ : Unit) => (⟨a⟩ : SumNode)) (e.heapNext + e.inputs_.length + (allTerms env
          e.inputs_).length + (allTerms env e.inputs_).length + (enabledRules env
              e.ruleBlocks_).length + (enabledRules env e.ruleBlocks_).length) [(), ()] := by
    simp only [builtEngine, h6, List.nil_append, mkNodes]
  have hA : (builtEngine env e).antecedentNodes_ =
      mkNodes (fun a br => ⟨a, firingNorm env br⟩) (e.heapNext + e.inputs_.length + (allTerms env
          e.inputs_).length + (allTerms env e.inputs_).length) (enabledRules env e.ruleBlocks_) :=
              by
    simp only [builtEngine, h4, List.nil_append]
  have hC : (builtEngine env e).consequentNodes_ =
      mkNodes (fun a br => ⟨a, (env.rule br.2).consequentTerm, br.1.activation⟩)
        (e.heapNext + e.inputs_.length + (allTerms env e.inputs_).length + (allTerms env
            e.inputs_).length + (enabledRules env e.ruleBlocks_).length) (enabledRules env
                e.ruleBlocks_) := by
    simp only [builtEngine, h5, List.nil_append]
  have hlenR : 0 < (enabledRules env e.ruleBlocks_).length := List.length_pos.mpr hne
  rw [Engine.evalAccumulationLayer, hE]
  apply evalLayer_nil_acc SumNode.addr _ (fun _ _ => rfl)
  · simp
  · intro i x v hx hv val hval
    have hi : i < 2 := by
      have := (List.getElem?_eq_some.mp hx).1
      simpa using this
    have hf := built_find_tail env e hs i
    rw [hA, hC] at hf
    have hvalA : ∀ (k : Nat) (br : RuleBlock × Ptr), (enabledRules env e.ruleBlocks_)[k]? = some br
        →
        val (e.heapNext + e.inputs_.length + (allTerms env e.inputs_).length + (allTerms env
            e.inputs_).length + k) = firingStrength env e.inputs_ br := by
      intro k br hbr
      have := (List.getElem?_eq_some.mp hbr).1
      rw [hval _ (by unfold Ptr at *; omega)]
      exact hinv4 k br hbr
    have hvalC : ∀ (k : Nat) (br : RuleBlock × Ptr), (enabledRules env e.ruleBlocks_)[k]? = some br
        →
        val (e.heapNext + e.inputs_.length + (allTerms env e.inputs_).length + (allTerms env
            e.inputs_).length + (enabledRules env e.ruleBlocks_).length + k) = implicationValue env
                e.inputs_ br := by
      intro k br hbr
      have := (List.getElem?_eq_some.mp hbr).1
      rw [hval _ (by unfold Ptr at *; omega)]
      exact hinv5 k br hbr
    rcases Nat.lt_succ_iff_lt_or_eq.mp hi with h0 | h1
    · have h0 : i = 0 := by omega
      subst h0
      simp only [List.getElem?_cons_zero, Option.some.injEq] at hv
      simp only [List.getElem?_cons_zero, Option.getD_some] at hf
      rw [sum_doEval _ val _ _ hf (by
        intro hc
        have := congrArg List.length hc
        simp [mkNodes_length] at this
        exact hne this)]
      rw [map_val_mkNodes _ _ (fun _ _ => rfl) _ _ val _ hvalC, hv]
    · subst h1
      simp only [List.getElem?_cons_succ, List.getElem?_cons_zero, Option.some.injEq] at hv
      simp only [List.getElem?_cons_succ, List.getElem?_cons_zero, Option.getD_some] at hf
      rw [sum_doEval _ val _ _ hf (by
        intro hc
        have := congrArg List.length hc
        simp [mkNodes_length] at this
        exact hne this)]
      rw [map_val_mkNodes _ _ (fun _ _ => rfl) _ _ val _ hvalA, hv]

theorem eval_layer6 {α : Type} [Scalar α] (env : Env α) (e : Engine)
    (hs : e.heapSane = true) (hempty : e.bucketsEmpty = true) (val6 : Ptr → α) :
    (builtEngine env e).evalNormalizationLayer val6 =
      ⟨.ok [val6 (e.heapNext + e.inputs_.length + (allTerms env e.inputs_).length + (allTerms env
          e.inputs_).length + (enabledRules env e.ruleBlocks_).length + (enabledRules env
              e.ruleBlocks_).length) / val6 (e.heapNext + e.inputs_.length + (allTerms env
                  e.inputs_).length + (allTerms env e.inputs_).length + (enabledRules env
                      e.ruleBlocks_).length + (enabledRules env e.ruleBlocks_).length + 1)],
        overlay (e.heapNext + e.inputs_.length + (allTerms env e.inputs_).length + (allTerms env
            e.inputs_).length + (enabledRules env e.ruleBlocks_).length + (enabledRules env
                e.ruleBlocks_).length + 2)
          [val6 (e.heapNext + e.inputs_.length + (allTerms env e.inputs_).length + (allTerms env
              e.inputs_).length + (enabledRules env e.ruleBlocks_).length + (enabledRules env
                  e.ruleBlocks_).length) / val6 (e.heapNext + e.inputs_.length + (allTerms env
                      e.inputs_).length + (allTerms env e.inputs_).length + (enabledRules env
                          e.ruleBlocks_).length + (enabledRules env e.ruleBlocks_).length + 1)]
                              val6⟩ := by
  obtain ⟨-, -, -, -, -, h6, h7⟩ := (bucketsEmpty_iff e).mp hempty
  have hE : (builtEngine env e).inferenceNodes_ =
      mkNodes (fun a (_ : Unit) => (⟨a⟩ : NormalizationNode)) (e.heapNext + e.inputs_.length +
          (allTerms env e.inputs_).length + (allTerms env e.inputs_).length + (enabledRules env
              e.ruleBlocks_).length + (enabledRules env e.ruleBlocks_).length + 2) [()] := by
    simp only [builtEngine, h7, List.nil_append, mkNodes]
  have hS : (builtEngine env e).sumNodes_.map (fun n => n.addr) =
      [e.heapNext + e.inputs_.length + (allTerms env e.inputs_).length + (allTerms env
          e.inputs_).length + (enabledRules env e.ruleBlocks_).length + (enabledRules env
              e.ruleBlocks_).length, e.heapNext + e.inputs_.length + (allTerms env
                  e.inputs_).length + (allTerms env e.inputs_).length + (enabledRules env
                      e.ruleBlocks_).length + (enabledRules env e.ruleBlocks_).length + 1] := by
    simp only [builtEngine, h6, List.nil_append, List.map_cons, List.map_nil]
  rw [Engine.evalNormalizationLayer, hE]
  apply evalLayer_nil_acc NormalizationNode.addr _ (fun _ _ => rfl)
  · simp
  · intro i x v hx hv val hval
    have hi : i = 0 := by
      have := (List.getElem?_eq_some.mp hx).1
      simpa using this
    subst hi
    simp only [List.getElem?_cons_zero, Option.some.injEq] at hv
    have hf := built_find_tail env e hs 2
    rw [hS] at hf
    simp only [List.getElem?_cons_succ, List.getElem?_cons_zero, Option.getD_some] at hf
    simp only [NormalizationNode.doEval, Nat.add_zero]
    rw [inputs_of_find _ val _ _ hf (by simp)]
    simp only [List.map_cons, List.map_nil]
    rw [hval _ (by unfold Ptr at *; omega), hval _ (by unfold Ptr at *; omega), hv]

theorem evalAndThen_ok {α : Type} (vs : List α) (val : Ptr → α)
    (f : (Ptr → α) → EvalOutcome α) : (EvalOutcome.mk (.ok vs) val).andThen f = f val := rfl

theorem zip_const (p : Ptr) (ts : List Ptr) :
    (ts.map (fun _ => p)).zip ts = ts.map (fun t => (p, t)) := by
  induction ts with
  | nil => rfl
  | cons t rest ih => simp only [List.map_cons, List.zip_cons_cons, ih]

theorem zip_owners_terms {α : Type} (env : Env α) (inputs : List Ptr) :
    (allOwners env inputs).zip (allTerms env inputs) =
      inputs.flatMap (fun p => (env.inputVariable p).terms.map (fun t => (p, t))) := by
  induction inputs with
  | nil => rfl
  | cons p rest ih =>
    simp only [allOwners, allTerms, List.flatMap_cons] at ih ⊢
    rw [List.zip_append (by simp), ih, zip_const]

/-- The owner of a term of the engine is an input variable of the engine whose
term list contains the term. -/
theorem termOwner_mem {α : Type} (env : Env α) (inputs : List Ptr) (t : Ptr)
    (ht : t ∈ allTerms env inputs) :
    termOwner env inputs t ∈ inputs ∧
      t ∈ (env.inputVariable (termOwner env inputs t)).terms := by
  have h1 := termOwner_spec env inputs t ht
  have h2 := slot_getElem? _ t ht
  have hz : ((allOwners env inputs).zip (allTerms env inputs))[slot (allTerms env inputs) t]? =
      some (termOwner env inputs t, t) := List.getElem?_zip_eq_some.mpr ⟨h1, h2⟩
  have hm := List.getElem?_mem hz
  rw [zip_owners_terms, List.mem_flatMap] at hm
  obtain ⟨p, hp, hpt⟩ := hm
  rw [List.mem_map] at hpt
  obtain ⟨t2, ht2, heq⟩ := hpt
  simp only [Prod.mk.injEq] at heq
  obtain ⟨h3, h4⟩ := heq
  rw [← h3, ← h4]
  exact ⟨hp, ht2⟩

/-- The value `Engine::eval` returns on an engine built from empty buckets. -/
theorem eval_built {α : Type} [Scalar α] (env : Env α) (e : Engine)
    (hs : e.heapSane = true) (hempty : e.bucketsEmpty = true) (hrules : rulesOk env e = true)
    (hne : (enabledRules env e.ruleBlocks_) ≠ [])
    (hterms : ∀ br ∈ (enabledRules env e.ruleBlocks_), flatPairs env br.2 ≠ [])
    (hshared : ∀ br ∈ (enabledRules env e.ruleBlocks_), ∀ br2 ∈ (enabledRules env e.ruleBlocks_),
        br2.2 = br.2 →
      firingNorm env br2 = firingNorm env br) (val0 : Ptr → α) :
    ((builtEngine env e).eval env val0).result =
      .ok [sumOf ((enabledRules env e.ruleBlocks_).map (implicationValue env e.inputs_)) / sumOf
          ((enabledRules env e.ruleBlocks_).map (firingStrength env e.inputs_))] := by
  have hlenT : (allOwners env e.inputs_).length = (allTerms env e.inputs_).length :=
      allOwners_length env _
  -- the values cached after each layer
  have hI1 : ∀ (i : Nat) (p : Ptr), e.inputs_[i]? = some p →
      overlay (e.heapNext) (e.inputs_.map (fun p => (env.inputVariable p).inputValue)) val0
          (e.heapNext + i) = (env.inputVariable p).inputValue := by
    intro i p hp
    exact overlay_at _ _ _ _ _ (by rw [List.getElem?_map, hp]; rfl)
  have hI2 : ∀ (val : Ptr → α), ∀ t ∈ (allTerms env e.inputs_),
      overlay (e.heapNext + e.inputs_.length) (((allOwners env e.inputs_).zip (allTerms env
          e.inputs_)).map (fun pt => env.membership pt.2 (env.inputVariable pt.1).inputValue)) val
              (e.heapNext + e.inputs_.length + slot (allTerms env e.inputs_) t) = termValue env
                  e.inputs_ t := by
    intro val t ht
    apply overlay_at
    have hz : ((allOwners env e.inputs_).zip (allTerms env e.inputs_))[slot
        (allTerms env e.inputs_) t]? = some (termOwner env e.inputs_ t, t) :=
      List.getElem?_zip_eq_some.mpr ⟨termOwner_spec env _ t ht, slot_getElem? _ t ht⟩
    rw [List.getElem?_map, hz]
    rfl
  have hI3 : ∀ (val : Ptr → α), ∀ t ∈ (allTerms env e.inputs_),
      overlay (e.heapNext + e.inputs_.length + (allTerms env e.inputs_).length) ((allTerms env
          e.inputs_).map (fun t => env.hedge notKeyword (termValue env e.inputs_ t))) val
              (e.heapNext + e.inputs_.length + (allTerms env e.inputs_).length + slot (allTerms env
                  e.inputs_) t) =
        env.hedge notKeyword (termValue env e.inputs_ t) := by
    intro val t ht
    apply overlay_at
    rw [List.getElem?_map, slot_getElem? _ t ht]
    rfl
  have hI4 : ∀ (val : Ptr → α) (k : Nat) (br : RuleBlock × Ptr), (enabledRules env
      e.ruleBlocks_)[k]? = some br →
      overlay (e.heapNext + e.inputs_.length + (allTerms env e.inputs_).length + (allTerms env
          e.inputs_).length) ((enabledRules env e.ruleBlocks_).map (firingStrength env e.inputs_))
              val (e.heapNext + e.inputs_.length + (allTerms env e.inputs_).length + (allTerms env
                  e.inputs_).length + k) = firingStrength env e.inputs_ br := by
    intro val k br hbr
    apply overlay_at
    rw [List.getElem?_map, hbr]
    rfl
  have hI5 : ∀ (val : Ptr → α) (k : Nat) (br : RuleBlock × Ptr), (enabledRules env
      e.ruleBlocks_)[k]? = some br →
      overlay (e.heapNext + e.inputs_.length + (allTerms env e.inputs_).length + (allTerms env
          e.inputs_).length + (enabledRules env e.ruleBlocks_).length) ((enabledRules env
              e.ruleBlocks_).map (implicationValue env e.inputs_)) val (e.heapNext +
                  e.inputs_.length + (allTerms env e.inputs_).length + (allTerms env
                      e.inputs_).length + (enabledRules env e.ruleBlocks_).length + k) =
                          implicationValue env e.inputs_ br := by
    intro val k br hbr
    apply overlay_at
    rw [List.getElem?_map, hbr]
    rfl
  unfold Engine.eval
  rw [eval_layer0 env e hempty val0, evalAndThen_ok,
    eval_layer1 env e hs hempty _ hI1, evalAndThen_ok,
    eval_layer2 env e hs hempty _ (hI2 _), evalAndThen_ok,
    eval_layer3 env e hs hempty hrules hterms _ (fun t ht => by
      rw [overlay_lt _ _ _ _ (Nat.add_lt_add_left (slot_lt _ t ht) _)]
      exact hI2 _ t ht) (hI3 _), evalAndThen_ok,
    eval_layer4 env e hs hempty hshared _ (hI4 _), evalAndThen_ok,
    eval_layer5 env e hs hempty hne _ (fun k br hbr => by
      rw [overlay_lt _ _ _ _ (Nat.add_lt_add_left (List.getElem?_eq_some.mp hbr).1 _)]
      exact hI4 _ k br hbr) (hI5 _), evalAndThen_ok,
    eval_layer6 env e hs hempty]
  have h0 := overlay_at (e.heapNext + e.inputs_.length + (allTerms env e.inputs_).length +
      (allTerms env e.inputs_).length + (enabledRules env e.ruleBlocks_).length + (enabledRules env
          e.ruleBlocks_).length) [sumOf ((enabledRules env e.ruleBlocks_).map (implicationValue env
              e.inputs_)), sumOf ((enabledRules env e.ruleBlocks_).map (firingStrength env
                  e.inputs_))]
    (overlay (e.heapNext + e.inputs_.length + (allTerms env e.inputs_).length + (allTerms env
        e.inputs_).length + (enabledRules env e.ruleBlocks_).length) ((enabledRules env
            e.ruleBlocks_).map (implicationValue env e.inputs_))
      (overlay (e.heapNext + e.inputs_.length + (allTerms env e.inputs_).length + (allTerms env
          e.inputs_).length) ((enabledRules env e.ruleBlocks_).map (firingStrength env e.inputs_))
        (overlay (e.heapNext + e.inputs_.length + (allTerms env e.inputs_).length) ((allTerms env
            e.inputs_).map (fun t => env.hedge notKeyword (termValue env e.inputs_ t)))
          (overlay (e.heapNext + e.inputs_.length) (((allOwners env e.inputs_).zip (allTerms env
              e.inputs_)).map (fun pt => env.membership pt.2 (env.inputVariable pt.1).inputValue))
            (overlay (e.heapNext) (e.inputs_.map (fun p => (env.inputVariable p).inputValue))
                val0))))) 0 _ rfl
  have h1 := overlay_at (e.heapNext + e.inputs_.length + (allTerms env e.inputs_).length +
      (allTerms env e.inputs_).length + (enabledRules env e.ruleBlocks_).length + (enabledRules env
          e.ruleBlocks_).length) [sumOf ((enabledRules env e.ruleBlocks_).map (implicationValue env
              e.inputs_)), sumOf ((enabledRules env e.ruleBlocks_).map (firingStrength env
                  e.inputs_))]
    (overlay (e.heapNext + e.inputs_.length + (allTerms env e.inputs_).length + (allTerms env
        e.inputs_).length + (enabledRules env e.ruleBlocks_).length) ((enabledRules env
            e.ruleBlocks_).map (implicationValue env e.inputs_))
      (overlay (e.heapNext + e.inputs_.length + (allTerms env e.inputs_).length + (allTerms env
          e.inputs_).length) ((enabledRules env e.ruleBlocks_).map (firingStrength env e.inputs_))
        (overlay (e.heapNext + e.inputs_.length + (allTerms env e.inputs_).length) ((allTerms env
            e.inputs_).map (fun t => env.hedge notKeyword (termValue env e.inputs_ t)))
          (overlay (e.heapNext + e.inputs_.length) (((allOwners env e.inputs_).zip (allTerms env
              e.inputs_)).map (fun pt => env.membership pt.2 (env.inputVariable pt.1).inputValue))
            (overlay (e.heapNext) (e.inputs_.map (fun p => (env.inputVariable p).inputValue))
                val0))))) 1 _ rfl
  rw [Nat.add_zero] at h0
  simp only [h0, h1]
  rfl

/-! ## C2 -/

/-- C2, counterexample.  First engine: the rule object 50 is held by the two
enabled blocks 43 (conjunction: minimum) and 44 (conjunction: product); `build`
succeeds, and `eval` returns 120 where N/D as the claim defines it is 61,
because both implication nodes are connected to the firing strength node
created last for the rule.  Second engine: the antecedent of the only rule was
never loaded and flattens to no term; `build` succeeds and `eval` throws
`std::out_of_range` in the firing strength layer. -/
theorem C2_counterexample_shared_rule_and_empty_antecedent :
    (sampleEngine [43, 44]).bucketsEmpty = true ∧
    ((sampleEngine [43, 44]).build sampleEnv).thrown = none ∧
    (((sampleEngine [43, 44]).build sampleEnv).state.eval sampleEnv (fun _ => Num.nan)).result =
      .ok [Num.int 120] ∧
    sumOf ((enabledRules sampleEnv [43, 44]).map (implicationValue sampleEnv [10, 11])) /
      sumOf ((enabledRules sampleEnv [43, 44]).map (firingStrength sampleEnv [10, 11])) =
      Num.int 61 ∧
    (sampleEngine [42]).bucketsEmpty = true ∧
    ((sampleEngine [42]).build sampleEnv).thrown = none ∧
    (((sampleEngine [42]).build sampleEnv).state.eval sampleEnv (fun _ => Num.nan)).result =
      .error .outOfRange := by
  refine ⟨by decide, by decide, by rfl, by decide, by decide, by decide, by rfl⟩

/-- C2, amended: let an engine with empty node buckets (and no stale entry in
`inConns_`) be built successfully, with at least one enabled rule, every
enabled rule having at least one term in its flattened antecedent, and any two
enabled blocks that hold the same rule object giving it the same norm.  Then
`eval()` returns the one-element vector N/D, where D is the sum over the
enabled rules (block order, then rule order) of the firing strengths s_r and N
the sum of activation(s_r, mu_consequent_r(1)); s_r is the left fold of the norm
of the rule (conjunction of the block when the flattened connective is the AND
keyword, disjunction otherwise) over the values of the flattened antecedent,
the value of a term t being mu_t(x_v), passed through the Not hedge when the
entry is negated, with v an input variable of the engine whose term list
contains t (the last one, should several contain t). -/
theorem C2_eval_value_amended {α : Type} [Scalar α] (env : Env α) (e : Engine)
    (val0 : Ptr → α)
    (hempty : e.bucketsEmpty = true) (hs : e.heapSane = true)
    (hbuild : (e.build env).thrown = none)
    (hne : (enabledRules env e.ruleBlocks_) ≠ [])
    (hterms : ∀ br ∈ (enabledRules env e.ruleBlocks_), (flatOf env br.2).terms ≠ [])
    (hshared : ∀ br ∈ (enabledRules env e.ruleBlocks_), ∀ br2 ∈ (enabledRules env e.ruleBlocks_),
        br2.2 = br.2 →
      firingNorm env br2 = firingNorm env br) :
    ((e.build env).state.eval env val0).result =
      .ok [sumOf ((enabledRules env e.ruleBlocks_).map (implicationValue env e.inputs_)) /
        sumOf ((enabledRules env e.ruleBlocks_).map (firingStrength env e.inputs_))] ∧
    ∀ br ∈ (enabledRules env e.ruleBlocks_), ∀ pr ∈ flatPairs env br.2,
      termOwner env e.inputs_ pr.1 ∈ e.inputs_ ∧
      pr.1 ∈ (env.inputVariable (termOwner env e.inputs_ pr.1)).terms := by
  obtain ⟨-, hrules, hstate⟩ := build_ok env e hbuild
  have hpairs : ∀ br ∈ (enabledRules env e.ruleBlocks_), flatPairs env br.2 ≠ [] := by
    intro br hbr hc
    obtain ⟨⟨g, hg⟩, -⟩ := rulesOk_mem env e hrules br hbr
    have hflat := flatOf_of_ok env br.2 g hg
    obtain ⟨-, hlen⟩ := flatten_lengths _ g hg
    have hl := congrArg List.length hc
    simp only [flatPairs, hflat, List.length_zip, hlen, Nat.min_self, List.length_nil] at hl
    exact hterms br hbr (hflat ▸ List.length_eq_zero.mp hl)
  rw [hstate]
  exact ⟨eval_built env e hs hempty hrules hne hpairs hshared val0,
    fun br hbr pr hpr => termOwner_mem env _ pr.1 ((rulesOk_mem env e hrules br hbr).2 pr hpr)⟩

/-- C2, amended, on the sample engine with the enabled block 40 (rules 50 and
51) and the disabled block 45: inputs 3 and 5 give the output 61. -/
theorem C2_eval_value_amended_witness :
    (sampleEngine [40, 45]).bucketsEmpty = true ∧ (sampleEngine [40, 45]).heapSane = true ∧
    ((sampleEngine [40, 45]).build sampleEnv).thrown = none ∧
    enabledRules sampleEnv (sampleEngine [40, 45]).ruleBlocks_ ≠ [] ∧
    (((sampleEngine [40, 45]).build sampleEnv).state.eval sampleEnv (fun _ => Num.nan)).result =
      .ok [Num.int 61] := by
  have h := (C2_eval_value_amended sampleEnv (sampleEngine [40, 45]) (fun _ => Num.nan)
    (by decide) (by decide) (by decide) (by decide) (by decide) (by decide)).1
  refine ⟨by decide, by decide, by decide, by decide, ?_⟩
  rw [h]
  rfl

/-! ## Derivatives of the Bell term -/

/-- The power `xnp` of the code is `|u| ^ (2 s)`. -/
theorem bell_power_eq (u s : ℝ) (hs : 0 < s) :
    (if u ≠ 0 then Real.rpow (Sqr u) s else 0) = |u| ^ (2 * s) := by
  by_cases hu : u = 0
  · subst hu
    simp only [ne_eq, not_true_eq_false, if_false, abs_zero]
    rw [Real.zero_rpow (by positivity)]
  · rw [if_pos hu, Real.rpow_eq_pow, Real.rpow_mul (abs_nonneg u), Real.rpow_two, sq_abs, Sqr, sq]

/-- C11, amended: in real arithmetic, for a Bell term with center `c`, width
`w` other than 0 and slope `s > 0`, and for every `x`,
`EvalBellTermDerivativeWrtParams` returns the vector
`[dc, dw, ds]` where, with `u = (x - c) / w`, `p = |u| ^ (2 s)` and
`D = (1 + p) ^ 2`: `dc = 2 s p / ((x - c) D)` if `x ≠ c` and 0 otherwise,
`dw = 2 s p / (w D)`, and `ds = -ln (u ^ 2) p / D` if `x ≠ c` and `x ≠ c + w`
and 0 otherwise (`std::pow` being the real power and `std::log` the natural
logarithm, every operation exact). -/
theorem C11_bell_derivative_formula (c w s x : ℝ) (_hw : w ≠ 0) (hs : 0 < s) :
    EvalBellTermDerivativeWrtParams Real.rpow Real.log c w s x =
      [ if x ≠ c then
          2 * s * |(x - c) / w| ^ (2 * s) / ((x - c) * (1 + |(x - c) / w| ^ (2 * s)) ^ 2)
        else 0,
        2 * s * |(x - c) / w| ^ (2 * s) / (w * (1 + |(x - c) / w| ^ (2 * s)) ^ 2),
        if x ≠ c ∧ x ≠ c + w then
          -Real.log (((x - c) / w) ^ 2) * |(x - c) / w| ^ (2 * s) /
            (1 + |(x - c) / w| ^ (2 * s)) ^ 2
        else 0 ] := by
  simp only [EvalBellTermDerivativeWrtParams, bell_power_eq _ s hs]
  simp only [Sqr, sq]

/-- C11, amended, on the Bell term with center 0, width 1 and slope 1 at
`x = 2`. -/
theorem C11_bell_derivative_formula_witness :
    (1 : ℝ) ≠ 0 ∧ (0 : ℝ) < 1 ∧
    EvalBellTermDerivativeWrtParams Real.rpow Real.log (0 : ℝ) 1 1 2 =
      [4 / 25, 8 / 25, -Real.log 4 * 4 / 25] := by
  refine ⟨by norm_num, by norm_num, ?_⟩
  rw [C11_bell_derivative_formula 0 1 1 2 (by norm_num) (by norm_num)]
  norm_num [Real.rpow_two]

theorem EvalBell_length {α : Type} [Zero α] [One α] [NatCast α] [Add α] [Sub α]
    [Mul α] [Div α] [Neg α] [DecidableEq α] (pow : α → α → α) (log : α → α) (c w s x : α) :
    (EvalBellTermDerivativeWrtParams pow log c w s x).length = 3 := rfl

/-- C14: `EvalTermDerivativeWrtParams` throws (the not-implemented error)
exactly when the term is not a Bell term, whatever `x` is; on a Bell term it
returns a vector of length 3. -/
theorem C14_derivative_only_for_bell {α : Type} [Zero α] [One α] [NatCast α] [Add α] [Sub α]
    [Mul α] [Div α] [Neg α] [DecidableEq α] (pow : α → α → α) (log : α → α)
    (p_term : Term α) (x : α) :
    (EvalTermDerivativeWrtParams pow log p_term x = .error .notImplemented ↔
      ¬ ∃ c w s, p_term = .bell c w s) ∧
    (∀ err, EvalTermDerivativeWrtParams pow log p_term x = .error err →
      err = .notImplemented) ∧
    (∀ c w s, p_term = .bell c w s →
      ∃ v, EvalTermDerivativeWrtParams pow log p_term x = .ok v ∧ v.length = 3) := by
  cases p_term <;> simp [EvalTermDerivativeWrtParams, EvalBellTermDerivativeWrtParams]

/-- The membership of the spec, with the power written as the code writes it. -/
theorem bellMembership_eq (c w s x : ℝ) :
    bellMembership Real.rpow abs c w s x = 1 / (1 + (((x - c) / w) * ((x - c) / w)) ^ s) := by
  unfold bellMembership
  rw [Real.rpow_eq_pow, Real.rpow_mul (abs_nonneg _), Real.rpow_two, sq_abs, sq]

theorem hasDerivAt_bell_of_base (g : ℝ → ℝ) (g' a s : ℝ) (hg : HasDerivAt g g' a)
    (h0 : g a ≠ 0) :
    HasDerivAt (fun t => 1 / (1 + (g t * g t) ^ s))
      (-(((g' * g a + g a * g') * s * (g a * g a) ^ (s - 1))) / (1 + (g a * g a) ^ s) ^ 2) a := by
  have hsq : HasDerivAt (fun t => g t * g t) (g' * g a + g a * g') a := hg.mul hg
  have hne : g a * g a ≠ 0 := mul_ne_zero h0 h0
  have hpow := hsq.rpow_const (Or.inl hne) (p := s)
  have hden : HasDerivAt (fun t => 1 + (g t * g t) ^ s)
      ((g' * g a + g a * g') * s * (g a * g a) ^ (s - 1)) a := by
    simpa using hpow.const_add 1
  have hpos : (1 : ℝ) + (g a * g a) ^ s ≠ 0 := by
    have : 0 ≤ (g a * g a) ^ s := Real.rpow_nonneg (mul_self_nonneg _) _
    linarith
  have := hden.inv hpos
  simpa [one_div] using this

theorem bell_power_split (v s : ℝ) (hv : v ≠ 0) :
    (v * v) ^ (s - 1) = (v * v) ^ s / (v * v) := by
  have hpos : 0 < v * v := mul_self_pos.mpr hv
  rw [Real.rpow_sub_one hpos.ne']

theorem bell_denominator_ne_zero (v s : ℝ) : (1 : ℝ) + (v * v) ^ s ≠ 0 := by
  have : 0 ≤ (v * v) ^ s := Real.rpow_nonneg (mul_self_nonneg _) _
  linarith

theorem hasDerivAt_bell_center (c w s x : ℝ) (hw : 0 < w) (hx : x ≠ c) :
    HasDerivAt (fun c' => bellMembership Real.rpow abs c' w s x)
      (2 * s * (((x - c) / w) * ((x - c) / w)) ^ s /
        ((x - c) * (1 + (((x - c) / w) * ((x - c) / w)) ^ s) ^ 2)) c := by
  have hxc : x - c ≠ 0 := sub_ne_zero.mpr hx
  have hu : (x - c) / w ≠ 0 := div_ne_zero hxc hw.ne'
  have hg : HasDerivAt (fun c' : ℝ => (x - c') / w) (-1 / w) c := by
    simpa using ((hasDerivAt_id c).const_sub x).div_const w
  have h := hasDerivAt_bell_of_base _ _ c s hg hu
  have hfun : (fun c' => bellMembership Real.rpow abs c' w s x) =
      fun t => 1 / (1 + ((x - t) / w * ((x - t) / w)) ^ s) := by
    funext t
    exact bellMembership_eq t w s x
  rw [hfun]
  refine h.congr_deriv ?_
  rw [bell_power_split _ s hu]
  have hD := bell_denominator_ne_zero ((x - c) / w) s
  generalize ((x - c) / w * ((x - c) / w)) ^ s = P at hD ⊢
  have hw0 : w ≠ 0 := hw.ne'
  field_simp
  ring

theorem hasDerivAt_bell_width (c w s x : ℝ) (hw : 0 < w) (hx : x ≠ c) :
    HasDerivAt (fun w' => bellMembership Real.rpow abs c w' s x)
      (2 * s * (((x - c) / w) * ((x - c) / w)) ^ s /
        (w * (1 + (((x - c) / w) * ((x - c) / w)) ^ s) ^ 2)) w := by
  have hxc : x - c ≠ 0 := sub_ne_zero.mpr hx
  have hw0 : w ≠ 0 := hw.ne'
  have hu : (x - c) / w ≠ 0 := div_ne_zero hxc hw0
  have hg : HasDerivAt (fun w' : ℝ => (x - c) / w') (-(x - c) / w ^ 2) w := by
    have h1 := ((hasDerivAt_const w (x - c)).div (hasDerivAt_id w) hw0)
    refine h1.congr_deriv ?_
    simp
  have h := hasDerivAt_bell_of_base _ _ w s hg hu
  have hfun : (fun w' => bellMembership Real.rpow abs c w' s x) =
      fun t => 1 / (1 + ((x - c) / t * ((x - c) / t)) ^ s) := by
    funext t
    exact bellMembership_eq c t s x
  rw [hfun]
  refine h.congr_deriv ?_
  rw [bell_power_split _ s hu]
  have hD := bell_denominator_ne_zero ((x - c) / w) s
  generalize ((x - c) / w * ((x - c) / w)) ^ s = P at hD ⊢
  field_simp
  ring

theorem hasDerivAt_bell_slope (c w s x : ℝ) (hw : 0 < w) (hx : x ≠ c) :
    HasDerivAt (fun s' => bellMembership Real.rpow abs c w s' x)
      (-Real.log (((x - c) / w) * ((x - c) / w)) * (((x - c) / w) * ((x - c) / w)) ^ s /
        (1 + (((x - c) / w) * ((x - c) / w)) ^ s) ^ 2) s := by
  have hxc : x - c ≠ 0 := sub_ne_zero.mpr hx
  have hu : (x - c) / w ≠ 0 := div_ne_zero hxc hw.ne'
  have hpos : 0 < ((x - c) / w) * ((x - c) / w) := mul_self_pos.mpr hu
  have hpow : HasDerivAt (fun s' : ℝ => (((x - c) / w) * ((x - c) / w)) ^ s')
      ((((x - c) / w) * ((x - c) / w)) ^ s * Real.log (((x - c) / w) * ((x - c) / w))) s :=
    (Real.hasStrictDerivAt_const_rpow hpos s).hasDerivAt
  have hden := hpow.const_add 1
  have hD := bell_denominator_ne_zero ((x - c) / w) s
  have h := hden.inv hD
  have hfun : (fun s' => bellMembership Real.rpow abs c w s' x) =
      fun t => (1 + ((x - c) / w * ((x - c) / w)) ^ t)⁻¹ := by
    funext t
    rw [bellMembership_eq c w t x, one_div]
  rw [hfun]
  refine h.congr_deriv ?_
  generalize ((x - c) / w * ((x - c) / w)) ^ s = P
  generalize Real.log ((x - c) / w * ((x - c) / w)) = L
  ring

/-- The vector `EvalBellTermDerivativeWrtParams` returns away from the center. -/
theorem EvalBell_of_ne (c w s x : ℝ) (hw : w ≠ 0) (hx : x ≠ c) :
    EvalBellTermDerivativeWrtParams Real.rpow Real.log c w s x =
      [ 2 * s * (((x - c) / w) * ((x - c) / w)) ^ s /
          ((x - c) * (1 + (((x - c) / w) * ((x - c) / w)) ^ s) ^ 2),
        2 * s * (((x - c) / w) * ((x - c) / w)) ^ s /
          (w * (1 + (((x - c) / w) * ((x - c) / w)) ^ s) ^ 2),
        -Real.log (((x - c) / w) * ((x - c) / w)) * (((x - c) / w) * ((x - c) / w)) ^ s /
          (1 + (((x - c) / w) * ((x - c) / w)) ^ s) ^ 2 ] := by
  have hu : (x - c) / w ≠ 0 := div_ne_zero (sub_ne_zero.mpr hx) hw
  simp only [EvalBellTermDerivativeWrtParams, Sqr, if_pos hu, if_pos hx, Real.rpow_eq_pow, sq]
  by_cases hxw : x = c + w
  · have h1 : (x - c) / w = 1 := by
      rw [hxw]
      field_simp
    have hneg : ¬ (x ≠ c ∧ x ≠ c + w) := fun h => h.2 hxw
    rw [if_neg hneg, h1]
    simp
  · rw [if_pos ⟨hx, hxw⟩]

/-- C12, amended: in real arithmetic, for a Bell term with positive width and
slope and `x` away from the center, the three values `EvalTermDerivativeWrtParams` returns are, in the
order (center, width, slope) in which `GetTermParameters` lists the parameters,
the partial derivatives of the membership `1 / (1 + |(x - c) / w| ^ (2 s))`
with respect to the center, the width and the slope. -/
theorem C12_bell_derivative_is_gradient (c w s x : ℝ) (hw : 0 < w) (_hs : 0 < s)
    (hx : x ≠ c) :
    ∃ dc dw ds : ℝ,
      EvalTermDerivativeWrtParams Real.rpow Real.log (Term.bell c w s) x = .ok [dc, dw, ds] ∧
      GetTermParameters (Term.bell c w s) = [c, w, s] ∧
      HasDerivAt (fun c' => bellMembership Real.rpow abs c' w s x) dc c ∧
      HasDerivAt (fun w' => bellMembership Real.rpow abs c w' s x) dw w ∧
      HasDerivAt (fun s' => bellMembership Real.rpow abs c w s' x) ds s := by
  refine ⟨_, _, _, ?_, rfl, hasDerivAt_bell_center c w s x hw hx,
    hasDerivAt_bell_width c w s x hw hx, hasDerivAt_bell_slope c w s x hw hx⟩
  simp only [EvalTermDerivativeWrtParams, EvalBell_of_ne c w s x hw.ne' hx]

/-- C12, amended, on the Bell term with center 0, width 1 and slope 1 at
`x = 2`: the
three derivatives are 4/25, 8/25 and -(4 ln 4)/25. -/
theorem C12_bell_derivative_is_gradient_witness :
    (0 : ℝ) < 1 ∧ (2 : ℝ) ≠ 0 ∧
    ∃ dc dw ds : ℝ,
      EvalTermDerivativeWrtParams Real.rpow Real.log (Term.bell 0 1 1) 2 = .ok [dc, dw, ds] ∧
      GetTermParameters (Term.bell (0 : ℝ) 1 1) = [0, 1, 1] ∧
      HasDerivAt (fun c' => bellMembership Real.rpow abs c' 1 1 2) dc 0 ∧
      HasDerivAt (fun w' => bellMembership Real.rpow abs 0 w' 1 2) dw 1 ∧
      HasDerivAt (fun s' => bellMembership Real.rpow abs 0 1 s' 2) ds 1 :=
  ⟨by norm_num, by norm_num,
    C12_bell_derivative_is_gradient 0 1 1 2 (by norm_num) (by norm_num) (by norm_num)⟩

/-! ## The Bell derivative on doubles -/

namespace Flt

variable {K : Type} [LinearOrderedField K]

theorem ofNat_eq (n : ℕ) [n.AtLeastTwo] : (OfNat.ofNat n : Flt K) = .fin (OfNat.ofNat n) := by
  show Flt.fin ((OfNat.ofNat n : ℕ) : K) = .fin (OfNat.ofNat n)
  rw [Nat.cast_ofNat]

theorem zero_eq : (0 : Flt K) = .fin 0 := rfl

theorem one_eq : (1 : Flt K) = .fin 1 := rfl

theorem add_eq (x y : Flt K) : x + y = Flt.add x y := rfl

theorem sub_eq (x y : Flt K) : x - y = Flt.sub x y := rfl

theorem mul_eq (x y : Flt K) : x * y = Flt.mul x y := rfl

theorem div_eq (x y : Flt K) : x / y = Flt.div x y := rfl

theorem neg_eq (x : Flt K) : -x = Flt.neg x := rfl

/-- Whatever is multiplied by an infinity and divided by an infinity is NaN. -/
theorem div_mul_inf (y : Flt K) (s t : Bool) : Flt.div (Flt.mul y (.inf s)) (.inf t) = .nan := by
  rcases y with _ | a | u
  · rfl
  · by_cases h : a = 0 <;> simp [Flt.mul, Flt.div, h]
  · rfl

end Flt

/-- The power `4 ^ 1000 = 2 ^ 2000` is beyond the range of a `double`. -/
theorem samplePow_overflow : samplePow (.fin 4) (.fin 1000) = .inf false := by
  have hn : Int.toNat 1000 = 1000 := rfl
  simp only [samplePow, Flt.overflow]
  norm_num [hn]

/-- On doubles the power `pow(4, 1000)` of the Bell term with center 0, width
1 and slope 1000 at `x = 2` overflows, and the three entries, each an infinity
over an infinity, are NaN, whatever `std::log` returns. -/
theorem EvalBell_overflow (log : Flt ℚ → Flt ℚ) :
    EvalBellTermDerivativeWrtParams samplePow log (.fin 0 : Flt ℚ) (.fin 1) (.fin 1000) (.fin 2) =
      [.nan, .nan, .nan] := by
  have hxn : ((.fin 2 : Flt ℚ) - .fin 0) / .fin 1 = .fin 2 := by
    simp [Flt.sub_eq, Flt.div_eq, Flt.sub, Flt.div]
  have hsq : Sqr (.fin 2 : Flt ℚ) = .fin 4 := by
    simp only [Sqr, Flt.mul_eq, Flt.mul]
    norm_num
  have hne : (.fin 2 : Flt ℚ) ≠ 0 := by
    rw [Flt.zero_eq]
    intro h
    injection h with h
    norm_num at h
  have h20 : (.fin 2 : Flt ℚ) ≠ .fin 0 := hne
  have h21 : (.fin 2 : Flt ℚ) ≠ .fin 0 + .fin 1 := by
    intro h
    simp [Flt.add_eq, Flt.add] at h
  have hden : Sqr ((1 : Flt ℚ) + .inf false) = .inf false := rfl
  simp only [EvalBellTermDerivativeWrtParams, hxn, hsq, samplePow_overflow, if_pos hne,
    if_pos h20, if_pos (And.intro h20 h21), hden]
  simp only [Flt.mul_eq, Flt.div_eq, Flt.sub_eq, Flt.neg_eq, Flt.div_mul_inf]
  have h1 : Flt.mul (Flt.sub (.fin 2) (.fin 0)) (.inf false) = (.inf false : Flt ℚ) := by
    simp [Flt.sub, Flt.mul]
  have h2 : Flt.mul (.fin 1) (.inf false) = (.inf false : Flt ℚ) := by
    simp [Flt.mul]
  rw [h1, h2, Flt.div_mul_inf]

/-- C11, as stated, fails on doubles: for the Bell term with center 0, width 1
and slope 1000 at `x = 2` the power `pow(4, 1000)` overflows to infinity and
`EvalBellTermDerivativeWrtParams` returns three NaN, whatever `std::log`
returns, while the claimed entries are numbers: in real arithmetic the first
two are positive and the third is negative. -/
theorem C11_counterexample_overflow :
    samplePow (.fin 4) (.fin 1000) = .inf false ∧
    (∀ log : Flt ℚ → Flt ℚ,
      EvalBellTermDerivativeWrtParams samplePow log (.fin 0) (.fin 1) (.fin 1000) (.fin 2) =
        [.nan, .nan, .nan]) ∧
    ∃ dc dw ds : ℝ,
      EvalBellTermDerivativeWrtParams Real.rpow Real.log 0 1 1000 2 = [dc, dw, ds] ∧
      0 < dc ∧ 0 < dw ∧ ds < 0 := by
  refine ⟨samplePow_overflow, EvalBell_overflow, _, _, _,
    EvalBell_of_ne 0 1 1000 2 (by norm_num) (by norm_num), ?_, ?_, ?_⟩
  · have hP : (0 : ℝ) < (((2 - 0) / 1) * ((2 - 0) / 1)) ^ (1000 : ℝ) :=
      Real.rpow_pos_of_pos (by norm_num) _
    positivity
  · have hP : (0 : ℝ) < (((2 - 0) / 1) * ((2 - 0) / 1)) ^ (1000 : ℝ) :=
      Real.rpow_pos_of_pos (by norm_num) _
    positivity
  · have hP : (0 : ℝ) < (((2 - 0) / 1) * ((2 - 0) / 1)) ^ (1000 : ℝ) :=
      Real.rpow_pos_of_pos (by norm_num) _
    have hL : 0 < Real.log (((2 : ℝ) - 0) / 1 * ((2 - 0) / 1)) :=
      Real.log_pos (by norm_num)
    have hD : (0 : ℝ) < (1 + (((2 - 0) / 1) * ((2 - 0) / 1)) ^ (1000 : ℝ)) ^ 2 := by positivity
    rw [neg_mul, neg_div, neg_lt_zero]
    exact div_pos (mul_pos hL hP) hD

/-- C12, as stated, fails on doubles: for the Bell term with center 0, width 1
and slope 1000 at `x = 2` (positive width and slope, `x` away from the center)
`EvalTermDerivativeWrtParams` returns three NaN, whatever `std::log` returns,
while the membership has partial derivatives there. -/
theorem C12_counterexample_overflow :
    (∀ log : Flt ℚ → Flt ℚ,
      EvalTermDerivativeWrtParams samplePow log (Term.bell (.fin 0) (.fin 1) (.fin 1000))
        (.fin 2) = .ok [.nan, .nan, .nan]) ∧
    (0 : ℝ) < 1 ∧ (0 : ℝ) < 1000 ∧ (2 : ℝ) ≠ 0 ∧
    ∃ dc dw ds : ℝ,
      HasDerivAt (fun c' => bellMembership Real.rpow abs c' 1 1000 2) dc 0 ∧
      HasDerivAt (fun w' => bellMembership Real.rpow abs 0 w' 1000 2) dw 1 ∧
      HasDerivAt (fun s' => bellMembership Real.rpow abs 0 1 s' 2) ds 1000 := by
  refine ⟨fun log => ?_, by norm_num, by norm_num, by norm_num, _, _, _,
    hasDerivAt_bell_center 0 1 1000 2 (by norm_num) (by norm_num),
    hasDerivAt_bell_width 0 1 1000 2 (by norm_num) (by norm_num),
    hasDerivAt_bell_slope 0 1 1000 2 (by norm_num) (by norm_num)⟩
  simp only [EvalTermDerivativeWrtParams, EvalBell_overflow]

/-! ## The finite difference -/

/-- C15: a firing strength node whose predecessors, in the order in which
`connect` added them, are `p :: ps` evaluates to the left fold of its norm over
their cached values, `norm(... norm(norm(v1, v2), v3) ..., vn)`; `Node::eval`
returns this value and stores it in the node, where `getValue` finds it.  With
a single predecessor the value is `v1` whatever the norm computes. -/
theorem C15_firing_strength_left_fold {α : Type} [Scalar α] (env : Env α) (e : Engine)
    (val_ : Ptr → α) (n : RuleFiringStrengthNode) (p : Ptr) (ps : List Ptr)
    (hconn : e.inputConnections n.addr = .ok (p :: ps)) :
    RuleFiringStrengthNode.doEval env e val_ n =
      .ok ((ps.map val_).foldl (env.compute n.p_norm_) (val_ p)) ∧
    (Node.eval (fun v => RuleFiringStrengthNode.doEval env e v n) val_ n.addr).1 =
      .ok ((ps.map val_).foldl (env.compute n.p_norm_) (val_ p)) ∧
    Node.getValue (Node.eval (fun v => RuleFiringStrengthNode.doEval env e v n) val_ n.addr).2
      n.addr = (ps.map val_).foldl (env.compute n.p_norm_) (val_ p) ∧
    (∀ q : Ptr, q ≠ n.addr →
      Node.getValue (Node.eval (fun v => RuleFiringStrengthNode.doEval env e v n) val_ n.addr).2
        q = Node.getValue val_ q) ∧
    (ps = [] → ∀ env2 : Env α,
      (Node.eval (fun v => RuleFiringStrengthNode.doEval env2 e v n) val_ n.addr).1 =
        .ok (val_ p)) := by
  have hd : ∀ env2 : Env α, RuleFiringStrengthNode.doEval env2 e val_ n =
      .ok ((ps.map val_).foldl (env2.compute n.p_norm_) (val_ p)) := by
    intro env2
    simp only [RuleFiringStrengthNode.doEval, Node.inputs, hconn, List.map_cons]
  refine ⟨hd env, ?_, ?_, ?_, ?_⟩
  · simp only [Node.eval, hd env]
  · simp only [Node.eval, hd env, Node.getValue, Function.update_same]
  · intro q hq
    simp only [Node.eval, hd env, Node.getValue, Function.update_noteq hq]
  · intro hps env2
    simp only [Node.eval, hd env2, hps, List.map_nil, List.foldl_nil]

/-- C15 on the firing strength node of rule 50 in the sample engine: its
predecessors are the nodes 1002 and 1007 and its norm is the minimum. -/
theorem C15_firing_strength_left_fold_witness :
    ((sampleEngine [40]).build sampleEnv).state.inputConnections 1008 = .ok [1002, 1007] ∧
    RuleFiringStrengthNode.doEval sampleEnv ((sampleEngine [40]).build sampleEnv).state
      (fun a => Num.int a) ⟨1008, 70⟩ = .ok (Num.int 1002) :=
  ⟨rfl, (C15_firing_strength_left_fold sampleEnv ((sampleEngine [40]).build sampleEnv).state
    (fun a => Num.int a) ⟨1008, 70⟩ 1002 [1007] rfl).1⟩

/-- C16 at a rule whose antecedent flattens to no terms (rule 53 of the sample
block 42, never loaded): `build()` succeeds and creates the firing strength
node 1008 without connecting anything to it; `inConns_` then has no entry for
the node, `Engine::inputConnections` throws (`std::map::at`), and so do
`doEval`, `Node::eval` and `Engine::eval`, whereas `doEval` on an empty vector
of inputs would have returned NaN. -/
theorem C16_zero_predecessors_throw :
    flattenRuleAntecedent (sampleEnv.rule 53).antecedent Flat.empty = .ok ⟨[], [], [], ""⟩ ∧
    ((sampleEngine [42]).build sampleEnv).thrown = none ∧
    ((sampleEngine [42]).build sampleEnv).state.antecedentNodes_ = [⟨1008, 71⟩] ∧
    ((sampleEngine [42]).build sampleEnv).state.inConns_.find 1008 = [] ∧
    ((sampleEngine [42]).build sampleEnv).state.inputConnections 1008 = .error .outOfRange ∧
    ∀ val_ : Ptr → Num,
      RuleFiringStrengthNode.doEval sampleEnv ((sampleEngine [42]).build sampleEnv).state val_
        ⟨1008, 71⟩ = .error .outOfRange ∧
      (Node.eval (fun v => RuleFiringStrengthNode.doEval sampleEnv
        ((sampleEngine [42]).build sampleEnv).state v ⟨1008, 71⟩) val_ 1008).1 =
          .error .outOfRange ∧
      (((sampleEngine [42]).build sampleEnv).state.eval sampleEnv val_).result =
        .error .outOfRange :=
  ⟨rfl, by decide, by decide, by decide, rfl, fun _ => ⟨rfl, rfl, rfl⟩⟩

/-- C18 at an engine with one output variable and no rule block: `build()`
succeeds from empty buckets and creates the two sum nodes 1008 and 1009
without connecting anything to them; `Engine::eval` evaluates layers 0 to 4 and
throws in layer 5, where `Engine::inputConnections` finds no entry for the
first sum node (`std::map::at`). -/
theorem C18_eval_throws_without_rules :
    (sampleEngine []).bucketsEmpty = true ∧
    ((sampleEngine []).build sampleEnv).thrown = none ∧
    ((sampleEngine []).build sampleEnv).state.sumNodes_ = [⟨1008⟩, ⟨1009⟩] ∧
    ((sampleEngine []).build sampleEnv).state.inputConnections 1008 = .error .outOfRange ∧
    ∀ val_ : Ptr → Num,
      (((sampleEngine []).build sampleEnv).state.evalAccumulationLayer val_).result =
        .error .outOfRange ∧
      (((sampleEngine []).build sampleEnv).state.eval sampleEnv val_).result =
        .error .outOfRange :=
  ⟨by decide, by decide, by decide, rfl, fun _ => ⟨rfl, rfl⟩⟩

/-- The value `Engine::eval` returns after a successful `build()` from empty
buckets. -/
theorem eval_of_build {α : Type} [Scalar α] (env : Env α) (e : Engine) (val0 : Ptr → α)
    (hempty : e.bucketsEmpty = true) (hs : e.heapSane = true)
    (hbuild : (e.build env).thrown = none)
    (hne : (enabledRules env e.ruleBlocks_) ≠ [])
    (hterms : ∀ br ∈ (enabledRules env e.ruleBlocks_), (flatOf env br.2).terms ≠ [])
    (hshared : ∀ br ∈ (enabledRules env e.ruleBlocks_), ∀ br2 ∈ (enabledRules env e.ruleBlocks_),
        br2.2 = br.2 →
      firingNorm env br2 = firingNorm env br) :
    ((e.build env).state.eval env val0).result =
      .ok [sumOf ((enabledRules env e.ruleBlocks_).map (implicationValue env e.inputs_)) /
        sumOf ((enabledRules env e.ruleBlocks_).map (firingStrength env e.inputs_))] := by
  obtain ⟨-, hrules, hstate⟩ := build_ok env e hbuild
  have hpairs : ∀ br ∈ (enabledRules env e.ruleBlocks_), flatPairs env br.2 ≠ [] := by
    intro br hbr hc
    obtain ⟨⟨g, hg⟩, -⟩ := rulesOk_mem env e hrules br hbr
    have hflat := flatOf_of_ok env br.2 g hg
    obtain ⟨-, hlen⟩ := flatten_lengths _ g hg
    have hl := congrArg List.length hc
    simp only [flatPairs, hflat, List.length_zip, hlen, Nat.min_self, List.length_nil] at hl
    exact hterms br hbr (hflat ▸ List.length_eq_zero.mp hl)
  rw [hstate]
  exact eval_built env e hs hempty hrules hne hpairs hshared val0

theorem sumOf_zeros {α : Type} [Scalar α] (h00 : (0 : α) + 0 = 0) (xs : List α)
    (hxs : ∀ x ∈ xs, x = 0) : sumOf xs = 0 := by
  unfold sumOf
  induction xs with
  | nil => rfl
  | cons x rest ih =>
    rw [List.foldl_cons, hxs x (List.mem_cons_self _ _), h00]
    exact ih (fun y hy => hxs y (List.mem_cons_of_mem _ hy))

/-- C17, as stated, fails in IEEE arithmetic, where only 0/0 is NaN.  The
normalization node 1007 of the sample engine, with the cached values 1 and 0 in
its predecessors 1005 and 1006, evaluates to 1/0, plus infinity.  And with the
input 0, the rule `10 IS 20`, the minimum as activation norm and the consequent
value -1, the only firing strength is 0, the implication value is
`min(0, -1) = -1`, and `eval()` returns `-1/0`, minus infinity. -/
theorem C17_counterexample_nonzero_over_zero :
    ((zeroFiringEngine [40]).build zeroFiringEnv).thrown = none ∧
    ((zeroFiringEngine [40]).build zeroFiringEnv).state.inputConnections 1007 =
      .ok [1005, 1006] ∧
    NormalizationNode.doEval ((zeroFiringEngine [40]).build zeroFiringEnv).state
      (fun a => if a = 1005 then Num.int 1 else Num.int 0) ⟨1007⟩ = .ok (Num.inf false) ∧
    Num.inf false ≠ (Scalar.nan : Num) ∧
    (enabledRules zeroFiringEnv [40]).map (firingStrength zeroFiringEnv [10]) = [Num.int 0] ∧
    (enabledRules zeroFiringEnv [40]).map (implicationValue zeroFiringEnv [10]) =
      [Num.int (-1)] ∧
    (((zeroFiringEngine [40]).build zeroFiringEnv).state.eval zeroFiringEnv
      (fun _ => Num.nan)).result = .ok [Num.inf true] ∧
    Num.inf true ≠ (Scalar.nan : Num) :=
  ⟨by decide, rfl, rfl, by decide, by decide, by decide, rfl, by decide⟩

/-- C17, amended: the normalization node evaluates to the quotient of the
cached values of its two predecessors, the first being the numerator; when both
values are zero the result is NaN (0/0 being NaN, as in IEEE arithmetic).  In
particular, in an engine built from empty buckets as in C2, when every firing
strength and every implication value is 0 (and 0 + 0 = 0), `eval()` returns
NaN at the normalization output. -/
theorem C17_normalization_amended {α : Type} [Scalar α]
    (h00 : (0 : α) + 0 = 0) (hdiv : (0 : α) / 0 = Scalar.nan) :
    (∀ (e : Engine) (val_ : Ptr → α) (n : NormalizationNode) (a b : Ptr),
      e.inputConnections n.addr = .ok [a, b] →
        NormalizationNode.doEval e val_ n = .ok (val_ a / val_ b) ∧
        (val_ a = 0 → val_ b = 0 → NormalizationNode.doEval e val_ n = .ok Scalar.nan)) ∧
    (∀ (env : Env α) (e : Engine) (val0 : Ptr → α),
      e.bucketsEmpty = true → e.heapSane = true → (e.build env).thrown = none →
      (enabledRules env e.ruleBlocks_) ≠ [] →
      (∀ br ∈ (enabledRules env e.ruleBlocks_), (flatOf env br.2).terms ≠ []) →
      (∀ br ∈ (enabledRules env e.ruleBlocks_), ∀ br2 ∈ (enabledRules env e.ruleBlocks_),
        br2.2 = br.2 → firingNorm env br2 = firingNorm env br) →
      (∀ br ∈ (enabledRules env e.ruleBlocks_), firingStrength env e.inputs_ br = 0) →
      (∀ br ∈ (enabledRules env e.ruleBlocks_), implicationValue env e.inputs_ br = 0) →
      ((e.build env).state.eval env val0).result = .ok [Scalar.nan]) := by
  constructor
  · intro e val_ n a b hconn
    have hd : NormalizationNode.doEval e val_ n = .ok (val_ a / val_ b) := by
      simp only [NormalizationNode.doEval, Node.inputs, hconn, List.map_cons, List.map_nil]
    refine ⟨hd, fun ha hb => ?_⟩
    rw [hd, ha, hb, hdiv]
  · intro env e val0 hempty hs hbuild hne hterms hshared hfire himpl
    rw [eval_of_build env e val0 hempty hs hbuild hne hterms hshared,
      sumOf_zeros h00 _ (by
        intro x hx
        obtain ⟨br, hbr, rfl⟩ := List.mem_map.mp hx
        exact himpl br hbr),
      sumOf_zeros h00 _ (by
        intro x hx
        obtain ⟨br, hbr, rfl⟩ := List.mem_map.mp hx
        exact hfire br hbr), hdiv]

/-- C17, amended, on the sample engine with the input 0, the rule `10 IS 20`,
the product as activation norm and the consequent value -1: the firing
strength and the implication value are 0 and `eval()` returns NaN. -/
theorem C17_normalization_amended_witness :
    ((0 : Num) + 0 = 0) ∧ ((0 : Num) / 0 = Scalar.nan) ∧
    ((zeroFiringEngine [41]).build zeroFiringEnv).thrown = none ∧
    (enabledRules zeroFiringEnv [41]).map (firingStrength zeroFiringEnv [10]) = [Num.int 0] ∧
    (enabledRules zeroFiringEnv [41]).map (implicationValue zeroFiringEnv [10]) = [Num.int 0] ∧
    (((zeroFiringEngine [41]).build zeroFiringEnv).state.eval zeroFiringEnv
      (fun _ => Num.nan)).result = .ok [Num.nan] :=
  ⟨by decide, by decide, by decide, by decide, by decide,
    (@C17_normalization_amended Num _ (by decide) (by decide)).2 zeroFiringEnv
      (zeroFiringEngine [41]) (fun _ => Num.nan) (by decide) (by decide) (by decide) (by decide)
      (by decide) (by decide) (by decide) (by decide)⟩

/-! ## The output variable -/

/-- C19, as stated, fails on the sample engine: after `build()`, `eval()`
returns 61 while `getOutputValue("z")` still returns the NaN the output variable
held before; nothing in `Engine::eval` writes to a variable. -/
theorem C19_counterexample_output_value_not_set :
    ((sampleEngine [40]).build sampleEnv).thrown = none ∧
    (((sampleEngine [40]).build sampleEnv).state.eval sampleEnv (fun _ => Num.nan)).result =
      .ok [Num.int 61] ∧
    ((sampleEngine [40]).build sampleEnv).state.getOutputValue sampleEnv "z" = .ok Num.nan ∧
    Num.nan ≠ Num.int 61 :=
  ⟨by decide, rfl, rfl, by decide⟩

/-! ## What `eval()` writes -/

/-- A layer evaluation changes the cached value of the nodes of the layer only. -/
theorem evalLayer_frame {α ν : Type} (addr : ν → Ptr) (doEval : (Ptr → α) → ν → Except Error α)
    (nodes : List ν) (val_ : Ptr → α) (vals : List α) (a : Ptr)
    (ha : ∀ n ∈ nodes, addr n ≠ a) :
    (evalLayer addr doEval nodes val_ vals).val_ a = val_ a := by
  induction nodes generalizing val_ vals with
  | nil => rfl
  | cons n rest ih =>
    unfold evalLayer
    cases hd : doEval val_ n with
    | error err => rfl
    | ok v =>
      simp only
      rw [ih _ _ (fun m hm => ha m (List.mem_cons_of_mem _ hm))]
      exact Function.update_noteq (ha n (List.mem_cons_self _ _)).symm _ _

theorem evalAndThen_frame {α : Type} (o : EvalOutcome α) (f : (Ptr → α) → EvalOutcome α)
    (val_ : Ptr → α) (a : Ptr) (ho : o.val_ a = val_ a)
    (hf : ∀ v : Ptr → α, (f v).val_ a = v a) : (o.andThen f).val_ a = val_ a := by
  unfold EvalOutcome.andThen
  cases o.result with
  | error err => exact ho
  | ok vs =>
    simp only
    rw [hf, ho]

theorem evalAndThen_result {α : Type} (o : EvalOutcome α) (f : (Ptr → α) → EvalOutcome α)
    (vs : List α) (h : (o.andThen f).result = .ok vs) : o.andThen f = f o.val_ := by
  unfold EvalOutcome.andThen at h ⊢
  cases ho : o.result with
  | error err => simp [ho] at h
  | ok vs0 => rfl

/-- The cached values `eval()` leaves behind differ from those before at the
addresses of the nodes of the engine only. -/
theorem eval_frame {α : Type} [Scalar α] (env : Env α) (e : Engine) (val_ : Ptr → α) (a : Ptr)
    (h0 : ∀ n ∈ e.inputNodes_, n.addr ≠ a) (h1 : ∀ n ∈ e.inputTermNodes_, n.addr ≠ a)
    (h2 : ∀ n ∈ e.inputHedgeNodes_, n.addr ≠ a) (h3 : ∀ n ∈ e.antecedentNodes_, n.addr ≠ a)
    (h4 : ∀ n ∈ e.consequentNodes_, n.addr ≠ a) (h5 : ∀ n ∈ e.sumNodes_, n.addr ≠ a)
    (h6 : ∀ n ∈ e.inferenceNodes_, n.addr ≠ a) :
    (e.eval env val_).val_ a = val_ a := by
  unfold Engine.eval
  refine evalAndThen_frame _ _ val_ a ?_ ?_
  · refine evalAndThen_frame _ _ val_ a ?_ ?_
    · refine evalAndThen_frame _ _ val_ a ?_ ?_
      · refine evalAndThen_frame _ _ val_ a ?_ ?_
        · refine evalAndThen_frame _ _ val_ a ?_ ?_
          · exact evalLayer_frame _ _ _ _ _ a h0
          · exact fun v => evalLayer_frame _ _ _ _ _ a h1
        · exact fun v => evalLayer_frame _ _ _ _ _ a h2
      · exact fun v => evalLayer_frame _ _ _ _ _ a h3
    · exact fun v => evalLayer_frame _ _ _ _ _ a h4
  · intro v
    refine evalAndThen_frame _ _ v a ?_ ?_
    · exact evalLayer_frame _ _ _ _ _ a h5
    · exact fun v3 => evalLayer_frame _ _ _ _ _ a h6

/-- When `eval()` returns on an engine with one normalization node, it returns
the one value `doEval` of that node computed, which is then cached in the node. -/
theorem eval_returns_normalization {α : Type} [Scalar α] (env : Env α) (e : Engine)
    (val_ : Ptr → α) (n : NormalizationNode) (hn : e.inferenceNodes_ = [n]) (vs : List α)
    (h : (e.eval env val_).result = .ok vs) :
    ∃ (v : α) (val6 : Ptr → α), vs = [v] ∧ NormalizationNode.doEval e val6 n = .ok v ∧
      Node.getValue (e.eval env val_).val_ n.addr = v := by
  unfold Engine.eval at h ⊢
  have e1 := evalAndThen_result _ _ vs h
  rw [e1] at h ⊢
  have e2 := evalAndThen_result _ _ vs h
  rw [e2] at h ⊢
  generalize (@Engine.evalAccumulationLayer α _ e _).val_ = val6 at h ⊢
  simp only [Engine.evalNormalizationLayer, hn, evalLayer] at h ⊢
  cases hd : NormalizationNode.doEval e val6 n with
  | error err => simp [hd] at h
  | ok v =>
    simp only [hd, List.nil_append, Except.ok.injEq] at h ⊢
    exact ⟨v, val6, h.symm, hd, by simp [Node.getValue]⟩

/-- C19, amended: on an engine built from empty buckets, with its one
normalization node `n` and its one output variable `p_ov`: when `eval()`
returns, it returns the one value `doEval` of `n` computed, the output of the
normalization node, and that value is cached in `n`; the values cached
outside the nodes of the engine are left as they were; the outcome of
`eval()` is the same whatever the output variables hold; and
`getOutputValue` of the name of the output variable is the value stored in
that variable, which no statement of `eval()` assigns. -/
theorem C19_output_value_untouched_amended {α : Type} [Scalar α] (env : Env α) (e : Engine)
    (val_ : Ptr → α) (hempty : e.bucketsEmpty = true) (hbuild : (e.build env).thrown = none) :
    ∃ (n : NormalizationNode) (p_ov : Ptr),
      (e.build env).state.inferenceNodes_ = [n] ∧
      (e.build env).state.outputs_ = [p_ov] ∧
      (∀ vs : List α, ((e.build env).state.eval env val_).result = .ok vs →
        ∃ (v : α) (val6 : Ptr → α), vs = [v] ∧
          NormalizationNode.doEval (e.build env).state val6 n = .ok v ∧
          Node.getValue ((e.build env).state.eval env val_).val_ n.addr = v) ∧
      (∀ a : Ptr,
        (∀ m ∈ (e.build env).state.inputNodes_, m.addr ≠ a) →
        (∀ m ∈ (e.build env).state.inputTermNodes_, m.addr ≠ a) →
        (∀ m ∈ (e.build env).state.inputHedgeNodes_, m.addr ≠ a) →
        (∀ m ∈ (e.build env).state.antecedentNodes_, m.addr ≠ a) →
        (∀ m ∈ (e.build env).state.consequentNodes_, m.addr ≠ a) →
        (∀ m ∈ (e.build env).state.sumNodes_, m.addr ≠ a) →
        (∀ m ∈ (e.build env).state.inferenceNodes_, m.addr ≠ a) →
        ((e.build env).state.eval env val_).val_ a = val_ a) ∧
      (∀ outputVariable : Ptr → OutputVariable α,
        (e.build env).state.eval { env with outputVariable := outputVariable } val_ =
          (e.build env).state.eval env val_) ∧
      (e.build env).state.getOutputValue env (env.outputVariable p_ov).name =
        .ok (env.outputVariable p_ov).outputValue := by
  obtain ⟨hout, -, hstate⟩ := build_ok env e hbuild
  obtain ⟨-, -, -, -, -, -, h7⟩ := (bucketsEmpty_iff e).mp hempty
  have hn : ∃ n : NormalizationNode, (e.build env).state.inferenceNodes_ = [n] := by
    rw [hstate]
    simp only [builtEngine, h7, List.nil_append]
    exact ⟨_, rfl⟩
  obtain ⟨n, hn⟩ := hn
  have hp : ∃ p_ov : Ptr, (e.build env).state.outputs_ = [p_ov] := by
    rw [hstate]
    simp only [builtEngine]
    match ho : e.outputs_, hout with
    | [p], _ => exact ⟨p, rfl⟩
  obtain ⟨p_ov, hp⟩ := hp
  refine ⟨n, p_ov, hn, hp, ?_, ?_, fun _ => rfl, ?_⟩
  · intro vs h
    exact eval_returns_normalization env _ val_ n hn vs h
  · intro a h0 h1 h2 h3 h4 h5 h6
    exact eval_frame env _ val_ a h0 h1 h2 h3 h4 h5 h6
  · simp [Engine.getOutputValue, Engine.getOutputVariableByName, hp]

/-- C19, amended, on the sample engine: `eval()` returns 61, the value cached
in the normalization node at address 1014, and `getOutputValue("z")` is the
NaN stored in the output variable. -/
theorem C19_output_value_untouched_amended_witness :
    (sampleEngine [40]).bucketsEmpty = true ∧
    ((sampleEngine [40]).build sampleEnv).thrown = none ∧
    (((sampleEngine [40]).build sampleEnv).state.eval sampleEnv (fun _ => Num.nan)).result =
      .ok [Num.int 61] ∧
    ∃ (n : NormalizationNode) (p_ov : Ptr),
      ((sampleEngine [40]).build sampleEnv).state.inferenceNodes_ = [n] ∧
      ((sampleEngine [40]).build sampleEnv).state.outputs_ = [p_ov] ∧
      (∀ vs : List Num,
        (((sampleEngine [40]).build sampleEnv).state.eval sampleEnv (fun _ => Num.nan)).result =
          .ok vs →
        ∃ (v : Num) (val6 : Ptr → Num), vs = [v] ∧
          NormalizationNode.doEval ((sampleEngine [40]).build sampleEnv).state val6 n = .ok v ∧
          Node.getValue (((sampleEngine [40]).build sampleEnv).state.eval sampleEnv
            (fun _ => Num.nan)).val_ n.addr = v) ∧
      (∀ a : Ptr,
        (∀ m ∈ ((sampleEngine [40]).build sampleEnv).state.inputNodes_, m.addr ≠ a) →
        (∀ m ∈ ((sampleEngine [40]).build sampleEnv).state.inputTermNodes_, m.addr ≠ a) →
        (∀ m ∈ ((sampleEngine [40]).build sampleEnv).state.inputHedgeNodes_, m.addr ≠ a) →
        (∀ m ∈ ((sampleEngine [40]).build sampleEnv).state.antecedentNodes_, m.addr ≠ a) →
        (∀ m ∈ ((sampleEngine [40]).build sampleEnv).state.consequentNodes_, m.addr ≠ a) →
        (∀ m ∈ ((sampleEngine [40]).build sampleEnv).state.sumNodes_, m.addr ≠ a) →
        (∀ m ∈ ((sampleEngine [40]).build sampleEnv).state.inferenceNodes_, m.addr ≠ a) →
        (((sampleEngine [40]).build sampleEnv).state.eval sampleEnv (fun _ => Num.nan)).val_ a =
          Num.nan) ∧
      (∀ outputVariable : Ptr → OutputVariable Num,
        ((sampleEngine [40]).build sampleEnv).state.eval
            { sampleEnv with outputVariable := outputVariable } (fun _ => Num.nan) =
          ((sampleEngine [40]).build sampleEnv).state.eval sampleEnv (fun _ => Num.nan)) ∧
      ((sampleEngine [40]).build sampleEnv).state.getOutputValue sampleEnv
          (sampleEnv.outputVariable p_ov).name =
        .ok (sampleEnv.outputVariable p_ov).outputValue :=
  ⟨by decide, by decide, rfl,
    C19_output_value_untouched_amended sampleEnv (sampleEngine [40]) (fun _ => Num.nan)
      (by decide) (by decide)⟩

/-! ## Replacing a rule block -/

/-- C20 at an engine with the rule blocks 40 and 41: `setRuleBlock(45, 0)`
returns the block 40 and leaves the single block 41 behind, so that
`getRuleBlock(0)` is 41 and not 45, whereas `setInputVariable(12, 0)` replaces
the variable at position 0 and keeps the length. -/
theorem C20_setRuleBlock_erases :
    ((sampleEngine [40, 41]).setRuleBlock 45 0).1 = .ok 40 ∧
    ((sampleEngine [40, 41]).setRuleBlock 45 0).2.ruleBlocks_ = [41] ∧
    ((sampleEngine [40, 41]).setRuleBlock 45 0).2.numberOfRuleBlocks = 1 ∧
    ((sampleEngine [40, 41]).setRuleBlock 45 0).2.getRuleBlock 0 = .ok 41 ∧
    ((sampleEngine [40, 41]).setInputVariable 12 0).1 = .ok 10 ∧
    ((sampleEngine [40, 41]).setInputVariable 12 0).2.inputs_ = [12, 11] ∧
    ((sampleEngine [40, 41]).setOutputVariable 31 0).1 = .ok 30 ∧
    ((sampleEngine [40, 41]).setOutputVariable 31 0).2.outputs_ = [31] :=
  ⟨rfl, by decide, by decide, rfl, rfl, by decide, rfl, by decide⟩

/-! ## Lookup by name -/

theorem find?_first (l : List Ptr) (pred : Ptr → Bool) (p : Ptr) :
    l.find? pred = some p ↔
      ∃ i : Nat, l[i]? = some p ∧ pred p = true ∧
        ∀ j : Nat, j < i → ∀ q : Ptr, l[j]? = some q → pred q = false := by
  induction l with
  | nil => simp
  | cons x rest ih =>
    rw [List.find?_cons]
    cases hx : pred x
    · simp only [ih]
      constructor
      · rintro ⟨i, hi, hp, hj⟩
        refine ⟨i + 1, by simpa using hi, hp, fun j hlt q hq => ?_⟩
        cases j with
        | zero =>
          simp only [List.getElem?_cons_zero, Option.some.injEq] at hq
          rw [← hq]
          exact hx
        | succ j => exact hj j (by omega) q (by simpa using hq)
      · rintro ⟨i, hi, hp, hj⟩
        cases i with
        | zero =>
          simp only [List.getElem?_cons_zero, Option.some.injEq] at hi
          rw [hi, hp] at hx
          cases hx
        | succ i =>
          exact ⟨i, by simpa using hi, hp,
            fun j hlt q hq => hj (j + 1) (by omega) q (by simpa using hq)⟩
    · simp only [Option.some.injEq]
      constructor
      · intro h
        subst h
        exact ⟨0, List.getElem?_cons_zero, hx, fun j hlt => absurd hlt (Nat.not_lt_zero j)⟩
      · rintro ⟨i, hi, hp, hj⟩
        cases i with
        | zero => simpa using hi
        | succ i =>
          have := hj 0 (Nat.succ_pos i) x List.getElem?_cons_zero
          rw [hx] at this
          cases this

/-- What the three lookups by name and the three `has` queries have in
common, for a list `l` of objects named by `nameOf`. -/
theorem lookup_contract (l : List Ptr) (nameOf : Ptr → String) (name : String) :
    (∀ p : Ptr,
      (match l.find? (fun q => decide (nameOf q = name)) with
        | some q => (Except.ok q : Except Error Ptr)
        | none => .error .notFound) = .ok p ↔
      ∃ i : Nat, l[i]? = some p ∧ nameOf p = name ∧
        ∀ j : Nat, j < i → ∀ q : Ptr, l[j]? = some q → nameOf q ≠ name) ∧
    (∀ err : Error,
      (match l.find? (fun q => decide (nameOf q = name)) with
        | some q => (Except.ok q : Except Error Ptr)
        | none => .error .notFound) = .error err ↔
      err = .notFound ∧ ∀ q ∈ l, nameOf q ≠ name) ∧
    (l.any (fun q => decide (nameOf q = name)) = false ↔
      (match l.find? (fun q => decide (nameOf q = name)) with
        | some q => (Except.ok q : Except Error Ptr)
        | none => .error .notFound) = .error .notFound) := by
  have hnone : l.find? (fun q => decide (nameOf q = name)) = none ↔
      ∀ q ∈ l, nameOf q ≠ name := by
    simp [List.find?_eq_none]
  refine ⟨fun p => ?_, fun err => ?_, ?_⟩
  · have h := find?_first l (fun q => decide (nameOf q = name)) p
    simp only [decide_eq_true_eq, decide_eq_false_iff_not] at h
    rw [← h]
    cases l.find? (fun q => decide (nameOf q = name)) <;> simp
  · rw [← hnone]
    cases l.find? (fun q => decide (nameOf q = name)) with
    | none =>
      simp only [Except.error.injEq, and_true]
      exact eq_comm
    | some q => simp
  · rw [List.any_eq_false]
    simp only [decide_eq_true_eq]
    rw [← hnone]
    cases l.find? (fun q => decide (nameOf q = name)) <;> simp

/-- C21: for input variables, output variables and rule blocks alike (the
lists holding no null pointer), the lookup by name returns the first element,
in list order, that has the name; it throws, and then the not-found error,
exactly when no element has the name, which is exactly when the `has` query
returns false.  The queries return a value only: the engine is not changed. -/
theorem C21_lookup_by_name {α : Type} (env : Env α) (e : Engine) (name : String)
    (_hi : (0 : Ptr) ∉ e.inputs_) (_ho : (0 : Ptr) ∉ e.outputs_)
    (_hr : (0 : Ptr) ∉ e.ruleBlocks_) :
    ((∀ p : Ptr, e.getInputVariableByName env name = .ok p ↔
        ∃ i : Nat, e.inputs_[i]? = some p ∧ (env.inputVariable p).name = name ∧
          ∀ j : Nat, j < i → ∀ q : Ptr, e.inputs_[j]? = some q →
            (env.inputVariable q).name ≠ name) ∧
      (∀ err : Error, e.getInputVariableByName env name = .error err ↔
        err = .notFound ∧ ∀ q ∈ e.inputs_, (env.inputVariable q).name ≠ name) ∧
      (e.hasInputVariable env name = false ↔
        e.getInputVariableByName env name = .error .notFound)) ∧
    ((∀ p : Ptr, e.getOutputVariableByName env name = .ok p ↔
        ∃ i : Nat, e.outputs_[i]? = some p ∧ (env.outputVariable p).name = name ∧
          ∀ j : Nat, j < i → ∀ q : Ptr, e.outputs_[j]? = some q →
            (env.outputVariable q).name ≠ name) ∧
      (∀ err : Error, e.getOutputVariableByName env name = .error err ↔
        err = .notFound ∧ ∀ q ∈ e.outputs_, (env.outputVariable q).name ≠ name) ∧
      (e.hasOutputVariable env name = false ↔
        e.getOutputVariableByName env name = .error .notFound)) ∧
    ((∀ p : Ptr, e.getRuleBlockByName env name = .ok p ↔
        ∃ i : Nat, e.ruleBlocks_[i]? = some p ∧ (env.ruleBlock p).name = name ∧
          ∀ j : Nat, j < i → ∀ q : Ptr, e.ruleBlocks_[j]? = some q →
            (env.ruleBlock q).name ≠ name) ∧
      (∀ err : Error, e.getRuleBlockByName env name = .error err ↔
        err = .notFound ∧ ∀ q ∈ e.ruleBlocks_, (env.ruleBlock q).name ≠ name) ∧
      (e.hasRuleBlock env name = false ↔
        e.getRuleBlockByName env name = .error .notFound)) :=
  ⟨lookup_contract e.inputs_ (fun q => (env.inputVariable q).name) name,
    lookup_contract e.outputs_ (fun q => (env.outputVariable q).name) name,
    lookup_contract e.ruleBlocks_ (fun q => (env.ruleBlock q).name) name⟩

/-- C21 on the sample engine: the input variable named "y" is the variable 11,
the second of the list, and no input variable is named "z". -/
theorem C21_lookup_by_name_witness :
    (0 : Ptr) ∉ (sampleEngine [40]).inputs_ ∧ (0 : Ptr) ∉ (sampleEngine [40]).outputs_ ∧
    (0 : Ptr) ∉ (sampleEngine [40]).ruleBlocks_ ∧
    (sampleEngine [40]).getInputVariableByName sampleEnv "y" = .ok 11 ∧
    (sampleEngine [40]).getInputVariableByName sampleEnv "z" = .error .notFound ∧
    (sampleEngine [40]).hasInputVariable sampleEnv "z" = false := by
  have h := C21_lookup_by_name sampleEnv (sampleEngine [40]) "z" (by decide) (by decide)
    (by decide)
  exact ⟨by decide, by decide, by decide, rfl, h.1.2.2.mp (by decide), by decide⟩

/-! ## Indexed access -/

theorem sizeT_of_nonneg (idx : Int) (h0 : 0 ≤ idx) (h1 : idx < 2 ^ 31) :
    sizeT idx = idx.toNat := by
  unfold sizeT
  have h2 : idx % 2 ^ 64 = idx := Int.emod_eq_of_lt h0 (by omega)
  rw [h2]

theorem sizeT_of_neg (idx : Int) (h0 : idx < 0) (h1 : -2 ^ 31 ≤ idx) :
    2 ^ 63 ≤ sizeT idx := by
  unfold sizeT
  omega

/-- The range check `idx >= v.size()` of the indexed operations throws exactly
for the indices outside `0 ≤ idx < v.size()`. -/
theorem sizeT_ge_iff (idx : Int) (n : Nat) (hlo : -2 ^ 31 ≤ idx) (hhi : idx < 2 ^ 31)
    (hn : n < 2 ^ 63) : sizeT idx ≥ n ↔ (idx < 0 ∨ (n : Int) ≤ idx) := by
  by_cases h0 : idx < 0
  · have := sizeT_of_neg idx h0 hlo
    constructor
    · intro _
      exact Or.inl h0
    · intro _
      omega
  · rw [sizeT_of_nonneg idx (by omega) hhi]
    omega

theorem getD_eq_of_getElem? (l : List Ptr) (i : Nat) (p : Ptr) (h : l[i]? = some p) :
    l.getD i 0 = p := by
  rw [List.getD_eq_getElem?_getD, h]
  rfl

theorem eraseIdx_eq_take_drop (l : List Ptr) (i : Nat) :
    l.eraseIdx i = l.take i ++ l.drop (i + 1) := by
  induction l generalizing i with
  | nil => simp
  | cons x rest ih =>
    cases i with
    | zero => simp
    | succ i => simp [ih]

theorem indexed_valid (l : List Ptr) (idx : Int) (h0 : 0 ≤ idx) (h1 : idx < l.length)
    (hhi : idx < 2 ^ 31) :
    ¬ (sizeT idx ≥ l.length) ∧ sizeT idx = idx.toNat ∧
    ∃ p : Ptr, l[idx.toNat]? = some p ∧ l.getD idx.toNat 0 = p := by
  have hs := sizeT_of_nonneg idx h0 hhi
  have hlt : idx.toNat < l.length := by omega
  refine ⟨by omega, hs, l[idx.toNat], List.getElem?_eq_getElem hlt, ?_⟩
  exact getD_eq_of_getElem? l _ _ (List.getElem?_eq_getElem hlt)

/-- C22: for input variables, output variables and rule blocks, with `idx` an
`int` and the lists within the size a vector can have, the indexed `get`, `set`
and `remove` throw the invalid-argument error for every `idx < 0` and every
`idx >= size`, and then leave the engine as it was; for `0 <= idx < size`,
`get` returns the element at `idx`, and `remove` returns it and leaves the
elements before and after it, in their order. -/
theorem C22_indexed_access (e : Engine) (idx : Int)
    (hlo : -2 ^ 31 ≤ idx) (hhi : idx < 2 ^ 31)
    (hni : e.inputs_.length < 2 ^ 63) (hno : e.outputs_.length < 2 ^ 63)
    (hnr : e.ruleBlocks_.length < 2 ^ 63) :
    ((idx < 0 ∨ (e.inputs_.length : Int) ≤ idx →
        e.getInputVariable idx = .error .invalidArgument ∧
        (∀ p_var : Ptr, e.setInputVariable p_var idx = (.error .invalidArgument, e)) ∧
        e.removeInputVariable idx = (.error .invalidArgument, e)) ∧
      (0 ≤ idx ∧ idx < (e.inputs_.length : Int) →
        ∃ p : Ptr, e.inputs_[idx.toNat]? = some p ∧
          e.getInputVariable idx = .ok p ∧
          e.removeInputVariable idx = (.ok p, { e with
            inputs_ := e.inputs_.take idx.toNat ++ e.inputs_.drop (idx.toNat + 1) }))) ∧
    ((idx < 0 ∨ (e.outputs_.length : Int) ≤ idx →
        e.getOutputVariable idx = .error .invalidArgument ∧
        (∀ p_var : Ptr, e.setOutputVariable p_var idx = (.error .invalidArgument, e)) ∧
        e.removeOutputVariable idx = (.error .invalidArgument, e)) ∧
      (0 ≤ idx ∧ idx < (e.outputs_.length : Int) →
        ∃ p : Ptr, e.outputs_[idx.toNat]? = some p ∧
          e.getOutputVariable idx = .ok p ∧
          e.removeOutputVariable idx = (.ok p, { e with
            outputs_ := e.outputs_.take idx.toNat ++ e.outputs_.drop (idx.toNat + 1) }))) ∧
    ((idx < 0 ∨ (e.ruleBlocks_.length : Int) ≤ idx →
        e.getRuleBlock idx = .error .invalidArgument ∧
        (∀ p_block : Ptr, e.setRuleBlock p_block idx = (.error .invalidArgument, e)) ∧
        e.removeRuleBlock idx = (.error .invalidArgument, e)) ∧
      (0 ≤ idx ∧ idx < (e.ruleBlocks_.length : Int) →
        ∃ p : Ptr, e.ruleBlocks_[idx.toNat]? = some p ∧
          e.getRuleBlock idx = .ok p ∧
          e.removeRuleBlock idx = (.ok p, { e with
            ruleBlocks_ :=
              e.ruleBlocks_.take idx.toNat ++ e.ruleBlocks_.drop (idx.toNat + 1) }))) := by
  refine ⟨⟨?_, ?_⟩, ⟨?_, ?_⟩, ⟨?_, ?_⟩⟩
  · intro h
    have hge := (sizeT_ge_iff idx _ hlo hhi hni).mpr h
    simp only [Engine.getInputVariable, Engine.setInputVariable, Engine.removeInputVariable,
      if_pos hge, implies_true, and_self]
  · intro h
    obtain ⟨hnot, hs, p, hp, hd⟩ := indexed_valid e.inputs_ idx h.1 h.2 hhi
    rw [hs] at hnot
    refine ⟨p, hp, ?_, ?_⟩
    · simp only [Engine.getInputVariable, hs, if_neg hnot, hd]
    · simp only [Engine.removeInputVariable, hs, if_neg hnot, hd, eraseIdx_eq_take_drop]
  · intro h
    have hge := (sizeT_ge_iff idx _ hlo hhi hno).mpr h
    simp only [Engine.getOutputVariable, Engine.setOutputVariable, Engine.removeOutputVariable,
      if_pos hge, implies_true, and_self]
  · intro h
    obtain ⟨hnot, hs, p, hp, hd⟩ := indexed_valid e.outputs_ idx h.1 h.2 hhi
    rw [hs] at hnot
    refine ⟨p, hp, ?_, ?_⟩
    · simp only [Engine.getOutputVariable, hs, if_neg hnot, hd]
    · simp only [Engine.removeOutputVariable, hs, if_neg hnot, hd, eraseIdx_eq_take_drop]
  · intro h
    have hge := (sizeT_ge_iff idx _ hlo hhi hnr).mpr h
    simp only [Engine.getRuleBlock, Engine.setRuleBlock, Engine.removeRuleBlock,
      if_pos hge, implies_true, and_self]
  · intro h
    obtain ⟨hnot, hs, p, hp, hd⟩ := indexed_valid e.ruleBlocks_ idx h.1 h.2 hhi
    rw [hs] at hnot
    refine ⟨p, hp, ?_, ?_⟩
    · simp only [Engine.getRuleBlock, hs, if_neg hnot, hd]
    · simp only [Engine.removeRuleBlock, hs, if_neg hnot, hd, eraseIdx_eq_take_drop]

/-- C22 on the sample engine with the rule blocks 40 and 41 at `idx = 1`: the
index is out of range for the single output variable and selects the input
variable 11 and the rule block 41. -/
theorem C22_indexed_access_witness :
    (-2 ^ 31 : Int) ≤ 1 ∧ (1 : Int) < 2 ^ 31 ∧
    (sampleEngine [40, 41]).inputs_.length < 2 ^ 63 ∧
    (sampleEngine [40, 41]).outputs_.length < 2 ^ 63 ∧
    (sampleEngine [40, 41]).ruleBlocks_.length < 2 ^ 63 ∧
    (sampleEngine [40, 41]).getOutputVariable 1 = .error .invalidArgument ∧
    (sampleEngine [40, 41]).removeOutputVariable 1 =
      (.error .invalidArgument, sampleEngine [40, 41]) ∧
    (sampleEngine [40, 41]).getInputVariable 1 = .ok 11 ∧
    ((sampleEngine [40, 41]).removeRuleBlock 1).2.ruleBlocks_ = [40] := by
  have h := C22_indexed_access (sampleEngine [40, 41]) 1 (by decide) (by decide) (by decide)
    (by decide) (by decide)
  have ho := h.2.1.1 (Or.inr (by decide))
  exact ⟨by decide, by decide, by decide, by decide, by decide, ho.1, ho.2.2, rfl, by decide⟩

/-- C23 on the sample engine: `addInputVariable` and `insertInputVariable`
refuse the null pointer and leave the engine as it was, but
`setInputVariable(null, 0)` and `setOutputVariable(null, 0)` succeed and store
the null pointer, and `setRuleBlock(null, 0)` succeeds as well (and erases the
block at 0). -/
theorem C23_set_stores_null :
    (sampleEngine [40]).addInputVariable 0 = ⟨some .invalidArgument, sampleEngine [40]⟩ ∧
    (sampleEngine [40]).insertInputVariable 0 0 =
      ⟨some .invalidArgument, sampleEngine [40]⟩ ∧
    (sampleEngine [40]).addOutputVariable 0 = ⟨some .invalidArgument, sampleEngine [40]⟩ ∧
    (sampleEngine [40]).insertOutputVariable 0 0 =
      ⟨some .invalidArgument, sampleEngine [40]⟩ ∧
    (sampleEngine [40]).addRuleBlock 0 = ⟨some .invalidArgument, sampleEngine [40]⟩ ∧
    (sampleEngine [40]).insertRuleBlock 0 0 = ⟨some .invalidArgument, sampleEngine [40]⟩ ∧
    ((sampleEngine [40]).setInputVariable 0 0).1 = .ok 10 ∧
    ((sampleEngine [40]).setInputVariable 0 0).2.inputs_ = [0, 11] ∧
    ((sampleEngine [40]).setOutputVariable 0 0).1 = .ok 30 ∧
    ((sampleEngine [40]).setOutputVariable 0 0).2.outputs_ = [0] ∧
    ((sampleEngine [40]).setRuleBlock 0 0).1 = .ok 40 ∧
    ((sampleEngine [40]).setRuleBlock 0 0).2.ruleBlocks_ = [] :=
  ⟨rfl, rfl, rfl, rfl, rfl, rfl, rfl, by decide, rfl, by decide, rfl, by decide⟩

/-! ## Input values -/

theorem evalInputLayer_built {α : Type} [Scalar α] (env env2 : Env α) (e : Engine)
    (hempty : e.bucketsEmpty = true) (val0 : Ptr → α) :
    ((builtEngine env e).evalInputLayer env2 val0).result =
      .ok (e.inputs_.map (fun p => (env2.inputVariable p).inputValue)) := by
  have h := eval_layer0 env2 e hempty val0
  have hn : (builtEngine env e).inputNodes_ = (builtEngine env2 e).inputNodes_ := rfl
  have h2 : (builtEngine env e).evalInputLayer env2 val0 =
      (builtEngine env2 e).evalInputLayer env2 val0 := by
    simp only [Engine.evalInputLayer, hn]
  rw [h2, h]

/-- C24: `setInputValue(name, v)` throws the not-found error, and changes
nothing, when no input variable of the engine has the name; otherwise it
stores `v` as the input value of the first input variable with the name and
changes nothing else: no other field of the variable, no other variable, no
other object.  On an engine built from empty buckets, `evalInputLayer()` then
returns the current input values of the input variables, in their order. -/
theorem C24_setInputValue {α : Type} [Scalar α] (env : Env α) (e : Engine) (name : String)
    (v : α) (_hi : (0 : Ptr) ∉ e.inputs_) :
    ((∀ q ∈ e.inputs_, (env.inputVariable q).name ≠ name) →
      e.setInputValue env name v = ⟨some .notFound, env⟩) ∧
    (∀ (p : Ptr) (i : Nat), e.inputs_[i]? = some p → (env.inputVariable p).name = name →
      (∀ j : Nat, j < i → ∀ q : Ptr, e.inputs_[j]? = some q →
        (env.inputVariable q).name ≠ name) →
      (e.setInputValue env name v).thrown = none ∧
      (e.setInputValue env name v).state.inputVariable p =
        { env.inputVariable p with inputValue := v } ∧
      (∀ q : Ptr, q ≠ p →
        (e.setInputValue env name v).state.inputVariable q = env.inputVariable q) ∧
      (e.setInputValue env name v).state.outputVariable = env.outputVariable ∧
      (e.setInputValue env name v).state.ruleBlock = env.ruleBlock ∧
      (e.setInputValue env name v).state.rule = env.rule ∧
      (e.setInputValue env name v).state.membership = env.membership ∧
      (e.setInputValue env name v).state.compute = env.compute ∧
      (e.setInputValue env name v).state.hedge = env.hedge) ∧
    (∀ (e0 : Engine) (val_ : Ptr → α), e0.bucketsEmpty = true →
      (e0.build env).thrown = none → e = (e0.build env).state →
      (e.evalInputLayer (e.setInputValue env name v).state val_).result =
        .ok (e.inputs_.map
          (fun p => ((e.setInputValue env name v).state.inputVariable p).inputValue))) := by
  refine ⟨fun hnone => ?_, fun p i hp hname hfirst => ?_, fun e0 val_ hempty hbuild he => ?_⟩
  · have h := ((lookup_contract e.inputs_ (fun q => (env.inputVariable q).name) name).2.1
      .notFound).mpr ⟨rfl, hnone⟩
    have h2 : e.getInputVariableByName env name = .error .notFound := h
    simp only [Engine.setInputValue, h2]
  · have h := ((lookup_contract e.inputs_ (fun q => (env.inputVariable q).name) name).1
      p).mpr ⟨i, hp, hname, hfirst⟩
    have h2 : e.getInputVariableByName env name = .ok p := h
    simp only [Engine.setInputValue, h2, Function.update_same, true_and, and_true]
    intro q hq
    exact Function.update_noteq hq _ _
  · obtain ⟨-, -, hstate⟩ := build_ok env e0 hbuild
    rw [he, hstate]
    exact evalInputLayer_built env _ e0 hempty val_

/-- C24 on the sample engine, built, where `setInputValue("y", 7)` changes the
input value of the variable 11 from 5 to 7: `evalInputLayer()` returns 3, 7. -/
theorem C24_setInputValue_witness :
    (0 : Ptr) ∉ ((sampleEngine [40]).build sampleEnv).state.inputs_ ∧
    (sampleEngine [40]).bucketsEmpty = true ∧
    ((sampleEngine [40]).build sampleEnv).thrown = none ∧
    (((sampleEngine [40]).build sampleEnv).state.evalInputLayer
      (((sampleEngine [40]).build sampleEnv).state.setInputValue sampleEnv "y"
        (Num.int 7)).state (fun _ => Num.nan)).result = .ok [Num.int 3, Num.int 7] := by
  have h := (C24_setInputValue sampleEnv ((sampleEngine [40]).build sampleEnv).state "y"
    (Num.int 7) (by decide)).2.2 (sampleEngine [40]) (fun _ => Num.nan) (by decide)
    (by decide) rfl
  refine ⟨by decide, by decide, by decide, ?_⟩
  rw [h]
  rfl

/-! ## The adjacency mappings -/

theorem find_pushBack (m : ConnMap) (key value k : Ptr) :
    (m.pushBack key value).find k = m.find k ++ (if k = key then [value] else []) := by
  unfold ConnMap.pushBack
  rw [find_append]
  congr 1
  by_cases h : k = key
  · subst h
    simp [ConnMap.find]
  · have h2 : ¬ key = k := fun h3 => h h3.symm
    simp [ConnMap.find, h, h2]

/-- A property of the two adjacency mappings that every call of `connect`
keeps is kept by every loop of `Engine::build` that connects nodes. -/
theorem connectAll_keeps (P : ConnMap → ConnMap → Prop)
    (hP : ∀ (i o : ConnMap) (a b : Ptr), P i o → P (i.pushBack b a) (o.pushBack a b))
    (p_to : Ptr) (ps : List Ptr) (e : Engine) (h : P e.inConns_ e.outConns_) :
    P (connectAll p_to ps e).inConns_ (connectAll p_to ps e).outConns_ := by
  induction ps generalizing e with
  | nil => exact h
  | cons p rest ih => exact ih _ (hP _ _ _ _ h)

theorem buildLayer0_keeps (inputs : List Ptr) (s : BuildState) :
    (buildLayer0 inputs s).engine.inConns_ = s.engine.inConns_ ∧
    (buildLayer0 inputs s).engine.outConns_ = s.engine.outConns_ := by
  induction inputs generalizing s with
  | nil => exact ⟨rfl, rfl⟩
  | cons p rest ih => exact ih _

theorem andThen_keeps (P : ConnMap → ConnMap → Prop) (o : Outcome BuildState)
    (f : BuildState → Outcome BuildState)
    (ho : P o.state.engine.inConns_ o.state.engine.outConns_)
    (hf : ∀ s, P s.engine.inConns_ s.engine.outConns_ →
      P (f s).state.engine.inConns_ (f s).state.engine.outConns_) :
    P (o.andThen f).state.engine.inConns_ (o.andThen f).state.engine.outConns_ := by
  unfold Outcome.andThen
  cases h : o.thrown with
  | some err => exact ho
  | none => exact hf _ ho

theorem buildLayer1Terms_keeps (P : ConnMap → ConnMap → Prop)
    (hP : ∀ (i o : ConnMap) (a b : Ptr), P i o → P (i.pushBack b a) (o.pushBack a b))
    (p_input : Ptr) (terms : List Ptr) (s : BuildState)
    (h : P s.engine.inConns_ s.engine.outConns_) :
    P (buildLayer1Terms p_input terms s).state.engine.inConns_
      (buildLayer1Terms p_input terms s).state.engine.outConns_ := by
  induction terms generalizing s with
  | nil => exact h
  | cons t rest ih =>
    simp only [buildLayer1Terms]
    split
    · exact h
    · exact ih _ (hP _ _ _ _ h)

theorem buildLayer1_keeps {α : Type} (env : Env α) (P : ConnMap → ConnMap → Prop)
    (hP : ∀ (i o : ConnMap) (a b : Ptr), P i o → P (i.pushBack b a) (o.pushBack a b))
    (inputs : List Ptr) (s : BuildState) (h : P s.engine.inConns_ s.engine.outConns_) :
    P (buildLayer1 env inputs s).state.engine.inConns_
      (buildLayer1 env inputs s).state.engine.outConns_ := by
  induction inputs generalizing s with
  | nil => exact h
  | cons p rest ih =>
    simp only [buildLayer1]
    exact andThen_keeps P _ _ (buildLayer1Terms_keeps P hP _ _ s h) ih

theorem buildLayer2Terms_keeps (P : ConnMap → ConnMap → Prop)
    (hP : ∀ (i o : ConnMap) (a b : Ptr), P i o → P (i.pushBack b a) (o.pushBack a b))
    (terms : List Ptr) (s : BuildState) (h : P s.engine.inConns_ s.engine.outConns_) :
    P (buildLayer2Terms terms s).state.engine.inConns_
      (buildLayer2Terms terms s).state.engine.outConns_ := by
  induction terms generalizing s with
  | nil => exact h
  | cons t rest ih =>
    simp only [buildLayer2Terms]
    split
    · exact h
    · exact ih _ (hP _ _ _ _ h)

theorem buildLayer2_keeps {α : Type} (env : Env α) (P : ConnMap → ConnMap → Prop)
    (hP : ∀ (i o : ConnMap) (a b : Ptr), P i o → P (i.pushBack b a) (o.pushBack a b))
    (inputs : List Ptr) (s : BuildState) (h : P s.engine.inConns_ s.engine.outConns_) :
    P (buildLayer2 env inputs s).state.engine.inConns_
      (buildLayer2 env inputs s).state.engine.outConns_ := by
  induction inputs generalizing s with
  | nil => exact h
  | cons p rest ih =>
    simp only [buildLayer2]
    exact andThen_keeps P _ _ (buildLayer2Terms_keeps P hP _ s h) ih

theorem connectAntecedent_keeps (P : ConnMap → ConnMap → Prop)
    (hP : ∀ (i o : ConnMap) (a b : Ptr), P i o → P (i.pushBack b a) (o.pushBack a b))
    (p_node : Ptr) (prs : List (Ptr × Bool)) (s : BuildState)
    (h : P s.engine.inConns_ s.engine.outConns_) :
    P (connectAntecedent p_node prs s).state.engine.inConns_
      (connectAntecedent p_node prs s).state.engine.outConns_ := by
  induction prs generalizing s with
  | nil => exact h
  | cons pr rest ih =>
    obtain ⟨t, isNot⟩ := pr
    simp only [connectAntecedent]
    split
    · exact h
    · exact ih _ (hP _ _ _ _ h)

theorem buildLayer3Rule_keeps {α : Type} (env : Env α) (P : ConnMap → ConnMap → Prop)
    (hP : ∀ (i o : ConnMap) (a b : Ptr), P i o → P (i.pushBack b a) (o.pushBack a b))
    (block : RuleBlock) (p_rule : Ptr) (s : BuildState)
    (h : P s.engine.inConns_ s.engine.outConns_) :
    P (buildLayer3Rule env block p_rule s).state.engine.inConns_
      (buildLayer3Rule env block p_rule s).state.engine.outConns_ := by
  unfold buildLayer3Rule
  split
  · exact h
  · exact connectAntecedent_keeps P hP _ _ _ h

theorem buildLayer3Rules_keeps {α : Type} (env : Env α) (P : ConnMap → ConnMap → Prop)
    (hP : ∀ (i o : ConnMap) (a b : Ptr), P i o → P (i.pushBack b a) (o.pushBack a b))
    (block : RuleBlock) (rules : List Ptr) (s : BuildState)
    (h : P s.engine.inConns_ s.engine.outConns_) :
    P (buildLayer3Rules env block rules s).state.engine.inConns_
      (buildLayer3Rules env block rules s).state.engine.outConns_ := by
  induction rules generalizing s with
  | nil => exact h
  | cons r rest ih =>
    simp only [buildLayer3Rules]
    exact andThen_keeps P _ _ (buildLayer3Rule_keeps env P hP block r s h) ih

theorem buildLayer3_keeps {α : Type} (env : Env α) (P : ConnMap → ConnMap → Prop)
    (hP : ∀ (i o : ConnMap) (a b : Ptr), P i o → P (i.pushBack b a) (o.pushBack a b))
    (blocks : List Ptr) (s : BuildState) (h : P s.engine.inConns_ s.engine.outConns_) :
    P (buildLayer3 env blocks s).state.engine.inConns_
      (buildLayer3 env blocks s).state.engine.outConns_ := by
  induction blocks generalizing s with
  | nil => exact h
  | cons b rest ih =>
    simp only [buildLayer3]
    split_ifs
    · exact ih s h
    · exact andThen_keeps P _ _ (buildLayer3Rules_keeps env P hP _ _ s h) ih

theorem buildLayer4Rules_keeps {α : Type} (env : Env α) (P : ConnMap → ConnMap → Prop)
    (hP : ∀ (i o : ConnMap) (a b : Ptr), P i o → P (i.pushBack b a) (o.pushBack a b))
    (block : RuleBlock) (rules : List Ptr) (s : BuildState)
    (h : P s.engine.inConns_ s.engine.outConns_) :
    P (buildLayer4Rules env block rules s).state.engine.inConns_
      (buildLayer4Rules env block rules s).state.engine.outConns_ := by
  induction rules generalizing s with
  | nil => exact h
  | cons r rest ih =>
    simp only [buildLayer4Rules]
    split
    · exact h
    · exact ih _ (hP _ _ _ _ h)

theorem buildLayer4_keeps {α : Type} (env : Env α) (P : ConnMap → ConnMap → Prop)
    (hP : ∀ (i o : ConnMap) (a b : Ptr), P i o → P (i.pushBack b a) (o.pushBack a b))
    (blocks : List Ptr) (s : BuildState) (h : P s.engine.inConns_ s.engine.outConns_) :
    P (buildLayer4 env blocks s).state.engine.inConns_
      (buildLayer4 env blocks s).state.engine.outConns_ := by
  induction blocks generalizing s with
  | nil => exact h
  | cons b rest ih =>
    simp only [buildLayer4]
    split_ifs
    · exact ih s h
    · exact andThen_keeps P _ _ (buildLayer4Rules_keeps env P hP _ _ s h) ih

theorem buildLayer5_keeps (P : ConnMap → ConnMap → Prop)
    (hP : ∀ (i o : ConnMap) (a b : Ptr), P i o → P (i.pushBack b a) (o.pushBack a b))
    (e : Engine) (h : P e.inConns_ e.outConns_) :
    P (buildLayer5 e).inConns_ (buildLayer5 e).outConns_ := by
  unfold buildLayer5
  exact connectAll_keeps P hP _ _ _ (connectAll_keeps P hP _ _ _ h)

theorem buildLayer6_keeps (P : ConnMap → ConnMap → Prop)
    (hP : ∀ (i o : ConnMap) (a b : Ptr), P i o → P (i.pushBack b a) (o.pushBack a b))
    (e : Engine) (h : P e.inConns_ e.outConns_) :
    P (buildLayer6 e).inConns_ (buildLayer6 e).outConns_ := by
  unfold buildLayer6
  exact connectAll_keeps P hP _ _ _ h

/-- Whether it returns or throws, `Engine::build` keeps every property of the
two adjacency mappings that every call of `connect` keeps. -/
theorem build_keeps {α : Type} (env : Env α) (P : ConnMap → ConnMap → Prop)
    (hP : ∀ (i o : ConnMap) (a b : Ptr), P i o → P (i.pushBack b a) (o.pushBack a b))
    (e : Engine) (h : P e.inConns_ e.outConns_) :
    P (e.build env).state.inConns_ (e.build env).state.outConns_ := by
  unfold Engine.build
  split
  · exact h
  · show P (buildLayers env e).state.engine.inConns_ (buildLayers env e).state.engine.outConns_
    unfold buildLayers
    refine andThen_keeps P _ _ (andThen_keeps P _ _ (andThen_keeps P _ _ (andThen_keeps P _ _
      (buildLayer1_keeps env P hP _ _ ?_) (buildLayer2_keeps env P hP _)) (buildLayer3_keeps env
        P hP _)) (buildLayer4_keeps env P hP _)) (fun s hs => ?_)
    · obtain ⟨h1, h2⟩ := buildLayer0_keeps e.inputs_ ⟨e, [], [], [], []⟩
      rw [h1, h2]
      exact h
    · exact buildLayer6_keeps P hP _ (buildLayer5_keeps P hP _ hs)

theorem balanced_pushBack (i o : ConnMap) (a b : Ptr)
    (h : ∀ x y : Ptr, (i.find y).count x = (o.find x).count y) :
    ∀ x y : Ptr, ((i.pushBack b a).find y).count x = ((o.pushBack a b).find x).count y := by
  intro x y
  rw [find_pushBack, find_pushBack, List.count_append, List.count_append, h x y]
  congr 1
  by_cases hy : y = b <;> by_cases hx : x = a <;> simp [hx, hy, List.count_cons]

/-- C27: `connect(a, b)` appends `a` to the predecessors of `b` and `b` to the
successors of `a`, and changes no other list of the two mappings and nothing
else in the engine.  Hence the two mappings stay balanced (`a` occurs among
the predecessors of `b` as often as `b` among the successors of `a`): they are
balanced in a new engine and after `clear()`, and remain so after any sequence
of calls of `connect` and after `build()`, whether it returns or throws. -/
theorem C27_connect_balanced :
    (∀ (e : Engine) (a b : Ptr),
      (e.connect a b).inConns_.find b = e.inConns_.find b ++ [a] ∧
      (e.connect a b).outConns_.find a = e.outConns_.find a ++ [b] ∧
      (∀ k : Ptr, k ≠ b → (e.connect a b).inConns_.find k = e.inConns_.find k) ∧
      (∀ k : Ptr, k ≠ a → (e.connect a b).outConns_.find k = e.outConns_.find k) ∧
      { e.connect a b with inConns_ := e.inConns_, outConns_ := e.outConns_ } = e) ∧
    (∀ (name : String) (heapNext : Ptr), (Engine.create name heapNext).balanced) ∧
    (∀ e : Engine, e.clear.balanced) ∧
    (∀ (e : Engine) (pairs : List (Ptr × Ptr)), e.balanced → (connectEach pairs e).balanced) ∧
    (∀ (α : Type) (env : Env α) (e : Engine), e.balanced → (e.build env).state.balanced) := by
  refine ⟨fun e a b => ⟨?_, ?_, fun k hk => ?_, fun k hk => ?_, rfl⟩, fun _ _ _ _ => rfl,
    fun _ _ _ => rfl, fun e pairs h => ?_, fun α env e h => ?_⟩
  · simp only [Engine.connect, find_pushBack, if_true]
  · simp only [Engine.connect, find_pushBack, if_true]
  · simp only [Engine.connect, find_pushBack, if_neg hk, List.append_nil]
  · simp only [Engine.connect, find_pushBack, if_neg hk, List.append_nil]
  · unfold connectEach
    induction pairs generalizing e with
    | nil => exact h
    | cons p rest ih => exact ih _ (balanced_pushBack _ _ _ _ h)
  · exact build_keeps env (fun i o => ∀ x y : Ptr, (i.find y).count x = (o.find x).count y)
      balanced_pushBack e h

/-! ## The two sums and the normalization node -/

theorem mkNodes_map_payload {β ν γ : Type} (mk : Ptr → β → ν) (g : ν → γ) (f : β → γ)
    (hg : ∀ a x, g (mk a x) = f x) (n : Ptr) (xs : List β) :
    (mkNodes mk n xs).map g = xs.map f := by
  induction xs generalizing n with
  | nil => rfl
  | cons x rest ih => simp only [mkNodes, List.map_cons, hg, ih]

theorem mkNodes_map_addr {β ν : Type} (mk : Ptr → β → ν) (addr : ν → Ptr)
    (haddr : ∀ a x, addr (mk a x) = a) (n : Ptr) (xs : List β) :
    (mkNodes mk n xs).map addr = List.range' n xs.length := by
  induction xs generalizing n with
  | nil => rfl
  | cons x rest ih => simp only [mkNodes, List.map_cons, haddr, ih, List.length_cons,
      List.range'_succ]

/-- C28: in an engine built successfully from empty buckets there are two sum
nodes and one normalization node; the predecessors of the first sum node are
the implication nodes and those of the second the firing strength nodes, each
in the order of its bucket, which is the order of creation (the enabled blocks
in block order, their rules in rule order); the predecessors of the
normalization node are the first and the second sum node. -/
theorem C28_sum_and_normalization_predecessors {α : Type} (env : Env α) (e : Engine)
    (hempty : e.bucketsEmpty = true) (hs : e.heapSane = true)
    (hbuild : (e.build env).thrown = none) :
    ∃ (s1 s2 : SumNode) (n : NormalizationNode),
      (e.build env).state.sumNodes_ = [s1, s2] ∧
      (e.build env).state.inferenceNodes_ = [n] ∧
      (e.build env).state.inConns_.find s1.addr =
        (e.build env).state.consequentNodes_.map (fun c => c.addr) ∧
      (e.build env).state.inConns_.find s2.addr =
        (e.build env).state.antecedentNodes_.map (fun a => a.addr) ∧
      (e.build env).state.inConns_.find n.addr = [s1.addr, s2.addr] ∧
      (e.build env).state.inputConnections n.addr = .ok [s1.addr, s2.addr] ∧
      (e.build env).state.consequentNodes_.map (fun c => (c.p_term_, c.p_tnorm_)) =
        (enabledRules env e.ruleBlocks_).map
          (fun br => ((env.rule br.2).consequentTerm, br.1.activation)) ∧
      (e.build env).state.antecedentNodes_.map (fun a => a.p_norm_) =
        (enabledRules env e.ruleBlocks_).map (firingNorm env) ∧
      ((e.build env).state.consequentNodes_.map (fun c => c.addr)).Pairwise (· < ·) ∧
      ((e.build env).state.antecedentNodes_.map (fun a => a.addr)).Pairwise (· < ·) := by
  obtain ⟨-, -, hstate⟩ := build_ok env e hbuild
  obtain ⟨-, -, -, ha, hc, hsum, hinf⟩ := (bucketsEmpty_iff e).mp hempty
  have h0 := built_find_tail env e hs 0
  have h1 := built_find_tail env e hs 1
  have h2 := built_find_tail env e hs 2
  rw [hstate]
  refine ⟨⟨e.heapNext + e.inputs_.length + (allTerms env e.inputs_).length +
          (allTerms env e.inputs_).length + (enabledRules env e.ruleBlocks_).length +
          (enabledRules env e.ruleBlocks_).length⟩,
    ⟨e.heapNext + e.inputs_.length + (allTerms env e.inputs_).length +
          (allTerms env e.inputs_).length + (enabledRules env e.ruleBlocks_).length +
          (enabledRules env e.ruleBlocks_).length + 1⟩,
    ⟨e.heapNext + e.inputs_.length + (allTerms env e.inputs_).length +
          (allTerms env e.inputs_).length + (enabledRules env e.ruleBlocks_).length +
          (enabledRules env e.ruleBlocks_).length + 2⟩, ?_, ?_, ?_, ?_, ?_, ?_, ?_, ?_, ?_, ?_⟩
  · simp only [builtEngine, hsum, List.nil_append]
  · simp only [builtEngine, hinf, List.nil_append]
  · simpa using h0
  · simpa using h1
  · rw [h2]
    simp only [builtEngine, hsum, List.nil_append]
    rfl
  · rw [Engine.inputConnections, atKey_eq_find, h2]
    simp only [builtEngine, hsum, List.nil_append]
    rfl
  · simp only [builtEngine, hc, List.nil_append]
    apply mkNodes_map_payload
    intro a x
    rfl
  · simp only [builtEngine, ha, List.nil_append]
    apply mkNodes_map_payload
    intro a x
    rfl
  · simp only [builtEngine, hc, List.nil_append]
    rw [mkNodes_map_addr _ _ (fun _ _ => rfl)]
    exact List.pairwise_lt_range' _ _
  · simp only [builtEngine, ha, List.nil_append]
    rw [mkNodes_map_addr _ _ (fun _ _ => rfl)]
    exact List.pairwise_lt_range' _ _

/-- C28 on the sample engine with the rule block 40 (two rules): the sum nodes
are 1012 and 1013, their predecessors the implication nodes 1010, 1011 and the
firing strength nodes 1008, 1009, and the normalization node 1014 has the
predecessors 1012, 1013. -/
theorem C28_sum_and_normalization_predecessors_witness :
    (sampleEngine [40]).bucketsEmpty = true ∧ (sampleEngine [40]).heapSane = true ∧
    ((sampleEngine [40]).build sampleEnv).thrown = none ∧
    ((sampleEngine [40]).build sampleEnv).state.inConns_.find 1012 = [1010, 1011] ∧
    ((sampleEngine [40]).build sampleEnv).state.inConns_.find 1013 = [1008, 1009] ∧
    ((sampleEngine [40]).build sampleEnv).state.inConns_.find 1014 = [1012, 1013] ∧
    ∃ (s1 s2 : SumNode) (n : NormalizationNode),
      ((sampleEngine [40]).build sampleEnv).state.sumNodes_ = [s1, s2] ∧
      ((sampleEngine [40]).build sampleEnv).state.inferenceNodes_ = [n] ∧
      ((sampleEngine [40]).build sampleEnv).state.inConns_.find n.addr = [s1.addr, s2.addr] := by
  obtain ⟨s1, s2, n, h1, h2, -, -, h5, -⟩ :=
    C28_sum_and_normalization_predecessors sampleEnv (sampleEngine [40]) (by decide)
      (by decide) (by decide)
  exact ⟨by decide, by decide, by decide, by decide, by decide, by decide, s1, s2, n, h1, h2, h5⟩

/-! ## Building twice -/

/-- C26 on the sample engine with the rule block 40, on which `build()` is
called twice without `clear()` in between: both calls return, and the engine
then has four sum nodes and two normalization nodes; the second normalization
node has the four sum nodes as predecessors, and `eval()` throws the logic
error of `NormalizationNode::doEval`. -/
theorem C26_second_build_doubles_the_layers :
    ((sampleEngine [40]).build sampleEnv).thrown = none ∧
    (((sampleEngine [40]).build sampleEnv).state.build sampleEnv).thrown = none ∧
    (((sampleEngine [40]).build sampleEnv).state.build sampleEnv).state.sumNodes_ =
      [⟨1012⟩, ⟨1013⟩, ⟨1027⟩, ⟨1028⟩] ∧
    (((sampleEngine [40]).build sampleEnv).state.build sampleEnv).state.inferenceNodes_ =
      [⟨1014⟩, ⟨1029⟩] ∧
    (((sampleEngine [40]).build sampleEnv).state.build sampleEnv).state.inConns_.find 1029 =
      [1012, 1013, 1027, 1028] ∧
    ∀ val_ : Ptr → Num,
      ((((sampleEngine [40]).build sampleEnv).state.build sampleEnv).state.eval sampleEnv
        val_).result = .error .arity := by
  refine ⟨by decide, by decide, by decide, by decide, by decide, fun val_ => ?_⟩
  rfl

/-! ## Building again after `clear()` -/

theorem mkNodes_shift {β ν : Type} (mk : Ptr → β → ν) (shift : ν → ν) (h : Ptr)
    (hshift : ∀ a x, shift (mk (h + a) x) = mk a x) (a : Ptr) (xs : List β) :
    (mkNodes mk (h + a) xs).map shift = mkNodes mk a xs := by
  induction xs generalizing a with
  | nil => rfl
  | cons x rest ih =>
    simp only [mkNodes, List.map_cons, hshift]
    rw [Nat.add_assoc, ih]

theorem mkNodes_addr_shift {β ν : Type} (mk : Ptr → β → ν) (addr : ν → Ptr)
    (haddr : ∀ a x, addr (mk a x) = a) (h a : Ptr) (xs : List β) :
    ((mkNodes mk (h + a) xs).map addr).map (fun p => p - h) = (mkNodes mk a xs).map addr := by
  induction xs generalizing a with
  | nil => rfl
  | cons x rest ih =>
    simp only [mkNodes, List.map_cons, haddr, Nat.add_sub_cancel_left]
    rw [Nat.add_assoc, ih]

theorem connsInto_shift (h a : Ptr) (preds : List (List Ptr)) :
    (connsInto (h + a) preds).map (fun kv => (kv.1 - h, kv.2 - h)) =
      connsInto a (preds.map (List.map (fun p => p - h))) := by
  induction preds generalizing a with
  | nil => rfl
  | cons ps rest ih =>
    simp only [List.map_cons, connsInto, List.map_append, List.map_map]
    rw [Nat.add_assoc, ih]
    congr 1
    induction ps with
    | nil => rfl
    | cons p ps ihp =>
      simp only [List.map_cons, Function.comp_apply, Nat.add_sub_cancel_left]
      rw [← ihp]

theorem connsOutOf_shift (h a : Ptr) (preds : List (List Ptr)) :
    (connsOutOf (h + a) preds).map (fun kv => (kv.1 - h, kv.2 - h)) =
      connsOutOf a (preds.map (List.map (fun p => p - h))) := by
  induction preds generalizing a with
  | nil => rfl
  | cons ps rest ih =>
    simp only [List.map_cons, connsOutOf, List.map_append, List.map_map]
    rw [Nat.add_assoc, ih]
    congr 1
    induction ps with
    | nil => rfl
    | cons p ps ihp =>
      simp only [List.map_cons, Function.comp_apply, Nat.add_sub_cancel_left]
      rw [← ihp]

theorem ite_add_sub (c : Bool) (h a b s : Ptr) :
    (if c = true then h + a else h + b) + s - h = (if c = true then a else b) + s := by
  unfold Ptr at *
  cases c <;> simp <;> omega

theorem implication_addr_shift {β : Type} (t n : β → Ptr) (h a : Ptr) (xs : List β) :
    List.map (fun x : RuleImplicationNode => x.addr - h)
      (mkNodes (fun a br => ⟨a, t br, n br⟩) (h + a) xs) =
    List.map (fun x : RuleImplicationNode => x.addr) (mkNodes (fun a br => ⟨a, t br, n br⟩) a xs) := by
  induction xs generalizing a with
  | nil => rfl
  | cons x rest ih =>
    simp only [mkNodes, List.map_cons, Nat.add_sub_cancel_left]
    rw [Nat.add_assoc, ih]

theorem firing_addr_shift {β : Type} (n : β → Ptr) (h a : Ptr) (xs : List β) :
    List.map (fun x : RuleFiringStrengthNode => x.addr - h)
      (mkNodes (fun a br => ⟨a, n br⟩) (h + a) xs) =
    List.map (fun x : RuleFiringStrengthNode => x.addr) (mkNodes (fun a br => ⟨a, n br⟩) a xs) := by
  induction xs generalizing a with
  | nil => rfl
  | cons x rest ih =>
    simp only [mkNodes, List.map_cons, Nat.add_sub_cancel_left]
    rw [Nat.add_assoc, ih]

theorem builtEngine_relative {α : Type} (env : Env α) (e : Engine)
    (hempty : e.bucketsEmpty = true) (hin : e.inConns_ = []) (hout : e.outConns_ = []) :
    (builtEngine env e).relative e.heapNext = builtEngine env { e with heapNext := 0 } := by
  obtain ⟨h1, h2, h3, h4, h5, h6, h7⟩ := (bucketsEmpty_iff e).mp hempty
  have hz : ∀ (β ν : Type) (mk : Ptr → β → ν) (xs : List β),
      mkNodes mk e.heapNext xs = mkNodes mk (e.heapNext + 0) xs := fun _ _ _ _ => rfl
  simp only [builtEngine, Engine.relative, h1, h2, h3, h4, h5, h6, h7, hin, hout,
    List.nil_append, List.map_append, Nat.zero_add, Nat.add_assoc, connsInto_shift,
    connsOutOf_shift, List.map_map, List.map_cons, List.map_nil, Function.comp_def,
    Nat.add_sub_cancel_left, ite_add_sub, implication_addr_shift, firing_addr_shift]
  congr 1
  · rw [hz]
    exact mkNodes_shift _ _ _ (fun a x => by simp only [Nat.add_sub_cancel_left]) 0 _
  · exact mkNodes_shift _ _ _ (fun a x => by simp only [Nat.add_sub_cancel_left]) _ _
  · exact mkNodes_shift _ _ _ (fun a x => by simp only [Nat.add_sub_cancel_left]) _ _
  · exact mkNodes_shift _ _ _ (fun a x => by simp only [Nat.add_sub_cancel_left]) _ _
  · exact mkNodes_shift _ _ _ (fun a x => by simp only [Nat.add_sub_cancel_left]) _ _

/-- Two states of `Engine::build` whose maps of term nodes and of complement
nodes have the same keys. -/
theorem connectAntecedent_congr (p p2 : Ptr) (prs : List (Ptr × Bool)) (s s2 : BuildState)
    (ht : ∀ t, (s.termNodeMap.atKey t).isSome = (s2.termNodeMap.atKey t).isSome)
    (hn : ∀ t, (s.notTermNodeMap.atKey t).isSome = (s2.notTermNodeMap.atKey t).isSome) :
    (connectAntecedent p prs s).thrown = (connectAntecedent p2 prs s2).thrown ∧
    (connectAntecedent p prs s).state.termNodeMap = s.termNodeMap ∧
    (connectAntecedent p prs s).state.notTermNodeMap = s.notTermNodeMap ∧
    (connectAntecedent p2 prs s2).state.termNodeMap = s2.termNodeMap ∧
    (connectAntecedent p2 prs s2).state.notTermNodeMap = s2.notTermNodeMap := by
  induction prs generalizing s s2 with
  | nil => exact ⟨rfl, rfl, rfl, rfl, rfl⟩
  | cons pr rest ih =>
    obtain ⟨t, isNot⟩ := pr
    have hk : ((if isNot = true then s.notTermNodeMap else s.termNodeMap).atKey t).isSome =
        ((if isNot = true then s2.notTermNodeMap else s2.termNodeMap).atKey t).isSome := by
      cases isNot
      · exact ht t
      · exact hn t
    simp only [connectAntecedent]
    cases h1 : (if isNot = true then s.notTermNodeMap else s.termNodeMap).atKey t with
    | none =>
      cases h2 : (if isNot = true then s2.notTermNodeMap else s2.termNodeMap).atKey t with
      | none => exact ⟨rfl, rfl, rfl, rfl, rfl⟩
      | some q => simp [h1, h2] at hk
    | some q =>
      cases h2 : (if isNot = true then s2.notTermNodeMap else s2.termNodeMap).atKey t with
      | none => simp [h1, h2] at hk
      | some q2 => exact ih _ _ ht hn

theorem andThen_congr (o o2 : Outcome BuildState) (f f2 : BuildState → Outcome BuildState)
    (R : BuildState → BuildState → Prop)
    (ho : o.thrown = o2.thrown ∧ R o.state o2.state)
    (hf : ∀ s s2, R s s2 → (f s).thrown = (f2 s2).thrown ∧ R (f s).state (f2 s2).state) :
    (o.andThen f).thrown = (o2.andThen f2).thrown ∧
    R (o.andThen f).state (o2.andThen f2).state := by
  unfold Outcome.andThen
  cases h : o.thrown with
  | some err =>
    have h2 : o2.thrown = some err := ho.1 ▸ h
    simp only [h2]
    exact ⟨h, ho.2⟩
  | none =>
    have h2 : o2.thrown = none := ho.1 ▸ h
    simp only [h2]
    exact hf _ _ ho.2

/-- Whether layer 3 of `Engine::build` throws, and what, depends on the keys of
the maps of term nodes and of complement nodes only. -/
theorem buildLayer3_congr {α : Type} (env : Env α) (blocks : List Ptr) (s s2 : BuildState)
    (ht : ∀ t, (s.termNodeMap.atKey t).isSome = (s2.termNodeMap.atKey t).isSome)
    (hn : ∀ t, (s.notTermNodeMap.atKey t).isSome = (s2.notTermNodeMap.atKey t).isSome) :
    (buildLayer3 env blocks s).thrown = (buildLayer3 env blocks s2).thrown := by
  have hrule : ∀ (block : RuleBlock) (r : Ptr) (s s2 : BuildState),
      ((∀ t, (s.termNodeMap.atKey t).isSome = (s2.termNodeMap.atKey t).isSome) ∧
        (∀ t, (s.notTermNodeMap.atKey t).isSome = (s2.notTermNodeMap.atKey t).isSome)) →
      (buildLayer3Rule env block r s).thrown = (buildLayer3Rule env block r s2).thrown ∧
      ((∀ t, ((buildLayer3Rule env block r s).state.termNodeMap.atKey t).isSome =
          ((buildLayer3Rule env block r s2).state.termNodeMap.atKey t).isSome) ∧
        (∀ t, ((buildLayer3Rule env block r s).state.notTermNodeMap.atKey t).isSome =
          ((buildLayer3Rule env block r s2).state.notTermNodeMap.atKey t).isSome)) := by
    intro block r s s2 hR
    unfold buildLayer3Rule
    cases hflat : flattenRuleAntecedent (env.rule r).antecedent Flat.empty with
    | error err => exact ⟨rfl, hR⟩
    | ok flat =>
      simp only
      obtain ⟨h1, h2, h3, h4, h5⟩ := connectAntecedent_congr s.engine.heapNext
        s2.engine.heapNext (flat.terms.zip flat.nots)
        { s with
          engine := { s.engine with
            heapNext := s.engine.heapNext + 1
            antecedentNodes_ := s.engine.antecedentNodes_ ++
              [⟨s.engine.heapNext, if flat.opKeyword = andKeyword then block.conjunction
                else block.disjunction⟩] }
          ruleAntecedentNodeMap := s.ruleAntecedentNodeMap.set r s.engine.heapNext }
        { s2 with
          engine := { s2.engine with
            heapNext := s2.engine.heapNext + 1
            antecedentNodes_ := s2.engine.antecedentNodes_ ++
              [⟨s2.engine.heapNext, if flat.opKeyword = andKeyword then block.conjunction
                else block.disjunction⟩] }
          ruleAntecedentNodeMap := s2.ruleAntecedentNodeMap.set r s2.engine.heapNext }
        hR.1 hR.2
      refine ⟨h1, ?_, ?_⟩
      · rw [h2, h4]
        exact hR.1
      · rw [h3, h5]
        exact hR.2
  have hrules : ∀ (block : RuleBlock) (rules : List Ptr) (s s2 : BuildState),
      ((∀ t, (s.termNodeMap.atKey t).isSome = (s2.termNodeMap.atKey t).isSome) ∧
        (∀ t, (s.notTermNodeMap.atKey t).isSome = (s2.notTermNodeMap.atKey t).isSome)) →
      (buildLayer3Rules env block rules s).thrown =
        (buildLayer3Rules env block rules s2).thrown ∧
      ((∀ t, ((buildLayer3Rules env block rules s).state.termNodeMap.atKey t).isSome =
          ((buildLayer3Rules env block rules s2).state.termNodeMap.atKey t).isSome) ∧
        (∀ t, ((buildLayer3Rules env block rules s).state.notTermNodeMap.atKey t).isSome =
          ((buildLayer3Rules env block rules s2).state.notTermNodeMap.atKey t).isSome)) := by
    intro block rules
    induction rules with
    | nil => exact fun s s2 hR => ⟨rfl, hR⟩
    | cons r rest ih =>
      intro s s2 hR
      simp only [buildLayer3Rules]
      exact andThen_congr _ _ _ _ _ (hrule block r s s2 hR) ih
  have hblocks : ∀ (s s2 : BuildState),
      ((∀ t, (s.termNodeMap.atKey t).isSome = (s2.termNodeMap.atKey t).isSome) ∧
        (∀ t, (s.notTermNodeMap.atKey t).isSome = (s2.notTermNodeMap.atKey t).isSome)) →
      (buildLayer3 env blocks s).thrown = (buildLayer3 env blocks s2).thrown ∧
      ((∀ t, ((buildLayer3 env blocks s).state.termNodeMap.atKey t).isSome =
          ((buildLayer3 env blocks s2).state.termNodeMap.atKey t).isSome) ∧
        (∀ t, ((buildLayer3 env blocks s).state.notTermNodeMap.atKey t).isSome =
          ((buildLayer3 env blocks s2).state.notTermNodeMap.atKey t).isSome)) := by
    induction blocks with
    | nil => exact fun s s2 hR => ⟨rfl, hR⟩
    | cons b rest ih =>
      intro s s2 hR
      simp only [buildLayer3]
      split_ifs
      · exact ih s s2 hR
      · exact andThen_congr _ _ _ _ _ (hrules _ _ s s2 hR) ih
  exact (hblocks s s2 ⟨ht, hn⟩).1

/-- Whether `Engine::build` throws, and what, depends on the variables and the
rule blocks of the engine only. -/
theorem build_thrown_congr {α : Type} (env : Env α) (e f : Engine)
    (hi : f.inputs_ = e.inputs_) (ho : f.outputs_ = e.outputs_)
    (hr : f.ruleBlocks_ = e.ruleBlocks_) :
    (f.build env).thrown = (e.build env).thrown := by
  unfold Engine.build Engine.check
  rw [ho]
  split_ifs
  · rfl
  · show (buildLayers env f).thrown = (buildLayers env e).thrown
    rw [buildLayers_thrown, buildLayers_thrown, hr]
    apply buildLayer3_congr
    · intro t
      simp only [afterLayer2, hi]
      rw [Bool.eq_iff_iff, atKey_bindAll_nil_isSome, atKey_bindAll_nil_isSome]
    · intro t
      simp only [afterLayer2, hi]
      rw [Bool.eq_iff_iff, atKey_bindAll_nil_isSome, atKey_bindAll_nil_isSome]

/-- C25: `clear()` empties the seven node buckets and the two adjacency
mappings and leaves the input variables, the output variables, the rule blocks
and the name as they are.  `build()` after `clear()` then throws exactly when
`build()` throws on a new engine `f` with the same variables and rule blocks;
when it returns, the two graphs have the same layer sizes and are the same up
to where the nodes were allocated: with addresses taken relative to the first
node, the node buckets (with the objects the nodes refer to) and the two
adjacency mappings are equal. -/
theorem C25_clear_then_build {α : Type} (env : Env α) (e f : Engine) :
    (e.clear.bucketsEmpty = true ∧ e.clear.inConns_ = [] ∧ e.clear.outConns_ = [] ∧
      e.clear.inputs_ = e.inputs_ ∧ e.clear.outputs_ = e.outputs_ ∧
      e.clear.ruleBlocks_ = e.ruleBlocks_ ∧ e.clear.name_ = e.name_) ∧
    (f.bucketsEmpty = true → f.inConns_ = [] → f.outConns_ = [] → f.inputs_ = e.inputs_ →
      f.outputs_ = e.outputs_ → f.ruleBlocks_ = e.ruleBlocks_ →
      (e.clear.build env).thrown = (f.build env).thrown ∧
      ((f.build env).thrown = none →
        (e.clear.build env).state.relative e.clear.heapNext =
          { (f.build env).state.relative f.heapNext with name_ := e.name_ } ∧
        (e.clear.build env).state.inputNodes_.length =
          (f.build env).state.inputNodes_.length ∧
        (e.clear.build env).state.inputTermNodes_.length =
          (f.build env).state.inputTermNodes_.length ∧
        (e.clear.build env).state.inputHedgeNodes_.length =
          (f.build env).state.inputHedgeNodes_.length ∧
        (e.clear.build env).state.antecedentNodes_.length =
          (f.build env).state.antecedentNodes_.length ∧
        (e.clear.build env).state.consequentNodes_.length =
          (f.build env).state.consequentNodes_.length ∧
        (e.clear.build env).state.sumNodes_.length = (f.build env).state.sumNodes_.length ∧
        (e.clear.build env).state.inferenceNodes_.length =
          (f.build env).state.inferenceNodes_.length)) := by
  refine ⟨⟨rfl, rfl, rfl, rfl, rfl, rfl, rfl⟩, fun hfe hfi hfo hi ho hr => ?_⟩
  have hthrown : (e.clear.build env).thrown = (f.build env).thrown :=
    (build_thrown_congr env e.clear f hi ho hr).symm
  refine ⟨hthrown, fun hb => ?_⟩
  obtain ⟨-, -, hs1⟩ := build_ok env e.clear (hthrown.trans hb)
  obtain ⟨-, -, hs2⟩ := build_ok env f hb
  obtain ⟨h1, h2, h3, h4, h5, h6, h7⟩ := (bucketsEmpty_iff f).mp hfe
  have hE : ({ e.clear with heapNext := 0 } : Engine) =
      { ({ f with heapNext := 0 } : Engine) with name_ := e.name_ } := by
    simp only [Engine.clear, h1, h2, h3, h4, h5, h6, h7, hfi, hfo, hi, ho, hr]
  have hrel : (e.clear.build env).state.relative e.clear.heapNext =
      { (f.build env).state.relative f.heapNext with name_ := e.name_ } := by
    rw [hs1, hs2, builtEngine_relative env e.clear rfl rfl rfl,
      builtEngine_relative env f hfe hfi hfo, hE]
    rfl
  refine ⟨hrel, ?_, ?_, ?_, ?_, ?_, ?_, ?_⟩
  · simpa [Engine.relative] using congrArg (fun x => x.inputNodes_.length) hrel
  · simpa [Engine.relative] using congrArg (fun x => x.inputTermNodes_.length) hrel
  · simpa [Engine.relative] using congrArg (fun x => x.inputHedgeNodes_.length) hrel
  · simpa [Engine.relative] using congrArg (fun x => x.antecedentNodes_.length) hrel
  · simpa [Engine.relative] using congrArg (fun x => x.consequentNodes_.length) hrel
  · simpa [Engine.relative] using congrArg (fun x => x.sumNodes_.length) hrel
  · simpa [Engine.relative] using congrArg (fun x => x.inferenceNodes_.length) hrel

/-- C25 on the sample engine: built, cleared and built again (its nodes then
sit at 1015 and above), against the same engine built once (nodes from 1000). -/
theorem C25_clear_then_build_witness :
    (sampleEngine [40]).bucketsEmpty = true ∧
    ((sampleEngine [40]).build sampleEnv).thrown = none ∧
    (((sampleEngine [40]).build sampleEnv).state.clear.build sampleEnv).thrown = none ∧
    (((sampleEngine [40]).build sampleEnv).state.clear.build sampleEnv).state.relative 1015 =
      (((sampleEngine [40]).build sampleEnv).state.relative 1000) := by
  have h := (C25_clear_then_build sampleEnv ((sampleEngine [40]).build sampleEnv).state
    (sampleEngine [40])).2 (by decide) rfl rfl rfl rfl rfl
  exact ⟨by decide, by decide, h.1.trans (by decide), (h.2 (by decide)).1⟩

/-! ## Tolerant comparisons -/

namespace Flt

variable {K : Type} [LinearOrderedField K]

theorem max_fin (a b : K) : Flt.max (.fin a) (.fin b) = .fin (Max.max a b) := by
  unfold Flt.max Flt.lt
  by_cases h : a < b
  · simp [h, max_eq_right h.le]
  · simp [h, max_eq_left (not_lt.mp h)]

theorem min_fin (a b : K) : Flt.min (.fin a) (.fin b) = .fin (Min.min a b) := by
  unfold Flt.min Flt.lt
  by_cases h : b < a
  · simp [h, min_eq_right h.le]
  · simp [h, min_eq_left (not_lt.mp h)]

theorem abs_sub_swap (x y : Flt K) : Flt.abs (Flt.sub x y) = Flt.abs (Flt.sub y x) := by
  cases x with
  | nan => cases y <;> rfl
  | fin a =>
    cases y with
    | nan => rfl
    | fin b => simp only [Flt.sub, Flt.abs, abs_sub_comm]
    | inf t => rfl
  | inf s =>
    cases y with
    | nan => rfl
    | fin b => rfl
    | inf t => cases s <;> cases t <;> rfl

theorem mul_swap (x y : Flt K) : Flt.mul x y = Flt.mul y x := by
  cases x with
  | nan => cases y <;> rfl
  | fin a =>
    cases y with
    | nan => rfl
    | fin b => simp only [Flt.mul, mul_comm]
    | inf t => simp only [Flt.mul, Bool.xor_comm]
  | inf s =>
    cases y with
    | nan => rfl
    | fin b => simp only [Flt.mul, Bool.xor_comm]
    | inf t => simp only [Flt.mul, Bool.xor_comm]

theorem max_swap (x y : Flt K) (hx : x.isnan = false) (hy : y.isnan = false) :
    Flt.max x y = Flt.max y x := by
  cases x with
  | nan => simp [Flt.isnan] at hx
  | fin a =>
    cases y with
    | nan => simp [Flt.isnan] at hy
    | fin b => rw [max_fin, max_fin, max_comm]
    | inf t => cases t <;> simp [Flt.max, Flt.lt]
  | inf s =>
    cases y with
    | nan => simp [Flt.isnan] at hy
    | fin b => cases s <;> simp [Flt.max, Flt.lt]
    | inf t => cases s <;> cases t <;> simp [Flt.max, Flt.lt]

theorem isnan_abs (x : Flt K) : (Flt.abs x).isnan = x.isnan := by
  cases x <;> rfl

end Flt

/-- C29, as stated, fails at the infinities, which are not NaN: with `x = y`
plus infinity the difference `x - y` is NaN and `ApproximatelyEqual(x, x, 1)`
is false.  It also fails for the tolerance plus infinity at `x = y = 0`, where
`max(|x|, |y|) * tol` is NaN. -/
theorem C29_counterexample_infinity_not_reflexive :
    (Flt.inf false : Flt ℚ).isnan = false ∧
    Flt.le (.fin 0) (.fin (1 : ℚ)) = true ∧
    FloatTraits.ApproximatelyEqual (.inf false : Flt ℚ) (.inf false) (.fin 1) = false ∧
    (Flt.fin 0 : Flt ℚ).isnan = false ∧
    Flt.le (.fin (0 : ℚ)) (.inf false) = true ∧
    FloatTraits.ApproximatelyEqual (.fin 0 : Flt ℚ) (.fin 0) (.inf false) = false := by
  refine ⟨rfl, by simp [Flt.le], by decide, rfl, rfl, ?_⟩
  simp [FloatTraits.ApproximatelyEqual, Flt.isnan, Flt.abs, Flt.max_fin, Flt.mul, Flt.le]

/-- C29, amended: for all non-NaN `x`, `y` and every `tol`, the difference
`y - x` and the product `tol * max(|x|, |y|)` being computed exactly,
`ApproximatelyEqual(x, y, tol)` holds if and only if
`|y - x| <= tol * max(|x|, |y|)`, and it is false whenever `x` or `y` is NaN;
hence it is symmetric in `x` and `y`; and for a finite `tol >= 0` it is
reflexive on the finite values. -/
theorem C29_ApproximatelyEqual_amended {K : Type} [LinearOrderedField K] (x y tol : Flt K) :
    (x.isnan = false → y.isnan = false →
      (FloatTraits.ApproximatelyEqual x y tol = true ↔
        Flt.le (Flt.abs (Flt.sub y x)) (Flt.mul tol (Flt.max (Flt.abs x) (Flt.abs y))) = true)) ∧
    (x.isnan = true ∨ y.isnan = true → FloatTraits.ApproximatelyEqual x y tol = false) ∧
    FloatTraits.ApproximatelyEqual x y tol = FloatTraits.ApproximatelyEqual y x tol ∧
    (∀ a t : K, 0 ≤ t →
      FloatTraits.ApproximatelyEqual (.fin a) (.fin a) (.fin t) = true) := by
  refine ⟨fun hx hy => ?_, fun h => ?_, ?_, fun a t ht => ?_⟩
  · simp only [FloatTraits.ApproximatelyEqual, hx, hy, Bool.or_self, Bool.false_eq_true,
      if_false, Flt.abs_sub_swap x y, Flt.mul_swap tol]
  · rcases h with h | h <;> simp [FloatTraits.ApproximatelyEqual, h]
  · cases hx : x.isnan
    · cases hy : y.isnan
      · simp only [FloatTraits.ApproximatelyEqual, hx, hy, Bool.or_self, Bool.false_eq_true,
          if_false, Flt.abs_sub_swap x y,
          Flt.max_swap _ _ ((Flt.isnan_abs x).trans hx) ((Flt.isnan_abs y).trans hy)]
      · simp [FloatTraits.ApproximatelyEqual, hx, hy]
    · simp [FloatTraits.ApproximatelyEqual, hx]
  · simp only [FloatTraits.ApproximatelyEqual, Flt.isnan, Bool.or_self, Bool.false_eq_true,
      if_false, Flt.sub, Flt.abs, Flt.max_fin, Flt.mul, Flt.le, sub_self, abs_zero, max_self,
      decide_eq_true_eq]
    exact mul_nonneg (abs_nonneg a) ht

theorem DefinitelyLess_fin {K : Type} [LinearOrderedField K] (x y t : K) :
    FloatTraits.DefinitelyLess (.fin x) (.fin y) (.fin t) =
      decide (Max.max |x| |y| * t < y - x) := by
  simp only [FloatTraits.DefinitelyLess, Flt.gt, Flt.abs, Flt.max_fin, Flt.mul, Flt.sub,
    Flt.lt]

theorem DefinitelyGreater_fin {K : Type} [LinearOrderedField K] (x y t : K) :
    FloatTraits.DefinitelyGreater (.fin x) (.fin y) (.fin t) =
      decide (Max.max |x| |y| * t < x - y) := by
  simp only [FloatTraits.DefinitelyGreater, Flt.gt, Flt.abs, Flt.max_fin, Flt.mul, Flt.sub,
    Flt.lt]

/-- C30 at `x = 1`, `l = 2`, `h = 3` and `tol = 1`, the default tolerance being
`100 * 2^-52` as for `double`: with respect to `tol`, `x` is neither definitely
less than `l` nor definitely greater than `h`, so that the documented result is
`x`; `DefinitelyClamp` returns `l`, because it compares with the default
tolerance.  Its result never depends on `tol`. -/
theorem C30_DefinitelyClamp_ignores_tol :
    FloatTraits.DefinitelyLess (.fin (1 : ℚ)) (.fin 2) (.fin 1) = false ∧
    FloatTraits.DefinitelyGreater (.fin (1 : ℚ)) (.fin 3) (.fin 1) = false ∧
    FloatTraits.DefinitelyClamp (.fin (100 / 2 ^ 52 : ℚ)) (.fin 1) (.fin 2) (.fin 3) (.fin 1) =
      .fin 2 ∧
    ∀ tolerance x l h tol tol2 : Flt ℚ,
      FloatTraits.DefinitelyClamp tolerance x l h tol =
        FloatTraits.DefinitelyClamp tolerance x l h tol2 := by
  have h1 : FloatTraits.DefinitelyGreater (.fin (2 : ℚ)) (.fin 1) (.fin (100 / 2 ^ 52)) =
      true := by
    rw [DefinitelyGreater_fin]
    norm_num
  have h2 : FloatTraits.DefinitelyLess (.fin (3 : ℚ)) (.fin 2) (.fin (100 / 2 ^ 52)) =
      false := by
    rw [DefinitelyLess_fin]
    norm_num
  refine ⟨?_, ?_, ?_, fun _ _ _ _ _ _ => rfl⟩
  · rw [DefinitelyLess_fin]
    norm_num
  · rw [DefinitelyGreater_fin]
    norm_num
  · simp only [FloatTraits.DefinitelyClamp, FloatTraits.DefinitelyMax, h1, if_true,
      FloatTraits.DefinitelyMin, h2]
    rfl

/-! ## Clamping -/

namespace Flt

variable {K : Type} [LinearOrderedField K]

theorem le_of_not_lt (x y : Flt K) (hx : x.isnan = false) (hy : y.isnan = false)
    (h : Flt.lt x y = false) : Flt.le y x = true := by
  rcases x with _ | a | (_ | _) <;> rcases y with _ | b | (_ | _) <;>
    simp [Flt.lt, Flt.le, Flt.isnan] at *
  exact h

theorem eq_of_le_of_not_lt (x y : Flt K) (h1 : Flt.le x y = true) (h2 : Flt.lt x y = false) :
    x = y := by
  rcases x with _ | a | (_ | _) <;> rcases y with _ | b | (_ | _) <;>
    simp [Flt.lt, Flt.le] at *
  exact le_antisymm h1 h2

theorem lt_of_le_lt (x y z : Flt K) (h1 : Flt.le x y = true) (h2 : Flt.lt y z = true) :
    Flt.lt x z = true := by
  rcases x with _ | a | (_ | _) <;> rcases y with _ | b | (_ | _) <;>
    rcases z with _ | c | (_ | _) <;>
    simp [Flt.lt, Flt.le] at *
  exact h1.trans_lt h2

theorem not_lt_of_lt (x y : Flt K) (h : Flt.lt x y = true) : Flt.lt y x = false := by
  rcases x with _ | a | (_ | _) <;> rcases y with _ | b | (_ | _) <;>
    simp [Flt.lt] at *
  exact h.le

theorem le_of_lt (x y : Flt K) (h : Flt.lt x y = true) : Flt.le x y = true := by
  rcases x with _ | a | (_ | _) <;> rcases y with _ | b | (_ | _) <;>
    simp [Flt.lt, Flt.le] at *
  exact h.le

theorem le_self (x : Flt K) (hx : x.isnan = false) : Flt.le x x = true := by
  rcases x with _ | a | (_ | _) <;> simp [Flt.le, Flt.isnan] at *

theorem lt_self (x : Flt K) : Flt.lt x x = false := by
  rcases x with _ | a | (_ | _) <;> simp [Flt.lt]

theorem isnan_of_le (x y : Flt K) (h : Flt.le x y = true) : x.isnan = false ∧ y.isnan = false := by
  rcases x with _ | a | (_ | _) <;> rcases y with _ | b | (_ | _) <;>
    simp [Flt.le, Flt.isnan] at *

end Flt

namespace Flt

variable {K : Type} [LinearOrderedField K]

theorem not_lt_of_le (x y : Flt K) (h : Flt.le x y = true) : Flt.lt y x = false := by
  rcases x with _ | a | (_ | _) <;> rcases y with _ | b | (_ | _) <;>
    simp [Flt.lt, Flt.le] at *
  exact h

end Flt

/-- With the bounds in order, `Clamp` is `l` below `l`, and `x` or `h` above. -/
theorem Clamp_eq {K : Type} [LinearOrderedField K] (x l h : Flt K)
    (hlh : Flt.le l h = true) :
    FloatTraits.Clamp x l h =
      if Flt.lt l x = true then (if Flt.lt x h = true then x else h) else l := by
  unfold FloatTraits.Clamp FloatTraits.Min FloatTraits.Max Flt.min Flt.max
  by_cases h1 : Flt.lt l x = true
  · simp only [h1, if_true]
  · simp only [h1, if_false, Bool.false_eq_true]
    by_cases h2 : Flt.lt l h = true
    · simp only [h2, if_true]
    · simp only [h2, if_false, Bool.false_eq_true]
      exact (Flt.eq_of_le_of_not_lt l h hlh (by simpa using h2)).symm

theorem Clamp_of_between {K : Type} [LinearOrderedField K] (x l h : Flt K)
    (hx : x.isnan = false) (hlh : Flt.le l h = true)
    (h1 : Flt.lt x l = false) (h2 : Flt.lt h x = false) : FloatTraits.Clamp x l h = x := by
  obtain ⟨hl, hh⟩ := Flt.isnan_of_le l h hlh
  rw [Clamp_eq x l h hlh]
  by_cases h3 : Flt.lt l x = true
  · rw [if_pos h3]
    by_cases h4 : Flt.lt x h = true
    · rw [if_pos h4]
    · rw [if_neg h4]
      exact (Flt.eq_of_le_of_not_lt x h (Flt.le_of_not_lt h x hh hx h2) (by simpa using h4)).symm
  · rw [if_neg h3]
    exact Flt.eq_of_le_of_not_lt l x (Flt.le_of_not_lt x l hx hl h1) (by simpa using h3)

theorem Clamp_bounds {K : Type} [LinearOrderedField K] (x l h : Flt K)
    (hlh : Flt.le l h = true) :
    Flt.le l (FloatTraits.Clamp x l h) = true ∧ Flt.le (FloatTraits.Clamp x l h) h = true := by
  obtain ⟨hl, hh⟩ := Flt.isnan_of_le l h hlh
  rw [Clamp_eq x l h hlh]
  by_cases h3 : Flt.lt l x = true
  · rw [if_pos h3]
    by_cases h4 : Flt.lt x h = true
    · rw [if_pos h4]
      exact ⟨Flt.le_of_lt l x h3, Flt.le_of_lt x h h4⟩
    · rw [if_neg h4]
      exact ⟨hlh, Flt.le_self h hh⟩
  · rw [if_neg h3]
    exact ⟨Flt.le_self l hl, hlh⟩

/-- C31, as stated, fails when the bounds are out of order: for `x = 0`,
`l = 5`, `h = 1`, `x` is less than `l`, and `Clamp` returns `h`.  It also fails
for a NaN `x`, which is neither less than `l = 1` nor greater than `h = 2`:
`Clamp` returns `l`. -/
theorem C31_counterexample_bounds_out_of_order :
    Flt.lt (.fin 0 : Flt ℚ) (.fin 5) = true ∧
    FloatTraits.Clamp (.fin 0 : Flt ℚ) (.fin 5) (.fin 1) = .fin 1 ∧
    Flt.lt (.nan : Flt ℚ) (.fin 1) = false ∧ Flt.gt (.nan : Flt ℚ) (.fin 2) = false ∧
    FloatTraits.Clamp (.nan : Flt ℚ) (.fin 1) (.fin 2) = .fin 1 := by
  refine ⟨?_, ?_, rfl, rfl, ?_⟩
  · simp only [Flt.lt, decide_eq_true_eq]
    norm_num
  · simp only [FloatTraits.Clamp, FloatTraits.Min, FloatTraits.Max, Flt.max_fin, Flt.min_fin]
    norm_num
  · simp [FloatTraits.Clamp, FloatTraits.Min, FloatTraits.Max, Flt.max, Flt.min, Flt.lt]

/-- C31, amended: for every `x` that is not NaN and all `l <= h`, `Clamp(x, l, h)`
returns `l` if `x` is less than `l`, `h` if `x` is greater than `h`, and `x`
otherwise; the result lies in `[l, h]`, and `Clamp` is idempotent. -/
theorem C31_Clamp_amended {K : Type} [LinearOrderedField K] (x l h : Flt K)
    (hx : x.isnan = false) (hlh : Flt.le l h = true) :
    (Flt.lt x l = true → FloatTraits.Clamp x l h = l) ∧
    (Flt.gt x h = true → FloatTraits.Clamp x l h = h) ∧
    (Flt.lt x l = false → Flt.gt x h = false → FloatTraits.Clamp x l h = x) ∧
    Flt.le l (FloatTraits.Clamp x l h) = true ∧
    Flt.le (FloatTraits.Clamp x l h) h = true ∧
    FloatTraits.Clamp (FloatTraits.Clamp x l h) l h = FloatTraits.Clamp x l h := by
  obtain ⟨hb1, hb2⟩ := Clamp_bounds x l h hlh
  refine ⟨fun h1 => ?_, fun h1 => ?_, fun h1 h2 => Clamp_of_between x l h hx hlh h1 h2,
    hb1, hb2, ?_⟩
  · rw [Clamp_eq x l h hlh, if_neg]
    rw [Flt.not_lt_of_lt x l h1]
    exact Bool.false_ne_true
  · rw [Clamp_eq x l h hlh, if_pos (Flt.lt_of_le_lt l h x hlh h1), if_neg]
    rw [Flt.not_lt_of_lt h x h1]
    exact Bool.false_ne_true
  · exact Clamp_of_between _ l h (Flt.isnan_of_le _ _ hb1).2 hlh (Flt.not_lt_of_le _ _ hb1)
      (Flt.not_lt_of_le _ _ hb2)

/-- C31, amended, at `x = 7`, `l = 1`, `h = 5`: the result is `h`. -/
theorem C31_Clamp_amended_witness :
    (Flt.fin 7 : Flt ℚ).isnan = false ∧ Flt.le (.fin 1 : Flt ℚ) (.fin 5) = true ∧
    Flt.gt (.fin 7 : Flt ℚ) (.fin 5) = true ∧
    FloatTraits.Clamp (.fin 7 : Flt ℚ) (.fin 1) (.fin 5) = .fin 5 := by
  have h5 : Flt.gt (.fin 7 : Flt ℚ) (.fin 5) = true := by
    simp only [Flt.gt, Flt.lt, decide_eq_true_eq]
    norm_num
  have hle : Flt.le (.fin 1 : Flt ℚ) (.fin 5) = true := by
    simp only [Flt.le, decide_eq_true_eq]
    norm_num
  exact ⟨rfl, hle, h5, (C31_Clamp_amended (.fin 7) (.fin 1) (.fin 5) rfl hle).2.1 h5⟩

/-! ## Trichotomy of the tolerant comparisons -/

theorem ApproximatelyEqual_fin {K : Type} [LinearOrderedField K] (x y t : K) :
    FloatTraits.ApproximatelyEqual (.fin x) (.fin y) (.fin t) =
      decide (|x - y| ≤ Max.max |x| |y| * t) := by
  simp only [FloatTraits.ApproximatelyEqual, Flt.isnan, Bool.or_self, Bool.false_eq_true,
    if_false, Flt.abs, Flt.max_fin, Flt.mul, Flt.sub, Flt.le]

/-- C37, as stated, fails at the infinities, which are not NaN: for
`x = y` plus infinity and `tol = 1` the differences `x - y` and `y - x` are NaN,
none of the three comparisons holds, and `ApproximatelyLessEqual(x, y, tol)` is
false although `DefinitelyGreater(x, y, tol)` is false as well. -/
theorem C37_counterexample_infinity_unrelated :
    (Flt.inf false : Flt ℚ).isnan = false ∧ Flt.le (.fin 0) (.fin (1 : ℚ)) = true ∧
    FloatTraits.DefinitelyLess (.inf false : Flt ℚ) (.inf false) (.fin 1) = false ∧
    FloatTraits.ApproximatelyEqual (.inf false : Flt ℚ) (.inf false) (.fin 1) = false ∧
    FloatTraits.DefinitelyGreater (.inf false : Flt ℚ) (.inf false) (.fin 1) = false ∧
    FloatTraits.ApproximatelyLessEqual (.inf false : Flt ℚ) (.inf false) (.fin 1) = false := by
  refine ⟨rfl, ?_, by decide, by decide, by decide, by decide⟩
  simp only [Flt.le, decide_eq_true_eq]
  norm_num

/-- C37, amended: for all finite `x`, `y` and every finite `tol >= 0`, exactly
one of `DefinitelyLess(x, y, tol)`, `ApproximatelyEqual(x, y, tol)`,
`DefinitelyGreater(x, y, tol)` holds, and therefore
`ApproximatelyLessEqual(x, y, tol)` is equivalent to not
`DefinitelyGreater(x, y, tol)`; for all non-NaN `x`, `y` and every `tol`,
`DefinitelyLess(x, y, tol)` is equivalent to `DefinitelyGreater(y, x, tol)`. -/
theorem C37_trichotomy_amended {K : Type} [LinearOrderedField K] (a b t : K) (ht : 0 ≤ t) :
    ((FloatTraits.DefinitelyLess (.fin a) (.fin b) (.fin t) = true ∧
        FloatTraits.ApproximatelyEqual (.fin a) (.fin b) (.fin t) = false ∧
        FloatTraits.DefinitelyGreater (.fin a) (.fin b) (.fin t) = false) ∨
      (FloatTraits.DefinitelyLess (.fin a) (.fin b) (.fin t) = false ∧
        FloatTraits.ApproximatelyEqual (.fin a) (.fin b) (.fin t) = true ∧
        FloatTraits.DefinitelyGreater (.fin a) (.fin b) (.fin t) = false) ∨
      (FloatTraits.DefinitelyLess (.fin a) (.fin b) (.fin t) = false ∧
        FloatTraits.ApproximatelyEqual (.fin a) (.fin b) (.fin t) = false ∧
        FloatTraits.DefinitelyGreater (.fin a) (.fin b) (.fin t) = true)) ∧
    FloatTraits.ApproximatelyLessEqual (.fin a) (.fin b) (.fin t) =
      !FloatTraits.DefinitelyGreater (.fin a) (.fin b) (.fin t) ∧
    ∀ x y tol : Flt K, x.isnan = false → y.isnan = false →
      FloatTraits.DefinitelyLess x y tol = FloatTraits.DefinitelyGreater y x tol := by
  have hm : 0 ≤ Max.max |a| |b| * t := mul_nonneg (le_max_of_le_left (abs_nonneg a)) ht
  have htri : (FloatTraits.DefinitelyLess (.fin a) (.fin b) (.fin t) = true ∧
        FloatTraits.ApproximatelyEqual (.fin a) (.fin b) (.fin t) = false ∧
        FloatTraits.DefinitelyGreater (.fin a) (.fin b) (.fin t) = false) ∨
      (FloatTraits.DefinitelyLess (.fin a) (.fin b) (.fin t) = false ∧
        FloatTraits.ApproximatelyEqual (.fin a) (.fin b) (.fin t) = true ∧
        FloatTraits.DefinitelyGreater (.fin a) (.fin b) (.fin t) = false) ∨
      (FloatTraits.DefinitelyLess (.fin a) (.fin b) (.fin t) = false ∧
        FloatTraits.ApproximatelyEqual (.fin a) (.fin b) (.fin t) = false ∧
        FloatTraits.DefinitelyGreater (.fin a) (.fin b) (.fin t) = true) := by
    rw [DefinitelyLess_fin, DefinitelyGreater_fin, ApproximatelyEqual_fin]
    simp only [decide_eq_true_eq, decide_eq_false_iff_not, not_lt, not_le, abs_le, abs_lt]
    generalize Max.max |a| |b| * t = m at hm
    by_cases h1 : m < b - a
    · left
      exact ⟨h1, fun h => by linarith [h.1], by linarith⟩
    · right
      by_cases h2 : m < a - b
      · right
        exact ⟨by linarith, fun h => by linarith [h.2], h2⟩
      · left
        exact ⟨by linarith, ⟨by linarith, by linarith⟩, by linarith⟩
  refine ⟨htri, ?_, fun x y tol hx hy => ?_⟩
  · unfold FloatTraits.ApproximatelyLessEqual
    rcases htri with ⟨h1, h2, h3⟩ | ⟨h1, h2, h3⟩ | ⟨h1, h2, h3⟩ <;> simp [h1, h2, h3]
  · simp only [FloatTraits.DefinitelyLess, FloatTraits.DefinitelyGreater,
      Flt.max_swap _ _ ((Flt.isnan_abs x).trans hx) ((Flt.isnan_abs y).trans hy)]

/-- C37, amended, at `x = 1`, `y = 2`, `tol = 1/10`: `x` is definitely less
than `y`. -/
theorem C37_trichotomy_amended_witness :
    (0 : ℚ) ≤ 1 / 10 ∧
    FloatTraits.DefinitelyLess (.fin (1 : ℚ)) (.fin 2) (.fin (1 / 10)) = true ∧
    FloatTraits.ApproximatelyLessEqual (.fin (1 : ℚ)) (.fin 2) (.fin (1 / 10)) =
      !FloatTraits.DefinitelyGreater (.fin (1 : ℚ)) (.fin 2) (.fin (1 / 10)) := by
  refine ⟨by norm_num, ?_, (C37_trichotomy_amended (1 : ℚ) 2 (1 / 10) (by norm_num)).2.1⟩
  rw [DefinitelyLess_fin]
  norm_num

/-! ## The tests for zero -/

/-- C38, as stated, fails at the infinities, which are not NaN: for `x` plus
infinity and `tol = 1/2` both sides of the comparison of `ApproximatelyEqual`
are plus infinity, and `ApproximatelyZero(x, tol)` holds.  And for the
tolerance plus infinity `EssentiallyZero(0, tol)` is false, the product
`min(|x|, 0) * tol` being NaN. -/
theorem C38_counterexample_infinity_is_approximately_zero :
    (Flt.inf false : Flt ℚ).isnan = false ∧
    Flt.le (.fin 0) (.fin (1 / 2 : ℚ)) = true ∧ Flt.lt (.fin (1 / 2 : ℚ)) (.fin 1) = true ∧
    FloatTraits.ApproximatelyZero (.inf false : Flt ℚ) (.fin (1 / 2)) = true ∧
    FloatTraits.EssentiallyZero (.fin 0 : Flt ℚ) (.inf false) = false := by
  refine ⟨rfl, ?_, ?_, ?_, ?_⟩
  · simp only [Flt.le, decide_eq_true_eq]
    norm_num
  · simp only [Flt.lt, decide_eq_true_eq]
    norm_num
  · simp [FloatTraits.ApproximatelyZero, FloatTraits.ApproximatelyEqual, Flt.isnan, Flt.sub,
      Flt.abs, Flt.max, Flt.lt, Flt.mul, Flt.le]
  · simp [FloatTraits.EssentiallyZero, FloatTraits.EssentiallyEqual, Flt.isnan, Flt.sub,
      Flt.abs, Flt.min, Flt.lt, Flt.mul, Flt.le]

/-- C38, amended: for every finite `x` and every tolerance `0 <= tol < 1`,
the product `|x| * tol` being computed exactly, `ApproximatelyZero(x, tol)` holds
if and only if `x` is 0; and `EssentiallyZero(x, tol)` holds if and only if `x`
is 0, for every `x` and every finite `tol`. -/
theorem C38_zero_tests_amended {K : Type} [LinearOrderedField K] (a t : K)
    (_ht0 : 0 ≤ t) (ht1 : t < 1) :
    (FloatTraits.ApproximatelyZero (.fin a) (.fin t) = true ↔ a = 0) ∧
    (∀ (x : Flt K) (tol : K), FloatTraits.EssentiallyZero x (.fin tol) = true ↔ x = .fin 0) := by
  constructor
  · rw [FloatTraits.ApproximatelyZero, ApproximatelyEqual_fin]
    simp only [decide_eq_true_eq, sub_zero, abs_zero, max_eq_left (abs_nonneg a)]
    constructor
    · intro h
      by_contra hne
      have hpos : 0 < |a| := abs_pos.mpr hne
      nlinarith
    · intro h
      subst h
      simp
  · intro x tol
    rcases x with _ | b | (_ | _)
    · simp [FloatTraits.EssentiallyZero, FloatTraits.EssentiallyEqual, Flt.isnan]
    · simp only [FloatTraits.EssentiallyZero, FloatTraits.EssentiallyEqual, Flt.isnan,
        Bool.or_self, Bool.false_eq_true, if_false, Flt.sub, Flt.abs, Flt.min_fin, Flt.mul,
        Flt.le, decide_eq_true_eq, sub_zero, abs_zero, min_eq_right (abs_nonneg b), zero_mul,
        abs_nonpos_iff, Flt.fin.injEq]
    · simp [FloatTraits.EssentiallyZero, FloatTraits.EssentiallyEqual, Flt.isnan, Flt.sub,
        Flt.abs, Flt.min, Flt.lt, Flt.mul, Flt.le]
    · simp [FloatTraits.EssentiallyZero, FloatTraits.EssentiallyEqual, Flt.isnan, Flt.sub,
        Flt.abs, Flt.min, Flt.lt, Flt.mul, Flt.le]

/-- C38, amended, at `tol = 1/2`: 3 is not approximately zero, 0 is. -/
theorem C38_zero_tests_amended_witness :
    (0 : ℚ) ≤ 1 / 2 ∧ (1 / 2 : ℚ) < 1 ∧
    FloatTraits.ApproximatelyZero (.fin (3 : ℚ)) (.fin (1 / 2)) ≠ true ∧
    FloatTraits.EssentiallyZero (.fin (0 : ℚ)) (.fin (1 / 2)) = true := by
  have h := C38_zero_tests_amended (3 : ℚ) (1 / 2) (by norm_num) (by norm_num)
  exact ⟨by norm_num, by norm_num, fun h3 => absurd (h.1.mp h3) (by norm_num),
    (h.2 (.fin 0) (1 / 2)).mpr rfl⟩

/-! ## The closed forms of the comment above `EvalBellTermDerivativeWrtParams` -/

/-- The closed forms of the comment, with the power written as the code writes it. -/
theorem documentedBell_of_ne (c w s x : ℝ) (hu : (x - c) / w ≠ 0) :
    documentedBellDerivative Real.rpow Real.log abs c w s x =
      [ 2 * s * ((((x - c) / w) * ((x - c) / w)) ^ s / |(x - c) / w|) /
          (w * (1 + (((x - c) / w) * ((x - c) / w)) ^ s) ^ 2),
        2 * s * (x - c) * ((((x - c) / w) * ((x - c) / w)) ^ s / |(x - c) / w|) /
          (w ^ 2 * (1 + (((x - c) / w) * ((x - c) / w)) ^ s) ^ 2),
        -(Real.log (((x - c) / w) * ((x - c) / w)) * (((x - c) / w) * ((x - c) / w)) ^ s /
          (1 + (((x - c) / w) * ((x - c) / w)) ^ s) ^ 2) ] := by
  have habs : |(x - c) / w| ≠ 0 := abs_ne_zero.mpr hu
  have hp : |(x - c) / w| ^ (2 * s) = (((x - c) / w) * ((x - c) / w)) ^ s := by
    rw [Real.rpow_mul (abs_nonneg _), Real.rpow_two, sq_abs, sq]
  have hlog : Real.log (((x - c) / w) * ((x - c) / w)) = 2 * Real.log |(x - c) / w| := by
    rw [Real.log_mul hu hu, Real.log_abs]
    ring
  simp only [documentedBellDerivative, Sqr, Real.rpow_eq_pow, Real.rpow_sub_one habs, hp, hlog]
  refine List.cons_eq_cons.mpr ⟨by ring, List.cons_eq_cons.mpr ⟨by ring, ?_⟩⟩
  refine List.cons_eq_cons.mpr ⟨by ring, rfl⟩

/-- Over the reals, the code and the closed forms of the comment above it agree
on the side of the center where `(x - c) / w` is positive; on the other side
the center and width entries of the code are the negatives of the closed
forms. -/
theorem EvalBell_documented_sign (c w s x : ℝ) (hw : w ≠ 0) :
    (0 < (x - c) / w →
      EvalBellTermDerivativeWrtParams Real.rpow Real.log c w s x =
        documentedBellDerivative Real.rpow Real.log abs c w s x) ∧
    ((x - c) / w < 0 →
      ((EvalBellTermDerivativeWrtParams Real.rpow Real.log c w s x).take 2).map (fun d => -d) =
        (documentedBellDerivative Real.rpow Real.log abs c w s x).take 2) := by
  have hxc : ∀ hu : (x - c) / w ≠ 0, x ≠ c := by
    intro hu hx
    apply hu
    rw [hx, sub_self, zero_div]
  have hD : ∀ P : ℝ, 0 ≤ P → (1 + P) ^ 2 ≠ 0 := fun P hP => by positivity
  have hP : 0 ≤ (((x - c) / w) * ((x - c) / w)) ^ s :=
    Real.rpow_nonneg (mul_self_nonneg _) s
  have hxw : x - c = (x - c) / w * w := by field_simp
  refine ⟨fun hu => ?_, fun hu => ?_⟩
  · rw [EvalBell_of_ne c w s x hw (hxc hu.ne'), documentedBell_of_ne c w s x hu.ne',
      abs_of_pos hu]
    have hDne := hD _ hP
    generalize (((x - c) / w) * ((x - c) / w)) ^ s = P at hDne
    generalize hU : (x - c) / w = u at hu hxw
    refine List.cons_eq_cons.mpr ⟨?_, List.cons_eq_cons.mpr ⟨?_, ?_⟩⟩
    · rw [hxw, mul_div_assoc' (2 * s) P u, div_div, mul_assoc u w]
    · rw [hxw]
      field_simp
      ring
    · refine List.cons_eq_cons.mpr ⟨by ring, rfl⟩
  · rw [EvalBell_of_ne c w s x hw (hxc hu.ne), documentedBell_of_ne c w s x hu.ne,
      abs_of_neg hu]
    have hDne := hD _ hP
    generalize (((x - c) / w) * ((x - c) / w)) ^ s = P at hDne
    generalize hU : (x - c) / w = u at hu hxw
    have hune : u ≠ 0 := hu.ne
    simp only [List.take_succ_cons, List.take_zero, List.map_cons, List.map_nil]
    refine List.cons_eq_cons.mpr ⟨?_, List.cons_eq_cons.mpr ⟨?_, rfl⟩⟩
    · rw [hxw, mul_div_assoc' (2 * s) P (-u), div_div, neg_mul, div_neg, mul_assoc u w]
    · rw [hxw]
      field_simp
      ring

theorem samplePow_one (n : ℕ) :
    samplePow (.fin 1) (.fin (n : ℚ)) = .fin 1 := by
  simp only [samplePow, Flt.overflow]
  norm_num

/-- C32: the code contradicts the comment above it.  For the Bell term with
center 0, width 1 and slope 1 at `x = -1`, where every operation is exact on
doubles, `EvalBellTermDerivativeWrtParams` returns -1/2 for the center and 1/2
for the width, and the closed forms of the comment give 1/2 and -1/2, whatever
`std::log` returns. -/
theorem C32_code_contradicts_comment :
    (∀ log : Flt ℚ → Flt ℚ,
      (EvalBellTermDerivativeWrtParams samplePow log (.fin 0) (.fin 1) (.fin 1)
        (.fin (-1))).take 2 = [.fin (-1 / 2), .fin (1 / 2)]) ∧
    (∀ log : Flt ℚ → Flt ℚ,
      (documentedBellDerivative samplePow log Flt.abs (.fin 0) (.fin 1) (.fin 1)
        (.fin (-1))).take 2 = [.fin (1 / 2), .fin (-1 / 2)]) ∧
    (Flt.fin (-1 / 2) : Flt ℚ) ≠ .fin (1 / 2) := by
  have hxn : (.fin (-1) : Flt ℚ) / .fin 1 = .fin (-1) := by
    simp [Flt.div_eq, Flt.div]
  have hx0 : (.fin (-1) : Flt ℚ) - .fin 0 = .fin (-1) := by
    simp [Flt.sub_eq, Flt.sub]
  have hsq : Sqr (.fin (-1) : Flt ℚ) = .fin 1 := by
    simp only [Sqr, Flt.mul_eq, Flt.mul]
    norm_num
  have hne : (.fin (-1) : Flt ℚ) ≠ 0 := by
    rw [Flt.zero_eq]
    intro h
    injection h with h
    norm_num at h
  have h20 : (.fin (-1) : Flt ℚ) ≠ .fin 0 := hne
  have hp1 : samplePow (.fin 1 : Flt ℚ) (.fin 1) = .fin 1 := by
    simpa using samplePow_one 1
  have hp2 : samplePow (.fin 1 : Flt ℚ) (.fin 2) = .fin 1 := by
    simpa using samplePow_one 2
  have hden : Sqr ((1 : Flt ℚ) + .fin 1) = .fin 4 := by
    simp only [Sqr, Flt.one_eq, Flt.add_eq, Flt.add, Flt.mul_eq, Flt.mul]
    norm_num
  have hden2 : Sqr ((.fin 1 : Flt ℚ) + 1) = .fin 4 := by
    simp only [Sqr, Flt.one_eq, Flt.add_eq, Flt.add, Flt.mul_eq, Flt.mul]
    norm_num
  have hnum : (2 : Flt ℚ) * .fin 1 * .fin 1 = .fin 2 := by
    simp only [Flt.ofNat_eq, Flt.mul_eq, Flt.mul]
    norm_num
  have hs1 : Sqr (.fin 1 : Flt ℚ) = .fin 1 := by
    simp only [Sqr, Flt.mul_eq, Flt.mul]
    norm_num
  have he1 : (.fin 2 : Flt ℚ) - 1 = .fin 1 := by
    simp only [Flt.one_eq, Flt.sub_eq, Flt.sub]
    norm_num
  have he2 : (2 : Flt ℚ) * .fin 1 = .fin 2 := by
    simp only [Flt.ofNat_eq, Flt.mul_eq, Flt.mul]
    norm_num
  have hab : Flt.abs (.fin (-1) : Flt ℚ) = .fin 1 := by
    simp [Flt.abs]
  refine ⟨fun log => ?_, fun log => ?_, ?_⟩
  · simp only [EvalBellTermDerivativeWrtParams, hx0, hxn, hsq, hp1, if_pos hne, if_pos h20, hden,
      hnum, List.take_succ_cons, List.take_zero]
    simp only [Flt.mul_eq, Flt.div_eq, Flt.mul, Flt.div]
    norm_num
  · simp only [documentedBellDerivative, hx0, hxn, hab, he2, he1, hp1, hp2, hden2, hs1, hnum,
      List.take_succ_cons, List.take_zero]
    simp only [Flt.mul_eq, Flt.div_eq, Flt.mul, Flt.div]
    norm_num
  · intro h
    injection h with h
    norm_num at h

/-! ## The successors of the firing strength nodes -/

theorem find_map_val (n k : Ptr) (ps : List Ptr) :
    ConnMap.find (ps.map (fun p => (p, n))) k = List.replicate (ps.count k) n := by
  induction ps with
  | nil => rfl
  | cons p rest ih =>
    have hc : ConnMap.find (((p, n) :: rest.map (fun p => (p, n))) : ConnMap) k =
        (if p = k then [n] else []) ++ ConnMap.find (rest.map (fun p => (p, n))) k := by
      unfold ConnMap.find
      by_cases h : p = k <;> simp [List.filter_cons, h]
    rw [List.map_cons, hc, ih, List.count_cons]
    by_cases h : p = k
    · simp [h, List.replicate_succ]
    · simp [h]

theorem find_connsOutOf_none (n k : Ptr) (preds : List (List Ptr))
    (h : ∀ ps ∈ preds, k ∉ ps) : (connsOutOf n preds).find k = [] := by
  induction preds generalizing n with
  | nil => rfl
  | cons ps rest ih =>
    simp only [connsOutOf, find_append, find_map_val,
      List.count_eq_zero_of_not_mem (h ps (List.mem_cons_self _ _)), List.replicate_zero,
      List.nil_append]
    exact ih (n + 1) (fun qs hqs => h qs (List.mem_cons_of_mem _ hqs))

theorem find_cons (kv : Ptr × Ptr) (rest : ConnMap) (a : Ptr) :
    ConnMap.find (kv :: rest) a = (if kv.1 = a then [kv.2] else []) ++ ConnMap.find rest a := by
  unfold ConnMap.find
  by_cases h : kv.1 = a <;> simp [List.filter_cons, h]

theorem find_single (y m a : Ptr) :
    ConnMap.find [(y, m)] a = if y = a then [m] else [] := by
  unfold ConnMap.find
  by_cases h : y = a <;> simp [List.filter_cons, h]

theorem find_connsOutOf_single (m a : Ptr) (ys : List Ptr) (hnd : ys.Nodup) (k : Nat)
    (hk : ys[k]? = some a) : (connsOutOf m (ys.map (fun y => [y]))).find a = [m + k] := by
  induction ys generalizing m k with
  | nil => simp at hk
  | cons y rest ih =>
    have hy : y ∉ rest := (List.nodup_cons.mp hnd).1
    have hnd2 : rest.Nodup := (List.nodup_cons.mp hnd).2
    simp only [List.map_cons, connsOutOf, find_append, List.map_nil, find_single]
    cases k with
    | zero =>
      simp only [List.getElem?_cons_zero, Option.some.injEq] at hk
      subst hk
      rw [find_connsOutOf_none (m + 1) y _ (by
        intro ps hps
        obtain ⟨z, hz, rfl⟩ := List.mem_map.mp hps
        intro hmem
        rw [List.mem_singleton] at hmem
        exact hy (hmem ▸ hz))]
      simp
    | succ j =>
      simp only [List.getElem?_cons_succ] at hk
      have hne : y ≠ a := fun h => hy (h ▸ List.getElem?_mem hk)
      rw [ih (m + 1) hnd2 j hk, if_neg hne, List.nil_append, add_one_add]

theorem slot_addrs_nodup (n : Ptr) (rs : List Ptr) (hnd : rs.Nodup) :
    rs.map (fun r => n + slot rs r) = List.range' n rs.length := by
  apply List.ext_getElem
  · simp
  · intro i h1 h2
    have hi : i < rs.length := by simpa using h1
    simp only [List.getElem_map, List.getElem_range', Nat.one_mul]
    rw [slot, lastIndexOf_nodup rs hnd i rs[i] (List.getElem?_eq_getElem hi)]
    rfl

theorem count_range' (n len a : Nat) :
    (List.range' n len).count a = if n ≤ a ∧ a < n + len then 1 else 0 := by
  by_cases h : n ≤ a ∧ a < n + len
  · rw [if_pos h]
    exact List.count_eq_one_of_mem (List.nodup_range' n len) (List.mem_range'_1.mpr h)
  · rw [if_neg h]
    exact List.count_eq_zero_of_not_mem (fun hm => h (List.mem_range'_1.mp hm))

theorem out_piece1 {α : Type} (env : Env α) (inputs : List Ptr) (n1 n0 a : Ptr)
    (h : n0 + inputs.length ≤ a) :
    (connsOutOf n1 ((allOwners env inputs).map (fun p => [n0 + slot inputs p]))).find a = [] := by
  apply find_connsOutOf_none
  intro ps hps
  obtain ⟨p, hp, rfl⟩ := List.mem_map.mp hps
  have := slot_lt inputs p (mem_of_mem_allOwners env inputs p hp)
  rw [List.mem_singleton]
  unfold Ptr at *
  omega

theorem out_piece2 (terms : List Ptr) (n2 n1 a : Ptr) (h : n1 + terms.length ≤ a) :
    (connsOutOf n2 (terms.map (fun t => [n1 + slot terms t]))).find a = [] := by
  apply find_connsOutOf_none
  intro ps hps
  obtain ⟨t, ht, rfl⟩ := List.mem_map.mp hps
  have := slot_lt terms t ht
  rw [List.mem_singleton]
  unfold Ptr at *
  omega

theorem out_piece3 {α : Type} (env : Env α) (terms : List Ptr)
    (rules : List (RuleBlock × Ptr)) (n3 n2 n1 a : Ptr)
    (hmem : ∀ br ∈ rules, ∀ pr ∈ flatPairs env br.2, pr.1 ∈ terms)
    (h1 : n1 + terms.length ≤ a) (h2 : n2 + terms.length ≤ a) :
    (connsOutOf n3 (rules.map (fun br =>
      (flatPairs env br.2).map (fun pr => (if pr.2 then n2 else n1) + slot terms pr.1)))).find a =
      [] := by
  apply find_connsOutOf_none
  intro ps hps
  obtain ⟨br, hbr, rfl⟩ := List.mem_map.mp hps
  intro hin
  obtain ⟨pr, hpr, he⟩ := List.mem_map.mp hin
  have := slot_lt terms pr.1 (hmem br hbr pr hpr)
  unfold Ptr at *
  cases hneg : pr.2 <;> simp only [hneg, if_true, if_false, Bool.false_eq_true] at he <;> omega

theorem out_piece4 (rules : List (RuleBlock × Ptr)) (hnd : (rules.map Prod.snd).Nodup)
    (n4 n3 : Ptr) (k : Nat) (hk : k < rules.length) :
    (connsOutOf n4 (rules.map (fun br => [n3 + slot (rules.map Prod.snd) br.2]))).find (n3 + k) =
      [n4 + k] := by
  have hmap : rules.map (fun br => [n3 + slot (rules.map Prod.snd) br.2]) =
      ((rules.map Prod.snd).map (fun r => n3 + slot (rules.map Prod.snd) r)).map
        (fun y => [y]) := by
    simp only [List.map_map, Function.comp_def]
  rw [hmap, slot_addrs_nodup n3 _ hnd, List.length_map]
  apply find_connsOutOf_single _ _ _ (List.nodup_range' _ _)
  rw [List.getElem?_range' _ _ hk, Nat.one_mul]

theorem out_piece5 (n5 a : Ptr) (xs ys : List Ptr) :
    (connsOutOf n5 [xs, ys]).find a =
      List.replicate (xs.count a) n5 ++ List.replicate (ys.count a) (n5 + 1) := by
  simp only [connsOutOf, find_append, find_map_val, List.append_nil]

/-- The successors of the firing strength node of the `k`-th enabled rule in an
engine built from empty buckets, when no rule occurs twice: its implication
node and the second sum. -/
theorem built_find_out_firing {α : Type} (env : Env α) (e : Engine)
    (hempty : e.bucketsEmpty = true) (hout : e.outConns_ = [])
    (hrules : rulesOk env e = true)
    (hnd : ((enabledRules env e.ruleBlocks_).map Prod.snd).Nodup)
    (k : Nat) (hk : k < (enabledRules env e.ruleBlocks_).length) :
    (builtEngine env e).outConns_.find
        (e.heapNext + e.inputs_.length + (allTerms env e.inputs_).length +
          (allTerms env e.inputs_).length + k) =
      [e.heapNext + e.inputs_.length + (allTerms env e.inputs_).length +
          (allTerms env e.inputs_).length + (enabledRules env e.ruleBlocks_).length + k,
        e.heapNext + e.inputs_.length + (allTerms env e.inputs_).length +
          (allTerms env e.inputs_).length + (enabledRules env e.ruleBlocks_).length +
          (enabledRules env e.ruleBlocks_).length + 1] := by
  obtain ⟨-, -, -, ha, hc, hsum, -⟩ := (bucketsEmpty_iff e).mp hempty
  have hmem : ∀ br ∈ enabledRules env e.ruleBlocks_, ∀ pr ∈ flatPairs env br.2,
      pr.1 ∈ allTerms env e.inputs_ := fun br hbr => (rulesOk_mem env e hrules br hbr).2
  simp only [builtEngine, hout, ha, hc, hsum, List.nil_append, find_append]
  rw [out_piece1 env e.inputs_ _ _ _ (by unfold Ptr at *; omega),
    out_piece2 _ _ _ _ (by unfold Ptr at *; omega),
    out_piece3 env _ _ _ _ _ _ hmem (by unfold Ptr at *; omega) (by unfold Ptr at *; omega),
    out_piece4 _ hnd _ _ k hk, out_piece5,
    mkNodes_map_addr _ _ (fun _ _ => rfl), mkNodes_map_addr _ _ (fun _ _ => rfl),
    count_range', count_range', if_neg (by unfold Ptr at *; omega),
    if_pos (by unfold Ptr at *; omega)]
  simp only [List.nil_append, List.replicate_zero, List.replicate_one, List.map_cons,
    List.map_nil, connsOutOf, List.append_nil, find_append, find_cons]
  rw [if_neg (by unfold Ptr at *; omega), if_neg (by unfold Ptr at *; omega)]
  rfl

/-- C33, as stated, fails when a rule object occurs twice among the enabled
rules: in the sample engine the enabled blocks 43 and 44 both hold rule 50;
the firing strength nodes are 1008 and 1009, the implication nodes 1010 and
1011.  The predecessor of the first implication node is the second firing
strength node, which has three successors, and the first firing strength node
has the second sum, 1013, as its only successor. -/
theorem C33_counterexample_shared_rule :
    (sampleEngine [43, 44]).bucketsEmpty = true ∧
    ((sampleEngine [43, 44]).build sampleEnv).thrown = none ∧
    ((sampleEngine [43, 44]).build sampleEnv).state.antecedentNodes_.map (fun a => a.addr) =
      [1008, 1009] ∧
    ((sampleEngine [43, 44]).build sampleEnv).state.consequentNodes_.map (fun c => c.addr) =
      [1010, 1011] ∧
    ((sampleEngine [43, 44]).build sampleEnv).state.sumNodes_.map (fun s => s.addr) =
      [1012, 1013] ∧
    ((sampleEngine [43, 44]).build sampleEnv).state.inConns_.find 1010 = [1009] ∧
    ((sampleEngine [43, 44]).build sampleEnv).state.outConns_.find 1008 = [1013] ∧
    ((sampleEngine [43, 44]).build sampleEnv).state.outConns_.find 1009 = [1010, 1011, 1013] := by
  decide

/-- C33, amended: let `build()` succeed on an engine with empty node buckets
and empty adjacency mappings.  Then the `k`-th implication node has exactly one
predecessor, the firing strength node created last for its rule.  When no rule
object occurs twice among the rules of the enabled blocks, this is the `k`-th
firing strength node, there are as many firing strength nodes as implication
nodes, and the `k`-th firing strength node has exactly two successors: the
`k`-th implication node and the second sum node. -/
theorem C33_implication_and_firing_amended {α : Type} (env : Env α) (e : Engine)
    (hempty : e.bucketsEmpty = true) (hin : e.inConns_ = []) (hout : e.outConns_ = [])
    (hbuild : (e.build env).thrown = none) :
    (∀ (k : Nat) (c : RuleImplicationNode),
      (e.build env).state.consequentNodes_[k]? = some c →
      ∃ (br : RuleBlock × Ptr) (a : RuleFiringStrengthNode),
        (enabledRules env e.ruleBlocks_)[k]? = some br ∧
        (e.build env).state.antecedentNodes_[
          slot ((enabledRules env e.ruleBlocks_).map Prod.snd) br.2]? = some a ∧
        (enabledRules env e.ruleBlocks_)[
          slot ((enabledRules env e.ruleBlocks_).map Prod.snd) br.2]?.map Prod.snd =
            some br.2 ∧
        (e.build env).state.inConns_.find c.addr = [a.addr] ∧
        (e.build env).state.inputConnections c.addr = .ok [a.addr]) ∧
    (((enabledRules env e.ruleBlocks_).map Prod.snd).Nodup →
      (e.build env).state.antecedentNodes_.length =
        (e.build env).state.consequentNodes_.length ∧
      ∃ s1 s2 : SumNode, (e.build env).state.sumNodes_ = [s1, s2] ∧
        ∀ (k : Nat) (c : RuleImplicationNode),
          (e.build env).state.consequentNodes_[k]? = some c →
          ∃ a : RuleFiringStrengthNode,
            (e.build env).state.antecedentNodes_[k]? = some a ∧
            (e.build env).state.inConns_.find c.addr = [a.addr] ∧
            (e.build env).state.outConns_.find a.addr = [c.addr, s2.addr] ∧
            (e.build env).state.outputConnections a.addr = .ok [c.addr, s2.addr]) := by
  obtain ⟨-, hrules, hstate⟩ := build_ok env e hbuild
  obtain ⟨-, -, -, ha, hc, hsum, -⟩ := (bucketsEmpty_iff e).mp hempty
  have hs : e.heapSane = true := by simp [Engine.heapSane, hin]
  have hcons : ∀ (k : Nat) (c : RuleImplicationNode),
      (builtEngine env e).consequentNodes_[k]? = some c →
      ∃ br : RuleBlock × Ptr, (enabledRules env e.ruleBlocks_)[k]? = some br ∧
        c.addr = e.heapNext + e.inputs_.length + (allTerms env e.inputs_).length +
          (allTerms env e.inputs_).length + (enabledRules env e.ruleBlocks_).length + k := by
    intro k c hkc
    simp only [builtEngine, hc, List.nil_append, mkNodes_getElem?, Option.map_eq_some'] at hkc
    obtain ⟨br, hbr, rfl⟩ := hkc
    exact ⟨br, hbr, rfl⟩
  have hante : ∀ (j : Nat) (br : RuleBlock × Ptr),
      (enabledRules env e.ruleBlocks_)[j]? = some br →
      (builtEngine env e).antecedentNodes_[j]? =
        some ⟨e.heapNext + e.inputs_.length + (allTerms env e.inputs_).length +
          (allTerms env e.inputs_).length + j, firingNorm env br⟩ := by
    intro j br hj
    simp only [builtEngine, ha, List.nil_append, mkNodes_getElem?, hj, Option.map_some']
  rw [hstate]
  constructor
  · intro k c hkc
    obtain ⟨br, hbr, haddr⟩ := hcons k c hkc
    have hmem : br.2 ∈ (enabledRules env e.ruleBlocks_).map Prod.snd :=
      List.mem_map.mpr ⟨br, List.getElem?_mem hbr, rfl⟩
    have hslot := slot_getElem? _ br.2 hmem
    rw [List.getElem?_map] at hslot
    obtain ⟨br2, hbr2, -⟩ := Option.map_eq_some'.mp hslot
    have hfind := built_find_implication env e hs k br hbr
    rw [← haddr] at hfind
    refine ⟨br, _, hbr, hante _ br2 hbr2, hslot, hfind, ?_⟩
    rw [Engine.inputConnections, atKey_eq_find, hfind]
    simp
  · intro hnd
    constructor
    · simp only [builtEngine, ha, hc, List.nil_append, mkNodes_length]
    · refine ⟨_, _, by simp only [builtEngine, hsum, List.nil_append]; rfl, ?_⟩
      intro k c hkc
      obtain ⟨br, hbr, haddr⟩ := hcons k c hkc
      have hk : k < (enabledRules env e.ruleBlocks_).length := (List.getElem?_eq_some.mp hbr).1
      have hslot : slot ((enabledRules env e.ruleBlocks_).map Prod.snd) br.2 = k := by
        rw [slot, lastIndexOf_nodup _ hnd k br.2 (by rw [List.getElem?_map, hbr]; rfl)]
        rfl
      have hfind := built_find_implication env e hs k br hbr
      rw [← haddr, hslot] at hfind
      have hfout := built_find_out_firing env e hempty hout hrules hnd k hk
      rw [← haddr] at hfout
      refine ⟨_, hante k br hbr, hfind, hfout, ?_⟩
      rw [Engine.outputConnections, atKey_eq_find]
      simp only [hfout]
      simp

/-- C33, amended, on the sample engine with the rule block 40 (rules 50 and
51): the firing strength nodes are 1008 and 1009, the implication nodes 1010
and 1011, the second sum is 1013. -/
theorem C33_implication_and_firing_amended_witness :
    (sampleEngine [40]).bucketsEmpty = true ∧ (sampleEngine [40]).inConns_ = [] ∧
    (sampleEngine [40]).outConns_ = [] ∧
    ((sampleEngine [40]).build sampleEnv).thrown = none ∧
    ((enabledRules sampleEnv (sampleEngine [40]).ruleBlocks_).map Prod.snd).Nodup ∧
    ((sampleEngine [40]).build sampleEnv).state.inConns_.find 1011 = [1009] ∧
    ((sampleEngine [40]).build sampleEnv).state.outConns_.find 1009 = [1011, 1013] ∧
    ((sampleEngine [40]).build sampleEnv).state.antecedentNodes_.length =
      ((sampleEngine [40]).build sampleEnv).state.consequentNodes_.length := by
  have h := (C33_implication_and_firing_amended sampleEnv (sampleEngine [40]) (by decide) rfl
    rfl (by decide)).2 (by decide)
  exact ⟨by decide, rfl, rfl, by decide, by decide, by decide, by decide, h.1⟩

/-! ## Term nodes and their complement nodes -/

theorem mem_allTerms {α : Type} (env : Env α) (inputs : List Ptr) (t : Ptr) :
    t ∈ allTerms env inputs ↔ ∃ p ∈ inputs, t ∈ (env.inputVariable p).terms := by
  simp only [allTerms, List.mem_flatMap]

/-- C34: let `build()` succeed on an engine whose term and hedge buckets have
the same length (as they have when empty) and whose `inConns_` holds no stale
entry.  Then every term of the flattened antecedent of every enabled rule is a
term of an input variable of the engine, and at one and the same index the
term bucket holds a node of this term and the hedge bucket a node of the Not
hedge whose predecessors are exactly that term node, whether the rule negates
the term or not.  And `build()` throws whenever the antecedent of an enabled
rule has a proposition on a term that no input variable of the engine has. -/
theorem C34_term_and_hedge_nodes {α : Type} (env : Env α) (e : Engine)
    (hs : e.heapSane = true) (hlen : e.inputTermNodes_.length = e.inputHedgeNodes_.length) :
    ((e.build env).thrown = none →
      ∀ br ∈ enabledRules env e.ruleBlocks_,
        ∃ g : Flat, flattenRuleAntecedent (env.rule br.2).antecedent Flat.empty = .ok g ∧
          ∀ t ∈ g.terms,
            (∃ p ∈ e.inputs_, t ∈ (env.inputVariable p).terms) ∧
            ∃ (j : Nat) (tn : TermNode) (hn : HedgeNode),
              (e.build env).state.inputTermNodes_[j]? = some tn ∧ tn.p_term_ = t ∧
              (e.build env).state.inputHedgeNodes_[j]? = some hn ∧
              hn.p_hedge_ = notKeyword ∧
              (e.build env).state.inConns_.find hn.addr = [tn.addr] ∧
              (e.build env).state.inputConnections hn.addr = .ok [tn.addr]) ∧
    (∀ br ∈ enabledRules env e.ruleBlocks_, ∀ leaf ∈ (env.rule br.2).antecedent.leaves,
      (∀ p ∈ e.inputs_, leaf.2.2 ∉ (env.inputVariable p).terms) →
      (e.build env).thrown ≠ none) := by
  constructor
  · intro hbuild br hbr
    obtain ⟨-, hrules, hstate⟩ := build_ok env e hbuild
    obtain ⟨k, hk⟩ := List.getElem?_of_mem hbr
    obtain ⟨g, node, hg, -, -, -, -, hall⟩ := built_firing_node env e hs hrules k br hk
    obtain ⟨-, hnl⟩ := flatten_lengths _ g hg
    refine ⟨g, hg, fun t ht => ?_⟩
    obtain ⟨i, hi⟩ := List.getElem?_of_mem ht
    have hil : i < g.nots.length := hnl ▸ (List.getElem?_eq_some.mp hi).1
    obtain ⟨tn, hn, a1, a2, a3, a4, a5, a6, -⟩ :=
      hall i t g.nots[i] hi (List.getElem?_eq_getElem hil)
    have hpairs : flatPairs env br.2 = g.terms.zip g.nots := by
      simp [flatPairs, flatOf_of_ok env br.2 g hg]
    have hpi : (flatPairs env br.2)[i]? = some (t, g.nots[i]) := by
      rw [hpairs, List.getElem?_zip_eq_some]
      exact ⟨hi, List.getElem?_eq_getElem hil⟩
    have htm : t ∈ allTerms env e.inputs_ :=
      (rulesOk_mem env e hrules br hbr).2 _ (List.getElem?_mem hpi)
    have hhedge : hn.p_hedge_ = notKeyword := by
      simp only [builtEngine] at a4
      rw [getElem?_skip _ _ _ _ rfl, mkNodes_getElem?, slot_getElem? _ t htm] at a4
      simp only [Option.map_some', Option.some.injEq] at a4
      rw [← a4]
    rw [hstate]
    refine ⟨(mem_allTerms env _ t).mp htm,
      e.inputTermNodes_.length + slot (allTerms env e.inputs_) t, tn, hn, a1, a2, ?_, hhedge,
      a6, ?_⟩
    · rw [hlen]
      exact a4
    · rw [Engine.inputConnections, atKey_eq_find, a6]
      simp
  · intro br hbr leaf hleaf hno hbuild
    obtain ⟨-, hrules, -⟩ := build_ok env e hbuild
    obtain ⟨⟨g, hg⟩, hmem⟩ := rulesOk_mem env e hrules br hbr
    have hg2 := hg
    rw [flattenRuleAntecedent_empty_eq] at hg2
    cases hsc : scanOperators (env.rule br.2).antecedent.operatorNames "" with
    | none => simp [hsc] at hg2
    | some kw =>
      simp only [hsc, Except.ok.injEq] at hg2
      have hin : (leaf.2.2, negated leaf.2.1) ∈ flatPairs env br.2 := by
        simp only [flatPairs, flatOf_of_ok env br.2 g hg, ← hg2, List.zip_map', List.mem_map]
        exact ⟨leaf, hleaf, rfl⟩
      obtain ⟨p, hp, hpt⟩ := (mem_allTerms env _ _).mp (hmem _ hin)
      exact hno p hp hpt

/-- C34 on the sample engine with the rule block 40: `build()` succeeds, and
the terms of rule 50 are terms of input variables; with the input variable 11
alone, rule 50 has a proposition on the term 20, which no input variable of the
engine has, and `build()` throws. -/
theorem C34_term_and_hedge_nodes_witness :
    (sampleEngine [40]).heapSane = true ∧
    (sampleEngine [40]).inputTermNodes_.length = (sampleEngine [40]).inputHedgeNodes_.length ∧
    ((sampleEngine [40]).build sampleEnv).thrown = none ∧
    (∃ g : Flat, flattenRuleAntecedent (sampleEnv.rule 50).antecedent Flat.empty = .ok g ∧
      ∀ t ∈ g.terms, ∃ p ∈ (sampleEngine [40]).inputs_, t ∈ (sampleEnv.inputVariable p).terms) ∧
    (({ sampleEngine [40] with inputs_ := [11] } : Engine).build sampleEnv).thrown ≠ none := by
  have h := (C34_term_and_hedge_nodes sampleEnv (sampleEngine [40]) (by decide) (by decide)).1
    (by decide) (sampleEnv.ruleBlock 40, 50) (by decide)
  have h2 := (C34_term_and_hedge_nodes sampleEnv { sampleEngine [40] with inputs_ := [11] }
    (by decide) (by decide)).2 (sampleEnv.ruleBlock 40, 50) (by decide) (10, [], 20) (by decide)
    (by decide)
  obtain ⟨g, hg, hall⟩ := h
  exact ⟨by decide, by decide, by decide, ⟨g, hg, fun t ht => (hall t ht).1⟩, h2⟩

/-! ## Removal by name -/

/-- What the three removals by name have in common, for a list `l` of objects
named by `nameOf`: the first element with the name is found and erased. -/
theorem remove_contract (l : List Ptr) (nameOf : Ptr → String) (name : String) :
    ((∀ q ∈ l, nameOf q ≠ name) → l.find? (fun q => decide (nameOf q = name)) = none) ∧
    (∀ (p : Ptr) (i : Nat), l[i]? = some p → nameOf p = name →
      (∀ j : Nat, j < i → ∀ q : Ptr, l[j]? = some q → nameOf q ≠ name) →
      l.find? (fun q => decide (nameOf q = name)) = some p ∧
      l.eraseP (fun q => decide (nameOf q = name)) = l.take i ++ l.drop (i + 1) ∧
      (l.take i ++ l.drop (i + 1)).length + 1 = l.length) := by
  constructor
  · intro h
    simpa [List.find?_eq_none] using h
  · intro p i hp hname hfirst
    refine ⟨(find?_first l _ p).mpr ⟨i, hp, by simpa using hname, fun j hj q hq => by
      simpa using hfirst j hj q hq⟩, ?_, ?_⟩
    · induction l generalizing i with
      | nil => simp
      | cons x rest ih =>
        cases i with
        | zero =>
          simp only [List.getElem?_cons_zero, Option.some.injEq] at hp
          subst hp
          have hx : nameOf x = name := hname
          simp [List.eraseP_cons, hx]
        | succ i =>
          have hx : nameOf x ≠ name := hfirst 0 (Nat.succ_pos i) x List.getElem?_cons_zero
          have hrest := ih i (by simpa using hp)
            (fun j hj q hq => hfirst (j + 1) (by omega) q (by simpa using hq))
          simp [List.eraseP_cons, hx, hrest]
    · have hi : i < l.length := (List.getElem?_eq_some.mp hp).1
      simp only [List.length_append, List.length_take, List.length_drop]
      omega

/-- C35: `removeInputVariable(name)`, `removeOutputVariable(name)` and
`removeRuleBlock(name)` (the lists holding no null pointer) throw the not-found
error and leave the engine as it was when no element has the name; otherwise
they return the first element that has the name, at position `i` say, and
leave the elements before `i` followed by the elements after `i`, in their
order, which is one element less; elements after `i` that have the same name
stay. -/
theorem C35_remove_by_name {α : Type} (env : Env α) (e : Engine) (name : String)
    (_hi : (0 : Ptr) ∉ e.inputs_) (_ho : (0 : Ptr) ∉ e.outputs_)
    (_hr : (0 : Ptr) ∉ e.ruleBlocks_) :
    (((∀ q ∈ e.inputs_, (env.inputVariable q).name ≠ name) →
        e.removeInputVariableByName env name = (.error .notFound, e)) ∧
      (∀ (p : Ptr) (i : Nat), e.inputs_[i]? = some p → (env.inputVariable p).name = name →
        (∀ j : Nat, j < i → ∀ q : Ptr, e.inputs_[j]? = some q →
          (env.inputVariable q).name ≠ name) →
        e.removeInputVariableByName env name =
          (.ok p, { e with inputs_ := e.inputs_.take i ++ e.inputs_.drop (i + 1) }) ∧
        (e.inputs_.take i ++ e.inputs_.drop (i + 1)).length + 1 = e.inputs_.length)) ∧
    (((∀ q ∈ e.outputs_, (env.outputVariable q).name ≠ name) →
        e.removeOutputVariableByName env name = (.error .notFound, e)) ∧
      (∀ (p : Ptr) (i : Nat), e.outputs_[i]? = some p → (env.outputVariable p).name = name →
        (∀ j : Nat, j < i → ∀ q : Ptr, e.outputs_[j]? = some q →
          (env.outputVariable q).name ≠ name) →
        e.removeOutputVariableByName env name =
          (.ok p, { e with outputs_ := e.outputs_.take i ++ e.outputs_.drop (i + 1) }) ∧
        (e.outputs_.take i ++ e.outputs_.drop (i + 1)).length + 1 = e.outputs_.length)) ∧
    (((∀ q ∈ e.ruleBlocks_, (env.ruleBlock q).name ≠ name) →
        e.removeRuleBlockByName env name = (.error .notFound, e)) ∧
      (∀ (p : Ptr) (i : Nat), e.ruleBlocks_[i]? = some p → (env.ruleBlock p).name = name →
        (∀ j : Nat, j < i → ∀ q : Ptr, e.ruleBlocks_[j]? = some q →
          (env.ruleBlock q).name ≠ name) →
        e.removeRuleBlockByName env name =
          (.ok p, { e with
            ruleBlocks_ := e.ruleBlocks_.take i ++ e.ruleBlocks_.drop (i + 1) }) ∧
        (e.ruleBlocks_.take i ++ e.ruleBlocks_.drop (i + 1)).length + 1 =
          e.ruleBlocks_.length)) := by
  refine ⟨⟨?_, ?_⟩, ⟨?_, ?_⟩, ⟨?_, ?_⟩⟩
  · intro h
    have h1 := (remove_contract e.inputs_ (fun q => (env.inputVariable q).name) name).1 h
    simp only [Engine.removeInputVariableByName, h1]
  · intro p i hp hname hfirst
    obtain ⟨h1, h2, h3⟩ := (remove_contract e.inputs_ (fun q => (env.inputVariable q).name)
      name).2 p i hp hname hfirst
    simp only [Engine.removeInputVariableByName, h1, h2, h3, and_self]
  · intro h
    have h1 := (remove_contract e.outputs_ (fun q => (env.outputVariable q).name) name).1 h
    simp only [Engine.removeOutputVariableByName, h1]
  · intro p i hp hname hfirst
    obtain ⟨h1, h2, h3⟩ := (remove_contract e.outputs_ (fun q => (env.outputVariable q).name)
      name).2 p i hp hname hfirst
    simp only [Engine.removeOutputVariableByName, h1, h2, h3, and_self]
  · intro h
    have h1 := (remove_contract e.ruleBlocks_ (fun q => (env.ruleBlock q).name) name).1 h
    simp only [Engine.removeRuleBlockByName, h1]
  · intro p i hp hname hfirst
    obtain ⟨h1, h2, h3⟩ := (remove_contract e.ruleBlocks_ (fun q => (env.ruleBlock q).name)
      name).2 p i hp hname hfirst
    simp only [Engine.removeRuleBlockByName, h1, h2, h3, and_self]

/-- C35 on an engine whose three input variables 10, 11, 11 are named "x", "y",
"y": `removeInputVariable("y")` returns the first variable named "y" and leaves
the other one in place; no rule block of the sample engine is named "y". -/
theorem C35_remove_by_name_witness :
    (0 : Ptr) ∉ ({ sampleEngine [40] with inputs_ := [10, 11, 11] } : Engine).inputs_ ∧
    (0 : Ptr) ∉ ({ sampleEngine [40] with inputs_ := [10, 11, 11] } : Engine).outputs_ ∧
    (0 : Ptr) ∉ ({ sampleEngine [40] with inputs_ := [10, 11, 11] } : Engine).ruleBlocks_ ∧
    ({ sampleEngine [40] with inputs_ := [10, 11, 11] } : Engine).removeInputVariableByName
        sampleEnv "y" = (.ok 11, { sampleEngine [40] with inputs_ := [10, 11] }) ∧
    ({ sampleEngine [40] with inputs_ := [10, 11, 11] } : Engine).removeRuleBlockByName
        sampleEnv "y" =
      (.error .notFound, { sampleEngine [40] with inputs_ := [10, 11, 11] }) := by
  have h := C35_remove_by_name sampleEnv { sampleEngine [40] with inputs_ := [10, 11, 11] } "y"
    (by decide) (by decide) (by decide)
  refine ⟨by decide, by decide, by decide, ?_, h.2.2.1 (by decide)⟩
  exact (h.1.2 11 1 rfl (by decide) (by decide)).1

/-! ## Terms of an unknown class -/

/-- C36: for a term of none of the eleven classes, `GetTermParameters` enters
no branch and returns the empty vector (the function has no `throw`, here: no
error value); for a term of one of the eleven classes it enters exactly one
branch, although the `if` for Ramp and the `if` for Sigmoid each start a new
chain, so that the vector is the one an exclusive chain would give and no
parameter is pushed twice. -/
theorem C36_GetTermParameters_branches {α : Type} (p_term : Term α) :
    (∀ className : String, p_term = .other className →
      GetTermParameters p_term = [] ∧ branchesTaken p_term = []) ∧
    ((∀ className : String, p_term ≠ .other className) → (branchesTaken p_term).length = 1) ∧
    (branchesTaken p_term = [] ↔ ∃ className : String, p_term = .other className) ∧
    GetTermParameters p_term =
      (match p_term with
        | .bell center width slope => [center, width, slope]
        | .concave inflection end_ => [inflection, end_]
        | .constant value => [value]
        | .cosine center width => [center, width]
        | .discrete xy => (xy.map (fun pair => [pair.1, pair.2])).flatten
        | .linear coefficients => coefficients
        | .ramp start end_ => [start, end_]
        | .sigmoid inflection slope => [inflection, slope]
        | .sshape start end_ => [start, end_]
        | .triangle vertexA vertexB vertexC => [vertexA, vertexB, vertexC]
        | .zshape start end_ => [start, end_]
        | .other _ => []) := by
  cases p_term <;> simp [GetTermParameters, branchesTaken, pushPairs_eq]

end Anfis
